import Mathlib

/-!
# EC algebra and MLSAG ring signatures of libbitcoin

A shallow embedding of `src/math/ec_arithmetic.cpp` (the `ec_scalar` and
`ec_point` value classes with their validity flag) and of the MLSAG signer and
verifier of `examples/paralsg.cpp`.

Byte strings are lists of naturals below 256.  The secp256k1 and hashing
primitives the C++ code calls (`ec_add`, `ec_multiply`, `ec_negate`, `ec_sum`,
`verify`, `sha256_hash`, `bitcoin_hash`) live outside the translated files; they
are the fields of `Primitives`, and every definition takes them as a parameter.
A C++ primitive of the shape `bool f(T& inout, ...)` becomes a function that
returns the success flag together with the contents of `inout` afterwards.
-/

namespace libbitcoin

/-! ## Byte strings -/

abbrev data_chunk := List Nat
abbrev hash_digest := List Nat
abbrev ec_secret := List Nat
abbrev ec_compressed := List Nat

/-- Big-endian serialisation of `v` on `w` bytes, as `write_4_bytes_big_endian`
and `write_8_bytes_big_endian` do: higher bytes of `v` are dropped, which is the
conversion to the fixed-width unsigned integer. -/
def be_bytes : Nat → Nat → List Nat
  | 0, _ => []
  | w + 1, v => (v / 256 ^ w) % 256 :: be_bytes w v

/-- Value of a byte string read as a big-endian integer. -/
def be_value (bs : List Nat) : Nat :=
  bs.foldl (fun acc b => acc * 256 + b) 0

/-- The constant `null_hash`: 32 zero bytes. -/
def null_hash : hash_digest := List.replicate 32 0

/-! ## External primitives -/

/-- The primitives of `elliptic_curve.hpp` and `hash.hpp` used by the translated
code.  `ec_multiply_point`, `ec_negate_point` and `verify_point` are the
overloads of `ec_multiply`, `ec_negate` and `verify` on compressed points;
`ec_sum` receives the previous contents of its output buffer as first
argument. -/
structure Primitives where
  ec_add : ec_secret → ec_secret → Bool × ec_secret
  ec_multiply : ec_secret → ec_secret → Bool × ec_secret
  ec_negate : ec_secret → Bool × ec_secret
  ec_sum : ec_compressed → List ec_compressed → Bool × ec_compressed
  ec_multiply_point : ec_compressed → ec_secret → Bool × ec_compressed
  ec_negate_point : ec_compressed → Bool × ec_compressed
  verify_secret : ec_secret → Bool
  verify_point : ec_compressed → Bool
  sha256_hash : data_chunk → hash_digest
  bitcoin_hash : data_chunk → hash_digest

/-! ## `ec_scalar` (ec_arithmetic.cpp, lines 26-152) -/

structure ec_scalar where
  valid_ : Bool
  scalar_ : ec_secret
deriving DecidableEq, Repr

namespace ec_scalar

/-- `ec_scalar::invalidate()`. -/
def invalidate (s : ec_scalar) : ec_scalar := ⟨false, s.scalar_⟩

/-- `ec_scalar::reset()`. -/
def reset (_s : ec_scalar) : ec_scalar := ⟨true, List.replicate 32 0⟩

/-- `ec_scalar::operator=(const ec_secret&)` and the constructor from a secret. -/
def of_secret (secret : ec_secret) : ec_scalar := ⟨true, secret⟩

/-- `ec_scalar::operator=(uint64_t)` and the constructor from a `uint64_t`:
reset, then the value on the last 8 bytes in big-endian order. -/
def of_uint64 (value : Nat) : ec_scalar :=
  let s := reset ⟨true, []⟩
  ⟨s.valid_, s.scalar_.take 24 ++ be_bytes 8 value⟩

/-- `ec_scalar::is_zero()`. -/
def is_zero (s : ec_scalar) : Bool := s.scalar_.all (fun value => value == 0)

/-- `ec_scalar::is_valid()`. -/
def is_valid (s : ec_scalar) : Bool := s.valid_

/-- `ec_scalar::operator bool()`. -/
def to_bool (s : ec_scalar) : Bool := s.is_valid && !s.is_zero

/-- `ec_scalar::secret()`. -/
def secret (s : ec_scalar) : ec_secret := s.scalar_

/-- `ec_scalar::operator-() const`. -/
def neg (C : Primitives) (self : ec_scalar) : ec_scalar :=
  if !self.valid_ then self
  else
    let rc := C.ec_negate self.scalar_
    let result : ec_scalar := ⟨self.valid_, rc.2⟩
    if !rc.1 then result.invalidate else result

/-- `operator+(ec_scalar lhs, const ec_scalar& rhs)`. -/
def add (C : Primitives) (lhs rhs : ec_scalar) : ec_scalar :=
  if !lhs.valid_ || !rhs.valid_ then lhs.invalidate
  else
    let rc := C.ec_add lhs.scalar_ rhs.scalar_
    let lhs1 : ec_scalar := ⟨lhs.valid_, rc.2⟩
    if !rc.1 then lhs1.invalidate else lhs1

/-- `operator-(ec_scalar lhs, const ec_scalar& rhs)`. -/
def sub (C : Primitives) (lhs rhs : ec_scalar) : ec_scalar :=
  if !lhs.valid_ || !rhs.valid_ then lhs.invalidate
  else
    let negative_rhs := neg C rhs
    let lhs1 := if !negative_rhs.valid_ then lhs.invalidate else lhs
    add C lhs1 negative_rhs

/-- `operator*(ec_scalar lhs, const ec_scalar& rhs)`. -/
def mul (C : Primitives) (lhs rhs : ec_scalar) : ec_scalar :=
  if !lhs.valid_ || !rhs.valid_ then lhs.invalidate
  else
    let rc := C.ec_multiply lhs.scalar_ rhs.scalar_
    let lhs1 : ec_scalar := ⟨lhs.valid_, rc.2⟩
    if !rc.1 then lhs1.invalidate else lhs1

/-- `ec_scalar::operator+=`. -/
def add_assign (C : Primitives) (self rhs : ec_scalar) : ec_scalar :=
  if !self.valid_ then self else add C self rhs

/-- `ec_scalar::operator-=`. -/
def sub_assign (C : Primitives) (self rhs : ec_scalar) : ec_scalar :=
  if !self.valid_ then self else sub C self rhs

/-- Modelled from the spec: the constant `ec_scalar::zero` is declared in the
header, which is not among the translated files; "zero is valid but falsy in
boolean context", so it is the reset scalar. -/
def zero : ec_scalar := reset ⟨true, []⟩

/-- Modelled from the spec: `operator==` on scalars is declared in the header,
which is not among the translated files; scalars are compared by the identity of
their 32 bytes, as points are compared "by byte identity of the compressed
form". -/
def eq (a b : ec_scalar) : Bool := a.scalar_ == b.scalar_

end ec_scalar

/-! ## `ec_point` (ec_arithmetic.cpp, lines 154-278) -/

structure ec_point where
  point_ : ec_compressed
deriving DecidableEq, Repr

namespace ec_point

/-- `ec_point::invalidate()`: `point_[0] = 0`. -/
def invalidate (p : ec_point) : ec_point := ⟨p.point_.set 0 0⟩

/-- The default constructor, which only invalidates; the 32 other bytes are
left as they are, here zero. -/
def default : ec_point := invalidate ⟨List.replicate 33 0⟩

/-- `ec_point::operator=(const ec_compressed&)` and the matching constructor. -/
def of_compressed (point : ec_compressed) : ec_point := ⟨point⟩

/-- `ec_point::is_valid()`: `point_[0] == 2 || point_[0] == 3`. -/
def is_valid (p : ec_point) : Bool :=
  p.point_.getD 0 0 == 2 || p.point_.getD 0 0 == 3

/-- `ec_point::operator bool()`. -/
def to_bool (p : ec_point) : Bool := p.is_valid

/-- `ec_point::point()`. -/
def point (p : ec_point) : ec_compressed := p.point_

/-- `ec_point::operator-() const`. -/
def neg (C : Primitives) (self : ec_point) : ec_point :=
  if !self.is_valid then self
  else
    let rc := C.ec_negate_point self.point_
    let result : ec_point := ⟨rc.2⟩
    if !rc.1 then result.invalidate else result

/-- `operator+(ec_point lhs, const ec_point& rhs)`. -/
def add (C : Primitives) (lhs rhs : ec_point) : ec_point :=
  if !lhs.is_valid || !rhs.is_valid then lhs.invalidate
  else
    let rc := C.ec_sum lhs.point_ [lhs.point_, rhs.point_]
    let lhs1 : ec_point := ⟨rc.2⟩
    if !rc.1 then lhs1.invalidate else lhs1

/-- `operator-(ec_point lhs, const ec_point& rhs)`. -/
def sub (C : Primitives) (lhs rhs : ec_point) : ec_point :=
  if !lhs.is_valid || !rhs.is_valid then lhs.invalidate
  else
    let negative_rhs := neg C rhs
    let lhs1 := if !negative_rhs.is_valid then lhs.invalidate else lhs
    add C lhs1 negative_rhs

/-- `operator*(ec_point lhs, const ec_scalar& rhs)`. -/
def mul (C : Primitives) (lhs : ec_point) (rhs : ec_scalar) : ec_point :=
  if !lhs.is_valid || !rhs.is_valid then lhs.invalidate
  else
    let rc := C.ec_multiply_point lhs.point_ rhs.secret
    let lhs1 : ec_point := ⟨rc.2⟩
    if !rc.1 then lhs1.invalidate else lhs1

/-- `operator*(const ec_scalar& lhs, ec_point rhs)`. -/
def smul (C : Primitives) (lhs : ec_scalar) (rhs : ec_point) : ec_point :=
  mul C rhs lhs

/-- `ec_point::operator+=`. -/
def add_assign (C : Primitives) (self rhs : ec_point) : ec_point :=
  if !self.is_valid then self else add C self rhs

/-- `ec_point::operator-=`. -/
def sub_assign (C : Primitives) (self rhs : ec_point) : ec_point :=
  if !self.is_valid then self else sub C self rhs

/-- Equality of points, "by byte identity of the compressed form". -/
def eq (a b : ec_point) : Bool := a.point_ == b.point_

/-- `ec_point::G`, the value of `initialize_G()`: the decoded hex literal. -/
def G : ec_point :=
  ⟨[0x02, 0x79, 0xbe, 0x66, 0x7e, 0xf9, 0xdc, 0xbb, 0xac, 0x55, 0xa0, 0x62,
    0x95, 0xce, 0x87, 0x0b, 0x07, 0x02, 0x9b, 0xfc, 0xdb, 0x2d, 0xce, 0x28,
    0xd9, 0x59, 0xf2, 0x81, 0x5b, 0x16, 0xf8, 0x17, 0x98]⟩

end ec_point

/-! ## Helpers of `examples/paralsg.cpp` -/

abbrev scalar_list := List ec_scalar
abbrev point_list := List ec_point
abbrev point_ring := List point_list
abbrev scalar_table := List scalar_list

/-- A counted loop `for (k = 0; k < n; ++k) state = body(k, state)` whose body
may fail (an index out of range, a call that does not return). -/
def for_loop {σ : Type} (n : Nat) (body : Nat → σ → Option σ) (init : σ) : Option σ :=
  match n with
  | 0 => some init
  | k + 1 => (for_loop k body init).bind (body k)

/-- Read of `table[i][j]`; `none` when an index is out of range. -/
def at2 {α : Type} (table : List (List α)) (i j : Nat) : Option α :=
  (table.get? i).bind (fun row => row.get? j)

/-- Write `table[i][j] = v`. -/
def set2 {α : Type} (table : List (List α)) (i j : Nat) (v : α) : List (List α) :=
  table.set i ((table.getD i []).set j v)

/-- A `rows` by `cols` table whose cell `(i, j)` holds `f i j`. -/
def tabulate {α : Type} (rows cols : Nat) (f : Nat → Nat → α) : List (List α) :=
  (List.range rows).map (fun i => (List.range cols).map (fun j => f i j))

/-- `value_to_scalar`: `null_hash` with the value on its last 8 bytes. -/
def value_to_scalar (value : Nat) : ec_scalar :=
  ec_scalar.of_secret (null_hash.take 24 ++ be_bytes 8 value)

/-- The constant `ec_point::compressed_even`. -/
def compressed_even : Nat := 0x02

/-- The `while (true)` loop of `hash_to_point_impl`, run for at most `fuel`
iterations; `none` when the fuel is used up. -/
def hash_to_point_loop (C : Primitives) : Nat → ec_scalar → Option ec_point
  | 0, _ => none
  | fuel + 1, x_value =>
    let point : ec_compressed := compressed_even :: x_value.secret
    if C.verify_point point then some (ec_point.of_compressed point)
    else hash_to_point_loop C fuel (x_value.add_assign C (value_to_scalar 1))

/-- `hash_to_point_impl`. -/
def hash_to_point_impl (C : Primitives) (fuel : Nat) (value : data_chunk) : Option ec_point :=
  let hash := C.bitcoin_hash value
  hash_to_point_loop C fuel (ec_scalar.of_secret hash)

/-- `hash_to_point(const ec_scalar&)`. -/
def hash_to_point_scalar (C : Primitives) (fuel : Nat) (scalar : ec_scalar) : Option ec_point :=
  hash_to_point_impl C fuel scalar.secret

/-- `hash_to_point(const ec_point&)`. -/
def hash_to_point (C : Primitives) (fuel : Nat) (point : ec_point) : Option ec_point :=
  hash_to_point_impl C fuel point.point

/-- `create_ring`: a table of default-constructed points. -/
def create_ring (rows columns : Nat) : point_ring :=
  List.replicate rows (List.replicate columns ec_point.default)

/-- `row_data_size = ec_compressed_size + sizeof(uint32_t) + sizeof(uint32_t)`. -/
def row_data_size : Nat := 33 + 4 + 4

/-- What a serializer made over `data.begin()` leaves in a vector of the
contents `data` after writing the bytes `w`: the first bytes of the vector are
overwritten.  Bytes written past `data.size()` land in reserved storage that
the next `extend_data` fills again, so they are not part of the contents. -/
def overwrite_front (data w : data_chunk) : data_chunk :=
  w.take data.length ++ data.drop w.length

/-- The lambda `write_item` of `hash_rings`: a zeroed `row_data` is created, the
point and the two indices are written through a serializer over
`data.begin()`, and `row_data` is appended to `data`. -/
def write_item (data : data_chunk) (ring : point_ring) (i j : Nat) : Option data_chunk :=
  (at2 ring i j).map (fun p =>
    let row_data : data_chunk := List.replicate row_data_size 0
    let data1 := overwrite_front data (p.point ++ be_bytes 4 i ++ be_bytes 4 j)
    data1 ++ row_data)

/-- The buffer `data` that `hash_rings` passes to `sha256_hash`. -/
def hash_rings_data (message : data_chunk) (left right : point_ring) : Option data_chunk :=
  let rows_size := left.length
  if rows_size ≠ right.length then none
  else if rows_size = 0 then none
  else
    (left.get? 0).bind (fun row0 =>
      let columns_size := row0.length
      for_loop rows_size (fun i data =>
        for_loop columns_size (fun j data =>
          (write_item data left i j).bind (fun data1 => write_item data1 right i j)) data)
        message)

/-- `hash_rings`. -/
def hash_rings (C : Primitives) (message : data_chunk) (left right : point_ring) :
    Option ec_scalar :=
  (hash_rings_data message left right).map (fun data => ec_scalar.of_secret (C.sha256_hash data))

structure mlsag_signature where
  key_images : point_list
  challenges : scalar_list
  salts : scalar_table
deriving DecidableEq, Repr

/-- `sum_all`. -/
def sum_all (C : Primitives) (challenges : scalar_list) : ec_scalar :=
  challenges.foldl (fun result challenge => result.add_assign C challenge) ec_scalar.zero

/-- The loop of the lambda `sum_except_i` over the entries numbered from `k`. -/
def sum_except_from (C : Primitives) (index : Nat) : Nat → scalar_list → ec_scalar → ec_scalar
  | _, [], result => result
  | k, c :: rest, result =>
    sum_except_from C index (k + 1) rest (if k = index then result else result.add_assign C c)

/-- The lambda `sum_except_i` of `mlsag_sign`. -/
def sum_except_i (C : Primitives) (challenges : scalar_list) (index : Nat) : ec_scalar :=
  sum_except_from C index 0 challenges ec_scalar.zero

/-- The message `base16_literal("deadbeef")`. -/
def deadbeef : data_chunk := [0xde, 0xad, 0xbe, 0xef]

/-! ## `mlsag_sign` and `mlsag_verify` (paralsg.cpp, lines 375-563)

A call returns `none` when an assertion on the sizes fails, when an index is
out of range, or when a `hash_to_point` call does not return within `fuel`
iterations of its loop. -/

/-- The table `hashed_publics` of `mlsag_sign` and `mlsag_verify`. -/
def hash_publics (C : Primitives) (fuel : Nat) (publics : point_ring)
    (rows_size columns_size : Nat) : Option point_ring :=
  for_loop rows_size (fun i hashed =>
    for_loop columns_size (fun j hashed =>
      (at2 publics i j).bind (fun p =>
        (hash_to_point C fuel p).map (fun h => set2 hashed i j h))) hashed)
    (create_ring rows_size columns_size)

/-- The body `L = sG + cP`, `R = sH(P) + cI` shared by the column loops of
`mlsag_sign` and `mlsag_verify`. -/
def fill_cell (C : Primitives) (publics hashed_publics : point_ring)
    (salts : scalar_table) (challenges : scalar_list) (key_images : point_list)
    (i j : Nat) (lr : point_ring × point_ring) : Option (point_ring × point_ring) :=
  (at2 salts i j).bind (fun s =>
  (challenges.get? j).bind (fun c =>
  (at2 publics i j).bind (fun p =>
  (at2 hashed_publics i j).bind (fun hp =>
  (key_images.get? i).map (fun image =>
    (set2 lr.1 i j (ec_point.add C (ec_point.smul C s ec_point.G) (ec_point.smul C c p)),
     set2 lr.2 i j (ec_point.add C (ec_point.smul C s hp) (ec_point.smul C c image))))))))

/-- The column loop of `mlsag_verify` (lines 528-553). -/
def verify_columns (C : Primitives) (publics hashed_publics : point_ring)
    (signature_salts : scalar_table) (challenges : scalar_list) (key_images : point_list)
    (rows_size columns_size : Nat) (lr : point_ring × point_ring) :
    Option (point_ring × point_ring) :=
  for_loop columns_size (fun j lr =>
    for_loop rows_size (fun i lr =>
      fill_cell C publics hashed_publics signature_salts challenges key_images i j lr) lr) lr

/-- `mlsag_verify`. -/
def mlsag_verify (C : Primitives) (fuel : Nat) (publics : point_ring)
    (signature : mlsag_signature) : Option Bool :=
  let rows_size := publics.length
  if rows_size = 0 then none
  else
    (publics.get? 0).bind (fun row0 =>
    let columns_size := row0.length
    (hash_publics C fuel publics rows_size columns_size).bind (fun hashed_publics =>
    (verify_columns C publics hashed_publics signature.salts signature.challenges
        signature.key_images rows_size columns_size
        (create_ring rows_size columns_size, create_ring rows_size columns_size)).bind (fun lr =>
    (hash_rings C deadbeef lr.1 lr.2).map (fun total_challenge =>
      ec_scalar.eq (sum_all C signature.challenges) total_challenge))))

/-- The loop "Compute the starting L, R value for our key" of `mlsag_sign`
(lines 405-413). -/
def signer_column (C : Primitives) (hashed_publics : point_ring) (salts : scalar_table)
    (rows_size index : Nat) (lr : point_ring × point_ring) :
    Option (point_ring × point_ring) :=
  for_loop rows_size (fun i lr =>
    (at2 salts i index).bind (fun s =>
    (at2 hashed_publics i index).map (fun hp =>
      (set2 lr.1 i index (ec_point.smul C s ec_point.G),
       set2 lr.2 i index (ec_point.smul C s hp))))) lr

/-- The key image `I = x H_p(x G)` of one secret. -/
def key_image (C : Primitives) (fuel : Nat) (secret : ec_scalar) : Option ec_point :=
  (hash_to_point C fuel (ec_point.smul C secret ec_point.G)).map (fun h =>
    ec_point.smul C secret h)

/-- The loop over `secrets` that fills `signature.key_images` (lines 422-428).
A secret that fails `BITCOIN_ASSERT(bcs::verify(secret.secret()))` stops the
run: `none`. -/
def make_key_images (C : Primitives) (fuel : Nat) : scalar_list → Option point_list
  | [] => some []
  | secret :: rest =>
    if !C.verify_secret secret.secret then none
    else
      (key_image C fuel secret).bind (fun image =>
        (make_key_images C fuel rest).map (fun images => image :: images))

/-- The column loop of `mlsag_sign` (lines 434-462), which skips `index`. -/
def sign_columns (C : Primitives) (publics hashed_publics : point_ring)
    (salts : scalar_table) (challenges : scalar_list) (key_images : point_list)
    (rows_size columns_size index : Nat) (lr : point_ring × point_ring) :
    Option (point_ring × point_ring) :=
  for_loop columns_size (fun j lr =>
    if j = index then some lr
    else
      for_loop rows_size (fun i lr =>
        fill_cell C publics hashed_publics salts challenges key_images i j lr) lr) lr

/-- The closing loop of `mlsag_sign` (lines 489-498), without its assertion. -/
def close_ring (C : Primitives) (secrets : scalar_list) (c_index : ec_scalar)
    (rows_size index : Nat) (salts : scalar_table) : Option scalar_table :=
  for_loop rows_size (fun i salts =>
    (at2 salts i index).bind (fun s =>
    (secrets.get? i).map (fun x =>
      set2 salts i index (ec_scalar.sub C s (ec_scalar.mul C c_index x))))) salts

/-- Everything `mlsag_sign` has computed when it returns: the signature, and the
values its two closing assertions read. -/
structure sign_state where
  signature : mlsag_signature
  left_points : point_ring
  right_points : point_ring
  total_challenge : ec_scalar
deriving DecidableEq, Repr

/-- The salts table after the calls of `random_scalar` (lines 390-392). -/
def draw_salts (rows_size columns_size : Nat) (salt_draws : Nat → Nat → ec_secret) :
    scalar_table :=
  tabulate rows_size columns_size (fun i j => ec_scalar.of_secret (salt_draws i j))

/-- The challenges after the calls of `random_scalar` (lines 419-420). -/
def draw_challenges (columns_size : Nat) (challenge_draws : Nat → ec_secret) : scalar_list :=
  (List.range columns_size).map (fun j => ec_scalar.of_secret (challenge_draws j))

/-- The body of `mlsag_sign`.  `salt_draws i j` and `challenge_draws j` are the
secrets that the calls of `random_scalar` return for `salts[i][j]` and
`challenges[j]`.  The assertions on the sizes and on the secrets (`verify`) stop
the run when they fail.  The two closing assertions, on the sum of the
challenges and on `left_points`, are not part of the run; their conditions are
`assert_sum` and `assert_left` below. -/
def mlsag_sign_run (C : Primitives) (fuel : Nat) (secrets : scalar_list)
    (publics : point_ring) (index : Nat)
    (salt_draws : Nat → Nat → ec_secret) (challenge_draws : Nat → ec_secret) :
    Option sign_state :=
  let rows_size := publics.length
  if secrets.length ≠ rows_size then none
  else if rows_size = 0 then none
  else
    (publics.get? 0).bind (fun row0 =>
    let columns_size := row0.length
    if ¬ index < columns_size then none
    else
      let salts := draw_salts rows_size columns_size salt_draws
      (hash_publics C fuel publics rows_size columns_size).bind (fun hashed_publics =>
      (signer_column C hashed_publics salts rows_size index
        (create_ring rows_size columns_size, create_ring rows_size columns_size)).bind (fun lr0 =>
      let challenges := draw_challenges columns_size challenge_draws
      (make_key_images C fuel secrets).bind (fun key_images =>
      (sign_columns C publics hashed_publics salts challenges key_images
        rows_size columns_size index lr0).bind (fun lr =>
      (hash_rings C deadbeef lr.1 lr.2).bind (fun total_challenge =>
      let challenges1 :=
        challenges.set index (ec_scalar.sub C total_challenge (sum_except_i C challenges index))
      (challenges1.get? index).bind (fun c_index =>
      (close_ring C secrets c_index rows_size index salts).map (fun salts1 =>
        sign_state.mk ⟨key_images, challenges1, salts1⟩ lr.1 lr.2 total_challenge))))))))

/-- `mlsag_sign`: the signature that the run returns. -/
def mlsag_sign (C : Primitives) (fuel : Nat) (secrets : scalar_list)
    (publics : point_ring) (index : Nat)
    (salt_draws : Nat → Nat → ec_secret) (challenge_draws : Nat → ec_secret) :
    Option mlsag_signature :=
  (mlsag_sign_run C fuel secrets publics index salt_draws challenge_draws).map
    (fun st => st.signature)

/-- The condition of `BITCOIN_ASSERT(sum_all(challenges) == total_challenge)`. -/
def assert_sum (C : Primitives) (st : sign_state) : Bool :=
  ec_scalar.eq (sum_all C st.signature.challenges) st.total_challenge

/-- The condition of the assertion in the closing loop of `mlsag_sign`, at row
`i`: `left_points[i][index] == salts[i][index] * G + challenges[index] *
publics[i][index]`, read after the update of `salts[i][index]`. -/
def assert_left (C : Primitives) (publics : point_ring) (index : Nat) (st : sign_state)
    (i : Nat) : Option Bool :=
  (at2 st.left_points i index).bind (fun l =>
  (at2 st.signature.salts i index).bind (fun s =>
  (st.signature.challenges.get? index).bind (fun c =>
  (at2 publics i index).map (fun p =>
    ec_point.eq l (ec_point.add C (ec_point.smul C s ec_point.G) (ec_point.smul C c p))))))

/-! ## Statements of the specification -/

/-- A table of `m` rows that all have `n` entries. -/
def is_table {α : Type} (t : List (List α)) (m n : Nat) : Prop :=
  t.length = m ∧ ∀ row ∈ t, row.length = n

/-- The transcript of `hash_rings` as the specification words it: the message,
then cell by cell (rows first, then columns) the bytes of the left point and
the bytes of the right point. -/
def spec_transcript (message : data_chunk) (left right : point_ring) : data_chunk :=
  message ++ (List.map (fun rows : point_list × point_list =>
      (List.map (fun cell : ec_point × ec_point => cell.1.point ++ cell.2.point)
        (List.zip rows.1 rows.2)).flatten)
    (List.zip left right)).flatten

/-- The verification rule for `L[i][j] = s[i][j] G + c[j] P[i][j]`. -/
def rule_left (C : Primitives) (publics : point_ring) (signature : mlsag_signature)
    (i j : Nat) : Option ec_point :=
  (at2 signature.salts i j).bind (fun s =>
  (signature.challenges.get? j).bind (fun c =>
  (at2 publics i j).map (fun p =>
    ec_point.add C (ec_point.smul C s ec_point.G) (ec_point.smul C c p))))

/-- The verification rule for `R[i][j] = s[i][j] H_p(P[i][j]) + c[j] I[i]`. -/
def rule_right (C : Primitives) (fuel : Nat) (publics : point_ring)
    (signature : mlsag_signature) (i j : Nat) : Option ec_point :=
  (at2 signature.salts i j).bind (fun s =>
  (signature.challenges.get? j).bind (fun c =>
  (at2 publics i j).bind (fun p =>
  (hash_to_point C fuel p).bind (fun hp =>
  (signature.key_images.get? i).map (fun image =>
    ec_point.add C (ec_point.smul C s hp) (ec_point.smul C c image))))))

/-- The table `t` has `m` rows of `n` entries and holds `f a b` in the cells
`(a, b)` marked by `d`, and `g a b` in the others. -/
def table_done {α : Type} (m n : Nat) (f g : Nat → Nat → α) (d : Nat → Nat → Bool)
    (t : List (List α)) : Prop :=
  is_table t m n ∧ ∀ a b, a < m → b < n → at2 t a b = some (if d a b then f a b else g a b)

/-- The scalar read at `salts[i][j]`. -/
def salt_at (salts : scalar_table) (i j : Nat) : ec_scalar :=
  (at2 salts i j).getD ec_scalar.zero

/-- The scalar read at `challenges[j]`. -/
def challenge_at (challenges : scalar_list) (j : Nat) : ec_scalar :=
  (challenges.get? j).getD ec_scalar.zero

/-- The point read at `ring[i][j]`. -/
def point_at (ring : point_ring) (i j : Nat) : ec_point :=
  (at2 ring i j).getD ec_point.default

/-- The point read at `key_images[i]`. -/
def image_at (key_images : point_list) (i : Nat) : ec_point :=
  (key_images.get? i).getD ec_point.default

/-- The value `s[i][j] G + c[j] P[i][j]`. -/
def left_value (C : Primitives) (publics : point_ring) (salts : scalar_table)
    (challenges : scalar_list) (i j : Nat) : ec_point :=
  ec_point.add C (ec_point.smul C (salt_at salts i j) ec_point.G)
    (ec_point.smul C (challenge_at challenges j) (point_at publics i j))

/-- The value `s[i][j] hashed_publics[i][j] + c[j] I[i]`. -/
def right_value (C : Primitives) (hashed_publics : point_ring) (salts : scalar_table)
    (challenges : scalar_list) (key_images : point_list) (i j : Nat) : ec_point :=
  ec_point.add C (ec_point.smul C (salt_at salts i j) (point_at hashed_publics i j))
    (ec_point.smul C (challenge_at challenges j) (image_at key_images i))

/-- The value of `hash_to_point(publics[i][j])`. -/
def hashed_value (C : Primitives) (fuel : Nat) (publics : point_ring) (i j : Nat) : ec_point :=
  ((at2 publics i j).bind (fun p => hash_to_point C fuel p)).getD ec_point.default

/-- Every `hash_to_point` call on an entry of the ring returns within `fuel`
iterations. -/
def fuel_ok (C : Primitives) (fuel : Nat) (publics : point_ring) : Prop :=
  ∀ row ∈ publics, ∀ p ∈ row, (hash_to_point C fuel p).isSome = true

/-- The secret read at `secrets[i]`. -/
def secret_at (secrets : scalar_list) (i : Nat) : ec_scalar :=
  (secrets.get? i).getD ec_scalar.zero

/-- The cell `(a, b)` of `left_points` when `mlsag_sign` hashes the tables:
`s G` in the signer column, the value of the column loop in the others. -/
def sign_left (C : Primitives) (publics : point_ring) (salts : scalar_table)
    (challenges : scalar_list) (index a b : Nat) : ec_point :=
  if b = index then ec_point.smul C (salt_at salts a b) ec_point.G
  else left_value C publics salts challenges a b

/-- The cell `(a, b)` of `right_points` when `mlsag_sign` hashes the tables. -/
def sign_right (C : Primitives) (hashed_publics : point_ring) (salts : scalar_table)
    (challenges : scalar_list) (key_images : point_list) (index a b : Nat) : ec_point :=
  if b = index then ec_point.smul C (salt_at salts a b) (point_at hashed_publics a b)
  else right_value C hashed_publics salts challenges key_images a b

/-- The cell `(a, b)` of the salts that `mlsag_sign` returns. -/
def closed_salt (C : Primitives) (secrets : scalar_list) (c_index : ec_scalar)
    (salts : scalar_table) (index a b : Nat) : ec_scalar :=
  if b = index then
    ec_scalar.sub C (salt_at salts a b) (ec_scalar.mul C c_index (secret_at secrets a))
  else salt_at salts a b

/-- The sum of the values of a list of scalars. -/
def scalar_sum (cs : scalar_list) : Nat :=
  (cs.map (fun c => be_value c.scalar_)).sum

/-- The sum of the values of the scalars numbered from `k`, without the one
numbered `index`. -/
def scalar_sum_except (index : Nat) : Nat → scalar_list → Nat
  | _, [] => 0
  | k, c :: rest =>
    (if k = index then 0 else be_value c.scalar_) + scalar_sum_except index (k + 1) rest

/-- The scalar holds the 32-byte encoding of a value below `q`. -/
def is_canonical (q : Nat) (s : ec_scalar) : Bool :=
  s.scalar_ == be_bytes 32 (be_value s.scalar_) && decide (be_value s.scalar_ < q)

/-- The read returned a point, and the point is valid. -/
def valid_point (o : Option ec_point) : Bool :=
  match o with
  | some p => p.is_valid
  | none => false

/-- No scalar or point operation has failed on the closing path of a run of
`mlsag_sign`: the sum of the challenges and the closing challenge are valid,
the transcript hash is the encoding of a value below the group order `q`, and in
every row the signer's `L`, `R` and the points that the verification rule
recomputes at the signer column are valid. -/
def closing_valid (C : Primitives) (q fuel : Nat) (publics : point_ring) (index : Nat)
    (st : sign_state) : Bool :=
  (sum_all C st.signature.challenges).is_valid &&
  (challenge_at st.signature.challenges index).is_valid &&
  is_canonical q st.total_challenge &&
  (List.range publics.length).all (fun i =>
    valid_point (at2 st.left_points i index) &&
    valid_point (at2 st.right_points i index) &&
    valid_point (rule_left C publics st.signature i index) &&
    valid_point (rule_right C fuel publics st.signature i index))

/-- Column `index` of the ring holds the public keys of the secrets:
`P[i][index] = x_i G` for every row `i`. -/
def signer_keys (C : Primitives) (secrets : scalar_list) (publics : point_ring)
    (index : Nat) : Prop :=
  ∀ i x, secrets.get? i = some x →
    at2 publics i index = some (ec_point.smul C x ec_point.G)

/-- What the translated code relies on from the secp256k1 primitives, for a
group of order `q` whose compressed points `dec` reads as residues modulo `q`
(for secp256k1 itself, the discrete logarithm of a point on the curve): a call
that reports success has computed the modular sum, product or negation, and a
group element has one encoding.  Nothing is asked of a call that fails. -/
structure Lawful (C : Primitives) (q : Nat) (dec : ec_compressed → Option Nat) : Prop where
  order_pos : 0 < q
  order_le : q ≤ 2 ^ 256
  add_ok : ∀ a b, (C.ec_add a b).1 = true →
    (C.ec_add a b).2 = be_bytes 32 ((be_value a + be_value b) % q)
  mul_ok : ∀ a b, (C.ec_multiply a b).1 = true →
    (C.ec_multiply a b).2 = be_bytes 32 ((be_value a * be_value b) % q)
  neg_ok : ∀ a, (C.ec_negate a).1 = true →
    (C.ec_negate a).2 = be_bytes 32 ((q - be_value a % q) % q)
  sum_ok : ∀ r a b, (C.ec_sum r [a, b]).1 = true →
    ∃ x y, dec a = some x ∧ dec b = some y ∧ dec (C.ec_sum r [a, b]).2 = some ((x + y) % q)
  pmul_ok : ∀ p k, (C.ec_multiply_point p k).1 = true →
    ∃ x, dec p = some x ∧ dec (C.ec_multiply_point p k).2 = some ((x * be_value k) % q)
  dec_inj : ∀ p p' x, dec p = some x → dec p' = some x → p = p'

/-! ## Assignment to an existing value (ec_arithmetic.cpp) -/

/-- `ec_scalar::operator=(uint64_t)` on an existing scalar: `valid_ = true`,
`reset()`, then the value on the last 8 bytes. -/
def ec_scalar.assign_uint64 (self : ec_scalar) (value : Nat) : ec_scalar :=
  let s1 : ec_scalar := ⟨true, self.scalar_⟩
  let s2 := s1.reset
  ⟨s2.valid_, s2.scalar_.take 24 ++ be_bytes 8 value⟩

/-- `ec_scalar::operator=(const ec_secret&)` on an existing scalar. -/
def ec_scalar.assign_secret (_self : ec_scalar) (secret : ec_secret) : ec_scalar :=
  ⟨true, secret⟩

/-- `ec_point::operator=(const ec_compressed&)` on an existing point. -/
def ec_point.assign_compressed (_self : ec_point) (point : ec_compressed) : ec_point :=
  ⟨point⟩

/-! ## `borromean_hash` (paralsg.cpp, lines 332-351) -/

/-- The constant `hash_size`. -/
def hash_size : Nat := 32

/-- The loop of `borromean_hash` that collects `input_data`. -/
def borromean_input (left right : point_ring) (index : Nat) : Option data_chunk :=
  for_loop left.length (fun i input_data =>
    (at2 left i index).bind (fun l =>
    (at2 right i index).map (fun r => input_data ++ l.point ++ r.point))) []

/-- The buffer `data` that `borromean_hash` passes to `sha256_hash`: a zeroed
vector of `hash_size + input_data.size() + sizeof(uint32_t)` bytes, written from
its first byte with `M`, `input_data` and the index. -/
def borromean_data (M : hash_digest) (left right : point_ring) (index : Nat) :
    Option data_chunk :=
  if left.length ≠ right.length then none
  else
    (borromean_input left right index).map (fun input_data =>
      let data : data_chunk := List.replicate (hash_size + input_data.length + 4) 0
      overwrite_front data (M ++ input_data ++ be_bytes 4 index))

/-- `borromean_hash`. -/
def borromean_hash (C : Primitives) (M : hash_digest) (left right : point_ring)
    (index : Nat) : Option ec_scalar :=
  (borromean_data M left right index).map (fun data =>
    ec_scalar.of_secret (C.sha256_hash data))

/-! ## `verify_rangeproof` (paralsg.cpp, lines 139-159) -/

/-- The point `ec_point_H`, the decoded `LITERAL_H`. -/
def ec_point_H : ec_point :=
  ⟨[0x02, 0x18, 0x2f, 0x2b, 0x3d, 0xa9, 0xf6, 0xa8, 0x53, 0x8d, 0xab, 0xac,
    0x0e, 0x42, 0x08, 0xba, 0xd1, 0x35, 0xe9, 0x3b, 0x8f, 0x48, 0x24, 0xc5,
    0x4f, 0x2f, 0xa1, 0xb9, 0x74, 0xec, 0xe6, 0x37, 0x62]⟩

/-- The library type `ring_signature`. -/
structure ring_signature where
  proofs : List (List ec_secret)
  challenge : ec_secret
deriving DecidableEq, Repr

abbrev key_rings := List (List ec_compressed)

/-- The ring signature functions `sign` and `verify` of the library, which the
range proof calls; they live outside the translated files. -/
structure RingPrimitives where
  sign : ring_signature → List ec_secret → key_rings → hash_digest → List ec_secret →
    Bool × ring_signature
  verify : key_rings → hash_digest → ring_signature → Bool

structure transaction_rangeproof where
  commitments : List ec_compressed
  signature : ring_signature
deriving DecidableEq, Repr

/-- The constant `proof_size`. -/
def proof_size : Nat := 64

/-- The loop of `verify_rangeproof` that recreates the rings
`{ B_i, B_i - 2^i H }` from the commitments. -/
def rebuild_rings (C : Primitives) (commitments : List ec_compressed) : Option key_rings :=
  for_loop proof_size (fun i rings =>
    (commitments.get? i).map (fun commitment =>
      let digit_2i := (1 <<< i) % 2 ^ 64
      rings ++ [[commitment,
        (ec_point.sub C (ec_point.of_compressed commitment)
          (ec_point.smul C (value_to_scalar digit_2i) ec_point_H)).point]])) []

/-- `verify_rangeproof`. -/
def verify_rangeproof (C : Primitives) (R : RingPrimitives)
    (rangeproof : transaction_rangeproof) (transaction_hash : hash_digest) : Option Bool :=
  if rangeproof.commitments.length ≠ proof_size then some false
  else
    (rebuild_rings C rangeproof.commitments).map (fun rings =>
      R.verify rings transaction_hash rangeproof.signature)

/-! ## Statements of the specification, continued -/

/-- The step `x <- x + 1` of `hash_to_point_impl`. -/
def increment (C : Primitives) (x : ec_scalar) : ec_scalar :=
  x.add_assign C (value_to_scalar 1)

/-- The scalar after `k` steps `x <- x + 1`. -/
def increments (C : Primitives) : Nat → ec_scalar → ec_scalar
  | 0, x => x
  | k + 1, x => increments C k (increment C x)

/-- The candidate `0x02 || x`. -/
def candidate (x : ec_scalar) : ec_compressed := compressed_even :: x.secret

/-- The transcript of `borromean_hash` as the specification words it:
`M || left[0][j] || right[0][j] || ... || j` on 4 big-endian bytes. -/
def spec_borromean (M : hash_digest) (left right : point_ring) (j : Nat) : data_chunk :=
  M ++ ((List.range left.length).map (fun i =>
      (point_at left i j).point ++ (point_at right i j).point)).flatten ++ be_bytes 4 j

/-- The point-sum primitive fails when the sum is the identity, and the
negation of a point that reports success has computed the opposite residue,
for a group of order `q` whose points `dec` reads as residues modulo `q`. -/
structure IdentityFails (C : Primitives) (q : Nat) (dec : ec_compressed → Option Nat) :
    Prop where
  order_pos : 0 < q
  pneg_ok : ∀ p, (C.ec_negate_point p).1 = true →
    ∃ x, dec p = some x ∧ dec (C.ec_negate_point p).2 = some ((q - x % q) % q)
  sum_identity : ∀ r a b x y, dec a = some x → dec b = some y → (x + y) % q = 0 →
    (C.ec_sum r [a, b]).1 = false

/-! ## A reference instance of the primitives

The secp256k1 group has prime order `curve_order`, so as a group it is the
integers modulo `curve_order` under addition.  `toy` presents it that way: a
point is written `prefix || x` with `x` its residue (nonzero, since the identity
has no encoding) on 32 big-endian bytes and `prefix = 2 + x mod 2`; scalars are
the 32-byte big-endian integers, and the primitives fail where the secp256k1
ones do (a zero sum, a zero or out-of-range multiplier).  The two hashes are
polynomial checksums.  The instance serves to run the code on concrete inputs. -/

/-- The order of the secp256k1 group. -/
def curve_order : Nat :=
  0xFFFFFFFFFFFFFFFFFFFFFFFFFFFFFFFEBAAEDCE6AF48A03BBFD25E8CD0364141

namespace toy

/-- A well-formed byte string of `w` bytes. -/
def is_bytes (w : Nat) (bs : List Nat) : Bool :=
  bs.length == w && bs.all (fun b => decide (b < 256))

/-- Encoding of the group element `x`. -/
def encode (x : Nat) : ec_compressed := (2 + x % 2) :: be_bytes 32 x

/-- Decoding of a compressed point: `none` unless it is `encode x` for some
`0 < x < curve_order`. -/
def decode (p : ec_compressed) : Option Nat :=
  match p with
  | [] => none
  | pre :: xs =>
    let x := be_value xs
    if is_bytes 32 xs && decide (0 < x) && decide (x < curve_order)
        && pre == 2 + x % 2 then some x else none

def ec_add (a b : ec_secret) : Bool × ec_secret :=
  let r := (be_value a + be_value b) % curve_order
  if decide (be_value b < curve_order) && decide (r ≠ 0) then (true, be_bytes 32 r)
  else (false, null_hash)

def ec_multiply (a b : ec_secret) : Bool × ec_secret :=
  let r := (be_value a * be_value b) % curve_order
  if decide (0 < be_value b) && decide (be_value b < curve_order) then (true, be_bytes 32 r)
  else (false, null_hash)

def ec_negate (a : ec_secret) : Bool × ec_secret :=
  (true, be_bytes 32 ((curve_order - be_value a % curve_order) % curve_order))

/-- The sum of the residues of a list of points, if all of them decode. -/
def decode_sum : List ec_compressed → Option Nat
  | [] => some 0
  | p :: rest =>
    match decode p, decode_sum rest with
    | some x, some s => some (x + s)
    | _, _ => none

def ec_sum (result : ec_compressed) (points : List ec_compressed) : Bool × ec_compressed :=
  match decode_sum points with
  | none => (false, result)
  | some s => if s % curve_order = 0 then (false, result) else (true, encode (s % curve_order))

def ec_multiply_point (p : ec_compressed) (k : ec_secret) : Bool × ec_compressed :=
  match decode p with
  | none => (false, p)
  | some x =>
    let r := (x * be_value k) % curve_order
    if decide (0 < be_value k) && decide (be_value k < curve_order) && decide (r ≠ 0)
    then (true, encode r) else (false, p)

def ec_negate_point (p : ec_compressed) : Bool × ec_compressed :=
  match decode p with
  | none => (false, p)
  | some x => (true, encode (curve_order - x))

def verify_secret (k : ec_secret) : Bool :=
  is_bytes 32 k && decide (0 < be_value k) && decide (be_value k < curve_order)

def verify_point (p : ec_compressed) : Bool := (decode p).isSome

/-- A polynomial checksum on 32 bytes, started from `seed`. -/
def checksum (seed : Nat) (data : data_chunk) : hash_digest :=
  be_bytes 32 ((data.foldl (fun acc b => acc * 257 + b + 1) seed) % curve_order)

/-- The reference instance. -/
def primitives : Primitives :=
  ⟨ec_add, ec_multiply, ec_negate, ec_sum, ec_multiply_point, ec_negate_point,
   verify_secret, verify_point, checksum 1, checksum 2⟩

/-- Negation of a secret that rejects what `verify_secret` rejects, as the
`seckey` interface of later secp256k1 releases does. -/
def ec_negate_strict (a : ec_secret) : Bool × ec_secret :=
  if verify_secret a then ec_negate a else (false, null_hash)

/-- The reference instance with the strict negation. -/
def strict_primitives : Primitives :=
  ⟨ec_add, ec_multiply, ec_negate_strict, ec_sum, ec_multiply_point, ec_negate_point,
   verify_secret, verify_point, checksum 1, checksum 2⟩

/-- The scalar of value `v`. -/
def scalar (v : Nat) : ec_scalar := ec_scalar.of_secret (be_bytes 32 v)

/-- The point `v * G`. -/
def public_key (v : Nat) : ec_point := ec_point.smul primitives (scalar v) ec_point.G

/-! Sample inputs: a ring of two rows and two columns whose column 0 belongs to
the secrets 5 and 9, a second ring whose column 1 belongs to the secrets 5 and
11, and fixed outcomes of the random draws. -/

def fuel : Nat := 4

def secrets : scalar_list := [scalar 5, scalar 9]

def ring : point_ring := [[public_key 5, public_key 77], [public_key 9, public_key 78]]

def salt_draws (i j : Nat) : ec_secret := be_bytes 32 (100 + 10 * i + j)

def challenge_draws (j : Nat) : ec_secret := be_bytes 32 (1000 + j)

def secrets2 : scalar_list := [scalar 5, scalar 11]

def ring2 : point_ring := [[public_key 33, public_key 5], [public_key 44, public_key 11]]

def salt_draws2 (i j : Nat) : ec_secret := be_bytes 32 (7 + 3 * i + 2 * j)

def challenge_draws2 (j : Nat) : ec_secret := be_bytes 32 (50 + j)

/-- A signature that no signer produced. -/
def forged : mlsag_signature :=
  ⟨[public_key 7, public_key 8], [scalar 5, scalar 6],
   [[scalar 1, scalar 2], [scalar 3, scalar 4]]⟩

/-! A ring of one row and three columns, signed at column 0 with draws whose
challenges at columns 1 and 2 are `1` and `curve_order - 1`. -/

def secrets3 : scalar_list := [scalar 5]

def ring3 : point_ring := [[public_key 5, public_key 77, public_key 78]]

def challenge_draws3 (j : Nat) : ec_secret :=
  if j = 1 then be_bytes 32 1
  else if j = 2 then be_bytes 32 (curve_order - 1)
  else be_bytes 32 1000

/-- The state, if any, that a run of `mlsag_sign` on the reference instance
reaches. -/
def run (secrets : scalar_list) (publics : point_ring) (index : Nat)
    (sd : Nat → Nat → ec_secret) (cd : Nat → ec_secret) : sign_state :=
  (mlsag_sign_run primitives fuel secrets publics index sd cd).getD
    ⟨⟨[], [], []⟩, [], [], ec_scalar.zero⟩

/-- The run on the sample ring. -/
def state : sign_state := run secrets ring 0 salt_draws challenge_draws

/-- The run on the ring of three columns. -/
def state3 : sign_state := run secrets3 ring3 0 salt_draws challenge_draws3

/-- The signature of the sample run with `salts[0][0]` replaced by `12345`. -/
def tampered_salt : mlsag_signature :=
  ⟨state.signature.key_images, state.signature.challenges,
   set2 state.signature.salts 0 0 (scalar 12345)⟩

/-- The sample ring with `P[0][0]` replaced by `12345 G`. -/
def tampered_ring : point_ring := set2 ring 0 0 (public_key 12345)

/-- A curve check that also rejects the residue `curve_order - 1`, which is
not the x-coordinate of a point of secp256k1. -/
def verify_point_strict (p : ec_compressed) : Bool :=
  verify_point p && be_value p.tail != curve_order - 1

/-- The reference instance with that curve check. -/
def stuck_primitives : Primitives :=
  ⟨ec_add, ec_multiply, ec_negate, ec_sum, ec_multiply_point, ec_negate_point,
   verify_secret, verify_point_strict, checksum 1, checksum 2⟩

/-- An input whose `bitcoin_hash` in the reference instance is
`curve_order - 1`. -/
def stuck_input : data_chunk :=
  [2, 68, 41, 163, 149, 126, 161, 54, 98, 237, 88, 89, 250, 232, 102, 82, 163, 18, 59,
   172, 33, 119, 12, 83, 93, 187, 36, 173, 135, 56, 76, 120, 17]

/-- A ring signature verifier that accepts everything. -/
def accept_all : RingPrimitives :=
  ⟨fun signature _ _ _ _ => (true, signature), fun _ _ _ => true⟩

/-- A range proof with three commitments. -/
def short_proof : transaction_rangeproof :=
  ⟨[(public_key 5).point, (public_key 6).point, (public_key 7).point], ⟨[], null_hash⟩⟩

end toy

end libbitcoin

namespace libbitcoin

/-! ## `make_rangeproof` and `generate_random_blind` (paralsg.cpp, lines 67-173) -/

/-- `bitcolumn_value`: `value_type(1) << i` on 64 bits. -/
def bitcolumn_value (i : Nat) : Nat := (1 <<< i) % 2 ^ 64

/-- The locals of `make_rangeproof` that its loop fills. -/
structure rangeproof_state where
  rangeproof : transaction_rangeproof
  rings : key_rings
  salts : List ec_secret
deriving DecidableEq, Repr

/-- The loop of `make_rangeproof` over the binary digits of the value.
`proof_draws i 0`, `proof_draws i 1` and `salt_draws i` are the secrets that the
three calls of `random_secret` return in iteration `i`; `challenge` is the
content of the default-initialised `rangeproof.signature.challenge`. -/
def make_rangeproof_loop (C : Primitives) (value : Nat) (secrets : List ec_secret)
    (proof_draws : Nat → Nat → ec_secret) (salt_draws : Nat → ec_secret)
    (challenge : ec_secret) : Option rangeproof_state :=
  for_loop proof_size (fun i st =>
    (secrets.get? i).map (fun secret =>
      let bit_is_set := value.testBit i
      let digit_2i := bitcolumn_value i
      let blind_point := ec_point.smul C (ec_scalar.of_secret secret) ec_point.G
      let value_point := ec_point.smul C (value_to_scalar digit_2i) ec_point_H
      let commitment :=
        if bit_is_set then blind_point.add_assign C value_point else blind_point
      rangeproof_state.mk
        ⟨st.rangeproof.commitments ++ [commitment.point],
         ⟨st.rangeproof.signature.proofs ++ [[proof_draws i 0, proof_draws i 1]],
          st.rangeproof.signature.challenge⟩⟩
        (st.rings ++ [[commitment.point, (ec_point.sub C commitment value_point).point]])
        (st.salts ++ [salt_draws i])))
    ⟨⟨[], ⟨[], challenge⟩⟩, [], []⟩

/-- The body of `make_rangeproof`: the state after the loop with the signature
that `sign` wrote, and the flag `rc` that `sign` returned.  The assertion on
`rc` is not part of the run. -/
def make_rangeproof_run (C : Primitives) (R : RingPrimitives) (value : Nat)
    (secrets : List ec_secret) (transaction_hash : hash_digest)
    (proof_draws : Nat → Nat → ec_secret) (salt_draws : Nat → ec_secret)
    (challenge : ec_secret) : Option (rangeproof_state × Bool) :=
  if secrets.length ≠ proof_size then none
  else
    (make_rangeproof_loop C value secrets proof_draws salt_draws challenge).map (fun st =>
      let rc := R.sign st.rangeproof.signature secrets st.rings transaction_hash st.salts
      (⟨⟨st.rangeproof.commitments, rc.2⟩, st.rings, st.salts⟩, rc.1))

/-- `make_rangeproof`: the range proof that the run returns. -/
def make_rangeproof (C : Primitives) (R : RingPrimitives) (value : Nat)
    (secrets : List ec_secret) (transaction_hash : hash_digest)
    (proof_draws : Nat → Nat → ec_secret) (salt_draws : Nat → ec_secret)
    (challenge : ec_secret) : Option transaction_rangeproof :=
  (make_rangeproof_run C R value secrets transaction_hash proof_draws salt_draws challenge).map
    (fun r => r.1.rangeproof)

/-- `generate_random_blind`; `draws i` is the secret that `random_secret`
returns in iteration `i`. -/
def generate_random_blind (C : Primitives) (value : Nat) (draws : Nat → ec_secret) :
    ec_point × List ec_secret :=
  (List.range proof_size).foldl (fun acc i =>
    let secret := draws i
    (acc.1.add_assign C (ec_point.smul C (ec_scalar.of_secret secret) ec_point.G),
     acc.2 ++ [secret]))
    (ec_point.smul C (value_to_scalar value) ec_point_H, [])

/-- The check of `main` on the commitments: `ec_sum(result, commitments)` over
the previous contents `result` of the buffer, whose flag is not read, and the
condition of `BITCOIN_ASSERT(blinded_value.point() == result)`. -/
def commitments_sum_to (C : Primitives) (result : ec_compressed)
    (rangeproof : transaction_rangeproof) (blinded_value : ec_point) : Bool :=
  blinded_value.point == (C.ec_sum result rangeproof.commitments).2

/-! ## Statements of the specification: the range proof -/

/-- The point `b_i G` of iteration `i` of `make_rangeproof`. -/
def blind_point_at (C : Primitives) (secrets : List ec_secret) (i : Nat) : ec_point :=
  ec_point.smul C (ec_scalar.of_secret (secrets.getD i [])) ec_point.G

/-- The point `2^i H`. -/
def value_point_at (C : Primitives) (i : Nat) : ec_point :=
  ec_point.smul C (value_to_scalar (2 ^ i)) ec_point_H

/-- The commitment of iteration `i` of `make_rangeproof`. -/
def commitment_at (C : Primitives) (value : Nat) (secrets : List ec_secret) (i : Nat) :
    ec_point :=
  if value.testBit i then (blind_point_at C secrets i).add_assign C (value_point_at C i)
  else blind_point_at C secrets i

/-- The ring of iteration `i` of `make_rangeproof`. -/
def ring_at (C : Primitives) (value : Nat) (secrets : List ec_secret) (i : Nat) :
    List ec_compressed :=
  [(commitment_at C value secrets i).point,
   (ec_point.sub C (commitment_at C value secrets i) (value_point_at C i)).point]

/-- The state of `make_rangeproof` after `k` iterations of its loop. -/
def rangeproof_after (C : Primitives) (value : Nat) (secrets : List ec_secret)
    (proof_draws : Nat → Nat → ec_secret) (salt_draws : Nat → ec_secret)
    (challenge : ec_secret) (k : Nat) : rangeproof_state :=
  ⟨⟨(List.range k).map (fun i => (commitment_at C value secrets i).point),
    ⟨(List.range k).map (fun i => [proof_draws i 0, proof_draws i 1]), challenge⟩⟩,
   (List.range k).map (ring_at C value secrets),
   (List.range k).map salt_draws⟩

/-- The sum of the residues of a list of points, if `dec` reads all of them. -/
def residue_sum (dec : ec_compressed → Option Nat) : List ec_compressed → Option Nat
  | [] => some 0
  | p :: rest => (dec p).bind (fun x => (residue_sum dec rest).map (fun s => x + s))

/-- What the Pedersen commitments rely on from the secp256k1 primitives beyond
`Lawful`, for a group of order `q` whose compressed points `dec` reads as
residues modulo `q`: a negation of a point that reports success has computed the
opposite element, a sum of a list of points that reports success has computed
the sum, and a byte string that encodes a group element starts with `0x02` or
`0x03`.  Nothing is asked of a call that fails. -/
structure PointLawful (C : Primitives) (q : Nat) (dec : ec_compressed → Option Nat) :
    Prop where
  pneg_ok : ∀ p, (C.ec_negate_point p).1 = true →
    ∃ x, dec p = some x ∧ dec (C.ec_negate_point p).2 = some ((q - x % q) % q)
  sum_list_ok : ∀ r ps, (C.ec_sum r ps).1 = true →
    ∃ s, residue_sum dec ps = some s ∧ dec (C.ec_sum r ps).2 = some (s % q)
  dec_valid : ∀ p x, dec p = some x → (ec_point.of_compressed p).is_valid = true

/-- Modelled from the spec: `sign` and `verify` of the ring signatures are
functions of the library that are not among the translated files.  "Ring
signature — proof that some member of a set of public keys signed"; "the signer
knows the discrete-log with respect to `G` of exactly one element".  So: when
there are one secret, one salt and one list of proofs per ring, with one proof
per key, all of them accepted by `verify` on secrets, when every key of every
ring is a valid point, and when ring `i` holds the public key `secrets[i] * G`,
then `sign` reports success and `verify` accepts the signature that `sign` wrote
against the same rings and digest. -/
structure RingComplete (C : Primitives) (R : RingPrimitives) : Prop where
  complete : ∀ (out : ring_signature) (secrets : List ec_secret) (rings : key_rings)
      (digest : hash_digest) (salts : List ec_secret),
    secrets.length = rings.length → salts.length = rings.length →
    out.proofs.length = rings.length →
    (∀ i ring proof, rings.get? i = some ring → out.proofs.get? i = some proof →
      proof.length = ring.length) →
    (∀ b ∈ secrets, C.verify_secret b = true) →
    (∀ k ∈ salts, C.verify_secret k = true) →
    (∀ proof ∈ out.proofs, ∀ s ∈ proof, C.verify_secret s = true) →
    (∀ ring ∈ rings, ∀ key ∈ ring, (ec_point.of_compressed key).is_valid = true) →
    (∀ i secret ring, secrets.get? i = some secret → rings.get? i = some ring →
      (ec_point.smul C (ec_scalar.of_secret secret) ec_point.G).point ∈ ring) →
    (R.sign out secrets rings digest salts).1 = true ∧
      R.verify rings digest (R.sign out secrets rings digest salts).2 = true

/-- Modelled from the spec: `sign` of the ring signatures is a function of the
library that is not among the translated files.  "Ring signature — proof that
some member of a set of public keys signed"; "the signer knows the discrete-log
with respect to `G` of exactly one element".  So: `sign` reports success only
when every ring holds the public key `b * G` of one of the secrets `b` it was
given. -/
structure RingSound (C : Primitives) (R : RingPrimitives) : Prop where
  sound : ∀ (out : ring_signature) (secrets : List ec_secret) (rings : key_rings)
      (digest : hash_digest) (salts : List ec_secret),
    (R.sign out secrets rings digest salts).1 = true →
    ∀ ring ∈ rings, ∃ secret ∈ secrets,
      (ec_point.smul C (ec_scalar.of_secret secret) ec_point.G).point ∈ ring

namespace toy

/-! Sample inputs of the range proof: the blinds `1, ..., 64` and fixed outcomes
of the random draws. -/

def blinds : List ec_secret := (List.range 64).map (fun i => be_bytes 32 (i + 1))

def proof_draws (i j : Nat) : ec_secret := be_bytes 32 (200 + 2 * i + j)

def ring_salts (i : Nat) : ec_secret := be_bytes 32 (500 + i)

/-- Draws of `generate_random_blind` that give the blinds `1, ..., 64`. -/
def blind_draws (i : Nat) : ec_secret := be_bytes 32 (i + 1)

/-- The secret `b` with `b G + H` the identity of the group, in the reference
instance. -/
def cancel_secret : ec_secret :=
  be_bytes 32 0xb7240628f52eaf0b95889eba8087a32bc16edec1f07536dc7b5d465fa31679a6

/-- The ring holds valid points only, among them the public key of the secret. -/
def known_key (secret : ec_secret) (ring : List ec_compressed) : Bool :=
  ring.all (fun key => (ec_point.of_compressed key).is_valid) &&
  ring.contains (ec_point.smul primitives (ec_scalar.of_secret secret) ec_point.G).point

/-- A ring signer for the reference instance: it succeeds when every ring has a
known key, and writes the secrets themselves as the proofs. -/
def ring_sign (_out : ring_signature) (secrets : List ec_secret) (rings : key_rings)
    (digest : hash_digest) (_salts : List ec_secret) : Bool × ring_signature :=
  (secrets.length == rings.length &&
      (List.zip secrets rings).all (fun sr => known_key sr.1 sr.2),
   ⟨secrets.map (fun b => [b]), digest⟩)

/-- The matching verifier: every ring has a known key for the secret shown. -/
def ring_verify (rings : key_rings) (digest : hash_digest) (signature : ring_signature) :
    Bool :=
  signature.challenge == digest && signature.proofs.length == rings.length &&
  (List.zip signature.proofs rings).all (fun pr =>
    match pr.1 with
    | [b] => known_key b pr.2
    | _ => false)

/-- A complete ring signature scheme for the reference instance, which rejects
a ring without a known key.  It hides nothing: it serves to run the range proof
on concrete inputs. -/
def ring_scheme : RingPrimitives := ⟨ring_sign, ring_verify⟩

/-- The blinds `cancel_secret, 2, ..., 64`. -/
def cancel_blinds : List ec_secret :=
  cancel_secret :: (List.range 63).map (fun i => be_bytes 32 (i + 2))

end toy

end libbitcoin

namespace libbitcoin

/-! ## `ring_ct_simple` (paralsg.cpp, lines 565-658) -/

/-- The decoded literal `BLIND_A`. -/
def BLIND_A : ec_secret :=
  [0x17, 0x4f, 0xf6, 0x8c, 0x2a, 0x96, 0x47, 0x01, 0x64, 0x2e, 0x34, 0x3a, 0x0a, 0x0f,
   0xc3, 0x43, 0x7e, 0x5c, 0x2d, 0x72, 0x42, 0xd1, 0x50, 0xd0, 0x17, 0x3e, 0xc0, 0x06,
   0xfb, 0xd9, 0x00, 0xb7]

/-- The decoded literal `BLIND_B`. -/
def BLIND_B : ec_secret :=
  [0x41, 0xe1, 0x46, 0xa7, 0xbb, 0x89, 0x5f, 0xcd, 0xbb, 0x7a, 0xb6, 0xb3, 0x3c, 0x59,
   0x8b, 0x56, 0x93, 0xbe, 0x64, 0x80, 0x45, 0x5f, 0x87, 0x89, 0x64, 0xf4, 0x5f, 0xda,
   0xc7, 0x26, 0x63, 0x93]

/-- The decoded literal `BLIND_C`. -/
def BLIND_C : ec_secret :=
  [0x02, 0x73, 0x38, 0x89, 0x8d, 0xd3, 0xe3, 0xbc, 0x42, 0xb1, 0xda, 0x0c, 0x1b, 0x4d,
   0xbf, 0xa1, 0x98, 0x9c, 0xef, 0x8a, 0xfb, 0x9d, 0xbe, 0x69, 0x60, 0x01, 0x5c, 0x5f,
   0x83, 0xf1, 0x1a, 0xef]

/-- The decoded literal `PRIVATE_KEY`. -/
def PRIVATE_KEY : ec_secret :=
  [0x61, 0x84, 0xae, 0xe9, 0xc7, 0x78, 0x93, 0x79, 0x6f, 0x3c, 0x78, 0x0e, 0xa4, 0x3d,
   0xb9, 0xde, 0x8d, 0xfa, 0x24, 0xf1, 0xdf, 0x52, 0x60, 0xf4, 0xac, 0xb1, 0x48, 0xf0,
   0xc6, 0xa7, 0x60, 0x9f]

/-- `publics[row].push_back(p)`. -/
def push_back2 {α : Type} (table : List (List α)) (row : Nat) (v : α) : List (List α) :=
  table.set row (table.getD row [] ++ [v])

/-- The part of `ring_ct_simple` before the call of `mlsag_sign`, for given
blinds, values and private key and a given number of decoy columns: the secrets
and the ring that are passed to `mlsag_sign`. -/
def ring_ct_inputs (C : Primitives) (fuel : Nat) (blind_a blind_b blind_c : ec_secret)
    (value_a value_b value_c : Nat) (private_key : ec_secret) (decoys : Nat) :
    Option (scalar_list × point_ring) :=
  let G := ec_point.G
  (hash_to_point_scalar C fuel (value_to_scalar 0xdeadbeef)).bind (fun H =>
    let blind_a := ec_scalar.of_secret blind_a
    let value_a := value_to_scalar value_a
    let commit_a := ec_point.add C (ec_point.smul C blind_a G) (ec_point.smul C value_a H)
    let blind_b := ec_scalar.of_secret blind_b
    let value_b := value_to_scalar value_b
    let commit_b := ec_point.add C (ec_point.smul C blind_b G) (ec_point.smul C value_b H)
    let blind_c := ec_scalar.of_secret blind_c
    let value_c := value_to_scalar value_c
    let commit_c := ec_point.add C (ec_point.smul C blind_c G) (ec_point.smul C value_c H)
    let private_key := ec_scalar.of_secret private_key
    let public_key := ec_point.smul C private_key G
    let commitment_secret := ec_scalar.sub C blind_a (ec_scalar.add C blind_b blind_c)
    let output_commit := ec_point.add C commit_b commit_c
    let secrets : scalar_list := [private_key, commitment_secret]
    let publics : point_ring := [[public_key], [ec_point.sub C commit_a output_commit]]
    (for_loop decoys (fun i publics =>
      (hash_to_point_scalar C fuel (value_to_scalar (i + 110))).bind (fun decoy_public_key =>
      (hash_to_point_scalar C fuel (value_to_scalar (i + 4))).map (fun decoy_commit =>
        push_back2 (push_back2 publics 0 decoy_public_key) 1
          (ec_point.sub C decoy_commit output_commit)))) publics).map (fun publics =>
      (secrets, publics)))

/-- The secrets and the ring of `ring_ct_simple`, with the constants of the
source. -/
def ring_ct_simple_inputs (C : Primitives) (fuel : Nat) : Option (scalar_list × point_ring) :=
  ring_ct_inputs C fuel BLIND_A BLIND_B BLIND_C 10000 7000 3000 PRIVATE_KEY 100000

/-- The commitment `blind * G + value * H` of `ring_ct_simple`. -/
def commit (C : Primitives) (H : ec_point) (blind : ec_secret) (value : Nat) : ec_point :=
  ec_point.add C (ec_point.smul C (ec_scalar.of_secret blind) ec_point.G)
    (ec_point.smul C (value_to_scalar value) H)

namespace toy

/-- The point `H` of `ring_ct_simple` on the reference instance. -/
def H_point : ec_point :=
  (hash_to_point_scalar primitives fuel (value_to_scalar 0xdeadbeef)).getD ec_point.default

end toy

end libbitcoin

namespace libbitcoin

/-! ## `borromean_hash2` (paralsg.cpp, lines 290-330) -/

/-- `borromean_hash2`: the buffer is built as in `borromean_hash`, and the
digest is copied over the bytes of `result.secret()`; the flag of `result` is
not written. -/
def borromean_hash2 (C : Primitives) (M : hash_digest) (left right : point_ring)
    (index : Nat) (result : ec_scalar) : Option ec_scalar :=
  if left.length ≠ right.length then none
  else
    (for_loop left.length (fun i input_data =>
      (at2 left i index).bind (fun l =>
      (at2 right i index).map (fun r => input_data ++ l.point ++ r.point))) []).map
      (fun input_data =>
        let data : data_chunk := List.replicate (hash_size + input_data.length + 4) 0
        let data1 := overwrite_front data (M ++ input_data ++ be_bytes 4 index)
        let hash := C.sha256_hash data1
        ⟨result.valid_, overwrite_front result.scalar_ hash⟩)

/-! ## The sharded column loops of `examples/paralsg3.cpp`

`mlsag_sign` and `mlsag_verify` of `paralsg3.cpp` are those of `paralsg.cpp`
with the column loop cut into the sections `[start_j, end_j)` of
`number_threads` threads.  The threads write to different cells; a run of the
threads is modelled as the run of their sections one after the other, in the
order given by a schedule. -/

/-- A loop `for (j = start_j; j < end_j; ++j)`. -/
def for_range {σ : Type} (start_j end_j : Nat) (body : Nat → σ → Option σ) (init : σ) :
    Option σ :=
  for_loop (end_j - start_j) (fun k s => body (start_j + k) s) init

/-- The body `L = sG + cP`, `R = sH(P) + cI` of `compute_section` in `mlsag_sign`
of `paralsg3.cpp`, where `hash_to_point(publics[i][j])` is computed in place. -/
def fill_cell3 (C : Primitives) (fuel : Nat) (publics : point_ring)
    (salts : scalar_table) (challenges : scalar_list) (key_images : point_list)
    (i j : Nat) (lr : point_ring × point_ring) : Option (point_ring × point_ring) :=
  (at2 salts i j).bind (fun s =>
  (challenges.get? j).bind (fun c =>
  (at2 publics i j).bind (fun p =>
  (hash_to_point C fuel p).bind (fun hp =>
  (key_images.get? i).map (fun image =>
    (set2 lr.1 i j (ec_point.add C (ec_point.smul C s ec_point.G) (ec_point.smul C c p)),
     set2 lr.2 i j (ec_point.add C (ec_point.smul C s hp) (ec_point.smul C c image))))))))

/-- The lambda `compute_section` of `mlsag_sign` (paralsg3.cpp, lines 251-272). -/
def sign_section (C : Primitives) (fuel : Nat) (publics : point_ring)
    (salts : scalar_table) (challenges : scalar_list) (key_images : point_list)
    (rows_size : Nat) (start_j end_j skip_index : Nat) (lr : point_ring × point_ring) :
    Option (point_ring × point_ring) :=
  for_range start_j end_j (fun j lr =>
    if j = skip_index then some lr
    else
      for_loop rows_size (fun i lr =>
        fill_cell3 C fuel publics salts challenges key_images i j lr) lr) lr

/-- The lambda `compute_section` of `mlsag_verify` (paralsg3.cpp, lines 385-400). -/
def verify_section (C : Primitives) (publics hashed_publics : point_ring)
    (signature_salts : scalar_table) (challenges : scalar_list) (key_images : point_list)
    (rows_size : Nat) (start_j end_j : Nat) (lr : point_ring × point_ring) :
    Option (point_ring × point_ring) :=
  for_range start_j end_j (fun j lr =>
    for_loop rows_size (fun i lr =>
      fill_cell C publics hashed_publics signature_salts challenges key_images i j lr) lr) lr

/-- `work_per_thread = columns_size / number_threads`; `none` is the division
by zero. -/
def work_per_thread (columns_size number_threads : Nat) : Option Nat :=
  if number_threads = 0 then none else some (columns_size / number_threads)

/-- `start_j = thread_id * work_per_thread`. -/
def shard_start (work : Nat) (thread_id : Nat) : Nat := thread_id * work

/-- The value of `end_j` that is passed to the thread: `start_j +
work_per_thread`, and `columns_size` for the last thread. -/
def shard_end (columns_size number_threads work : Nat) (thread_id : Nat) : Nat :=
  if thread_id = number_threads - 1 then columns_size
  else shard_start work thread_id + work

/-- The condition of `BITCOIN_ASSERT(end_j < columns_size)` in the loop that
starts the threads, read before `end_j` is reset for the last thread. -/
def assert_end (columns_size work : Nat) (thread_id : Nat) : Bool :=
  decide (shard_start work thread_id + work < columns_size)

/-- The loop that starts the threads and the joins: thread `thread_id` runs
`compute_section` on `[start_j, end_j)`.  `schedule` lists the thread ids in the
order in which their sections are run.  The assertion on `end_j` is not part of
the run; its condition is `assert_end`. -/
def run_threads {σ : Type} (compute_section : Nat → Nat → σ → Option σ)
    (columns_size number_threads : Nat) (schedule : List Nat) (init : σ) : Option σ :=
  (work_per_thread columns_size number_threads).bind (fun work =>
    schedule.foldl (fun state thread_id =>
      state.bind (compute_section (shard_start work thread_id)
        (shard_end columns_size number_threads work thread_id))) (some init))

/-- The loop "Compute the starting L, R value for our key" of `mlsag_sign` in
`paralsg3.cpp` (lines 197-205). -/
def signer_column3 (C : Primitives) (fuel : Nat) (publics : point_ring)
    (salts : scalar_table) (rows_size index : Nat) (lr : point_ring × point_ring) :
    Option (point_ring × point_ring) :=
  for_loop rows_size (fun i lr =>
    (at2 salts i index).bind (fun s =>
    (at2 publics i index).bind (fun p =>
    (hash_to_point C fuel p).map (fun hp =>
      (set2 lr.1 i index (ec_point.smul C s ec_point.G),
       set2 lr.2 i index (ec_point.smul C s hp)))))) lr

/-- The body of `mlsag_sign` of `paralsg3.cpp`, run with `number_threads`
threads in the order `schedule`; the draws are as in `mlsag_sign_run`. -/
def mlsag_sign_run3 (C : Primitives) (fuel : Nat) (secrets : scalar_list)
    (publics : point_ring) (index : Nat)
    (salt_draws : Nat → Nat → ec_secret) (challenge_draws : Nat → ec_secret)
    (number_threads : Nat) (schedule : List Nat) : Option sign_state :=
  let rows_size := publics.length
  if secrets.length ≠ rows_size then none
  else if rows_size = 0 then none
  else
    (publics.get? 0).bind (fun row0 =>
    let columns_size := row0.length
    if ¬ index < columns_size then none
    else
      let salts := draw_salts rows_size columns_size salt_draws
      (signer_column3 C fuel publics salts rows_size index
        (create_ring rows_size columns_size, create_ring rows_size columns_size)).bind (fun lr0 =>
      let challenges := draw_challenges columns_size challenge_draws
      (make_key_images C fuel secrets).bind (fun key_images =>
      (run_threads (fun start_j end_j lr =>
          sign_section C fuel publics salts challenges key_images rows_size start_j end_j
            index lr)
        columns_size number_threads schedule lr0).bind (fun lr =>
      (hash_rings C deadbeef lr.1 lr.2).bind (fun total_challenge =>
      let challenges1 :=
        challenges.set index (ec_scalar.sub C total_challenge (sum_except_i C challenges index))
      (challenges1.get? index).bind (fun c_index =>
      (close_ring C secrets c_index rows_size index salts).map (fun salts1 =>
        sign_state.mk ⟨key_images, challenges1, salts1⟩ lr.1 lr.2 total_challenge)))))))

/-- `mlsag_sign` of `paralsg3.cpp`: the signature that the run returns. -/
def mlsag_sign3 (C : Primitives) (fuel : Nat) (secrets : scalar_list)
    (publics : point_ring) (index : Nat)
    (salt_draws : Nat → Nat → ec_secret) (challenge_draws : Nat → ec_secret)
    (number_threads : Nat) (schedule : List Nat) : Option mlsag_signature :=
  (mlsag_sign_run3 C fuel secrets publics index salt_draws challenge_draws number_threads
    schedule).map (fun st => st.signature)

/-- `mlsag_verify` of `paralsg3.cpp`, run with `number_threads` threads in the
order `schedule`. -/
def mlsag_verify3 (C : Primitives) (fuel : Nat) (publics : point_ring)
    (signature : mlsag_signature) (number_threads : Nat) (schedule : List Nat) :
    Option Bool :=
  let rows_size := publics.length
  if rows_size = 0 then none
  else
    (publics.get? 0).bind (fun row0 =>
    let columns_size := row0.length
    (hash_publics C fuel publics rows_size columns_size).bind (fun hashed_publics =>
    (run_threads (fun start_j end_j lr =>
        verify_section C publics hashed_publics signature.salts signature.challenges
          signature.key_images rows_size start_j end_j lr)
      columns_size number_threads schedule
      (create_ring rows_size columns_size, create_ring rows_size columns_size)).bind (fun lr =>
    (hash_rings C deadbeef lr.1 lr.2).map (fun total_challenge =>
      ec_scalar.eq (sum_all C signature.challenges) total_challenge))))

/-! ## Statements of the specification: the sharded loops -/

/-- The columns `start_j, ..., end_j - 1` of thread `thread_id`. -/
def shard_columns (columns_size number_threads work : Nat) (thread_id : Nat) : List Nat :=
  List.range' (shard_start work thread_id)
    (shard_end columns_size number_threads work thread_id - shard_start work thread_id)

/-- The cells `(i, j)` of the rows `i < rows_size` in the columns `columns`,
column by column. -/
def column_cells (rows_size : Nat) (columns : List Nat) : List (Nat × Nat) :=
  columns.flatMap (fun j => (List.range rows_size).map (fun i => (i, j)))

/-- The cells that thread `thread_id` of `mlsag_verify` writes. -/
def verify_cells (rows_size columns_size number_threads work : Nat) (thread_id : Nat) :
    List (Nat × Nat) :=
  column_cells rows_size (shard_columns columns_size number_threads work thread_id)

/-- The cells that thread `thread_id` of `mlsag_sign` writes. -/
def sign_cells (rows_size columns_size number_threads work skip_index : Nat)
    (thread_id : Nat) : List (Nat × Nat) :=
  column_cells rows_size
    ((shard_columns columns_size number_threads work thread_id).filter
      (fun j => decide (j ≠ skip_index)))

/-- The two points that the body of the column loops writes to the cell
`(i, j)` of `left_points` and `right_points`, when all its reads succeed, with
the hashed public key read from the table. -/
def cell_values (C : Primitives) (publics hashed_publics : point_ring)
    (salts : scalar_table) (challenges : scalar_list) (key_images : point_list)
    (i j : Nat) : Option (ec_point × ec_point) :=
  (at2 salts i j).bind (fun s =>
  (challenges.get? j).bind (fun c =>
  (at2 publics i j).bind (fun p =>
  (at2 hashed_publics i j).bind (fun hp =>
  (key_images.get? i).map (fun image =>
    (ec_point.add C (ec_point.smul C s ec_point.G) (ec_point.smul C c p),
     ec_point.add C (ec_point.smul C s hp) (ec_point.smul C c image)))))))

/-- The same two points, with the hashed public key computed in place. -/
def cell_values3 (C : Primitives) (fuel : Nat) (publics : point_ring)
    (salts : scalar_table) (challenges : scalar_list) (key_images : point_list)
    (i j : Nat) : Option (ec_point × ec_point) :=
  (at2 salts i j).bind (fun s =>
  (challenges.get? j).bind (fun c =>
  (at2 publics i j).bind (fun p =>
  (hash_to_point C fuel p).bind (fun hp =>
  (key_images.get? i).map (fun image =>
    (ec_point.add C (ec_point.smul C s ec_point.G) (ec_point.smul C c p),
     ec_point.add C (ec_point.smul C s hp) (ec_point.smul C c image)))))))

/-- The write of a pair of points to the cell `(i, j)` of the two tables, if
there is a pair. -/
def write_cell (values : Nat → Nat → Option (ec_point × ec_point)) (i j : Nat)
    (lr : point_ring × point_ring) : Option (point_ring × point_ring) :=
  (values i j).map (fun v => (set2 lr.1 i j v.1, set2 lr.2 i j v.2))

/-- The run of a list of cell bodies, one after the other. -/
def run_cells {σ : Type} (step : Nat → Nat → σ → Option σ) (cells : List (Nat × Nat))
    (init : Option σ) : Option σ :=
  cells.foldl (fun state cell => state.bind (step cell.1 cell.2)) init

end libbitcoin

namespace libbitcoin

/-! ## Statements of the specification: the bytes that `hash_rings` hashes -/

/-- The constant `ec_compressed_size`: the size of the array type
`ec_compressed`. -/
def ec_compressed_size : Nat := 33

/-- Every point of the table holds `ec_compressed_size` bytes, as every value
of the array type `ec_compressed` does. -/
def compressed_ring (ring : point_ring) : Bool :=
  ring.all (fun row => row.all (fun p => p.point.length == ec_compressed_size))

/-- The bytes that `write_item` writes through its serializer for the cell
`(i, j)`: the point, then `i` and `j` on 4 bytes each. -/
def cell_record (ring : point_ring) (i j : Nat) : data_chunk :=
  (point_at ring i j).point ++ be_bytes 4 i ++ be_bytes 4 j

/-- The buffer of `hash_rings` as the specification words it for a message of
`k <= 41` bytes and `m` by `n` tables: the 33 bytes of `right[m-1][n-1]`, then
`m - 1` and `n - 1` as 4-byte big-endian integers, then zero bytes only, up to
the length `k + 82 m n`. -/
def spec_hashed_bytes (k : Nat) (right : point_ring) (m n : Nat) : data_chunk :=
  (point_at right (m - 1) (n - 1)).point ++ be_bytes 4 (m - 1) ++ be_bytes 4 (n - 1)
    ++ List.replicate (k + 82 * m * n - 41) 0

namespace toy

/-- A second table with the cell `[1][1]` of `ring` and other points
elsewhere. -/
def other_ring : point_ring := [[public_key 33, public_key 5], [public_key 44, public_key 78]]

/-- A second message of four bytes. -/
def other_message : data_chunk := [1, 2, 3, 4]

/-- An invalid point whose prefix byte is not the sentinel `0`: the 33 bytes
`04 00 ... 00`. -/
def tagged_point : ec_point := ec_point.of_compressed (4 :: null_hash)

end toy

end libbitcoin
namespace libbitcoin

/-! ## Validity propagation -/

theorem point_is_valid_invalidate (p : ec_point) : p.invalidate.is_valid = false := by
  cases p with
  | mk bs => cases bs <;> simp [ec_point.invalidate, ec_point.is_valid]

theorem scalar_add_valid {C : Primitives} {a b : ec_scalar}
    (h : (ec_scalar.add C a b).valid_ = true) :
    a.valid_ = true ∧ b.valid_ = true ∧ (C.ec_add a.scalar_ b.scalar_).1 = true ∧
      ec_scalar.add C a b = ⟨true, (C.ec_add a.scalar_ b.scalar_).2⟩ := by
  unfold ec_scalar.add at h ⊢
  cases ha : a.valid_ <;> cases hb : b.valid_ <;>
    cases hr : (C.ec_add a.scalar_ b.scalar_).1 <;>
    simp_all [ec_scalar.invalidate]

theorem scalar_mul_valid {C : Primitives} {a b : ec_scalar}
    (h : (ec_scalar.mul C a b).valid_ = true) :
    a.valid_ = true ∧ b.valid_ = true ∧ (C.ec_multiply a.scalar_ b.scalar_).1 = true ∧
      ec_scalar.mul C a b = ⟨true, (C.ec_multiply a.scalar_ b.scalar_).2⟩ := by
  unfold ec_scalar.mul at h ⊢
  cases ha : a.valid_ <;> cases hb : b.valid_ <;>
    cases hr : (C.ec_multiply a.scalar_ b.scalar_).1 <;>
    simp_all [ec_scalar.invalidate]

theorem scalar_neg_valid {C : Primitives} {a : ec_scalar}
    (h : (ec_scalar.neg C a).valid_ = true) :
    a.valid_ = true ∧ (C.ec_negate a.scalar_).1 = true ∧
      ec_scalar.neg C a = ⟨true, (C.ec_negate a.scalar_).2⟩ := by
  unfold ec_scalar.neg at h ⊢
  cases ha : a.valid_ <;> cases hr : (C.ec_negate a.scalar_).1 <;>
    simp_all [ec_scalar.invalidate]

theorem scalar_sub_valid {C : Primitives} {a b : ec_scalar}
    (h : (ec_scalar.sub C a b).valid_ = true) :
    a.valid_ = true ∧ b.valid_ = true ∧ (ec_scalar.neg C b).valid_ = true ∧
      ec_scalar.sub C a b = ec_scalar.add C a (ec_scalar.neg C b) := by
  unfold ec_scalar.sub at h ⊢
  cases ha : a.valid_ <;> cases hb : b.valid_ <;> cases hn : (ec_scalar.neg C b).valid_ <;>
    simp_all [ec_scalar.invalidate]
  · have := scalar_add_valid h
    simp at this

theorem scalar_add_assign_valid {C : Primitives} {a b : ec_scalar}
    (h : (ec_scalar.add_assign C a b).valid_ = true) :
    a.valid_ = true ∧ ec_scalar.add_assign C a b = ec_scalar.add C a b := by
  unfold ec_scalar.add_assign at h ⊢
  cases ha : a.valid_ <;> simp_all

theorem scalar_sub_assign_valid {C : Primitives} {a b : ec_scalar}
    (h : (ec_scalar.sub_assign C a b).valid_ = true) :
    a.valid_ = true ∧ ec_scalar.sub_assign C a b = ec_scalar.sub C a b := by
  unfold ec_scalar.sub_assign at h ⊢
  cases ha : a.valid_ <;> simp_all

theorem point_add_valid {C : Primitives} {p q : ec_point}
    (h : (ec_point.add C p q).is_valid = true) :
    p.is_valid = true ∧ q.is_valid = true ∧ (C.ec_sum p.point_ [p.point_, q.point_]).1 = true ∧
      ec_point.add C p q = ⟨(C.ec_sum p.point_ [p.point_, q.point_]).2⟩ := by
  unfold ec_point.add at h ⊢
  cases hp : p.is_valid <;> cases hq : q.is_valid <;>
    cases hr : (C.ec_sum p.point_ [p.point_, q.point_]).1 <;>
    simp_all [point_is_valid_invalidate]

theorem point_mul_valid {C : Primitives} {p : ec_point} {a : ec_scalar}
    (h : (ec_point.mul C p a).is_valid = true) :
    p.is_valid = true ∧ a.valid_ = true ∧ (C.ec_multiply_point p.point_ a.scalar_).1 = true ∧
      ec_point.mul C p a = ⟨(C.ec_multiply_point p.point_ a.scalar_).2⟩ := by
  unfold ec_point.mul at h ⊢
  cases hp : p.is_valid <;> cases ha : a.valid_ <;>
    cases hr : (C.ec_multiply_point p.point_ a.scalar_).1 <;>
    simp_all [point_is_valid_invalidate, ec_scalar.is_valid, ec_scalar.secret]

theorem point_neg_valid {C : Primitives} {p : ec_point}
    (h : (ec_point.neg C p).is_valid = true) :
    p.is_valid = true ∧ (C.ec_negate_point p.point_).1 = true ∧
      ec_point.neg C p = ⟨(C.ec_negate_point p.point_).2⟩ := by
  unfold ec_point.neg at h ⊢
  cases hp : p.is_valid <;> cases hr : (C.ec_negate_point p.point_).1 <;>
    simp_all [point_is_valid_invalidate]

theorem point_sub_valid {C : Primitives} {p q : ec_point}
    (h : (ec_point.sub C p q).is_valid = true) :
    p.is_valid = true ∧ q.is_valid = true ∧ (ec_point.neg C q).is_valid = true ∧
      ec_point.sub C p q = ec_point.add C p (ec_point.neg C q) := by
  unfold ec_point.sub at h ⊢
  cases hp : p.is_valid <;> cases hq : q.is_valid <;> cases hn : (ec_point.neg C q).is_valid <;>
    simp_all [point_is_valid_invalidate]
  · have := point_add_valid h
    simp [point_is_valid_invalidate] at this

theorem point_add_assign_valid {C : Primitives} {p q : ec_point}
    (h : (ec_point.add_assign C p q).is_valid = true) :
    p.is_valid = true ∧ ec_point.add_assign C p q = ec_point.add C p q := by
  unfold ec_point.add_assign at h ⊢
  cases hp : p.is_valid <;> simp_all

theorem point_sub_assign_valid {C : Primitives} {p q : ec_point}
    (h : (ec_point.sub_assign C p q).is_valid = true) :
    p.is_valid = true ∧ ec_point.sub_assign C p q = ec_point.sub C p q := by
  unfold ec_point.sub_assign at h ⊢
  cases hp : p.is_valid <;> simp_all

theorem bool_false_of_not_true {b : Bool} (h : b = true → False) : b = false := by
  cases b
  · rfl
  · exact absurd rfl h

/-- C9: scalar validity propagation.  An invalid operand makes `a + b`, `a - b`,
`a * b`, `-a` invalid and leaves `a` invalid after `a += b` and `a -= b`; and a
failure reported by `ec_add`, `ec_multiply` or `ec_negate` on the operands'
bytes makes the result of the operator that calls it invalid. -/
theorem C9_scalar_validity_propagation (C : Primitives) (a b : ec_scalar) :
    ((a.is_valid = false ∨ b.is_valid = false) →
        (ec_scalar.add C a b).is_valid = false ∧
        (ec_scalar.sub C a b).is_valid = false ∧
        (ec_scalar.mul C a b).is_valid = false ∧
        (ec_scalar.add_assign C a b).is_valid = false ∧
        (ec_scalar.sub_assign C a b).is_valid = false) ∧
    (a.is_valid = false → (ec_scalar.neg C a).is_valid = false) ∧
    ((C.ec_add a.scalar_ b.scalar_).1 = false →
        (ec_scalar.add C a b).is_valid = false ∧
        (ec_scalar.add_assign C a b).is_valid = false) ∧
    ((C.ec_multiply a.scalar_ b.scalar_).1 = false →
        (ec_scalar.mul C a b).is_valid = false) ∧
    ((C.ec_negate a.scalar_).1 = false → (ec_scalar.neg C a).is_valid = false) ∧
    ((C.ec_negate b.scalar_).1 = false ∨
      (C.ec_add a.scalar_ (C.ec_negate b.scalar_).2).1 = false →
        (ec_scalar.sub C a b).is_valid = false ∧
        (ec_scalar.sub_assign C a b).is_valid = false) := by
  have hadd : ∀ x y : ec_scalar, (x.valid_ = false ∨ y.valid_ = false ∨
      (C.ec_add x.scalar_ y.scalar_).1 = false) → (ec_scalar.add C x y).valid_ = false := by
    intro x y h
    apply bool_false_of_not_true
    intro hv
    obtain ⟨h1, h2, h3, _⟩ := scalar_add_valid hv
    rcases h with h | h | h <;> simp_all
  have hmul : (a.valid_ = false ∨ b.valid_ = false ∨
      (C.ec_multiply a.scalar_ b.scalar_).1 = false) → (ec_scalar.mul C a b).valid_ = false := by
    intro h
    apply bool_false_of_not_true
    intro hv
    obtain ⟨h1, h2, h3, _⟩ := scalar_mul_valid hv
    rcases h with h | h | h <;> simp_all
  have hneg : ∀ x : ec_scalar, (x.valid_ = false ∨ (C.ec_negate x.scalar_).1 = false) →
      (ec_scalar.neg C x).valid_ = false := by
    intro x h
    apply bool_false_of_not_true
    intro hv
    obtain ⟨h1, h2, _⟩ := scalar_neg_valid hv
    rcases h with h | h <;> simp_all
  have hsub : (a.valid_ = false ∨ b.valid_ = false ∨ (C.ec_negate b.scalar_).1 = false ∨
      (C.ec_add a.scalar_ (C.ec_negate b.scalar_).2).1 = false) →
      (ec_scalar.sub C a b).valid_ = false := by
    intro h
    apply bool_false_of_not_true
    intro hv
    obtain ⟨h1, h2, h3, h4⟩ := scalar_sub_valid hv
    obtain ⟨_, h5, h6⟩ := scalar_neg_valid h3
    rw [h4] at hv
    obtain ⟨_, _, h7, _⟩ := scalar_add_valid hv
    rw [h6] at h7
    rcases h with h | h | h | h <;> simp_all
  have hadda : (a.valid_ = false ∨ b.valid_ = false ∨
      (C.ec_add a.scalar_ b.scalar_).1 = false) →
      (ec_scalar.add_assign C a b).valid_ = false := by
    intro h
    apply bool_false_of_not_true
    intro hv
    obtain ⟨_, h2⟩ := scalar_add_assign_valid hv
    rw [h2, hadd a b h] at hv
    exact Bool.false_ne_true hv
  have hsuba : (a.valid_ = false ∨ b.valid_ = false ∨ (C.ec_negate b.scalar_).1 = false ∨
      (C.ec_add a.scalar_ (C.ec_negate b.scalar_).2).1 = false) →
      (ec_scalar.sub_assign C a b).valid_ = false := by
    intro h
    apply bool_false_of_not_true
    intro hv
    obtain ⟨_, h2⟩ := scalar_sub_assign_valid hv
    rw [h2, hsub h] at hv
    exact Bool.false_ne_true hv
  simp only [ec_scalar.is_valid]
  refine ⟨fun h => ⟨hadd a b ?_, hsub ?_, hmul ?_, hadda ?_, hsuba ?_⟩, fun h => hneg a (Or.inl h),
    fun h => ⟨hadd a b (Or.inr (Or.inr h)), hadda (Or.inr (Or.inr h))⟩,
    fun h => hmul (Or.inr (Or.inr h)), fun h => hneg a (Or.inr h),
    fun h => ⟨hsub (Or.inr (Or.inr h)), hsuba (Or.inr (Or.inr h))⟩⟩ <;>
  · rcases h with h | h
    · exact Or.inl h
    · exact Or.inr (Or.inl h)

/-- C10: point validity propagation.  An invalid operand makes `p + q`, `p - q`,
`p * a`, `a * p` and `-p` invalid and leaves `p` invalid after `p += q` and
`p -= q`; and a failure reported by `ec_sum`, `ec_multiply` or `ec_negate` makes
the result of the operator that calls it invalid. -/
theorem C10_point_validity_propagation (C : Primitives) (p q : ec_point) (a : ec_scalar) :
    ((p.is_valid = false ∨ q.is_valid = false) →
        (ec_point.add C p q).is_valid = false ∧
        (ec_point.sub C p q).is_valid = false ∧
        (ec_point.add_assign C p q).is_valid = false ∧
        (ec_point.sub_assign C p q).is_valid = false) ∧
    ((p.is_valid = false ∨ a.is_valid = false) →
        (ec_point.mul C p a).is_valid = false ∧
        (ec_point.smul C a p).is_valid = false) ∧
    (p.is_valid = false → (ec_point.neg C p).is_valid = false) ∧
    ((C.ec_sum p.point_ [p.point_, q.point_]).1 = false →
        (ec_point.add C p q).is_valid = false ∧
        (ec_point.add_assign C p q).is_valid = false) ∧
    ((C.ec_multiply_point p.point_ a.secret).1 = false →
        (ec_point.mul C p a).is_valid = false ∧
        (ec_point.smul C a p).is_valid = false) ∧
    ((C.ec_negate_point p.point_).1 = false → (ec_point.neg C p).is_valid = false) ∧
    ((C.ec_negate_point q.point_).1 = false ∨
      (C.ec_sum p.point_ [p.point_, (C.ec_negate_point q.point_).2]).1 = false →
        (ec_point.sub C p q).is_valid = false ∧
        (ec_point.sub_assign C p q).is_valid = false) := by
  have hadd : ∀ x y : ec_point, (x.is_valid = false ∨ y.is_valid = false ∨
      (C.ec_sum x.point_ [x.point_, y.point_]).1 = false) →
      (ec_point.add C x y).is_valid = false := by
    intro x y h
    apply bool_false_of_not_true
    intro hv
    obtain ⟨h1, h2, h3, _⟩ := point_add_valid hv
    rcases h with h | h | h <;> simp_all
  have hmul : (p.is_valid = false ∨ a.valid_ = false ∨
      (C.ec_multiply_point p.point_ a.scalar_).1 = false) →
      (ec_point.mul C p a).is_valid = false := by
    intro h
    apply bool_false_of_not_true
    intro hv
    obtain ⟨h1, h2, h3, _⟩ := point_mul_valid hv
    rcases h with h | h | h <;> simp_all
  have hneg : ∀ x : ec_point, (x.is_valid = false ∨ (C.ec_negate_point x.point_).1 = false) →
      (ec_point.neg C x).is_valid = false := by
    intro x h
    apply bool_false_of_not_true
    intro hv
    obtain ⟨h1, h2, _⟩ := point_neg_valid hv
    rcases h with h | h <;> simp_all
  have hsub : (p.is_valid = false ∨ q.is_valid = false ∨
      (C.ec_negate_point q.point_).1 = false ∨
      (C.ec_sum p.point_ [p.point_, (C.ec_negate_point q.point_).2]).1 = false) →
      (ec_point.sub C p q).is_valid = false := by
    intro h
    apply bool_false_of_not_true
    intro hv
    obtain ⟨h1, h2, h3, h4⟩ := point_sub_valid hv
    obtain ⟨_, h5, h6⟩ := point_neg_valid h3
    rw [h4] at hv
    obtain ⟨_, _, h7, _⟩ := point_add_valid hv
    rw [h6] at h7
    rcases h with h | h | h | h <;> simp_all
  have hadda : (p.is_valid = false ∨ q.is_valid = false ∨
      (C.ec_sum p.point_ [p.point_, q.point_]).1 = false) →
      (ec_point.add_assign C p q).is_valid = false := by
    intro h
    apply bool_false_of_not_true
    intro hv
    obtain ⟨_, h2⟩ := point_add_assign_valid hv
    rw [h2, hadd p q h] at hv
    exact Bool.false_ne_true hv
  have hsuba : (p.is_valid = false ∨ q.is_valid = false ∨
      (C.ec_negate_point q.point_).1 = false ∨
      (C.ec_sum p.point_ [p.point_, (C.ec_negate_point q.point_).2]).1 = false) →
      (ec_point.sub_assign C p q).is_valid = false := by
    intro h
    apply bool_false_of_not_true
    intro hv
    obtain ⟨_, h2⟩ := point_sub_assign_valid hv
    rw [h2, hsub h] at hv
    exact Bool.false_ne_true hv
  simp only [ec_scalar.is_valid, ec_scalar.secret, ec_point.smul]
  refine ⟨fun h => ⟨hadd p q ?_, hsub ?_, hadda ?_, hsuba ?_⟩,
    fun h => ⟨hmul ?_, hmul ?_⟩, fun h => hneg p (Or.inl h),
    fun h => ⟨hadd p q (Or.inr (Or.inr h)), hadda (Or.inr (Or.inr h))⟩,
    fun h => ⟨hmul (Or.inr (Or.inr h)), hmul (Or.inr (Or.inr h))⟩,
    fun h => hneg p (Or.inr h),
    fun h => ⟨hsub (Or.inr (Or.inr h)), hsuba (Or.inr (Or.inr h))⟩⟩ <;>
  · rcases h with h | h
    · exact Or.inl h
    · exact Or.inr (Or.inl h)

end libbitcoin

namespace libbitcoin

/-- Witness of C9 on the reference instance: an invalidated operand, the sum
`1 + (n - 1)` that `ec_add` rejects, the product by zero that `ec_multiply`
rejects, and the negation of zero that the strict `ec_negate` rejects. -/
theorem C9_scalar_validity_propagation_witness :
    ((ec_scalar.add toy.primitives (toy.scalar 1).invalidate (toy.scalar 2)).is_valid = false ∧
      (ec_scalar.sub toy.primitives (toy.scalar 1).invalidate (toy.scalar 2)).is_valid = false ∧
      (ec_scalar.mul toy.primitives (toy.scalar 1).invalidate (toy.scalar 2)).is_valid = false ∧
      (ec_scalar.add_assign toy.primitives (toy.scalar 1).invalidate (toy.scalar 2)).is_valid
        = false ∧
      (ec_scalar.sub_assign toy.primitives (toy.scalar 1).invalidate (toy.scalar 2)).is_valid
        = false) ∧
    (ec_scalar.neg toy.primitives (toy.scalar 1).invalidate).is_valid = false ∧
    ((ec_scalar.add toy.primitives (toy.scalar 1) (toy.scalar (curve_order - 1))).is_valid
        = false ∧
      (ec_scalar.add_assign toy.primitives (toy.scalar 1)
        (toy.scalar (curve_order - 1))).is_valid = false) ∧
    (ec_scalar.mul toy.primitives (toy.scalar 1) (toy.scalar 0)).is_valid = false ∧
    (ec_scalar.neg toy.strict_primitives (toy.scalar 0)).is_valid = false ∧
    ((ec_scalar.sub toy.primitives (toy.scalar 1) (toy.scalar 1)).is_valid = false ∧
      (ec_scalar.sub_assign toy.primitives (toy.scalar 1) (toy.scalar 1)).is_valid = false) :=
  ⟨(C9_scalar_validity_propagation toy.primitives (toy.scalar 1).invalidate (toy.scalar 2)).1
      (Or.inl rfl),
   (C9_scalar_validity_propagation toy.primitives (toy.scalar 1).invalidate (toy.scalar 2)).2.1
      rfl,
   (C9_scalar_validity_propagation toy.primitives (toy.scalar 1)
      (toy.scalar (curve_order - 1))).2.2.1 (by decide),
   (C9_scalar_validity_propagation toy.primitives (toy.scalar 1) (toy.scalar 0)).2.2.2.1
      (by decide),
   (C9_scalar_validity_propagation toy.strict_primitives (toy.scalar 0)
      (toy.scalar 0)).2.2.2.2.1 (by decide),
   (C9_scalar_validity_propagation toy.primitives (toy.scalar 1) (toy.scalar 1)).2.2.2.2.2
      (Or.inr (by decide))⟩

/-- Witness of C10 on the reference instance: the invalidated generator, the
sum `G + (n - 1) G` that `ec_sum` rejects, the product by the zero scalar, and
the negation of a point with a valid prefix that is not on the curve. -/
theorem C10_point_validity_propagation_witness :
    ((ec_point.add toy.primitives ec_point.G.invalidate ec_point.G).is_valid = false ∧
      (ec_point.sub toy.primitives ec_point.G.invalidate ec_point.G).is_valid = false ∧
      (ec_point.add_assign toy.primitives ec_point.G.invalidate ec_point.G).is_valid = false ∧
      (ec_point.sub_assign toy.primitives ec_point.G.invalidate ec_point.G).is_valid = false) ∧
    ((ec_point.mul toy.primitives ec_point.G (toy.scalar 1).invalidate).is_valid = false ∧
      (ec_point.smul toy.primitives (toy.scalar 1).invalidate ec_point.G).is_valid = false) ∧
    (ec_point.neg toy.primitives ec_point.G.invalidate).is_valid = false ∧
    ((ec_point.add toy.primitives ec_point.G (toy.public_key (curve_order - 1))).is_valid
        = false ∧
      (ec_point.add_assign toy.primitives ec_point.G
        (toy.public_key (curve_order - 1))).is_valid = false) ∧
    ((ec_point.mul toy.primitives ec_point.G (toy.scalar 0)).is_valid = false ∧
      (ec_point.smul toy.primitives (toy.scalar 0) ec_point.G).is_valid = false) ∧
    (ec_point.neg toy.primitives ⟨2 :: null_hash⟩).is_valid = false ∧
    ((ec_point.sub toy.primitives ec_point.G ec_point.G).is_valid = false ∧
      (ec_point.sub_assign toy.primitives ec_point.G ec_point.G).is_valid = false) :=
  ⟨(C10_point_validity_propagation toy.primitives ec_point.G.invalidate ec_point.G
      (toy.scalar 1)).1 (Or.inl rfl),
   (C10_point_validity_propagation toy.primitives ec_point.G ec_point.G
      (toy.scalar 1).invalidate).2.1 (Or.inr rfl),
   (C10_point_validity_propagation toy.primitives ec_point.G.invalidate ec_point.G
      (toy.scalar 1)).2.2.1 rfl,
   (C10_point_validity_propagation toy.primitives ec_point.G (toy.public_key (curve_order - 1))
      (toy.scalar 1)).2.2.2.1 (by decide),
   (C10_point_validity_propagation toy.primitives ec_point.G ec_point.G
      (toy.scalar 0)).2.2.2.2.1 (by decide),
   (C10_point_validity_propagation toy.primitives ⟨2 :: null_hash⟩ ec_point.G
      (toy.scalar 1)).2.2.2.2.2.1 (by decide),
   (C10_point_validity_propagation toy.primitives ec_point.G ec_point.G
      (toy.scalar 1)).2.2.2.2.2.2 (Or.inr (by decide))⟩

end libbitcoin

namespace libbitcoin

/-! ## Loops and tables -/

theorem for_loop_succ {σ : Type} (n : Nat) (body : Nat → σ → Option σ) (init : σ) :
    for_loop (n + 1) body init = (for_loop n body init).bind (body n) := rfl

/-- The invariant rule for a counted loop whose body does not fail while the
invariant holds. -/
theorem for_loop_inv {σ : Type} (Inv : Nat → σ → Prop) (body : Nat → σ → Option σ) (init : σ)
    (n : Nat) (h0 : Inv 0 init)
    (hstep : ∀ k s, k < n → Inv k s → ∃ s', body k s = some s' ∧ Inv (k + 1) s') :
    ∃ s, for_loop n body init = some s ∧ Inv n s := by
  induction n with
  | zero => exact ⟨init, rfl, h0⟩
  | succ k ih =>
    obtain ⟨s, hs, hinv⟩ := ih (fun j s hj => hstep j s (Nat.lt_succ_of_lt hj))
    obtain ⟨s', hs', hinv'⟩ := hstep k s (Nat.lt_succ_self k) hinv
    exact ⟨s', by rw [for_loop_succ, hs]; exact hs', hinv'⟩

/-- A loop whose step `k` extends the set of finished cells by `D k` finishes
the union of these sets. -/
theorem for_loop_cover {σ : Type} (P : (Nat → Nat → Bool) → σ → Prop)
    (D : Nat → Nat → Nat → Bool) (body : Nat → σ → Option σ) (K : Nat)
    (hbody : ∀ k d s, k < K → P d s →
      ∃ s', body k s = some s' ∧ P (fun a b => d a b || D k a b) s')
    (d : Nat → Nat → Bool) (init : σ) (h0 : P d init) :
    ∃ s, for_loop K body init = some s ∧
      P (fun a b => d a b || (List.range K).any (fun k => D k a b)) s := by
  have h := for_loop_inv
    (fun k s => P (fun a b => d a b || (List.range k).any (fun k => D k a b)) s) body init K
    (by simpa using h0)
    (by
      intro k s hk hinv
      obtain ⟨s', hs', hP⟩ := hbody k _ s hk hinv
      refine ⟨s', hs', ?_⟩
      have : (fun a b => (d a b || (List.range k).any (fun k => D k a b)) || D k a b)
          = (fun a b => d a b || (List.range (k + 1)).any (fun k => D k a b)) := by
        funext a b
        simp [List.range_succ, Bool.or_assoc]
      show P (fun a b => d a b || (List.range (k + 1)).any (fun k => D k a b)) s'
      rw [← this]
      exact hP)
  exact h

theorem at2_eq {α : Type} (t : List (List α)) (i j : Nat) :
    at2 t i j = (t[i]?).bind (fun row => row[j]?) := by
  simp [at2]

theorem at2_some_of_table {α : Type} {t : List (List α)} {m n i j : Nat}
    (ht : is_table t m n) (hi : i < m) (hj : j < n) : ∃ v, at2 t i j = some v := by
  obtain ⟨hlen, hrows⟩ := ht
  have hi' : i < t.length := by omega
  have hrow : (t[i]).length = n := hrows _ (List.getElem_mem _)
  have hj' : j < (t[i]).length := by omega
  refine ⟨(t[i])[j], ?_⟩
  rw [at2_eq, List.getElem?_eq_getElem hi']
  simp [List.getElem?_eq_getElem hj']

theorem at2_getD {α : Type} {t : List (List α)} {m n i j : Nat} (d : α)
    (ht : is_table t m n) (hi : i < m) (hj : j < n) :
    at2 t i j = some ((at2 t i j).getD d) := by
  obtain ⟨v, hv⟩ := at2_some_of_table ht hi hj
  simp [hv]

theorem is_table_set2 {α : Type} {t : List (List α)} {m n : Nat} (ht : is_table t m n)
    (i j : Nat) (v : α) : is_table (set2 t i j v) m n := by
  obtain ⟨hlen, hrows⟩ := ht
  refine ⟨by simp [set2, hlen], ?_⟩
  intro row hrow
  unfold set2 at hrow
  by_cases hi : i < t.length
  · rcases List.mem_or_eq_of_mem_set hrow with h | h
    · exact hrows row h
    · subst h
      rw [List.length_set, List.getD_eq_getElem _ _ hi]
      exact hrows _ (List.getElem_mem _)
  · rw [List.set_eq_of_length_le (by omega)] at hrow
    exact hrows row hrow

theorem at2_set2 {α : Type} {t : List (List α)} {m n i j : Nat} (ht : is_table t m n)
    (hi : i < m) (hj : j < n) (v : α) (a b : Nat) :
    at2 (set2 t i j v) a b = if a = i ∧ b = j then some v else at2 t a b := by
  obtain ⟨hlen, hrows⟩ := ht
  have hi' : i < t.length := by omega
  have hrow : (t[i]).length = n := hrows _ (List.getElem_mem _)
  simp only [at2_eq, set2]
  by_cases ha : a = i
  · subst ha
    rw [List.getElem?_set_self hi', List.getD_eq_getElem _ _ hi']
    simp only [Option.some_bind, true_and]
    by_cases hb : b = j
    · subst hb
      rw [List.getElem?_set_self (by omega)]
      simp
    · rw [List.getElem?_set_ne (fun h => hb h.symm)]
      simp [hb, List.getElem?_eq_getElem hi']
  · rw [List.getElem?_set_ne (fun h => ha h.symm)]
    simp [ha]

theorem is_table_replicate {α : Type} (m n : Nat) (v : α) :
    is_table (List.replicate m (List.replicate n v)) m n := by
  refine ⟨by simp, ?_⟩
  intro row hrow
  rw [List.eq_of_mem_replicate hrow]
  simp

theorem at2_replicate {α : Type} {m n a b : Nat} (v : α) (ha : a < m) (hb : b < n) :
    at2 (List.replicate m (List.replicate n v)) a b = some v := by
  simp [at2_eq, List.getElem?_replicate, ha, hb]

theorem is_table_tabulate {α : Type} (m n : Nat) (f : Nat → Nat → α) :
    is_table (tabulate m n f) m n := by
  refine ⟨by simp [tabulate], ?_⟩
  intro row hrow
  simp only [tabulate, List.mem_map] at hrow
  obtain ⟨i, _, rfl⟩ := hrow
  simp

theorem at2_tabulate {α : Type} {m n a b : Nat} (f : Nat → Nat → α) (ha : a < m) (hb : b < n) :
    at2 (tabulate m n f) a b = some (f a b) := by
  simp [at2_eq, tabulate, List.getElem?_map, List.getElem?_range, ha, hb]

theorem table_ext {α : Type} {t t' : List (List α)} {m n : Nat} (ht : is_table t m n)
    (ht' : is_table t' m n) (h : ∀ a b, a < m → b < n → at2 t a b = at2 t' a b) : t = t' := by
  obtain ⟨hlen, hrows⟩ := ht
  obtain ⟨hlen', hrows'⟩ := ht'
  apply List.ext_getElem (by omega)
  intro a ha ha'
  have hr : (t[a]).length = n := hrows _ (List.getElem_mem _)
  have hr' : (t'[a]).length = n := hrows' _ (List.getElem_mem _)
  apply List.ext_getElem (by omega)
  intro b hb hb'
  have := h a b (by omega) (by omega)
  simp only [at2_eq, List.getElem?_eq_getElem ha, List.getElem?_eq_getElem ha',
    Option.some_bind, List.getElem?_eq_getElem hb, List.getElem?_eq_getElem hb'] at this
  exact Option.some.inj this

end libbitcoin

namespace libbitcoin

/-! ## The buffer of `hash_rings` -/

theorem length_overwrite_front (data w : data_chunk) :
    (overwrite_front data w).length = data.length := by
  simp only [overwrite_front, List.length_append, List.length_take, List.length_drop]
  omega

theorem write_item_some {ring : point_ring} {m n i j : Nat} (data : data_chunk)
    (ht : is_table ring m n) (hi : i < m) (hj : j < n) :
    ∃ data1, write_item data ring i j = some data1 ∧ data1.length = data.length + 41 := by
  obtain ⟨p, hp⟩ := at2_some_of_table ht hi hj
  refine ⟨_, by simp only [write_item, hp, Option.map_some']; rfl, ?_⟩
  simp [length_overwrite_front, row_data_size]

theorem hash_rings_data_some (message : data_chunk) {left right : point_ring} {m n : Nat}
    (hm : 0 < m) (hl : is_table left m n) (hr : is_table right m n) :
    ∃ data, hash_rings_data message left right = some data ∧
      data.length = message.length + 82 * m * n := by
  obtain ⟨row0, h0, hn⟩ : ∃ row0, left.get? 0 = some row0 ∧ row0.length = n := by
    have h0 : 0 < left.length := by rw [hl.1]; exact hm
    refine ⟨left[0], by simp [List.getElem?_eq_getElem h0], hl.2 _ (List.getElem_mem _)⟩
  have hinner : ∀ i, i < m → ∀ data : data_chunk, ∃ data1,
      for_loop n (fun j data =>
          (write_item data left i j).bind (fun data1 => write_item data1 right i j)) data
        = some data1 ∧ data1.length = data.length + 82 * n := by
    intro i hi data
    have h := for_loop_inv (fun k (d : data_chunk) => d.length = data.length + 82 * k)
      (fun j data => (write_item data left i j).bind (fun data1 => write_item data1 right i j))
      data n (by simp)
      (by
        intro k s hk hs
        obtain ⟨d1, hd1, hl1⟩ := write_item_some s hl hi hk
        obtain ⟨d2, hd2, hl2⟩ := write_item_some d1 hr hi hk
        refine ⟨d2, by simp [hd1, hd2], ?_⟩
        omega)
    exact h
  have houter := for_loop_inv
    (fun k (d : data_chunk) => d.length = message.length + 82 * n * k)
    (fun i data => for_loop n (fun j data =>
      (write_item data left i j).bind (fun data1 => write_item data1 right i j)) data)
    message m (by simp)
    (by
      intro k s hk hs
      obtain ⟨d1, hd1, hl1⟩ := hinner k hk s
      refine ⟨d1, hd1, ?_⟩
      show d1.length = message.length + 82 * n * (k + 1)
      rw [hl1, hs]
      ring)
  obtain ⟨data, hdata, hlen⟩ := houter
  refine ⟨data, ?_, by rw [hlen]; ring⟩
  unfold hash_rings_data
  simp only [hl.1, hr.1, ne_eq, not_true_eq_false, if_false, h0, Option.some_bind, hn]
  rw [if_neg (by omega)]
  exact hdata

theorem hash_rings_some (C : Primitives) (message : data_chunk) {left right : point_ring}
    {m n : Nat} (hm : 0 < m) (hl : is_table left m n) (hr : is_table right m n) :
    ∃ e, hash_rings C message left right = some e ∧ e.valid_ = true := by
  obtain ⟨data, hdata, _⟩ := hash_rings_data_some message hm hl hr
  exact ⟨ec_scalar.of_secret (C.sha256_hash data),
    by simp only [hash_rings, hdata, Option.map_some'], rfl⟩

/-- C3, as amended: on `m` by `n` tables with `m > 0`, `hash_rings` returns the
SHA-256 of a buffer of `|M| + 82 m n` bytes, the length of the message plus a
41-byte record (33 point bytes and two 4-byte indices) for each of the two
points of each cell. -/
theorem C3_hash_rings_layout (C : Primitives) (message : data_chunk)
    (left right : point_ring) (m n : Nat) (hm : 0 < m)
    (hl : is_table left m n) (hr : is_table right m n) :
    ∃ data, hash_rings_data message left right = some data ∧
      data.length = message.length + 2 * (m * n) * row_data_size ∧
      hash_rings C message left right = some (ec_scalar.of_secret (C.sha256_hash data)) := by
  obtain ⟨data, hdata, hlen⟩ := hash_rings_data_some message hm hl hr
  refine ⟨data, hdata, ?_, by simp only [hash_rings, hdata, Option.map_some']⟩
  rw [hlen, row_data_size]
  ring

/-- Witness of C3 as amended: the one-cell tables `[[G]]`, `[[G]]`. -/
theorem C3_hash_rings_layout_witness :
    ∃ data, hash_rings_data deadbeef [[ec_point.G]] [[ec_point.G]] = some data ∧
      data.length = deadbeef.length + 2 * (1 * 1) * row_data_size ∧
      hash_rings toy.primitives deadbeef [[ec_point.G]] [[ec_point.G]]
        = some (ec_scalar.of_secret (toy.primitives.sha256_hash data)) :=
  C3_hash_rings_layout toy.primitives deadbeef [[ec_point.G]] [[ec_point.G]] 1 1
    (by decide) ⟨rfl, by simp⟩ ⟨rfl, by simp⟩

/-- Counterexample to C3 as stated: for the message `deadbeef` and the one-cell
tables `[[G]]`, `[[G]]` the buffer that is hashed is not the message followed by
the 33 bytes of `G` twice; it has 86 bytes, starts with the bytes of `G` and the
indices `0`, `0`, and is zero from there on. -/
theorem C3_counterexample :
    hash_rings_data deadbeef [[ec_point.G]] [[ec_point.G]]
        = some (ec_point.G.point ++ be_bytes 4 0 ++ be_bytes 4 0 ++ List.replicate 45 0) ∧
      hash_rings_data deadbeef [[ec_point.G]] [[ec_point.G]]
        ≠ some (spec_transcript deadbeef [[ec_point.G]] [[ec_point.G]]) ∧
      hash_rings toy.primitives deadbeef [[ec_point.G]] [[ec_point.G]]
        ≠ some (ec_scalar.of_secret (toy.primitives.sha256_hash
            (spec_transcript deadbeef [[ec_point.G]] [[ec_point.G]]))) := by
  set_option maxRecDepth 100000 in
  refine ⟨by decide, by decide, by decide⟩

end libbitcoin

namespace libbitcoin

/-! ## The tables of `mlsag_verify` -/

theorem table_done_set2 {α : Type} {m n : Nat} {f g : Nat → Nat → α} {d : Nat → Nat → Bool}
    {t : List (List α)} (h : table_done m n f g d t) {i j : Nat} (hi : i < m) (hj : j < n) :
    table_done m n f g (fun a b => d a b || (a == i && b == j)) (set2 t i j (f i j)) := by
  refine ⟨is_table_set2 h.1 i j _, ?_⟩
  intro a b ha hb
  rw [at2_set2 h.1 hi hj, h.2 a b ha hb]
  by_cases hab : a = i ∧ b = j
  · obtain ⟨rfl, rfl⟩ := hab
    simp
  · rw [if_neg hab]
    have : (a == i && b == j) = false := by
      rcases not_and_or.mp hab with h' | h' <;> simp [h']
    simp [this]

theorem table_done_congr {α : Type} {m n : Nat} {f g : Nat → Nat → α} {d d' : Nat → Nat → Bool}
    {t : List (List α)} (h : table_done m n f g d t)
    (hd : ∀ a b, a < m → b < n → d a b = d' a b) : table_done m n f g d' t :=
  ⟨h.1, fun a b ha hb => by rw [h.2 a b ha hb, hd a b ha hb]⟩

theorem table_done_replicate {α : Type} (m n : Nat) (f : Nat → Nat → α) (v : α) :
    table_done m n f (fun _ _ => v) (fun _ _ => false)
      (List.replicate m (List.replicate n v)) :=
  ⟨is_table_replicate m n v, fun a b ha hb => by simp [at2_replicate v ha hb]⟩

/-- Two nested loops, columns outside and rows inside, whose body finishes one
cell, finish every cell. -/
theorem columns_cover {σ : Type} (P : (Nat → Nat → Bool) → σ → Prop)
    (step : Nat → Nat → σ → Option σ) (m n : Nat)
    (hstep : ∀ i j d s, i < m → j < n → P d s →
      ∃ s', step i j s = some s' ∧ P (fun a b => d a b || (a == i && b == j)) s')
    (skip : Nat → Bool) (d : Nat → Nat → Bool) (init : σ) (h0 : P d init) :
    ∃ s, for_loop n (fun j s => if skip j then some s
          else for_loop m (fun i s => step i j s) s) init = some s ∧
      P (fun a b => d a b || (List.range n).any (fun j =>
          !skip j && (List.range m).any (fun i => a == i && b == j))) s := by
  apply for_loop_cover P
    (fun j a b => !skip j && (List.range m).any (fun i => a == i && b == j)) _ n _ d init h0
  intro j d s hj hP
  dsimp only
  cases hs : skip j
  · simp only [Bool.false_eq_true, if_false, Bool.not_false, Bool.true_and]
    exact for_loop_cover P (fun i a b => a == i && b == j) (fun i s => step i j s) m
      (fun i d s hi hP => hstep i j d s hi hj hP) d s hP
  · refine ⟨s, by simp, ?_⟩
    simpa using hP

theorem any_cell (m n a b : Nat) (skip : Nat → Bool) :
    (List.range n).any (fun j => !skip j && (List.range m).any (fun i => a == i && b == j))
      = (decide (a < m) && decide (b < n) && !skip b) := by
  rw [Bool.eq_iff_iff]
  simp only [List.any_eq_true, List.mem_range, Bool.and_eq_true, beq_iff_eq,
    decide_eq_true_eq, Bool.not_eq_true']
  constructor
  · rintro ⟨j, hj, hs, i, hi, rfl, rfl⟩
    exact ⟨⟨hi, hj⟩, hs⟩
  · rintro ⟨⟨ha, hb⟩, hs⟩
    exact ⟨b, hb, hs, a, ha, rfl, rfl⟩

theorem any_row (m a b j : Nat) :
    (List.range m).any (fun i => a == i && b == j) = (decide (a < m) && b == j) := by
  rw [Bool.eq_iff_iff]
  simp only [List.any_eq_true, List.mem_range, Bool.and_eq_true, beq_iff_eq,
    decide_eq_true_eq]
  constructor
  · rintro ⟨i, hi, rfl, rfl⟩
    exact ⟨hi, rfl⟩
  · rintro ⟨ha, rfl⟩
    exact ⟨a, ha, rfl, rfl⟩

theorem get_some_getD {α : Type} {l : List α} {i : Nat} (d : α) (hi : i < l.length) :
    l.get? i = some ((l.get? i).getD d) := by
  simp [List.getElem?_eq_getElem hi]

theorem mem_of_at2 {α : Type} {t : List (List α)} {i j : Nat} {v : α}
    (h : at2 t i j = some v) : ∃ row ∈ t, v ∈ row := by
  rw [at2_eq] at h
  cases hrow : t[i]? with
  | none => simp [hrow] at h
  | some row =>
    rw [hrow, Option.some_bind] at h
    exact ⟨row, List.getElem?_mem hrow, List.getElem?_mem h⟩

theorem fuel_at2 {C : Primitives} {fuel : Nat} {publics : point_ring}
    (hfuel : fuel_ok C fuel publics) {i j : Nat} {p : ec_point}
    (h : at2 publics i j = some p) : ∃ hp, hash_to_point C fuel p = some hp := by
  obtain ⟨row, hrow, hp⟩ := mem_of_at2 h
  exact Option.isSome_iff_exists.mp (hfuel row hrow p hp)

theorem eq_tabulate {α : Type} {t : List (List α)} {m n : Nat} (f : Nat → Nat → α)
    (ht : is_table t m n) (h : ∀ a b, a < m → b < n → at2 t a b = some (f a b)) :
    t = tabulate m n f :=
  table_ext ht (is_table_tabulate m n f)
    (fun a b ha hb => by rw [h a b ha hb, at2_tabulate f ha hb])

theorem tabulate_congr {α : Type} {m n : Nat} {f g : Nat → Nat → α}
    (h : ∀ a b, a < m → b < n → f a b = g a b) : tabulate m n f = tabulate m n g :=
  eq_tabulate g (is_table_tabulate m n f)
    (fun a b ha hb => by rw [at2_tabulate f ha hb, h a b ha hb])

/-- The table `hashed_publics`: every cell holds the hashed public key. -/
theorem hash_publics_spec (C : Primitives) (fuel : Nat) {publics : point_ring} {m n : Nat}
    (hP : is_table publics m n)
    (hfuel : fuel_ok C fuel publics) :
    ∃ hashed, hash_publics C fuel publics m n = some hashed ∧ is_table hashed m n ∧
      ∀ a b, a < m → b < n → at2 hashed a b = some (hashed_value C fuel publics a b) := by
  have hinner : ∀ i, i < m → ∀ d t,
      table_done m n (hashed_value C fuel publics) (fun _ _ => ec_point.default) d t →
      ∃ t', for_loop n (fun j hashed => (at2 publics i j).bind (fun p =>
              (hash_to_point C fuel p).map (fun h => set2 hashed i j h))) t = some t' ∧
        table_done m n (hashed_value C fuel publics) (fun _ _ => ec_point.default)
          (fun a b => d a b || (List.range n).any (fun j => a == i && b == j)) t' := by
    intro i hi d t ht
    apply for_loop_cover
      (fun d t => table_done m n (hashed_value C fuel publics) (fun _ _ => ec_point.default) d t)
      (fun j a b => a == i && b == j) _ n _ d t ht
    intro j d s hj hs
    obtain ⟨p, hp⟩ := at2_some_of_table hP hi hj
    obtain ⟨h, hh⟩ := fuel_at2 hfuel hp
    refine ⟨set2 s i j h, by simp [hp, hh], ?_⟩
    have : h = hashed_value C fuel publics i j := by simp [hashed_value, hp, hh]
    rw [this]
    exact table_done_set2 hs hi hj
  obtain ⟨t, ht, hdone⟩ := for_loop_cover
    (fun d t => table_done m n (hashed_value C fuel publics) (fun _ _ => ec_point.default) d t)
    (fun i a b => (List.range n).any (fun j => a == i && b == j))
    (fun i hashed => for_loop n (fun j hashed => (at2 publics i j).bind (fun p =>
              (hash_to_point C fuel p).map (fun h => set2 hashed i j h))) hashed) m
    (fun i d s hi hs => hinner i hi d s hs) (fun _ _ => false) (create_ring m n)
    (table_done_replicate m n _ _)
  refine ⟨t, ht, hdone.1, ?_⟩
  intro a b ha hb
  rw [hdone.2 a b ha hb]
  have : (List.range m).any (fun i => (List.range n).any (fun j => a == i && b == j)) = true := by
    simp only [List.any_eq_true, List.mem_range, Bool.and_eq_true, beq_iff_eq]
    exact ⟨a, ha, b, hb, rfl, rfl⟩
  simp [this]

/-- The pair of tables `(L, R)` while the cells marked by `d` hold the values of
the verification rule and the others still hold `gl`, `gr`. -/
theorem fill_cell_step (C : Primitives) {publics hashed : point_ring} {salts : scalar_table}
    {challenges : scalar_list} {key_images : point_list} {m n : Nat}
    (hP : is_table publics m n) (hH : is_table hashed m n) (hS : is_table salts m n)
    (hc : challenges.length = n) (hI : key_images.length = m)
    (gl gr : Nat → Nat → ec_point) (i j : Nat) (hi : i < m) (hj : j < n)
    (d : Nat → Nat → Bool) (lr : point_ring × point_ring)
    (h : table_done m n (left_value C publics salts challenges) gl d lr.1 ∧
      table_done m n (right_value C hashed salts challenges key_images) gr d lr.2) :
    ∃ lr', fill_cell C publics hashed salts challenges key_images i j lr = some lr' ∧
      (table_done m n (left_value C publics salts challenges) gl
          (fun a b => d a b || (a == i && b == j)) lr'.1 ∧
        table_done m n (right_value C hashed salts challenges key_images) gr
          (fun a b => d a b || (a == i && b == j)) lr'.2) := by
  refine ⟨(set2 lr.1 i j (left_value C publics salts challenges i j),
      set2 lr.2 i j (right_value C hashed salts challenges key_images i j)), ?_,
    table_done_set2 h.1 hi hj, table_done_set2 h.2 hi hj⟩
  unfold fill_cell
  rw [at2_getD ec_scalar.zero hS hi hj, get_some_getD ec_scalar.zero (hc ▸ hj),
    at2_getD ec_point.default hP hi hj, at2_getD ec_point.default hH hi hj,
    get_some_getD ec_point.default (hI ▸ hi)]
  rfl

/-- The column loop of `mlsag_verify` leaves the values of the verification
rule in every cell of `L` and `R`. -/
theorem verify_columns_spec (C : Primitives) {publics hashed : point_ring}
    {salts : scalar_table} {challenges : scalar_list} {key_images : point_list} {m n : Nat}
    (hP : is_table publics m n) (hH : is_table hashed m n) (hS : is_table salts m n)
    (hc : challenges.length = n) (hI : key_images.length = m) :
    ∃ lr, verify_columns C publics hashed salts challenges key_images m n
          (create_ring m n, create_ring m n) = some lr ∧
      is_table lr.1 m n ∧ is_table lr.2 m n ∧
      ∀ a b, a < m → b < n →
        at2 lr.1 a b = some (left_value C publics salts challenges a b) ∧
        at2 lr.2 a b = some (right_value C hashed salts challenges key_images a b) := by
  obtain ⟨lr, hlr, hL, hR⟩ := columns_cover
    (fun d (lr : point_ring × point_ring) =>
      table_done m n (left_value C publics salts challenges) (fun _ _ => ec_point.default) d lr.1 ∧
      table_done m n (right_value C hashed salts challenges key_images)
        (fun _ _ => ec_point.default) d lr.2)
    (fun i j lr => fill_cell C publics hashed salts challenges key_images i j lr) m n
    (fun i j d s hi hj h => fill_cell_step C hP hH hS hc hI _ _ i j hi hj d s h)
    (fun _ => false) (fun _ _ => false) (create_ring m n, create_ring m n)
    ⟨table_done_replicate m n _ _, table_done_replicate m n _ _⟩
  simp only [Bool.false_eq_true, if_false] at hlr
  refine ⟨lr, hlr, hL.1, hR.1, ?_⟩
  intro a b ha hb
  have key : ((List.range n).any fun j =>
      !false && (List.range m).any fun i => a == i && b == j) = true := by
    simp only [List.any_eq_true, List.mem_range, Bool.and_eq_true, beq_iff_eq, Bool.not_false,
      true_and]
    exact ⟨b, hb, a, ha, rfl, rfl⟩
  rw [hL.2 a b ha hb, hR.2 a b ha hb]
  dsimp only
  rw [key]
  simp

/-- In range, the value written by the column loops is the one of the rule. -/
theorem rule_left_eq (C : Primitives) {publics : point_ring} {signature : mlsag_signature}
    {m n : Nat} (hP : is_table publics m n) (hS : is_table signature.salts m n)
    (hc : signature.challenges.length = n) {i j : Nat} (hi : i < m) (hj : j < n) :
    rule_left C publics signature i j
      = some (left_value C publics signature.salts signature.challenges i j) := by
  unfold rule_left
  rw [at2_getD ec_scalar.zero hS hi hj, get_some_getD ec_scalar.zero (hc ▸ hj),
    at2_getD ec_point.default hP hi hj]
  rfl

theorem rule_right_eq (C : Primitives) (fuel : Nat) {publics hashed : point_ring}
    {signature : mlsag_signature} {m n : Nat}
    (hP : is_table publics m n) (hS : is_table signature.salts m n)
    (hc : signature.challenges.length = n) (hI : signature.key_images.length = m)
    (hfuel : fuel_ok C fuel publics)
    (hH : ∀ a b, a < m → b < n → at2 hashed a b = some (hashed_value C fuel publics a b))
    {i j : Nat} (hi : i < m) (hj : j < n) :
    rule_right C fuel publics signature i j
      = some (right_value C hashed signature.salts signature.challenges
          signature.key_images i j) := by
  obtain ⟨p, hp⟩ := at2_some_of_table hP hi hj
  obtain ⟨h, hh⟩ := fuel_at2 hfuel hp
  have hv : point_at hashed i j = h := by
    simp [point_at, hH i j hi hj, hashed_value, hp, hh]
  unfold rule_right right_value
  rw [hv, at2_getD ec_scalar.zero hS hi hj, get_some_getD ec_scalar.zero (hc ▸ hj), hp,
    get_some_getD ec_point.default (hI ▸ hi)]
  simp [hh, salt_at, challenge_at, image_at]

/-- The result of `mlsag_verify` on a well-dimensioned input. -/
theorem mlsag_verify_spec (C : Primitives) (fuel : Nat) {publics : point_ring}
    {signature : mlsag_signature} {m n : Nat} (hm : 0 < m)
    (hP : is_table publics m n) (hS : is_table signature.salts m n)
    (hc : signature.challenges.length = n) (hI : signature.key_images.length = m)
    (hfuel : fuel_ok C fuel publics) :
    ∃ left right e, is_table left m n ∧ is_table right m n ∧
      (∀ i j, i < m → j < n →
        at2 left i j = rule_left C publics signature i j ∧
        at2 right i j = rule_right C fuel publics signature i j) ∧
      hash_rings C deadbeef left right = some e ∧ e.valid_ = true ∧
      mlsag_verify C fuel publics signature
        = some (ec_scalar.eq (sum_all C signature.challenges) e) := by
  obtain ⟨hashed, hhashed, hH, hHv⟩ := hash_publics_spec C fuel hP hfuel
  obtain ⟨lr, hlr, hL, hR, hcells⟩ := verify_columns_spec C hP hH hS hc hI
  obtain ⟨e, he, hev⟩ := hash_rings_some C deadbeef hm hL hR
  obtain ⟨row0, h0, hn⟩ : ∃ row0, publics.get? 0 = some row0 ∧ row0.length = n := by
    have h0 : 0 < publics.length := by rw [hP.1]; exact hm
    exact ⟨publics[0], by simp [List.getElem?_eq_getElem h0], hP.2 _ (List.getElem_mem _)⟩
  refine ⟨lr.1, lr.2, e, hL, hR, ?_, he, hev, ?_⟩
  · intro i j hi hj
    rw [rule_left_eq C hP hS hc hi hj, rule_right_eq C fuel hP hS hc hI hfuel hHv hi hj]
    exact hcells i j hi hj
  · unfold mlsag_verify
    simp only [hP.1, h0, Option.some_bind, hn, hhashed, hlr, he, Option.map_some']
    rw [if_neg (by omega)]

end libbitcoin

namespace libbitcoin

/-! ## Closed forms of the tables of `mlsag_sign` and `mlsag_verify` -/

theorem hash_publics_eq (C : Primitives) (fuel : Nat) {publics : point_ring} {m n : Nat}
    (hP : is_table publics m n) (hfuel : fuel_ok C fuel publics) :
    hash_publics C fuel publics m n = some (tabulate m n (hashed_value C fuel publics)) := by
  obtain ⟨hashed, h, ht, hv⟩ := hash_publics_spec C fuel hP hfuel
  rw [h, eq_tabulate _ ht hv]

theorem point_at_tabulate {m n a b : Nat} (f : Nat → Nat → ec_point) (ha : a < m) (hb : b < n) :
    point_at (tabulate m n f) a b = f a b := by
  simp [point_at, at2_tabulate f ha hb]

theorem salt_at_tabulate {m n a b : Nat} (f : Nat → Nat → ec_scalar) (ha : a < m) (hb : b < n) :
    salt_at (tabulate m n f) a b = f a b := by
  simp [salt_at, at2_tabulate f ha hb]

theorem verify_columns_eq (C : Primitives) {publics hashed : point_ring}
    {salts : scalar_table} {challenges : scalar_list} {key_images : point_list} {m n : Nat}
    (hP : is_table publics m n) (hH : is_table hashed m n) (hS : is_table salts m n)
    (hc : challenges.length = n) (hI : key_images.length = m) :
    verify_columns C publics hashed salts challenges key_images m n
        (create_ring m n, create_ring m n)
      = some (tabulate m n (left_value C publics salts challenges),
          tabulate m n (right_value C hashed salts challenges key_images)) := by
  obtain ⟨lr, h, hL, hR, hv⟩ := verify_columns_spec C hP hH hS hc hI
  rw [h]
  congr 1
  exact Prod.ext (eq_tabulate _ hL (fun a b ha hb => (hv a b ha hb).1))
    (eq_tabulate _ hR (fun a b ha hb => (hv a b ha hb).2))

theorem signer_column_eq (C : Primitives) {hashed : point_ring} {salts : scalar_table}
    {m n index : Nat} (hH : is_table hashed m n) (hS : is_table salts m n) (hl : index < n) :
    signer_column C hashed salts m index (create_ring m n, create_ring m n)
      = some (tabulate m n (fun a b =>
            if b = index then ec_point.smul C (salt_at salts a b) ec_point.G
            else ec_point.default),
          tabulate m n (fun a b =>
            if b = index then ec_point.smul C (salt_at salts a b) (point_at hashed a b)
            else ec_point.default)) := by
  obtain ⟨lr, h, hL, hR⟩ := for_loop_cover
    (fun d (lr : point_ring × point_ring) =>
      table_done m n (fun a b => ec_point.smul C (salt_at salts a b) ec_point.G)
        (fun _ _ => ec_point.default) d lr.1 ∧
      table_done m n (fun a b => ec_point.smul C (salt_at salts a b) (point_at hashed a b))
        (fun _ _ => ec_point.default) d lr.2)
    (fun i a b => a == i && b == index)
    (fun i lr => (at2 salts i index).bind (fun s => (at2 hashed i index).map (fun hp =>
      (set2 lr.1 i index (ec_point.smul C s ec_point.G),
       set2 lr.2 i index (ec_point.smul C s hp))))) m
    (by
      intro i d s hi hs
      refine ⟨(set2 s.1 i index (ec_point.smul C (salt_at salts i index) ec_point.G),
        set2 s.2 i index (ec_point.smul C (salt_at salts i index) (point_at hashed i index))),
        ?_, table_done_set2 hs.1 hi hl, table_done_set2 hs.2 hi hl⟩
      dsimp only
      rw [at2_getD ec_scalar.zero hS hi hl, at2_getD ec_point.default hH hi hl]
      rfl)
    (fun _ _ => false) (create_ring m n, create_ring m n)
    ⟨table_done_replicate m n _ _, table_done_replicate m n _ _⟩
  unfold signer_column
  rw [h]
  congr 1
  refine Prod.ext (eq_tabulate _ hL.1 ?_) (eq_tabulate _ hR.1 ?_)
  · intro a b ha hb
    rw [hL.2 a b ha hb]
    dsimp only
    rw [any_row]
    simp [ha]
  · intro a b ha hb
    rw [hR.2 a b ha hb]
    dsimp only
    rw [any_row]
    simp [ha]

theorem make_key_images_eq (C : Primitives) (fuel : Nat) (secrets : scalar_list)
    (hsec : ∀ x ∈ secrets, C.verify_secret x.secret = true)
    (hkey : ∀ x ∈ secrets, (key_image C fuel x).isSome = true) :
    make_key_images C fuel secrets
      = some (secrets.map (fun x => (key_image C fuel x).getD ec_point.default)) := by
  induction secrets with
  | nil => rfl
  | cons x rest ih =>
    obtain ⟨image, himage⟩ := Option.isSome_iff_exists.mp (hkey x (List.mem_cons_self _ _))
    rw [make_key_images, hsec x (List.mem_cons_self _ _), himage,
      ih (fun y hy => hsec y (List.mem_cons_of_mem _ hy))
        (fun y hy => hkey y (List.mem_cons_of_mem _ hy))]
    simp [himage]

/-- The key-image loop stops at a secret that fails `verify`. -/
theorem make_key_images_none (C : Primitives) (fuel : Nat) (secrets : scalar_list)
    (x : ec_scalar) (hx : x ∈ secrets) (hbad : C.verify_secret x.secret = false) :
    make_key_images C fuel secrets = none := by
  induction secrets with
  | nil => cases hx
  | cons y rest ih =>
    rw [make_key_images]
    cases hy : C.verify_secret y.secret with
    | false => rfl
    | true =>
      have hx' : x ∈ rest := by
        rcases List.mem_cons.mp hx with rfl | h
        · rw [hy] at hbad; cases hbad
        · exact h
      rw [ih hx']
      simp only [Bool.not_true, Bool.false_eq_true, if_false]
      cases key_image C fuel y <;> rfl

theorem sign_columns_eq (C : Primitives) {publics hashed : point_ring}
    {salts : scalar_table} {challenges : scalar_list} {key_images : point_list}
    {m n index : Nat}
    (hP : is_table publics m n) (hH : is_table hashed m n) (hS : is_table salts m n)
    (hc : challenges.length = n) (hI : key_images.length = m) :
    sign_columns C publics hashed salts challenges key_images m n index
        (tabulate m n (fun a b =>
            if b = index then ec_point.smul C (salt_at salts a b) ec_point.G
            else ec_point.default),
          tabulate m n (fun a b =>
            if b = index then ec_point.smul C (salt_at salts a b) (point_at hashed a b)
            else ec_point.default))
      = some (tabulate m n (sign_left C publics salts challenges index),
          tabulate m n (sign_right C hashed salts challenges key_images index)) := by
  obtain ⟨lr, h, hL, hR⟩ := columns_cover
    (fun d (lr : point_ring × point_ring) =>
      table_done m n (left_value C publics salts challenges)
        (fun a b => if b = index then ec_point.smul C (salt_at salts a b) ec_point.G
          else ec_point.default) d lr.1 ∧
      table_done m n (right_value C hashed salts challenges key_images)
        (fun a b => if b = index then ec_point.smul C (salt_at salts a b) (point_at hashed a b)
          else ec_point.default) d lr.2)
    (fun i j lr => fill_cell C publics hashed salts challenges key_images i j lr) m n
    (fun i j d s hi hj h => fill_cell_step C hP hH hS hc hI _ _ i j hi hj d s h)
    (fun j => decide (j = index)) (fun _ _ => false)
    (tabulate m n (fun a b =>
        if b = index then ec_point.smul C (salt_at salts a b) ec_point.G
        else ec_point.default),
      tabulate m n (fun a b =>
        if b = index then ec_point.smul C (salt_at salts a b) (point_at hashed a b)
        else ec_point.default))
    ⟨⟨is_table_tabulate m n _, fun a b ha hb => by simp [at2_tabulate _ ha hb]⟩,
      ⟨is_table_tabulate m n _, fun a b ha hb => by simp [at2_tabulate _ ha hb]⟩⟩
  simp only [decide_eq_true_eq] at h
  unfold sign_columns
  rw [h]
  congr 1
  refine Prod.ext (eq_tabulate _ hL.1 ?_) (eq_tabulate _ hR.1 ?_)
  · intro a b ha hb
    rw [hL.2 a b ha hb]
    dsimp only
    rw [any_cell]
    by_cases hbl : b = index <;> simp [ha, hb, hbl, sign_left]
  · intro a b ha hb
    rw [hR.2 a b ha hb]
    dsimp only
    rw [any_cell]
    by_cases hbl : b = index <;> simp [ha, hb, hbl, sign_right]

theorem close_ring_eq (C : Primitives) {secrets : scalar_list} (c_index : ec_scalar)
    {salts : scalar_table} {m n index : Nat} (hS : is_table salts m n)
    (hx : secrets.length = m) (hl : index < n) :
    close_ring C secrets c_index m index salts
      = some (tabulate m n (closed_salt C secrets c_index salts index)) := by
  obtain ⟨t, h, ht⟩ := for_loop_inv
    (fun k t => table_done m n
      (fun a b => ec_scalar.sub C (salt_at salts a b)
        (ec_scalar.mul C c_index (secret_at secrets a)))
      (salt_at salts) (fun a b => decide (a < k) && b == index) t)
    (fun i salts => (at2 salts i index).bind (fun s => (secrets.get? i).map (fun x =>
      set2 salts i index (ec_scalar.sub C s (ec_scalar.mul C c_index x))))) salts m
    ⟨hS, fun a b ha hb => by rw [at2_getD ec_scalar.zero hS ha hb]; simp [salt_at]⟩
    (by
      intro k s hk hs
      refine ⟨set2 s k index (ec_scalar.sub C (salt_at salts k index)
          (ec_scalar.mul C c_index (secret_at secrets k))), ?_, ?_⟩
      · dsimp only
        rw [hs.2 k index hk hl, get_some_getD ec_scalar.zero (hx ▸ hk)]
        simp [secret_at]
      · refine table_done_congr (table_done_set2 hs hk hl) ?_
        intro a b _ _
        rw [Bool.eq_iff_iff]
        simp only [Bool.or_eq_true, Bool.and_eq_true, decide_eq_true_eq, beq_iff_eq]
        omega)
  unfold close_ring
  rw [h]
  congr 1
  refine eq_tabulate _ ht.1 ?_
  intro a b ha hb
  rw [ht.2 a b ha hb]
  by_cases hbl : b = index <;> simp [ha, hbl, closed_salt]

end libbitcoin

namespace libbitcoin

/-! ## The run of `mlsag_sign` -/

theorem get_zero_of_table {α : Type} {t : List (List α)} {m n : Nat} (hm : 0 < m)
    (ht : is_table t m n) : ∃ row0, t.get? 0 = some row0 ∧ row0.length = n := by
  have h0 : 0 < t.length := by rw [ht.1]; exact hm
  exact ⟨t[0], by simp [List.getElem?_eq_getElem h0], ht.2 _ (List.getElem_mem _)⟩

theorem length_draw_challenges (n : Nat) (cd : Nat → ec_secret) :
    (draw_challenges n cd).length = n := by
  simp [draw_challenges]

/-- The state that `mlsag_sign` reaches on a well-formed input, in closed form. -/
theorem mlsag_sign_run_eq (C : Primitives) (fuel : Nat) {secrets : scalar_list}
    {publics : point_ring} {index m n : Nat} (sd : Nat → Nat → ec_secret)
    (cd : Nat → ec_secret) (hm : 0 < m) (hP : is_table publics m n)
    (hx : secrets.length = m) (hl : index < n) (hfuel : fuel_ok C fuel publics)
    (hsec : ∀ x ∈ secrets, C.verify_secret x.secret = true)
    (hkey : ∀ x ∈ secrets, (key_image C fuel x).isSome = true) :
    ∃ e, hash_rings C deadbeef
          (tabulate m n (sign_left C publics (draw_salts m n sd) (draw_challenges n cd) index))
          (tabulate m n (sign_right C (tabulate m n (hashed_value C fuel publics))
            (draw_salts m n sd) (draw_challenges n cd)
            (secrets.map (fun x => (key_image C fuel x).getD ec_point.default)) index))
        = some e ∧ e.valid_ = true ∧
      mlsag_sign_run C fuel secrets publics index sd cd = some
        ⟨⟨secrets.map (fun x => (key_image C fuel x).getD ec_point.default),
          (draw_challenges n cd).set index
            (ec_scalar.sub C e (sum_except_i C (draw_challenges n cd) index)),
          tabulate m n (closed_salt C secrets
            (ec_scalar.sub C e (sum_except_i C (draw_challenges n cd) index))
            (draw_salts m n sd) index)⟩,
         tabulate m n (sign_left C publics (draw_salts m n sd) (draw_challenges n cd) index),
         tabulate m n (sign_right C (tabulate m n (hashed_value C fuel publics))
            (draw_salts m n sd) (draw_challenges n cd)
            (secrets.map (fun x => (key_image C fuel x).getD ec_point.default)) index),
         e⟩ := by
  obtain ⟨row0, h0, hn⟩ := get_zero_of_table hm hP
  have hS : is_table (draw_salts m n sd) m n := is_table_tabulate m n _
  have hH : is_table (tabulate m n (hashed_value C fuel publics)) m n := is_table_tabulate m n _
  have hc := length_draw_challenges n cd
  have hI : (secrets.map (fun x => (key_image C fuel x).getD ec_point.default)).length = m := by
    simp [hx]
  obtain ⟨e, he, hev⟩ := hash_rings_some C deadbeef hm
    (is_table_tabulate m n (sign_left C publics (draw_salts m n sd) (draw_challenges n cd) index))
    (is_table_tabulate m n (sign_right C (tabulate m n (hashed_value C fuel publics))
      (draw_salts m n sd) (draw_challenges n cd)
      (secrets.map (fun x => (key_image C fuel x).getD ec_point.default)) index))
  refine ⟨e, he, hev, ?_⟩
  unfold mlsag_sign_run
  simp only [hP.1, hx, ne_eq, not_true_eq_false, if_false, h0, Option.some_bind, hn, hl,
    hash_publics_eq C fuel hP hfuel, signer_column_eq C hH hS hl,
    make_key_images_eq C fuel secrets hsec hkey, sign_columns_eq C hP hH hS hc hI, he,
    close_ring_eq C _ hS hx hl, Option.map_some']
  rw [if_neg (by omega)]
  simp [List.getElem?_set_self (hc ▸ hl)]

end libbitcoin

namespace libbitcoin

/-! ## Verification rule, totality on well-dimensioned input, key images -/

/-- C4: on a well-dimensioned ring and signature (`m > 0` rows, `n` columns),
with fuel for the `hash_to_point` calls, `mlsag_verify` returns the comparison of
`sum_all(challenges)` with `hash_rings("deadbeef", L, R)`, where every cell of
`L` is `s[i][j] G + c[j] P[i][j]` and every cell of `R` is
`s[i][j] H_p(P[i][j]) + c[j] I[i]`; it returns true exactly when the two
scalars have the same bytes. -/
theorem C4_verification_rule (C : Primitives) (fuel : Nat) (publics : point_ring)
    (signature : mlsag_signature) (m n : Nat) (hm : 0 < m)
    (hP : is_table publics m n) (hS : is_table signature.salts m n)
    (hc : signature.challenges.length = n) (hI : signature.key_images.length = m)
    (hfuel : fuel_ok C fuel publics) :
    ∃ left right e, is_table left m n ∧ is_table right m n ∧
      (∀ i j, i < m → j < n →
        at2 left i j = rule_left C publics signature i j ∧
        at2 right i j = rule_right C fuel publics signature i j) ∧
      hash_rings C deadbeef left right = some e ∧
      mlsag_verify C fuel publics signature
        = some (ec_scalar.eq (sum_all C signature.challenges) e) ∧
      (mlsag_verify C fuel publics signature = some true ↔
        (sum_all C signature.challenges).secret = e.secret) := by
  obtain ⟨left, right, e, hL, hR, hcells, he, _, hv⟩ :=
    mlsag_verify_spec C fuel hm hP hS hc hI hfuel
  refine ⟨left, right, e, hL, hR, hcells, he, hv, ?_⟩
  rw [hv]
  simp [ec_scalar.eq, ec_scalar.secret]

/-- Witness of C4: the sample ring and a signature that no signer produced. -/
theorem C4_verification_rule_witness :
    ∃ left right e, is_table left 2 2 ∧ is_table right 2 2 ∧
      (∀ i j, i < 2 → j < 2 →
        at2 left i j = rule_left toy.primitives toy.ring toy.forged i j ∧
        at2 right i j = rule_right toy.primitives toy.fuel toy.ring toy.forged i j) ∧
      hash_rings toy.primitives deadbeef left right = some e ∧
      mlsag_verify toy.primitives toy.fuel toy.ring toy.forged
        = some (ec_scalar.eq (sum_all toy.primitives toy.forged.challenges) e) ∧
      (mlsag_verify toy.primitives toy.fuel toy.ring toy.forged = some true ↔
        (sum_all toy.primitives toy.forged.challenges).secret = e.secret) :=
  C4_verification_rule toy.primitives toy.fuel toy.ring toy.forged 2 2 (by decide)
    ⟨rfl, by decide⟩ ⟨rfl, by decide⟩ rfl rfl (by unfold fuel_ok; decide)

theorem hash_to_point_loop_fuel (C : Primitives) (f f' : Nat) (x : ec_scalar) (p p' : ec_point)
    (h : hash_to_point_loop C f x = some p) (h' : hash_to_point_loop C f' x = some p') :
    p = p' := by
  induction f generalizing f' x with
  | zero => simp [hash_to_point_loop] at h
  | succ k ih =>
    cases f' with
    | zero => simp [hash_to_point_loop] at h'
    | succ k' =>
      simp only [hash_to_point_loop] at h h'
      by_cases hv : C.verify_point (compressed_even :: x.secret) = true
      · rw [if_pos hv] at h h'
        exact Option.some.inj (h.symm.trans h')
      · rw [if_neg hv] at h h'
        exact ih k' _ h h'

theorem key_image_fuel (C : Primitives) (f f' : Nat) (x : ec_scalar)
    (h : (key_image C f x).isSome = true) (h' : (key_image C f' x).isSome = true) :
    key_image C f x = key_image C f' x := by
  unfold key_image at h h' ⊢
  cases hp : hash_to_point C f (ec_point.smul C x ec_point.G) with
  | none => simp [hp] at h
  | some p =>
    cases hp' : hash_to_point C f' (ec_point.smul C x ec_point.G) with
    | none => simp [hp'] at h'
    | some p' =>
      have := hash_to_point_loop_fuel C f f' _ p p' hp hp'
      simp [this]

/-- C8: on well-formed inputs (sizes as asserted, secrets that pass the
assertion `verify` of the key-image loop) with fuel for the `hash_to_point`
calls, `mlsag_sign` returns a signature with one key image per row, the image of
row `i` is `x_i * hash_to_point(x_i * G)`, and a second call that has the same
secret at row `i` returns the same image there, whatever its ring, its signer
column and its random draws are. -/
theorem C8_key_image_linkability (C : Primitives) (fuel fuel' : Nat)
    (secrets secrets' : scalar_list) (publics publics' : point_ring)
    (index index' m n m' n' : Nat)
    (sd sd' : Nat → Nat → ec_secret) (cd cd' : Nat → ec_secret)
    (hm : 0 < m) (hP : is_table publics m n) (hx : secrets.length = m) (hl : index < n)
    (hfuel : fuel_ok C fuel publics)
    (hsec : ∀ x ∈ secrets, C.verify_secret x.secret = true)
    (hkey : ∀ x ∈ secrets, (key_image C fuel x).isSome = true)
    (hm' : 0 < m') (hP' : is_table publics' m' n') (hx' : secrets'.length = m')
    (hl' : index' < n') (hfuel' : fuel_ok C fuel' publics')
    (hsec' : ∀ x ∈ secrets', C.verify_secret x.secret = true)
    (hkey' : ∀ x ∈ secrets', (key_image C fuel' x).isSome = true) :
    ∃ sig sig', mlsag_sign C fuel secrets publics index sd cd = some sig ∧
      mlsag_sign C fuel' secrets' publics' index' sd' cd' = some sig' ∧
      sig.key_images.length = m ∧
      (∀ i x, secrets.get? i = some x →
        ∃ hp, hash_to_point C fuel (ec_point.smul C x ec_point.G) = some hp ∧
          sig.key_images.get? i = some (ec_point.smul C x hp)) ∧
      (∀ i x, secrets.get? i = some x → secrets'.get? i = some x →
        sig.key_images.get? i = sig'.key_images.get? i) := by
  obtain ⟨e, _, _, hrun⟩ := mlsag_sign_run_eq C fuel sd cd hm hP hx hl hfuel hsec hkey
  obtain ⟨e', _, _, hrun'⟩ :=
    mlsag_sign_run_eq C fuel' sd' cd' hm' hP' hx' hl' hfuel' hsec' hkey'
  refine ⟨_, _, by rw [mlsag_sign, hrun]; rfl, by rw [mlsag_sign, hrun']; rfl, ?_, ?_, ?_⟩
  · simp [hx]
  · intro i x hi
    have hmem : x ∈ secrets := List.get?_mem hi
    obtain ⟨image, himage⟩ := Option.isSome_iff_exists.mp (hkey x hmem)
    have himage' := himage
    unfold key_image at himage
    cases hp : hash_to_point C fuel (ec_point.smul C x ec_point.G) with
    | none => simp [hp] at himage
    | some p =>
      refine ⟨p, rfl, ?_⟩
      rw [hp] at himage
      simp only [Option.map_some', Option.some.injEq] at himage
      simp only [List.get?_eq_getElem?, List.getElem?_map] at hi ⊢
      rw [hi]
      simp [himage', himage]
  · intro i x hi hi'
    have hk := key_image_fuel C fuel fuel' x (hkey x (List.get?_mem hi))
      (hkey' x (List.get?_mem hi'))
    simp only [List.get?_eq_getElem?, List.getElem?_map] at hi hi' ⊢
    rw [hi, hi']
    simp [hk]

set_option maxRecDepth 100000 in
/-- Witness of C8: the run on the sample ring at column 0 and a run on a second
ring at column 1 with other draws; the two lists of secrets share the secret
`5` at row 0. -/
theorem C8_key_image_linkability_witness :
    ∃ sig sig', mlsag_sign toy.primitives toy.fuel toy.secrets toy.ring 0 toy.salt_draws
          toy.challenge_draws = some sig ∧
      mlsag_sign toy.primitives toy.fuel toy.secrets2 toy.ring2 1 toy.salt_draws2
          toy.challenge_draws2 = some sig' ∧
      sig.key_images.length = 2 ∧
      (∀ i x, toy.secrets.get? i = some x →
        ∃ hp, hash_to_point toy.primitives toy.fuel
            (ec_point.smul toy.primitives x ec_point.G) = some hp ∧
          sig.key_images.get? i = some (ec_point.smul toy.primitives x hp)) ∧
      (∀ i x, toy.secrets.get? i = some x → toy.secrets2.get? i = some x →
        sig.key_images.get? i = sig'.key_images.get? i) :=
  C8_key_image_linkability toy.primitives toy.fuel toy.fuel toy.secrets toy.secrets2
    toy.ring toy.ring2 0 1 2 2 2 2 toy.salt_draws toy.salt_draws2 toy.challenge_draws
    toy.challenge_draws2 (by decide) ⟨rfl, by decide⟩ rfl (by decide)
    (by unfold fuel_ok; decide) (by decide) (by decide) (by decide) ⟨rfl, by decide⟩ rfl
    (by decide) (by unfold fuel_ok; decide) (by decide) (by decide)

end libbitcoin

namespace libbitcoin

/-! ## Big-endian bytes and modular arithmetic -/

theorem foldl_be_bytes (w v acc : Nat) :
    (be_bytes w v).foldl (fun acc b => acc * 256 + b) acc = acc * 256 ^ w + v % 256 ^ w := by
  induction w generalizing acc with
  | zero => simp [be_bytes, Nat.mod_one]
  | succ k ih =>
    rw [be_bytes, List.foldl_cons, ih, pow_succ, @Nat.mod_mul (256 ^ k) 256 v]
    ring

theorem be_value_be_bytes (w v : Nat) : be_value (be_bytes w v) = v % 256 ^ w := by
  rw [be_value, foldl_be_bytes]
  simp

theorem be_value_be_bytes_of_lt {q v : Nat} (hq : q ≤ 2 ^ 256) (hv : v < q) :
    be_value (be_bytes 32 v) = v := by
  rw [be_value_be_bytes]
  apply Nat.mod_eq_of_lt
  have : (256 : Nat) ^ 32 = 2 ^ 256 := by norm_num
  omega

theorem be_value_mod {q : Nat} (hq0 : 0 < q) (hq : q ≤ 2 ^ 256) (v : Nat) :
    be_value (be_bytes 32 (v % q)) = v % q :=
  be_value_be_bytes_of_lt hq (Nat.mod_lt _ hq0)

theorem mod_cancel_sub {q : Nat} (hq : 0 < q) (a v : Nat) :
    (a + (v + (q - a % q) % q) % q) % q = v % q := by
  have h1 : a % q ≤ q := (Nat.mod_lt a hq).le
  have key : (a + (v + (q - a % q))) % q = v % q := by
    have : a + (v + (q - a % q)) = v + q * (a / q + 1) := by
      have := Nat.div_add_mod a q
      have h2 : q * (a / q + 1) = q * (a / q) + q := by ring
      omega
    rw [this, Nat.add_mul_mod_self_left]
  calc (a + (v + (q - a % q) % q) % q) % q
      = (a + (v + (q - a % q))) % q := by
        rw [Nat.add_mod a, Nat.mod_mod, Nat.add_mod v, Nat.mod_mod, ← Nat.add_mod v,
          ← Nat.add_mod a]
    _ = v % q := key

/-- The closing identity in the exponent: with `s' = s - c x` the element
`s' g + c (x g)` is `s g`. -/
theorem mod_closing {q : Nat} (hq : 0 < q) (g s c x : Nat) :
    ((g * ((s + (q - (c * x % q) % q) % q) % q)) % q + ((g * x % q) * c) % q) % q
      = (g * s) % q := by
  have h := mod_cancel_sub hq (c * x) s
  have e1 : (g * ((s + (q - (c * x % q) % q) % q) % q)) % q
      = (g * ((s + (q - (c * x) % q) % q) % q)) % q := by rw [Nat.mod_mod]
  rw [e1]
  have e2 : ((g * x % q) * c) % q = (g * (c * x)) % q := by
    rw [Nat.mul_mod, Nat.mod_mod, ← Nat.mul_mod]
    congr 1
    ring
  rw [e2, ← Nat.add_mod, ← Nat.mul_add, Nat.add_comm, Nat.mul_mod, h, ← Nat.mul_mod]

/-! ## The operators under lawful primitives -/

theorem scalar_add_sem {C : Primitives} {q : Nat} {dec : ec_compressed → Option Nat}
    (hlaw : Lawful C q dec) {a b : ec_scalar} (h : (ec_scalar.add C a b).valid_ = true) :
    ec_scalar.add C a b
      = ⟨true, be_bytes 32 ((be_value a.scalar_ + be_value b.scalar_) % q)⟩ := by
  obtain ⟨_, _, hrc, heq⟩ := scalar_add_valid h
  rw [heq, hlaw.add_ok _ _ hrc]

theorem scalar_mul_sem {C : Primitives} {q : Nat} {dec : ec_compressed → Option Nat}
    (hlaw : Lawful C q dec) {a b : ec_scalar} (h : (ec_scalar.mul C a b).valid_ = true) :
    ec_scalar.mul C a b
      = ⟨true, be_bytes 32 ((be_value a.scalar_ * be_value b.scalar_) % q)⟩ := by
  obtain ⟨_, _, hrc, heq⟩ := scalar_mul_valid h
  rw [heq, hlaw.mul_ok _ _ hrc]

theorem scalar_neg_sem {C : Primitives} {q : Nat} {dec : ec_compressed → Option Nat}
    (hlaw : Lawful C q dec) {a : ec_scalar} (h : (ec_scalar.neg C a).valid_ = true) :
    ec_scalar.neg C a = ⟨true, be_bytes 32 ((q - be_value a.scalar_ % q) % q)⟩ := by
  obtain ⟨_, hrc, heq⟩ := scalar_neg_valid h
  rw [heq, hlaw.neg_ok _ hrc]

theorem scalar_sub_sem {C : Primitives} {q : Nat} {dec : ec_compressed → Option Nat}
    (hlaw : Lawful C q dec) {a b : ec_scalar} (h : (ec_scalar.sub C a b).valid_ = true) :
    ec_scalar.sub C a b
      = ⟨true, be_bytes 32 ((be_value a.scalar_ + (q - be_value b.scalar_ % q) % q) % q)⟩ := by
  obtain ⟨_, _, hneg, heq⟩ := scalar_sub_valid h
  rw [heq] at h ⊢
  rw [scalar_add_sem hlaw h, scalar_neg_sem hlaw hneg]
  simp only [be_value_mod hlaw.order_pos hlaw.order_le]

theorem point_mul_sem {C : Primitives} {q : Nat} {dec : ec_compressed → Option Nat}
    (hlaw : Lawful C q dec) {p : ec_point} {k : ec_scalar}
    (h : (ec_point.mul C p k).is_valid = true) :
    ∃ x, dec p.point_ = some x ∧
      dec (ec_point.mul C p k).point_ = some ((x * be_value k.scalar_) % q) := by
  obtain ⟨_, _, hrc, heq⟩ := point_mul_valid h
  obtain ⟨x, hx, hr⟩ := hlaw.pmul_ok _ _ hrc
  exact ⟨x, hx, by rw [heq]; exact hr⟩

theorem point_add_sem {C : Primitives} {q : Nat} {dec : ec_compressed → Option Nat}
    (hlaw : Lawful C q dec) {p p' : ec_point} (h : (ec_point.add C p p').is_valid = true) :
    ∃ x y, dec p.point_ = some x ∧ dec p'.point_ = some y ∧
      dec (ec_point.add C p p').point_ = some ((x + y) % q) := by
  obtain ⟨_, _, hrc, heq⟩ := point_add_valid h
  obtain ⟨x, y, hx, hy, hr⟩ := hlaw.sum_ok _ _ _ hrc
  exact ⟨x, y, hx, hy, by rw [heq]; exact hr⟩

/-- Closing a ring at a base point `B`: with the response `s - c x`, the point
`(s - c x) B + c (x B)` is `s B`, provided no operation failed. -/
theorem closing_point {C : Primitives} {q : Nat} {dec : ec_compressed → Option Nat}
    (hlaw : Lawful C q dec) (B : ec_point) (s c x : ec_scalar)
    (h0 : (ec_point.smul C s B).is_valid = true)
    (h1 : (ec_point.add C (ec_point.smul C (ec_scalar.sub C s (ec_scalar.mul C c x)) B)
      (ec_point.smul C c (ec_point.smul C x B))).is_valid = true) :
    ec_point.add C (ec_point.smul C (ec_scalar.sub C s (ec_scalar.mul C c x)) B)
      (ec_point.smul C c (ec_point.smul C x B)) = ec_point.smul C s B := by
  have hq0 := hlaw.order_pos
  have hq := hlaw.order_le
  obtain ⟨hv1, hv2, _, _⟩ := point_add_valid h1
  obtain ⟨u, w, hu, hw, hsum⟩ := point_add_sem hlaw h1
  simp only [ec_point.smul] at *
  obtain ⟨g, hg, hs0⟩ := point_mul_sem hlaw h0
  obtain ⟨g1, hg1, hs1⟩ := point_mul_sem hlaw hv1
  obtain ⟨y, hy, hcy⟩ := point_mul_sem hlaw hv2
  obtain ⟨hxv, _, _, _⟩ := point_mul_valid hv2
  obtain ⟨g2, hg2, hxg⟩ := point_mul_sem hlaw hxv
  obtain ⟨_, hsubv, _, _⟩ := point_mul_valid hv1
  have hsub := scalar_sub_sem hlaw hsubv
  obtain ⟨_, hmulv, _, _⟩ := scalar_sub_valid hsubv
  have hmul := scalar_mul_sem hlaw hmulv
  have e1 : g1 = g := Option.some.inj (hg1.symm.trans hg)
  have e2 : g2 = g := Option.some.inj (hg2.symm.trans hg)
  rw [e1] at hs1
  rw [e2] at hxg
  have e3 : y = (g * be_value x.scalar_) % q := Option.some.inj (hy.symm.trans hxg)
  have e4 : u = (g * be_value (ec_scalar.sub C s (ec_scalar.mul C c x)).scalar_) % q :=
    Option.some.inj (hu.symm.trans hs1)
  have e5 : w = (y * be_value c.scalar_) % q := Option.some.inj (hw.symm.trans hcy)
  have hval : (u + w) % q = (g * be_value s.scalar_) % q := by
    rw [e4, e5, e3, hsub, hmul]
    simp only [be_value_mod hq0 hq]
    exact mod_closing hq0 _ _ _ _
  rw [hval] at hsum
  have := hlaw.dec_inj _ _ _ hsum hs0
  cases hA : ec_point.add C (ec_point.mul C B (ec_scalar.sub C s (ec_scalar.mul C c x)))
    (ec_point.mul C (ec_point.mul C B x) c) with
  | mk pa =>
    cases hB : ec_point.mul C B s with
    | mk pb =>
      rw [hA, hB] at this
      simp only at this
      rw [this]

/-! ## Sums of challenges -/

theorem add_assign_invalid (C : Primitives) (a b : ec_scalar) (h : a.valid_ = false) :
    (ec_scalar.add_assign C a b).valid_ = false := by
  simp [ec_scalar.add_assign, h]

theorem foldl_add_valid (C : Primitives) (cs : scalar_list) (acc : ec_scalar)
    (h : (cs.foldl (fun result c => ec_scalar.add_assign C result c) acc).valid_ = true) :
    acc.valid_ = true := by
  induction cs generalizing acc with
  | nil => exact h
  | cons c rest ih =>
    have := ih _ h
    by_contra hacc
    rw [add_assign_invalid C acc c (by simpa using hacc)] at this
    exact Bool.false_ne_true this

theorem add_assign_sem {C : Primitives} {q : Nat} {dec : ec_compressed → Option Nat}
    (hlaw : Lawful C q dec) {a b : ec_scalar} (h : (ec_scalar.add_assign C a b).valid_ = true) :
    ec_scalar.add_assign C a b
      = ⟨true, be_bytes 32 ((be_value a.scalar_ + be_value b.scalar_) % q)⟩ := by
  obtain ⟨_, heq⟩ := scalar_add_assign_valid h
  rw [heq] at h ⊢
  exact scalar_add_sem hlaw h

theorem foldl_add_sem {C : Primitives} {q : Nat} {dec : ec_compressed → Option Nat}
    (hlaw : Lawful C q dec) (cs : scalar_list) (v : Nat) (hv : v < q)
    (h : (cs.foldl (fun result c => ec_scalar.add_assign C result c) ⟨true, be_bytes 32 v⟩).valid_ = true) :
    cs.foldl (fun result c => ec_scalar.add_assign C result c) ⟨true, be_bytes 32 v⟩
      = ⟨true, be_bytes 32 ((v + scalar_sum cs) % q)⟩ := by
  induction cs generalizing v with
  | nil => simp [scalar_sum, Nat.mod_eq_of_lt hv]
  | cons c rest ih =>
    rw [List.foldl_cons] at h ⊢
    have hstep := add_assign_sem hlaw (foldl_add_valid C rest _ h)
    rw [hstep] at h ⊢
    simp only [be_value_be_bytes_of_lt hlaw.order_le hv] at h ⊢
    rw [ih _ (Nat.mod_lt _ hlaw.order_pos) h]
    congr 2
    simp only [scalar_sum, List.map_cons, List.sum_cons]
    rw [Nat.add_mod, Nat.mod_mod, ← Nat.add_mod, Nat.add_assoc]

theorem be_bytes_zero : be_bytes 32 0 = List.replicate 32 0 := by decide

theorem sum_all_sem {C : Primitives} {q : Nat} {dec : ec_compressed → Option Nat}
    (hlaw : Lawful C q dec) (cs : scalar_list) (h : (sum_all C cs).valid_ = true) :
    sum_all C cs = ⟨true, be_bytes 32 (scalar_sum cs % q)⟩ := by
  have hz : ec_scalar.zero = ⟨true, be_bytes 32 0⟩ := by
    rw [be_bytes_zero]; rfl
  unfold sum_all at h ⊢
  rw [hz] at h ⊢
  rw [foldl_add_sem hlaw cs 0 hlaw.order_pos h]
  simp

theorem sum_except_from_valid (C : Primitives) (index : Nat) (cs : scalar_list) (k : Nat)
    (acc : ec_scalar) (h : (sum_except_from C index k cs acc).valid_ = true) :
    acc.valid_ = true := by
  induction cs generalizing k acc with
  | nil => exact h
  | cons c rest ih =>
    rw [sum_except_from] at h
    have := ih _ _ h
    by_cases hk : k = index
    · simpa [hk] using this
    · rw [if_neg hk] at this
      by_contra hacc
      rw [add_assign_invalid C acc c (by simpa using hacc)] at this
      exact Bool.false_ne_true this

theorem sum_except_from_sem {C : Primitives} {q : Nat} {dec : ec_compressed → Option Nat}
    (hlaw : Lawful C q dec) (index : Nat) (cs : scalar_list) (k v : Nat) (hv : v < q)
    (h : (sum_except_from C index k cs ⟨true, be_bytes 32 v⟩).valid_ = true) :
    sum_except_from C index k cs ⟨true, be_bytes 32 v⟩
      = ⟨true, be_bytes 32 ((v + scalar_sum_except index k cs) % q)⟩ := by
  induction cs generalizing k v with
  | nil => simp [sum_except_from, scalar_sum_except, Nat.mod_eq_of_lt hv]
  | cons c rest ih =>
    rw [sum_except_from] at h ⊢
    by_cases hk : k = index
    · rw [if_pos hk] at h ⊢
      rw [ih _ _ hv h]
      simp [scalar_sum_except, hk]
    · rw [if_neg hk] at h ⊢
      have hstep := add_assign_sem hlaw (sum_except_from_valid C index rest _ _ h)
      rw [hstep] at h ⊢
      simp only [be_value_be_bytes_of_lt hlaw.order_le hv] at h ⊢
      rw [ih _ _ (Nat.mod_lt _ hlaw.order_pos) h]
      congr 2
      simp only [scalar_sum_except, if_neg hk]
      rw [Nat.add_mod, Nat.mod_mod, ← Nat.add_mod, Nat.add_assoc]

theorem sum_except_i_sem {C : Primitives} {q : Nat} {dec : ec_compressed → Option Nat}
    (hlaw : Lawful C q dec) (cs : scalar_list) (index : Nat)
    (h : (sum_except_i C cs index).valid_ = true) :
    sum_except_i C cs index = ⟨true, be_bytes 32 (scalar_sum_except index 0 cs % q)⟩ := by
  have hz : ec_scalar.zero = ⟨true, be_bytes 32 0⟩ := by
    rw [be_bytes_zero]; rfl
  unfold sum_except_i at h ⊢
  rw [hz] at h ⊢
  rw [sum_except_from_sem hlaw index cs 0 0 hlaw.order_pos h]
  simp

theorem scalar_sum_except_skip (index : Nat) (cs : scalar_list) (k : Nat) (hk : index < k) :
    scalar_sum_except index k cs = scalar_sum cs := by
  induction cs generalizing k with
  | nil => rfl
  | cons c rest ih =>
    rw [scalar_sum_except, if_neg (by omega), ih (k + 1) (by omega)]
    simp [scalar_sum]

theorem scalar_sum_set (cs : scalar_list) (l k : Nat) (x : ec_scalar) (hl : l < cs.length) :
    scalar_sum (cs.set l x) = scalar_sum_except (k + l) k cs + be_value x.scalar_ := by
  induction cs generalizing l k with
  | nil => simp at hl
  | cons c rest ih =>
    cases l with
    | zero =>
      simp only [List.set_cons_zero, Nat.add_zero, scalar_sum_except, if_true]
      rw [scalar_sum_except_skip k rest (k + 1) (by omega)]
      simp [scalar_sum]
      ring
    | succ l' =>
      simp only [List.set_cons_succ, scalar_sum_except]
      rw [if_neg (by omega)]
      have := ih l' (k + 1) (by simpa using hl)
      have e : k + 1 + l' = k + (l' + 1) := by ring
      rw [e] at this
      simp only [scalar_sum, List.map_cons, List.sum_cons] at this ⊢
      rw [this]
      ring

end libbitcoin

namespace libbitcoin

/-! ## The reference instance is lawful -/

theorem foldl_bytes (xs : List Nat) (acc : Nat) :
    xs.foldl (fun acc b => acc * 256 + b) acc = acc * 256 ^ xs.length + be_value xs := by
  induction xs generalizing acc with
  | nil => simp [be_value]
  | cons x rest ih =>
    have e1 : be_value (x :: rest) = x * 256 ^ rest.length + be_value rest := by
      show List.foldl (fun acc b => acc * 256 + b) 0 (x :: rest) = _
      rw [List.foldl_cons, ih]
      simp
    rw [List.foldl_cons, ih, e1, List.length_cons, pow_succ]
    ring

theorem be_value_cons (x : Nat) (xs : List Nat) :
    be_value (x :: xs) = x * 256 ^ xs.length + be_value xs := by
  rw [be_value, List.foldl_cons, foldl_bytes]
  simp

theorem be_value_lt (xs : List Nat) (h : ∀ b ∈ xs, b < 256) : be_value xs < 256 ^ xs.length := by
  induction xs with
  | nil => simp [be_value]
  | cons x rest ih =>
    rw [be_value_cons, List.length_cons, pow_succ]
    have h1 := ih (fun b hb => h b (List.mem_cons_of_mem _ hb))
    have h2 : x < 256 := h x (List.mem_cons_self _ _)
    nlinarith

theorem be_bytes_add_mul (w a v : Nat) : be_bytes w (a * 256 ^ w + v) = be_bytes w v := by
  induction w generalizing a with
  | zero => rfl
  | succ k ih =>
    rw [be_bytes, be_bytes]
    have e : a * 256 ^ (k + 1) + v = (a * 256) * 256 ^ k + v := by rw [pow_succ]; ring
    rw [e, ih (a * 256)]
    congr 1
    have hp : 0 < 256 ^ k := pow_pos (by norm_num) _
    rw [Nat.add_comm, Nat.add_mul_div_right _ _ hp, Nat.add_mul_mod_self_right]

theorem be_bytes_be_value (xs : List Nat) (h : ∀ b ∈ xs, b < 256) :
    be_bytes xs.length (be_value xs) = xs := by
  induction xs with
  | nil => rfl
  | cons x rest ih =>
    have h1 := be_value_lt rest (fun b hb => h b (List.mem_cons_of_mem _ hb))
    have h2 : x < 256 := h x (List.mem_cons_self _ _)
    have hp : 0 < 256 ^ rest.length := pow_pos (by norm_num) _
    rw [List.length_cons, be_bytes, be_value_cons, be_bytes_add_mul,
      ih (fun b hb => h b (List.mem_cons_of_mem _ hb))]
    congr 1
    rw [Nat.add_comm, Nat.add_mul_div_right _ _ hp, Nat.div_eq_of_lt h1, Nat.zero_add,
      Nat.mod_eq_of_lt h2]

theorem length_be_bytes (w v : Nat) : (be_bytes w v).length = w := by
  induction w with
  | zero => rfl
  | succ k ih => simp [be_bytes, ih]

theorem be_bytes_lt (w v : Nat) : ∀ b ∈ be_bytes w v, b < 256 := by
  induction w with
  | zero => simp [be_bytes]
  | succ k ih =>
    intro b hb
    rw [be_bytes, List.mem_cons] at hb
    rcases hb with rfl | hb
    · exact Nat.mod_lt _ (by norm_num)
    · exact ih b hb

theorem curve_order_pos : 0 < curve_order := by
  unfold curve_order; norm_num

theorem curve_order_le : curve_order ≤ 2 ^ 256 := by
  unfold curve_order; norm_num

theorem toy_is_bytes {w : Nat} {bs : List Nat} (h : toy.is_bytes w bs = true) :
    bs.length = w ∧ ∀ b ∈ bs, b < 256 := by
  simpa [toy.is_bytes] using h

theorem toy_decode_encode {v : Nat} (h0 : 0 < v) (hv : v < curve_order) :
    toy.decode (toy.encode v) = some v := by
  have hval : be_value (be_bytes 32 v) = v := be_value_be_bytes_of_lt curve_order_le hv
  have hb : toy.is_bytes 32 (be_bytes 32 v) = true := by
    simp only [toy.is_bytes, length_be_bytes, beq_self_eq_true, Bool.true_and, List.all_eq_true,
      decide_eq_true_eq]
    exact be_bytes_lt 32 v
  simp [toy.decode, toy.encode, hval, hb, h0, hv]

theorem toy_encode_decode {p : ec_compressed} {x : Nat} (h : toy.decode p = some x) :
    p = toy.encode x ∧ 0 < x ∧ x < curve_order := by
  cases p with
  | nil => simp [toy.decode] at h
  | cons pre xs =>
    simp only [toy.decode] at h
    split at h
    · rename_i hc
      simp only [Bool.and_eq_true, decide_eq_true_eq, beq_iff_eq] at hc
      obtain ⟨⟨⟨hb, h0⟩, hlt⟩, hpre⟩ := hc
      obtain ⟨hlen, hbytes⟩ := toy_is_bytes hb
      have hx : be_value xs = x := Option.some.inj h
      subst hx
      refine ⟨?_, h0, hlt⟩
      rw [toy.encode, ← hpre]
      congr 1
      rw [← hlen]
      exact (be_bytes_be_value xs hbytes).symm
    · exact absurd h (by simp)

/-- The reference instance satisfies the contract of the primitives. -/
theorem toy_lawful : Lawful toy.primitives curve_order toy.decode where
  order_pos := curve_order_pos
  order_le := curve_order_le
  add_ok := by
    intro a b h
    simp only [toy.primitives, toy.ec_add] at h ⊢
    split at h
    · rename_i hc
      rw [if_pos hc]
    · exact absurd h (by simp)
  mul_ok := by
    intro a b h
    simp only [toy.primitives, toy.ec_multiply] at h ⊢
    split at h
    · rename_i hc
      rw [if_pos hc]
    · exact absurd h (by simp)
  neg_ok := by
    intro a _
    rfl
  sum_ok := by
    intro r a b h
    simp only [toy.primitives, toy.ec_sum, toy.decode_sum] at h ⊢
    cases ha : toy.decode a with
    | none => simp [ha] at h
    | some x =>
      cases hb : toy.decode b with
      | none => simp [ha, hb] at h
      | some y =>
        simp only [ha, hb, Nat.add_zero] at h ⊢
        by_cases hz : (x + y) % curve_order = 0
        · simp [hz] at h
        · refine ⟨x, y, rfl, rfl, ?_⟩
          rw [if_neg hz]
          exact toy_decode_encode (Nat.pos_of_ne_zero hz) (Nat.mod_lt _ curve_order_pos)
  pmul_ok := by
    intro p k h
    simp only [toy.primitives, toy.ec_multiply_point] at h ⊢
    cases hp : toy.decode p with
    | none => simp [hp] at h
    | some x =>
      simp only [hp] at h ⊢
      split at h
      · rename_i hc
        rw [if_pos hc]
        simp only [Bool.and_eq_true, decide_eq_true_eq] at hc
        exact ⟨x, rfl, toy_decode_encode (Nat.pos_of_ne_zero hc.2)
          (Nat.mod_lt _ curve_order_pos)⟩
      · exact absurd h (by simp)
  dec_inj := by
    intro p p' x h h'
    rw [(toy_encode_decode h).1, (toy_encode_decode h').1]

end libbitcoin

namespace libbitcoin

/-! ## Closing the ring -/

set_option maxRecDepth 100000

theorem is_canonical_eq {q : Nat} {e : ec_scalar} (hv : e.valid_ = true)
    (h : is_canonical q e = true) :
    e = ⟨true, be_bytes 32 (be_value e.scalar_)⟩ ∧ be_value e.scalar_ < q := by
  simp only [is_canonical, Bool.and_eq_true, beq_iff_eq, decide_eq_true_eq] at h
  refine ⟨?_, h.2⟩
  cases e with
  | mk v s =>
    simp only at hv h
    rw [hv, ← h.1]

theorem challenge_at_set {cs : scalar_list} {l : Nat} (x : ec_scalar) (hl : l < cs.length) :
    challenge_at (cs.set l x) l = x := by
  simp [challenge_at, List.getElem?_set_self hl]

theorem challenge_at_set_ne {cs : scalar_list} {l b : Nat} (x : ec_scalar) (hb : b ≠ l) :
    challenge_at (cs.set l x) b = challenge_at cs b := by
  simp [challenge_at, List.getElem?_set_ne (Ne.symm hb)]

/-- The cycle closes: with `c[l] = e - sum_except_i(c, l)`, the sum of all the
challenges is `e`, provided the additions involved succeed and `e` is the
encoding of a value below the group order. -/
theorem cycle_core {C : Primitives} {q : Nat} {dec : ec_compressed → Option Nat}
    (hlaw : Lawful C q dec) (cs : scalar_list) (l : Nat) (hl : l < cs.length) (e : ec_scalar)
    (hev : e.valid_ = true) (hcan : is_canonical q e = true)
    (hcl : (ec_scalar.sub C e (sum_except_i C cs l)).valid_ = true)
    (hsum : (sum_all C (cs.set l (ec_scalar.sub C e (sum_except_i C cs l)))).valid_ = true) :
    sum_all C (cs.set l (ec_scalar.sub C e (sum_except_i C cs l))) = e := by
  have hq0 := hlaw.order_pos
  have hq := hlaw.order_le
  obtain ⟨he, hlt⟩ := is_canonical_eq hev hcan
  obtain ⟨_, hsv, _, _⟩ := scalar_sub_valid hcl
  have hS := sum_except_i_sem hlaw cs l hsv
  have hsub := scalar_sub_sem hlaw hcl
  rw [sum_all_sem hlaw _ hsum, scalar_sum_set cs l 0 _ hl, hsub, hS]
  simp only [be_value_mod hq0 hq, Nat.zero_add, Nat.mod_mod]
  rw [mod_cancel_sub hq0, Nat.mod_eq_of_lt hlt]
  exact he.symm

theorem key_of_signer {C : Primitives} {fuel : Nat} {secrets : scalar_list}
    {publics : point_ring} {index : Nat} (hfuel : fuel_ok C fuel publics)
    (hpub : signer_keys C secrets publics index) :
    ∀ x ∈ secrets, (key_image C fuel x).isSome = true := by
  intro x hx
  obtain ⟨i, hi⟩ := List.get?_of_mem hx
  obtain ⟨hp, hhp⟩ := fuel_at2 hfuel (hpub i x hi)
  simp [key_image, hhp]

/-- The cycle closure where no operation fails: on a well-formed input
`mlsag_sign` returns, with `c[l] = e* - sum_except_i(c, l)` and
`e* = hash_rings("deadbeef", L, R)`; and whenever the additions on that path
have succeeded (the sum of all challenges and `c[l]` are valid) and `e*` is the
encoding of a value below the group order, the sum of all challenges is `e*` and
the asserted condition holds. -/
theorem cycle_closure_of_valid (C : Primitives) (q : Nat) (dec : ec_compressed → Option Nat)
    (hlaw : Lawful C q dec) (fuel : Nat) (secrets : scalar_list) (publics : point_ring)
    (index m n : Nat) (sd : Nat → Nat → ec_secret) (cd : Nat → ec_secret)
    (hm : 0 < m) (hP : is_table publics m n) (hx : secrets.length = m) (hl : index < n)
    (hfuel : fuel_ok C fuel publics)
    (hsec : ∀ x ∈ secrets, C.verify_secret x.secret = true)
    (hkey : ∀ x ∈ secrets, (key_image C fuel x).isSome = true) :
    (∃ st, mlsag_sign_run C fuel secrets publics index sd cd = some st) ∧
    ∀ st, mlsag_sign_run C fuel secrets publics index sd cd = some st →
      hash_rings C deadbeef st.left_points st.right_points = some st.total_challenge ∧
      st.signature.challenges = (draw_challenges n cd).set index
        (ec_scalar.sub C st.total_challenge (sum_except_i C (draw_challenges n cd) index)) ∧
      ((sum_all C st.signature.challenges).is_valid = true →
        (challenge_at st.signature.challenges index).is_valid = true →
        is_canonical q st.total_challenge = true →
        sum_all C st.signature.challenges = st.total_challenge ∧ assert_sum C st = true) := by
  obtain ⟨e, he, hev, hrun⟩ := mlsag_sign_run_eq C fuel sd cd hm hP hx hl hfuel hsec hkey
  refine ⟨⟨_, hrun⟩, ?_⟩
  intro st hst
  rw [hrun] at hst
  have hst' := (Option.some.inj hst).symm
  subst hst'
  refine ⟨he, rfl, ?_⟩
  intro hsum hcl hcan
  have hlen : index < (draw_challenges n cd).length := by
    rw [length_draw_challenges]; exact hl
  simp only [ec_scalar.is_valid] at hsum hcl
  rw [challenge_at_set _ hlen] at hcl
  have hcore := cycle_core hlaw _ index hlen e hev hcan hcl hsum
  refine ⟨hcore, ?_⟩
  simp only [assert_sum]
  rw [hcore]
  simp [ec_scalar.eq]

/-- The cycle closure on the run of the sample ring. -/
theorem cycle_closure_sample :
    mlsag_sign_run toy.primitives toy.fuel toy.secrets toy.ring 0 toy.salt_draws
        toy.challenge_draws = some toy.state ∧
      sum_all toy.primitives toy.state.signature.challenges = toy.state.total_challenge ∧
      assert_sum toy.primitives toy.state = true := by
  have hrun : mlsag_sign_run toy.primitives toy.fuel toy.secrets toy.ring 0 toy.salt_draws
      toy.challenge_draws = some toy.state := by decide
  exact ⟨hrun, ((cycle_closure_of_valid toy.primitives curve_order toy.decode toy_lawful
    toy.fuel toy.secrets toy.ring 0 2 2 toy.salt_draws toy.challenge_draws (by decide)
    ⟨rfl, by decide⟩ rfl (by decide) (by unfold fuel_ok; decide) (by decide)
    (by decide)).2 toy.state hrun).2.2
    (by decide) (by decide) (by decide)⟩

/-- C6 at a failing input: one row, three columns, the secret `5` with
`P[0][0] = 5 G`, signer column 0, and draws that all pass `verify`, with the
challenge draws `c[1] = 1`, `c[2] = n - 1`.  The partial sum `0 + 1 + (n - 1)`
is zero, `ec_add` rejects it, `c[0]` comes out invalid, and the condition of
`BITCOIN_ASSERT(sum_all(challenges) == total_challenge)` is false. -/
theorem C6_assert_sum_fails :
    mlsag_sign_run toy.primitives toy.fuel toy.secrets3 toy.ring3 0 toy.salt_draws
        toy.challenge_draws3 = some toy.state3 ∧
      at2 toy.ring3 0 0 = some (ec_point.smul toy.primitives (toy.scalar 5) ec_point.G) ∧
      (∀ x ∈ toy.secrets3, toy.primitives.verify_secret x.secret = true) ∧
      (∀ j, j < 3 → toy.primitives.verify_secret (toy.challenge_draws3 j) = true ∧
        toy.primitives.verify_secret (toy.salt_draws 0 j) = true) ∧
      (sum_except_i toy.primitives (draw_challenges 3 toy.challenge_draws3) 0).is_valid = false ∧
      (challenge_at toy.state3.signature.challenges 0).is_valid = false ∧
      assert_sum toy.primitives toy.state3 = false := by
  refine ⟨by decide, by decide, by decide, by decide, by decide, by decide, by decide⟩

theorem secret_at_eq {secrets : scalar_list} {i : Nat} (hi : i < secrets.length) :
    secrets.get? i = some (secret_at secrets i) := by
  simp [secret_at, List.getElem?_eq_getElem hi]

theorem point_at_signer {C : Primitives} {secrets : scalar_list} {publics : point_ring}
    {index i : Nat} (hpub : signer_keys C secrets publics index) (hi : i < secrets.length) :
    at2 publics i index = some (ec_point.smul C (secret_at secrets i) ec_point.G) :=
  hpub i _ (secret_at_eq hi)

/-- The recomputed `L` at the signer column, for the salts and challenges that
`mlsag_sign` returns. -/
theorem left_value_closed (C : Primitives) {secrets : scalar_list} {publics : point_ring}
    {index m n i : Nat} (sd : Nat → Nat → ec_secret) (cs : scalar_list) (cl : ec_scalar)
    (hx : secrets.length = m) (hl : index < n) (hlen : index < cs.length)
    (hpub : signer_keys C secrets publics index) (hi : i < m) :
    left_value C publics (tabulate m n (closed_salt C secrets cl (draw_salts m n sd) index))
        (cs.set index cl) i index
      = ec_point.add C
          (ec_point.smul C (ec_scalar.sub C (ec_scalar.of_secret (sd i index))
            (ec_scalar.mul C cl (secret_at secrets i))) ec_point.G)
          (ec_point.smul C cl (ec_point.smul C (secret_at secrets i) ec_point.G)) := by
  unfold left_value
  rw [salt_at_tabulate _ hi hl, challenge_at_set _ hlen]
  simp only [closed_salt, if_true, draw_salts, salt_at_tabulate _ hi hl, point_at,
    point_at_signer hpub (hx ▸ hi), Option.getD_some]

/-- The response at the signer column where no operation fails: on a
well-formed input whose column `index` holds the public keys `x_i G`,
`mlsag_sign` returns; in every row `i` the point
`left[i][index]` is `s G` for the drawn salt `s`, the returned salt is
`s - c[index] x_i`, and the asserted condition
`left[i][index] == s[i][index] G + c[index] P[i][index]` holds whenever
`left[i][index]` and the recomputed point are valid, that is, whenever no
operation on that path has failed. -/
theorem signer_response_of_valid (C : Primitives) (q : Nat)
    (dec : ec_compressed → Option Nat)
    (hlaw : Lawful C q dec) (fuel : Nat) (secrets : scalar_list) (publics : point_ring)
    (index m n : Nat) (sd : Nat → Nat → ec_secret) (cd : Nat → ec_secret)
    (hm : 0 < m) (hP : is_table publics m n) (hx : secrets.length = m) (hl : index < n)
    (hfuel : fuel_ok C fuel publics)
    (hsec : ∀ x ∈ secrets, C.verify_secret x.secret = true)
    (hpub : signer_keys C secrets publics index) :
    (∃ st, mlsag_sign_run C fuel secrets publics index sd cd = some st) ∧
    ∀ st, mlsag_sign_run C fuel secrets publics index sd cd = some st → ∀ i, i < m →
      at2 st.left_points i index
        = some (ec_point.smul C (ec_scalar.of_secret (sd i index)) ec_point.G) ∧
      at2 st.signature.salts i index
        = some (ec_scalar.sub C (ec_scalar.of_secret (sd i index))
            (ec_scalar.mul C (challenge_at st.signature.challenges index)
              (secret_at secrets i))) ∧
      (valid_point (at2 st.left_points i index) = true →
        valid_point (rule_left C publics st.signature i index) = true →
        assert_left C publics index st i = some true) := by
  obtain ⟨e, he, hev, hrun⟩ := mlsag_sign_run_eq C fuel sd cd hm hP hx hl hfuel hsec
    (key_of_signer hfuel hpub)
  refine ⟨⟨_, hrun⟩, ?_⟩
  intro st hst i hi
  rw [hrun] at hst
  have hst' := (Option.some.inj hst).symm
  subst hst'
  have hlen : index < (draw_challenges n cd).length := by
    rw [length_draw_challenges]; exact hl
  have hL : at2 (tabulate m n (sign_left C publics (draw_salts m n sd)
      (draw_challenges n cd) index)) i index
      = some (ec_point.smul C (ec_scalar.of_secret (sd i index)) ec_point.G) := by
    rw [at2_tabulate _ hi hl]
    simp [sign_left, draw_salts, salt_at_tabulate _ hi hl]
  have hS : at2 (tabulate m n (closed_salt C secrets
      (ec_scalar.sub C e (sum_except_i C (draw_challenges n cd) index))
      (draw_salts m n sd) index)) i index
      = some (ec_scalar.sub C (ec_scalar.of_secret (sd i index))
          (ec_scalar.mul C (ec_scalar.sub C e (sum_except_i C (draw_challenges n cd) index))
            (secret_at secrets i))) := by
    rw [at2_tabulate _ hi hl]
    simp [closed_salt, draw_salts, salt_at_tabulate _ hi hl]
  have hrule := @rule_left_eq C publics
      ⟨secrets.map (fun x => (key_image C fuel x).getD ec_point.default),
       (draw_challenges n cd).set index
          (ec_scalar.sub C e (sum_except_i C (draw_challenges n cd) index)),
       tabulate m n (closed_salt C secrets
          (ec_scalar.sub C e (sum_except_i C (draw_challenges n cd) index))
          (draw_salts m n sd) index)⟩ m n hP (is_table_tabulate m n _)
      (by simp [length_draw_challenges]) i index hi hl
  dsimp only at hrule ⊢
  rw [left_value_closed C sd _ _ hx hl hlen hpub hi] at hrule
  refine ⟨hL, by rw [hS, challenge_at_set _ hlen], ?_⟩
  intro hv0 hv1
  rw [hL] at hv0
  rw [hrule] at hv1
  simp only [valid_point] at hv0 hv1
  have hclose := closing_point hlaw ec_point.G (ec_scalar.of_secret (sd i index))
    (ec_scalar.sub C e (sum_except_i C (draw_challenges n cd) index)) (secret_at secrets i)
    hv0 hv1
  simp only [assert_left, hL, hS, Option.some_bind, List.get?_eq_getElem?,
    List.getElem?_set_self hlen, point_at_signer hpub (hx ▸ hi), Option.map_some', hclose]
  simp [ec_point.eq]

/-- The response at the signer column in both rows of the run on the sample
ring. -/
theorem signer_response_sample :
    mlsag_sign_run toy.primitives toy.fuel toy.secrets toy.ring 0 toy.salt_draws
        toy.challenge_draws = some toy.state ∧
      assert_left toy.primitives toy.ring 0 toy.state 0 = some true ∧
      assert_left toy.primitives toy.ring 0 toy.state 1 = some true := by
  have hrun : mlsag_sign_run toy.primitives toy.fuel toy.secrets toy.ring 0 toy.salt_draws
      toy.challenge_draws = some toy.state := by decide
  have hpub : signer_keys toy.primitives toy.secrets toy.ring 0 := by
    intro i x hi
    match i, hi with
    | 0, hi => cases hi; rfl
    | 1, hi => cases hi; rfl
    | k + 2, hi => simp [toy.secrets] at hi
  have h := (signer_response_of_valid toy.primitives curve_order toy.decode toy_lawful
    toy.fuel toy.secrets toy.ring 0 2 2 toy.salt_draws toy.challenge_draws (by decide)
    ⟨rfl, by decide⟩ rfl (by decide) (by unfold fuel_ok; decide) (by decide) hpub).2
    toy.state hrun
  exact ⟨hrun, (h 0 (by decide)).2.2 (by decide) (by decide),
    (h 1 (by decide)).2.2 (by decide) (by decide)⟩

/-- C7 at a failing input: the run with the challenge draws `c[1] = 1`,
`c[2] = n - 1` on the ring of three columns, whose column 0 is `5 G` for the
secret `5`; the secret and all draws pass `verify`.  `c[0]` is invalid, so the
updated `s[0][0]` and the recomputed point are invalid, while `left[0][0]` is
the valid point `s G`: the condition of the assertion in the closing loop is
false. -/
theorem C7_assert_left_fails :
    mlsag_sign_run toy.primitives toy.fuel toy.secrets3 toy.ring3 0 toy.salt_draws
        toy.challenge_draws3 = some toy.state3 ∧
      at2 toy.ring3 0 0 = some (ec_point.smul toy.primitives (toy.scalar 5) ec_point.G) ∧
      (∀ x ∈ toy.secrets3, toy.primitives.verify_secret x.secret = true) ∧
      (∀ j, j < 3 → toy.primitives.verify_secret (toy.challenge_draws3 j) = true ∧
        toy.primitives.verify_secret (toy.salt_draws 0 j) = true) ∧
      (challenge_at toy.state3.signature.challenges 0).is_valid = false ∧
      valid_point (at2 toy.state3.left_points 0 0) = true ∧
      valid_point (rule_left toy.primitives toy.ring3 toy.state3.signature 0 0) = false ∧
      assert_left toy.primitives toy.ring3 0 toy.state3 0 = some false := by
  refine ⟨by decide, by decide, by decide, by decide, by decide, by decide, by decide,
    by decide⟩

end libbitcoin

namespace libbitcoin

/-! ## Round trip -/

set_option maxRecDepth 100000

theorem mlsag_verify_eq (C : Primitives) (fuel : Nat) {publics : point_ring}
    {signature : mlsag_signature} {m n : Nat} (hm : 0 < m)
    (hP : is_table publics m n) (hS : is_table signature.salts m n)
    (hc : signature.challenges.length = n) (hI : signature.key_images.length = m)
    (hfuel : fuel_ok C fuel publics) :
    mlsag_verify C fuel publics signature
      = (hash_rings C deadbeef
          (tabulate m n (left_value C publics signature.salts signature.challenges))
          (tabulate m n (right_value C (tabulate m n (hashed_value C fuel publics))
            signature.salts signature.challenges signature.key_images))).map
        (fun e => ec_scalar.eq (sum_all C signature.challenges) e) := by
  obtain ⟨row0, h0, hn⟩ := get_zero_of_table hm hP
  unfold mlsag_verify
  simp only [hP.1, h0, Option.some_bind, hn, hash_publics_eq C fuel hP hfuel,
    verify_columns_eq C hP (is_table_tabulate m n _) hS hc hI]
  rw [if_neg (by omega)]

/-- The recomputed `R` at the signer column, for the salts, challenges and key
images that `mlsag_sign` returns. -/
theorem right_value_closed (C : Primitives) (fuel : Nat) {secrets : scalar_list}
    {publics : point_ring} {index m n i : Nat} (sd : Nat → Nat → ec_secret)
    (cs : scalar_list) (cl : ec_scalar)
    (hx : secrets.length = m) (hl : index < n) (hlen : index < cs.length)
    (hfuel : fuel_ok C fuel publics)
    (hpub : signer_keys C secrets publics index) (hi : i < m) :
    right_value C (tabulate m n (hashed_value C fuel publics))
        (tabulate m n (closed_salt C secrets cl (draw_salts m n sd) index))
        (cs.set index cl)
        (secrets.map (fun x => (key_image C fuel x).getD ec_point.default)) i index
      = ec_point.add C
          (ec_point.smul C (ec_scalar.sub C (ec_scalar.of_secret (sd i index))
            (ec_scalar.mul C cl (secret_at secrets i))) (hashed_value C fuel publics i index))
          (ec_point.smul C cl (ec_point.smul C (secret_at secrets i)
            (hashed_value C fuel publics i index))) := by
  have hpi := point_at_signer hpub (hx ▸ hi)
  obtain ⟨hp, hhp⟩ := fuel_at2 hfuel hpi
  have himage : image_at (secrets.map (fun x => (key_image C fuel x).getD ec_point.default)) i
      = ec_point.smul C (secret_at secrets i) (hashed_value C fuel publics i index) := by
    have hi' : i < secrets.length := hx ▸ hi
    simp [image_at, List.getElem?_map, List.getElem?_eq_getElem hi', secret_at, key_image,
      hashed_value, hpi, hhp]
    have hs : secret_at secrets i = secrets[i] := by
      simp [secret_at, List.getElem?_eq_getElem hi']
    rw [hs] at hhp
    simp [hhp]
  unfold right_value
  rw [salt_at_tabulate _ hi hl, challenge_at_set _ hlen, point_at_tabulate _ hi hl, himage]
  simp only [closed_salt, if_true, draw_salts, salt_at_tabulate _ hi hl]

/-- The tables that `mlsag_verify` recomputes from the signature of
`mlsag_sign` are the tables the signer hashed, when no operation failed on the
closing path. -/
theorem verify_tables_eq_sign {C : Primitives} {q : Nat} {dec : ec_compressed → Option Nat}
    (hlaw : Lawful C q dec) (fuel : Nat) {secrets : scalar_list} {publics : point_ring}
    {index m n : Nat} (sd : Nat → Nat → ec_secret) (cs : scalar_list) (cl : ec_scalar)
    (hx : secrets.length = m) (hl : index < n)
    (hlen : cs.length = n) (hfuel : fuel_ok C fuel publics)
    (hpub : signer_keys C secrets publics index)
    (hvalid : ∀ i, i < m →
      (ec_point.smul C (ec_scalar.of_secret (sd i index)) ec_point.G).is_valid = true ∧
      (ec_point.smul C (ec_scalar.of_secret (sd i index))
        (hashed_value C fuel publics i index)).is_valid = true ∧
      (left_value C publics (tabulate m n (closed_salt C secrets cl (draw_salts m n sd) index))
        (cs.set index cl) i index).is_valid = true ∧
      (right_value C (tabulate m n (hashed_value C fuel publics))
        (tabulate m n (closed_salt C secrets cl (draw_salts m n sd) index))
        (cs.set index cl)
        (secrets.map (fun x => (key_image C fuel x).getD ec_point.default))
        i index).is_valid = true) :
    tabulate m n (left_value C publics
        (tabulate m n (closed_salt C secrets cl (draw_salts m n sd) index)) (cs.set index cl))
      = tabulate m n (sign_left C publics (draw_salts m n sd) cs index) ∧
    tabulate m n (right_value C (tabulate m n (hashed_value C fuel publics))
        (tabulate m n (closed_salt C secrets cl (draw_salts m n sd) index)) (cs.set index cl)
        (secrets.map (fun x => (key_image C fuel x).getD ec_point.default)))
      = tabulate m n (sign_right C (tabulate m n (hashed_value C fuel publics))
        (draw_salts m n sd) cs
        (secrets.map (fun x => (key_image C fuel x).getD ec_point.default)) index) := by
  have hlen' : index < cs.length := by rw [hlen]; exact hl
  constructor
  · apply tabulate_congr
    intro a b ha hb
    by_cases hbl : b = index
    · subst hbl
      obtain ⟨h0, _, h1, _⟩ := hvalid a ha
      rw [left_value_closed C sd _ _ hx hl hlen' hpub ha] at h1 ⊢
      rw [closing_point hlaw _ _ _ _ h0 h1]
      simp [sign_left, draw_salts, salt_at_tabulate _ ha hb]
    · simp only [sign_left, if_neg hbl, left_value, salt_at_tabulate _ ha hb, closed_salt,
        challenge_at_set_ne _ hbl]
  · apply tabulate_congr
    intro a b ha hb
    by_cases hbl : b = index
    · subst hbl
      obtain ⟨_, h0, _, h1⟩ := hvalid a ha
      rw [right_value_closed C fuel sd _ _ hx hl hlen' hfuel hpub ha] at h1 ⊢
      rw [closing_point hlaw _ _ _ _ h0 h1]
      simp [sign_right, draw_salts, salt_at_tabulate _ ha hb, point_at_tabulate _ ha hb]
    · simp only [sign_right, if_neg hbl, right_value, salt_at_tabulate _ ha hb, closed_salt,
        challenge_at_set_ne _ hbl]

/-- The round trip where no operation fails: on a well-formed input (an `m`
by `n` ring with `m > 0`, `m` secrets that pass `verify`, a signer column
`index < n` that holds the public keys `x_i G`, and fuel for the
`hash_to_point` calls) `mlsag_sign` returns a signature for every outcome of the
draws, and `mlsag_verify` accepts that signature whenever no scalar or point
operation has failed on the closing path of the run (`closing_valid`). -/
theorem round_trip_of_valid (C : Primitives) (q : Nat) (dec : ec_compressed → Option Nat)
    (hlaw : Lawful C q dec) (fuel : Nat) (secrets : scalar_list) (publics : point_ring)
    (index m n : Nat) (sd : Nat → Nat → ec_secret) (cd : Nat → ec_secret)
    (hm : 0 < m) (hP : is_table publics m n) (hx : secrets.length = m) (hl : index < n)
    (hfuel : fuel_ok C fuel publics)
    (hsec : ∀ x ∈ secrets, C.verify_secret x.secret = true)
    (hpub : signer_keys C secrets publics index) :
    (∃ st, mlsag_sign_run C fuel secrets publics index sd cd = some st) ∧
    ∀ st, mlsag_sign_run C fuel secrets publics index sd cd = some st →
      mlsag_sign C fuel secrets publics index sd cd = some st.signature ∧
      (closing_valid C q fuel publics index st = true →
        mlsag_verify C fuel publics st.signature = some true) := by
  obtain ⟨e, he, hev, hrun⟩ := mlsag_sign_run_eq C fuel sd cd hm hP hx hl hfuel hsec
    (key_of_signer hfuel hpub)
  refine ⟨⟨_, hrun⟩, ?_⟩
  intro st hst
  refine ⟨by rw [mlsag_sign, hst]; rfl, ?_⟩
  rw [hrun] at hst
  have hst' := (Option.some.inj hst).symm
  subst hst'
  intro hcv
  have hlen := length_draw_challenges n cd
  have hlen' : index < (draw_challenges n cd).length := by rw [hlen]; exact hl
  simp only [closing_valid, Bool.and_eq_true, List.all_eq_true, List.mem_range,
    ec_scalar.is_valid, hP.1] at hcv
  obtain ⟨⟨⟨hsum, hcl⟩, hcan⟩, hrows⟩ := hcv
  rw [challenge_at_set _ hlen'] at hcl
  have hsigS : is_table (tabulate m n (closed_salt C secrets
      (ec_scalar.sub C e (sum_except_i C (draw_challenges n cd) index))
      (draw_salts m n sd) index)) m n := is_table_tabulate m n _
  have hsigc : ((draw_challenges n cd).set index
      (ec_scalar.sub C e (sum_except_i C (draw_challenges n cd) index))).length = n := by
    simp [hlen]
  have hsigI : (secrets.map (fun x => (key_image C fuel x).getD ec_point.default)).length
      = m := by simp [hx]
  have hvalid : ∀ i, i < m →
      (ec_point.smul C (ec_scalar.of_secret (sd i index)) ec_point.G).is_valid = true ∧
      (ec_point.smul C (ec_scalar.of_secret (sd i index))
        (hashed_value C fuel publics i index)).is_valid = true ∧
      (left_value C publics (tabulate m n (closed_salt C secrets
          (ec_scalar.sub C e (sum_except_i C (draw_challenges n cd) index))
          (draw_salts m n sd) index))
        ((draw_challenges n cd).set index
          (ec_scalar.sub C e (sum_except_i C (draw_challenges n cd) index)))
        i index).is_valid = true ∧
      (right_value C (tabulate m n (hashed_value C fuel publics))
        (tabulate m n (closed_salt C secrets
          (ec_scalar.sub C e (sum_except_i C (draw_challenges n cd) index))
          (draw_salts m n sd) index))
        ((draw_challenges n cd).set index
          (ec_scalar.sub C e (sum_except_i C (draw_challenges n cd) index)))
        (secrets.map (fun x => (key_image C fuel x).getD ec_point.default))
        i index).is_valid = true := by
    intro i hi
    obtain ⟨⟨⟨h1, h2⟩, h3⟩, h4⟩ := hrows i hi
    rw [at2_tabulate _ hi hl] at h1 h2
    rw [rule_left_eq C hP hsigS hsigc hi hl] at h3
    rw [rule_right_eq C fuel hP hsigS hsigc hsigI hfuel
      (fun a b ha hb => at2_tabulate _ ha hb) hi hl] at h4
    simp only [valid_point, sign_left, sign_right, if_true, draw_salts,
      salt_at_tabulate _ hi hl, point_at_tabulate _ hi hl] at h1 h2 h3 h4
    exact ⟨h1, h2, h3, h4⟩
  obtain ⟨hLeq, hReq⟩ := verify_tables_eq_sign hlaw fuel sd (draw_challenges n cd)
    (ec_scalar.sub C e (sum_except_i C (draw_challenges n cd) index)) hx hl hlen hfuel hpub
    hvalid
  rw [mlsag_verify_eq C fuel hm hP hsigS hsigc hsigI hfuel]
  dsimp only
  rw [hLeq, hReq, he, Option.map_some',
    cycle_core hlaw _ index hlen' e hev hcan hcl hsum]
  simp [ec_scalar.eq]

/-- The round trip on the sample ring of two rows and two columns. -/
theorem round_trip_sample :
    mlsag_sign toy.primitives toy.fuel toy.secrets toy.ring 0 toy.salt_draws
        toy.challenge_draws = some toy.state.signature ∧
      closing_valid toy.primitives curve_order toy.fuel toy.ring 0 toy.state = true ∧
      mlsag_verify toy.primitives toy.fuel toy.ring toy.state.signature = some true := by
  have hrun : mlsag_sign_run toy.primitives toy.fuel toy.secrets toy.ring 0 toy.salt_draws
      toy.challenge_draws = some toy.state := by decide
  have hpub : signer_keys toy.primitives toy.secrets toy.ring 0 := by
    intro i x hi
    match i, hi with
    | 0, hi => cases hi; rfl
    | 1, hi => cases hi; rfl
    | k + 2, hi => simp [toy.secrets] at hi
  have h := (round_trip_of_valid toy.primitives curve_order toy.decode toy_lawful toy.fuel
    toy.secrets toy.ring 0 2 2 toy.salt_draws toy.challenge_draws (by decide) ⟨rfl, by decide⟩
    rfl (by decide) (by unfold fuel_ok; decide) (by decide) hpub).2 toy.state hrun
  exact ⟨h.1, by decide, h.2 (by decide)⟩

/-- C1 at a failing input: one row, three columns, the secret `5` with
`P[0][0] = 5 G`, signer column 0, and draws that all pass `verify`, with
`c[1] = 1` and `c[2] = n - 1`.  The run of `mlsag_sign` reaches a state in which
the conditions of its two closing assertions are false; the signature it holds
has an invalid `c[0]`, and `mlsag_verify` returns false on it. -/
theorem C1_round_trip_fails :
    mlsag_sign toy.primitives toy.fuel toy.secrets3 toy.ring3 0 toy.salt_draws
        toy.challenge_draws3 = some toy.state3.signature ∧
      at2 toy.ring3 0 0 = some (ec_point.smul toy.primitives (toy.scalar 5) ec_point.G) ∧
      (∀ row ∈ toy.ring3, ∀ p ∈ row, p.is_valid = true) ∧
      (∀ x ∈ toy.secrets3, toy.primitives.verify_secret x.secret = true) ∧
      (∀ j, j < 3 → toy.primitives.verify_secret (toy.challenge_draws3 j) = true ∧
        toy.primitives.verify_secret (toy.salt_draws 0 j) = true) ∧
      assert_sum toy.primitives toy.state3 = false ∧
      assert_left toy.primitives toy.ring3 0 toy.state3 0 = some false ∧
      mlsag_verify toy.primitives toy.fuel toy.ring3 toy.state3.signature = some false := by
  refine ⟨by decide, by decide, by decide, by decide, by decide, by decide, by decide,
    by decide⟩

/-- C2 at a failing input: in the signature of the sample run, which
`mlsag_verify` accepts, `salts[0][0]` is replaced by the different scalar
`12345`, or `P[0][0]` is replaced by the different point `12345 G`; verification
still returns true, because the buffer that `hash_rings` hashes holds no byte
of the cells other than the last written one, `right[1][1]`. -/
theorem C2_tampering_undetected :
    mlsag_sign toy.primitives toy.fuel toy.secrets toy.ring 0 toy.salt_draws
        toy.challenge_draws = some toy.state.signature ∧
      mlsag_verify toy.primitives toy.fuel toy.ring toy.state.signature = some true ∧
      at2 toy.tampered_salt.salts 0 0 ≠ at2 toy.state.signature.salts 0 0 ∧
      mlsag_verify toy.primitives toy.fuel toy.ring toy.tampered_salt = some true ∧
      at2 toy.tampered_ring 0 0 ≠ at2 toy.ring 0 0 ∧
      mlsag_verify toy.primitives toy.fuel toy.tampered_ring toy.state.signature = some true := by
  refine ⟨by decide, by decide, by decide, by decide, by decide, by decide⟩

end libbitcoin

namespace libbitcoin

/-! ## Construction, validity and boolean context of scalars and points -/

set_option maxRecDepth 100000

/-- C11, as amended: for every 33-byte value `p`, the point constructed from `p`
reports `is_valid()` exactly when `p[0]` is `0x02` or `0x03`, with no curve
check; `invalidate()` sets the prefix byte to 0, keeps the other bytes, and
`is_valid()` is false afterwards. -/
theorem C11_point_validity (p : ec_compressed) (hp : p.length = 33) :
    ((ec_point.of_compressed p).is_valid = true ↔ (p.getD 0 0 = 2 ∨ p.getD 0 0 = 3)) ∧
    (ec_point.of_compressed p).invalidate.point.getD 0 0 = 0 ∧
    (ec_point.of_compressed p).invalidate.point.drop 1 = p.drop 1 ∧
    (ec_point.of_compressed p).invalidate.point.length = 33 ∧
    (ec_point.of_compressed p).invalidate.is_valid = false := by
  refine ⟨by simp [ec_point.of_compressed, ec_point.is_valid], ?_, ?_, ?_,
    point_is_valid_invalidate _⟩
  · cases p with
    | nil => simp at hp
    | cons b rest => simp [ec_point.of_compressed, ec_point.invalidate, ec_point.point]
  · cases p with
    | nil => simp at hp
    | cons b rest => simp [ec_point.of_compressed, ec_point.invalidate, ec_point.point]
  · simp [ec_point.of_compressed, ec_point.invalidate, ec_point.point, hp]

/-- Witness of C11 as amended: the bytes of `G`. -/
theorem C11_point_validity_witness :
    ((ec_point.of_compressed ec_point.G.point).is_valid = true ↔
      (ec_point.G.point.getD 0 0 = 2 ∨ ec_point.G.point.getD 0 0 = 3)) ∧
    (ec_point.of_compressed ec_point.G.point).invalidate.point.getD 0 0 = 0 ∧
    (ec_point.of_compressed ec_point.G.point).invalidate.point.drop 1
      = ec_point.G.point.drop 1 ∧
    (ec_point.of_compressed ec_point.G.point).invalidate.point.length = 33 ∧
    (ec_point.of_compressed ec_point.G.point).invalidate.is_valid = false :=
  C11_point_validity ec_point.G.point (by decide)

/-- Counterexample to C11 as stated: the 33 bytes `0x02 || 00..00` have a valid
prefix and the curve check rejects them (`x = 0` is on no point of the curve),
yet the point constructed from them reports `is_valid()`. -/
theorem C11_counterexample :
    (compressed_even :: null_hash).length = 33 ∧
    (ec_point.of_compressed (compressed_even :: null_hash)).is_valid = true ∧
    toy.primitives.verify_point (compressed_even :: null_hash) = false ∧
    ¬ ((ec_point.of_compressed (compressed_even :: null_hash)).is_valid = true ↔
      (((compressed_even :: null_hash).getD 0 0 = 2 ∨
          (compressed_even :: null_hash).getD 0 0 = 3) ∧
        toy.primitives.verify_point (compressed_even :: null_hash) = true)) := by
  refine ⟨by decide, by decide, by decide, by decide⟩

theorem be_value_append (a b : List Nat) :
    be_value (a ++ b) = be_value a * 256 ^ b.length + be_value b := by
  rw [be_value, List.foldl_append, foldl_bytes]
  rfl

/-- C12: for every `uint64` value `v`, `ec_scalar(v)` is valid, has 32 bytes of
which the first 24 are zero and the last 8 are `v` in big-endian order, and
assigning `v` to any existing scalar gives the same scalar. -/
theorem C12_scalar_of_uint64 (self : ec_scalar) (v : Nat) (hv : v < 2 ^ 64) :
    (ec_scalar.of_uint64 v).is_valid = true ∧
    (ec_scalar.of_uint64 v).secret.length = 32 ∧
    (ec_scalar.of_uint64 v).secret.take 24 = List.replicate 24 0 ∧
    (ec_scalar.of_uint64 v).secret.drop 24 = be_bytes 8 v ∧
    be_value ((ec_scalar.of_uint64 v).secret.drop 24) = v ∧
    be_value (ec_scalar.of_uint64 v).secret = v ∧
    ec_scalar.assign_uint64 self v = ec_scalar.of_uint64 v := by
  have h8 : be_value (be_bytes 8 v) = v := by
    rw [be_value_be_bytes]
    apply Nat.mod_eq_of_lt
    have : (256 : Nat) ^ 8 = 2 ^ 64 := by norm_num
    omega
  have hs : (ec_scalar.of_uint64 v).secret = List.replicate 24 0 ++ be_bytes 8 v := by
    simp [ec_scalar.of_uint64, ec_scalar.reset, ec_scalar.secret, List.take_replicate]
  have hz : be_value (List.replicate 24 0) = 0 := by decide
  refine ⟨rfl, ?_, ?_, ?_, ?_, ?_, rfl⟩
  · rw [hs]; simp [length_be_bytes]
  · rw [hs]; simp [List.take_append_of_le_length]
  · rw [hs]; simp [List.drop_append_of_le_length]
  · rw [hs]; simp [List.drop_append_of_le_length, h8]
  · rw [hs, be_value_append, hz, h8]; simp

/-- Witness of C12: the value `0xdeadbeef` assigned to an invalid scalar. -/
theorem C12_scalar_of_uint64_witness :
    (ec_scalar.of_uint64 0xdeadbeef).is_valid = true ∧
    (ec_scalar.of_uint64 0xdeadbeef).secret.length = 32 ∧
    (ec_scalar.of_uint64 0xdeadbeef).secret.take 24 = List.replicate 24 0 ∧
    (ec_scalar.of_uint64 0xdeadbeef).secret.drop 24 = be_bytes 8 0xdeadbeef ∧
    be_value ((ec_scalar.of_uint64 0xdeadbeef).secret.drop 24) = 0xdeadbeef ∧
    be_value (ec_scalar.of_uint64 0xdeadbeef).secret = 0xdeadbeef ∧
    ec_scalar.assign_uint64 (toy.scalar 7).invalidate 0xdeadbeef
      = ec_scalar.of_uint64 0xdeadbeef :=
  C12_scalar_of_uint64 (toy.scalar 7).invalidate 0xdeadbeef (by norm_num)

/-- C13: a scalar converts to true exactly when it is valid and one of its bytes
is not zero; `ec_scalar(0)` is valid and converts to false; every invalid scalar
and every invalid point converts to false. -/
theorem C13_boolean_context (s : ec_scalar) (p : ec_point) :
    (s.to_bool = true ↔ (s.is_valid = true ∧ ∃ b ∈ s.secret, b ≠ 0)) ∧
    (ec_scalar.of_uint64 0).is_valid = true ∧
    (ec_scalar.of_uint64 0).to_bool = false ∧
    (s.is_valid = false → s.to_bool = false) ∧
    (p.is_valid = false → p.to_bool = false) := by
  refine ⟨?_, rfl, by decide, ?_, ?_⟩
  · simp [ec_scalar.to_bool, ec_scalar.is_zero, ec_scalar.secret]
  · intro h
    simp [ec_scalar.to_bool, h]
  · intro h
    simp [ec_point.to_bool, h]

/-- Witness of C13: an invalidated scalar and the invalidated generator. -/
theorem C13_boolean_context_witness :
    (toy.scalar 7).invalidate.to_bool = false ∧ ec_point.G.invalidate.to_bool = false :=
  ⟨(C13_boolean_context (toy.scalar 7).invalidate ec_point.G.invalidate).2.2.2.1 rfl,
   (C13_boolean_context (toy.scalar 7).invalidate ec_point.G.invalidate).2.2.2.2 rfl⟩

/-- C14, as amended: a scalar constructed from 32 bytes, or assigned them, is
valid and holds these bytes, whatever they are: the constructor makes no range
check. -/
theorem C14_scalar_of_secret (self : ec_scalar) (secret : ec_secret) :
    (ec_scalar.of_secret secret).is_valid = true ∧
    (ec_scalar.of_secret secret).secret = secret ∧
    ec_scalar.assign_secret self secret = ec_scalar.of_secret secret :=
  ⟨rfl, rfl, rfl⟩

/-- Counterexample to C14 as stated: the scalars constructed from the bytes of
`0` and of the group order `n` are valid, and neither value is in `[1, n)`. -/
theorem C14_counterexample :
    (ec_scalar.of_secret null_hash).is_valid = true ∧ be_value null_hash = 0 ∧
    (ec_scalar.of_secret (be_bytes 32 curve_order)).is_valid = true ∧
    be_value (be_bytes 32 curve_order) = curve_order ∧
    ¬ ((ec_scalar.of_secret null_hash).is_valid = true ↔
      (1 ≤ be_value null_hash ∧ be_value null_hash < curve_order)) := by
  refine ⟨rfl, by decide, rfl, by decide, by decide⟩

end libbitcoin

namespace libbitcoin

/-! ## Subtraction, and the identity -/

set_option maxRecDepth 100000

theorem point_invalidate_invalidate (p : ec_point) : p.invalidate.invalidate = p.invalidate := by
  cases p with
  | mk bs => cases bs <;> simp [ec_point.invalidate]

theorem point_prefix_invalidate (p : ec_point) : p.invalidate.point_.getD 0 0 = 0 := by
  cases p with
  | mk bs => cases bs <;> simp [ec_point.invalidate]

theorem scalar_sub_eq_add_neg (C : Primitives) (a b : ec_scalar) :
    ec_scalar.sub C a b = ec_scalar.add C a (ec_scalar.neg C b) := by
  unfold ec_scalar.sub
  cases ha : a.valid_ <;> cases hb : b.valid_
  · simp [ec_scalar.add, ha]
  · simp [ec_scalar.add, ha]
  · simp [ec_scalar.add, ec_scalar.neg, ha, hb]
  · cases hn : (ec_scalar.neg C b).valid_
    · simp [ec_scalar.add, ec_scalar.invalidate, ha, hn]
    · simp [hn]

theorem point_sub_eq_add_neg (C : Primitives) (p q : ec_point) :
    ec_point.sub C p q = ec_point.add C p (ec_point.neg C q) := by
  unfold ec_point.sub
  cases hp : p.is_valid <;> cases hq : q.is_valid
  · simp [ec_point.add, hp]
  · simp [ec_point.add, hp]
  · simp [ec_point.add, ec_point.neg, hp, hq]
  · cases hn : (ec_point.neg C q).is_valid
    · simp [ec_point.add, hp, hn, point_is_valid_invalidate, point_invalidate_invalidate]
    · simp [hn]

/-- C15: `a - b` is `a + (-b)` for all scalars, in bytes and validity, and
`p - q` is `p + (-q)` for all points, byte for byte, valid or not. -/
theorem C15_sub_is_add_neg (C : Primitives) (a b : ec_scalar) (p q : ec_point) :
    ec_scalar.sub C a b = ec_scalar.add C a (ec_scalar.neg C b) ∧
    (ec_scalar.sub C a b).secret = (ec_scalar.add C a (ec_scalar.neg C b)).secret ∧
    (ec_scalar.sub C a b).is_valid = (ec_scalar.add C a (ec_scalar.neg C b)).is_valid ∧
    ec_point.sub C p q = ec_point.add C p (ec_point.neg C q) ∧
    (ec_point.sub C p q).point = (ec_point.add C p (ec_point.neg C q)).point := by
  rw [scalar_sub_eq_add_neg, point_sub_eq_add_neg]
  exact ⟨rfl, rfl, rfl, rfl, rfl⟩

/-- With a point-sum primitive that fails on the identity, `p - p` is an
invalidated point. -/
theorem sub_self_invalidated {C : Primitives} {q : Nat} {dec : ec_compressed → Option Nat}
    (hid : IdentityFails C q dec) (p : ec_point) :
    ∃ r : ec_point, ec_point.sub C p p = r.invalidate := by
  rw [point_sub_eq_add_neg]
  unfold ec_point.add
  by_cases h1 : (!p.is_valid || !(ec_point.neg C p).is_valid) = true
  · rw [if_pos h1]
    exact ⟨p, rfl⟩
  · rw [if_neg h1]
    simp only [Bool.or_eq_true, Bool.not_eq_true', not_or, Bool.not_eq_false] at h1
    obtain ⟨_, hnv⟩ := h1
    obtain ⟨_, hnrc, hneq⟩ := point_neg_valid hnv
    obtain ⟨x, hx, hnx⟩ := hid.pneg_ok _ hnrc
    have hzero : (x + (q - x % q) % q) % q = 0 := by
      have := mod_cancel_sub hid.order_pos x 0
      simpa using this
    have hrc : (C.ec_sum p.point_ [p.point_, (ec_point.neg C p).point_]).1 = false := by
      rw [hneq]
      exact hid.sum_identity p.point_ _ _ x _ hx hnx hzero
    simp only [hrc, Bool.not_false, if_true]
    exact ⟨_, rfl⟩

/-- C16: given that the point-sum primitive fails when the sum is the identity,
for every valid scalar `a` for which `a G` is a valid point, the point
`a G - a G` is invalid: `is_valid()` is false, it converts to false, and its
prefix byte is the invalidity signal 0. -/
theorem C16_identity_not_representable (C : Primitives) (q : Nat)
    (dec : ec_compressed → Option Nat) (hid : IdentityFails C q dec) (a : ec_scalar)
    (_ha : a.is_valid = true) (_hP : (ec_point.smul C a ec_point.G).is_valid = true) :
    (ec_point.sub C (ec_point.smul C a ec_point.G) (ec_point.smul C a ec_point.G)).is_valid
      = false ∧
    (ec_point.sub C (ec_point.smul C a ec_point.G) (ec_point.smul C a ec_point.G)).to_bool
      = false ∧
    (ec_point.sub C (ec_point.smul C a ec_point.G)
      (ec_point.smul C a ec_point.G)).point.getD 0 0 = 0 := by
  obtain ⟨r, hr⟩ := sub_self_invalidated hid (ec_point.smul C a ec_point.G)
  rw [hr]
  exact ⟨point_is_valid_invalidate r, by simp [ec_point.to_bool, point_is_valid_invalidate],
    point_prefix_invalidate r⟩

/-- The reference instance fails on the identity. -/
theorem toy_identity_fails : IdentityFails toy.primitives curve_order toy.decode where
  order_pos := curve_order_pos
  pneg_ok := by
    intro p h
    simp only [toy.primitives, toy.ec_negate_point] at h ⊢
    cases hp : toy.decode p with
    | none => simp [hp] at h
    | some x =>
      obtain ⟨_, h0, hlt⟩ := toy_encode_decode hp
      refine ⟨x, rfl, ?_⟩
      simp only []
      rw [Nat.mod_eq_of_lt hlt, Nat.mod_eq_of_lt (by omega)]
      exact toy_decode_encode (by omega) (by omega)
  sum_identity := by
    intro r a b x y ha hb hz
    simp [toy.primitives, toy.ec_sum, toy.decode_sum, ha, hb, hz]

/-- Witness of C16: the scalar 5 on the reference instance. -/
theorem C16_identity_not_representable_witness :
    (ec_point.sub toy.primitives (ec_point.smul toy.primitives (toy.scalar 5) ec_point.G)
      (ec_point.smul toy.primitives (toy.scalar 5) ec_point.G)).is_valid = false ∧
    (ec_point.sub toy.primitives (ec_point.smul toy.primitives (toy.scalar 5) ec_point.G)
      (ec_point.smul toy.primitives (toy.scalar 5) ec_point.G)).to_bool = false ∧
    (ec_point.sub toy.primitives (ec_point.smul toy.primitives (toy.scalar 5) ec_point.G)
      (ec_point.smul toy.primitives (toy.scalar 5) ec_point.G)).point.getD 0 0 = 0 :=
  C16_identity_not_representable toy.primitives curve_order toy.decode toy_identity_fails
    (toy.scalar 5) rfl (by decide)

end libbitcoin

namespace libbitcoin

/-! ## `hash_to_point` -/

set_option maxRecDepth 100000

theorem increments_succ (C : Primitives) (k : Nat) (x : ec_scalar) :
    increments C (k + 1) x = increment C (increments C k x) := by
  induction k generalizing x with
  | zero => rfl
  | succ j ih =>
    rw [increments, ih (increment C x)]
    rfl

/-- What the loop returns: the first candidate that passes the curve check. -/
theorem hash_to_point_loop_some (C : Primitives) (fuel : Nat) (x : ec_scalar) (p : ec_point)
    (h : hash_to_point_loop C fuel x = some p) :
    ∃ k, k < fuel ∧ p = ec_point.of_compressed (candidate (increments C k x)) ∧
      C.verify_point (candidate (increments C k x)) = true ∧
      ∀ j, j < k → C.verify_point (candidate (increments C j x)) = false := by
  induction fuel generalizing x with
  | zero => simp [hash_to_point_loop] at h
  | succ f ih =>
    simp only [hash_to_point_loop] at h
    by_cases hv : C.verify_point (compressed_even :: x.secret) = true
    · rw [if_pos hv] at h
      refine ⟨0, Nat.succ_pos f, (Option.some.inj h).symm, hv, ?_⟩
      intro j hj
      exact absurd hj (Nat.not_lt_zero j)
    · rw [if_neg hv] at h
      obtain ⟨k, hk, hp, hpass, hfail⟩ := ih _ h
      refine ⟨k + 1, Nat.succ_lt_succ hk, hp, hpass, ?_⟩
      intro j hj
      cases j with
      | zero => simpa [increments, candidate] using hv
      | succ i => exact hfail i (Nat.lt_of_succ_lt_succ hj)

/-- The loop returns the first passing candidate when the fuel reaches it. -/
theorem hash_to_point_loop_reach (C : Primitives) (k : Nat) (x : ec_scalar)
    (hpass : C.verify_point (candidate (increments C k x)) = true)
    (hfail : ∀ j, j < k → C.verify_point (candidate (increments C j x)) = false)
    (fuel : Nat) (hfuel : k < fuel) :
    hash_to_point_loop C fuel x
      = some (ec_point.of_compressed (candidate (increments C k x))) := by
  induction k generalizing x fuel with
  | zero =>
    cases fuel with
    | zero => exact absurd hfuel (Nat.lt_irrefl 0)
    | succ f =>
      simp only [hash_to_point_loop]
      rw [if_pos (by simpa [increments, candidate] using hpass)]
      rfl
  | succ i ih =>
    cases fuel with
    | zero => exact absurd hfuel (Nat.not_lt_zero _)
    | succ f =>
      have h0 := hfail 0 (Nat.succ_pos i)
      simp only [hash_to_point_loop]
      rw [if_neg (by simpa [increments, candidate] using h0)]
      exact ih (x.add_assign C (value_to_scalar 1)) hpass
        (fun j hj => hfail (j + 1) (Nat.succ_lt_succ hj)) f (Nat.lt_of_succ_lt_succ hfuel)

/-- C17: whenever `hash_to_point_impl` returns on the input `d`, its result is
`0x02 || x_k`, where `x_k` is `DoubleSHA256(d)` after `k` steps `x <- x + 1` and
`k` is the least number of steps whose candidate passes the curve check; the
result passes the check and reports `is_valid()`; with more than `k` iterations
allowed the call does return it; and both overloads apply this rule to the bytes
of their argument. -/
theorem C17_hash_to_point_result (C : Primitives) (fuel : Nat) (d : data_chunk)
    (s : ec_scalar) (q : ec_point) :
    (∀ p, hash_to_point_impl C fuel d = some p →
      ∃ k, k < fuel ∧
        p.point = compressed_even ::
          (increments C k (ec_scalar.of_secret (C.bitcoin_hash d))).secret ∧
        C.verify_point p.point = true ∧
        (∀ j, j < k → C.verify_point
          (candidate (increments C j (ec_scalar.of_secret (C.bitcoin_hash d)))) = false) ∧
        p.is_valid = true) ∧
    (∀ k, C.verify_point
        (candidate (increments C k (ec_scalar.of_secret (C.bitcoin_hash d)))) = true →
      (∀ j, j < k → C.verify_point
        (candidate (increments C j (ec_scalar.of_secret (C.bitcoin_hash d)))) = false) →
      k < fuel →
      hash_to_point_impl C fuel d = some (ec_point.of_compressed
        (candidate (increments C k (ec_scalar.of_secret (C.bitcoin_hash d)))))) ∧
    hash_to_point_scalar C fuel s = hash_to_point_impl C fuel s.secret ∧
    hash_to_point C fuel q = hash_to_point_impl C fuel q.point := by
  refine ⟨?_, ?_, rfl, rfl⟩
  · intro p hp
    obtain ⟨k, hk, hpe, hpass, hfail⟩ := hash_to_point_loop_some C fuel _ p hp
    refine ⟨k, hk, by rw [hpe]; rfl, by rw [hpe]; exact hpass, hfail, ?_⟩
    rw [hpe]
    rfl
  · intro k hpass hfail hk
    exact hash_to_point_loop_reach C k _ hpass hfail fuel hk

/-- Witness of C17: the point `1 G` on the reference instance, whose hash needs
one step. -/
theorem C17_hash_to_point_result_witness :
    hash_to_point toy.primitives toy.fuel (toy.public_key 1)
      = some (ec_point.of_compressed (candidate (increments toy.primitives 1
          (ec_scalar.of_secret (toy.primitives.bitcoin_hash (toy.public_key 1).point))))) ∧
    ∃ k, k < toy.fuel ∧
      (ec_point.of_compressed (candidate (increments toy.primitives 1
          (ec_scalar.of_secret
            (toy.primitives.bitcoin_hash (toy.public_key 1).point))))).point
        = compressed_even :: (increments toy.primitives k (ec_scalar.of_secret
            (toy.primitives.bitcoin_hash (toy.public_key 1).point))).secret := by
  have h := C17_hash_to_point_result toy.primitives toy.fuel (toy.public_key 1).point
    (toy.scalar 1) (toy.public_key 1)
  have hret := h.2.1 1 (by decide) (by decide) (by decide)
  obtain ⟨k, hk, hp, _⟩ := h.1 _ hret
  exact ⟨hret, k, hk, hp⟩

/-- Once `x_value` is invalid and its candidate fails the curve check, the loop
of `hash_to_point_impl` returns for no number of iterations. -/
theorem hash_to_point_loop_stuck (C : Primitives) (x : ec_scalar) (hx : x.valid_ = false)
    (hv : C.verify_point (compressed_even :: x.secret) = false) (fuel : Nat) :
    hash_to_point_loop C fuel x = none := by
  induction fuel with
  | zero => rfl
  | succ f ih =>
    simp only [hash_to_point_loop]
    rw [if_neg (by simp [hv])]
    have : x.add_assign C (value_to_scalar 1) = x := by
      simp [ec_scalar.add_assign, hx]
    rw [this]
    exact ih

/-- C18 at a failing input: the 33 bytes `stuck_input`, whose double hash in
the reference instance is `n - 1`.  The candidate `0x02 || (n - 1)` fails the
curve check, the step `x <- x + 1` fails in `ec_add` because the sum is zero,
`x_value` is invalid from then on and `+=` leaves it unchanged, and the
candidate built from its bytes fails the check: the loop returns for no number
of iterations. -/
theorem C18_hash_to_point_stuck :
    toy.stuck_primitives.bitcoin_hash toy.stuck_input = be_bytes 32 (curve_order - 1) ∧
    toy.stuck_primitives.verify_point
      (candidate (ec_scalar.of_secret (be_bytes 32 (curve_order - 1)))) = false ∧
    (increment toy.stuck_primitives
      (ec_scalar.of_secret (be_bytes 32 (curve_order - 1)))).is_valid = false ∧
    ∀ fuel, hash_to_point_impl toy.stuck_primitives fuel toy.stuck_input = none := by
  have hh : toy.stuck_primitives.bitcoin_hash toy.stuck_input
      = be_bytes 32 (curve_order - 1) := by decide
  refine ⟨hh, by decide, by decide, ?_⟩
  intro fuel
  cases fuel with
  | zero => rfl
  | succ f =>
    unfold hash_to_point_impl
    rw [hh]
    simp only [hash_to_point_loop]
    rw [if_neg (by decide)]
    exact hash_to_point_loop_stuck toy.stuck_primitives _ (by decide) (by decide) f

end libbitcoin

namespace libbitcoin

/-! ## `borromean_hash` and the size check of `verify_rangeproof` -/

set_option maxRecDepth 100000

theorem flatten_range_succ (k : Nat) (f : Nat → List Nat) :
    ((List.range (k + 1)).map f).flatten = ((List.range k).map f).flatten ++ f k := by
  simp [List.range_succ]

theorem length_flatten_const (k c : Nat) (f : Nat → List Nat)
    (h : ∀ i, i < k → (f i).length = c) : ((List.range k).map f).flatten.length = c * k := by
  induction k with
  | zero => simp
  | succ j ih =>
    rw [flatten_range_succ, List.length_append, ih (fun i hi => h i (Nat.lt_succ_of_lt hi)),
      h j (Nat.lt_succ_self j)]
    ring

/-- The loop of `borromean_hash` collects the points of column `index`, row by
row, left before right. -/
theorem borromean_input_eq (left right : point_ring) (index : Nat)
    (h : ∀ i, i < left.length →
      (∃ l, at2 left i index = some l) ∧ ∃ r, at2 right i index = some r) :
    borromean_input left right index
      = some ((List.range left.length).map (fun i =>
          (point_at left i index).point ++ (point_at right i index).point)).flatten := by
  obtain ⟨s, hs, hinv⟩ := for_loop_inv
    (fun k (d : data_chunk) => d = ((List.range k).map (fun i =>
      (point_at left i index).point ++ (point_at right i index).point)).flatten)
    (fun i input_data => (at2 left i index).bind (fun l =>
      (at2 right i index).map (fun r => input_data ++ l.point ++ r.point)))
    [] left.length (by simp)
    (by
      intro k s hk hs
      obtain ⟨⟨l, hl⟩, ⟨r, hr⟩⟩ := h k hk
      refine ⟨s ++ l.point ++ r.point, by simp [hl, hr], ?_⟩
      show s ++ l.point ++ r.point = ((List.range (k + 1)).map (fun i =>
        (point_at left i index).point ++ (point_at right i index).point)).flatten
      rw [flatten_range_succ, ← hs]
      simp [point_at, hl, hr])
  unfold borromean_input
  rw [hs, hinv]

/-- C19: for a 32-byte `M`, tables `left` and `right` of `r` rows that have a
33-byte point in column `j`, `borromean_hash(M, left, right, j)` is the SHA-256
of the `36 + 66 r` bytes
`M || left[0][j] || right[0][j] || ... || left[r-1][j] || right[r-1][j] || j`
with `j` on 4 big-endian bytes. -/
theorem C19_borromean_transcript (C : Primitives) (M : hash_digest) (left right : point_ring)
    (j r : Nat) (hM : M.length = 32) (hl : left.length = r) (hr : right.length = r)
    (hcol : ∀ i, i < r →
      (∃ l, at2 left i j = some l ∧ l.point.length = 33) ∧
      ∃ p, at2 right i j = some p ∧ p.point.length = 33) :
    ∃ data, borromean_data M left right j = some data ∧
      data = spec_borromean M left right j ∧
      data.length = 36 + 66 * r ∧
      borromean_hash C M left right j = some (ec_scalar.of_secret (C.sha256_hash data)) := by
  have hin := borromean_input_eq left right j (by
    intro i hi
    obtain ⟨⟨l, hl', _⟩, ⟨p, hp, _⟩⟩ := hcol i (hl ▸ hi)
    exact ⟨⟨l, hl'⟩, ⟨p, hp⟩⟩)
  have hlen : ((List.range left.length).map (fun i =>
      (point_at left i j).point ++ (point_at right i j).point)).flatten.length
      = 66 * left.length := by
    apply length_flatten_const
    intro i hi
    obtain ⟨⟨l, hl', hl33⟩, ⟨p, hp, hp33⟩⟩ := hcol i (hl ▸ hi)
    simp [point_at, hl', hp, hl33, hp33]
  have hdata : borromean_data M left right j = some (spec_borromean M left right j) := by
    unfold borromean_data
    rw [if_neg (by rw [hl, hr]; simp), hin]
    simp only [Option.map_some', spec_borromean, overwrite_front]
    congr 1
    rw [List.take_of_length_le (by
        simp only [List.length_append, List.length_replicate, hM, hash_size, length_be_bytes]
        omega),
      List.drop_of_length_le (by
        simp only [List.length_append, List.length_replicate, hM, hash_size, length_be_bytes]
        omega)]
    simp
  refine ⟨_, hdata, rfl, ?_, by simp only [borromean_hash, hdata, Option.map_some']⟩
  rw [hl] at hlen
  simp only [spec_borromean, List.length_append, hM, length_be_bytes, hl, hlen]
  omega

/-- Witness of C19: the zero digest and column 1 of the sample ring, used as
both tables. -/
theorem C19_borromean_transcript_witness :
    ∃ data, borromean_data null_hash toy.ring toy.ring 1 = some data ∧
      data = spec_borromean null_hash toy.ring toy.ring 1 ∧
      data.length = 36 + 66 * 2 ∧
      borromean_hash toy.primitives null_hash toy.ring toy.ring 1
        = some (ec_scalar.of_secret (toy.primitives.sha256_hash data)) :=
  C19_borromean_transcript toy.primitives null_hash toy.ring toy.ring 1 2 (by decide) rfl rfl
    (by
      intro i hi
      match i, hi with
      | 0, _ => exact ⟨⟨_, rfl, by decide⟩, ⟨_, rfl, by decide⟩⟩
      | 1, _ => exact ⟨⟨_, rfl, by decide⟩, ⟨_, rfl, by decide⟩⟩)

/-- C20: `verify_rangeproof` returns false for every proof whose list of
commitments has a length other than 64, whatever the signature, the transaction
hash and the ring verifier are. -/
theorem C20_rangeproof_size_check (C : Primitives) (R : RingPrimitives)
    (rangeproof : transaction_rangeproof) (transaction_hash : hash_digest)
    (h : rangeproof.commitments.length ≠ 64) :
    verify_rangeproof C R rangeproof transaction_hash = some false := by
  unfold verify_rangeproof
  rw [if_pos (by simpa [proof_size] using h)]

/-- Witness of C20: a proof with three commitments, and a ring verifier that
accepts everything. -/
theorem C20_rangeproof_size_check_witness :
    verify_rangeproof toy.primitives toy.accept_all toy.short_proof null_hash = some false :=
  C20_rangeproof_size_check toy.primitives toy.accept_all toy.short_proof null_hash (by decide)

end libbitcoin

namespace libbitcoin

/-! ## The range proof -/

theorem bitcolumn_value_eq {i : Nat} (hi : i < 64) : bitcolumn_value i = 2 ^ i := by
  unfold bitcolumn_value
  rw [Nat.shiftLeft_eq, one_mul]
  exact Nat.mod_eq_of_lt (Nat.pow_lt_pow_right (by norm_num) hi)

/-- The loop of `make_rangeproof` in closed form. -/
theorem make_rangeproof_loop_eq (C : Primitives) (value : Nat) {secrets : List ec_secret}
    (pd : Nat → Nat → ec_secret) (sd : Nat → ec_secret) (challenge : ec_secret)
    (hlen : secrets.length = 64) :
    make_rangeproof_loop C value secrets pd sd challenge
      = some (rangeproof_after C value secrets pd sd challenge 64) := by
  obtain ⟨st, hst, hinv⟩ := for_loop_inv
    (fun k st => st = rangeproof_after C value secrets pd sd challenge k)
    (fun i st =>
      (secrets.get? i).map (fun secret =>
        let bit_is_set := value.testBit i
        let digit_2i := bitcolumn_value i
        let blind_point := ec_point.smul C (ec_scalar.of_secret secret) ec_point.G
        let value_point := ec_point.smul C (value_to_scalar digit_2i) ec_point_H
        let commitment :=
          if bit_is_set then blind_point.add_assign C value_point else blind_point
        rangeproof_state.mk
          ⟨st.rangeproof.commitments ++ [commitment.point],
           ⟨st.rangeproof.signature.proofs ++ [[pd i 0, pd i 1]],
            st.rangeproof.signature.challenge⟩⟩
          (st.rings ++ [[commitment.point, (ec_point.sub C commitment value_point).point]])
          (st.salts ++ [sd i])))
    ⟨⟨[], ⟨[], challenge⟩⟩, [], []⟩ 64 rfl
    (by
      intro k st hk hst
      have hk' : k < secrets.length := by omega
      have hget : secrets.get? k = some secrets[k] := by simp [List.getElem?_eq_getElem hk']
      dsimp only
      rw [hget]
      refine ⟨_, rfl, ?_⟩
      subst hst
      simp only [rangeproof_after, List.range_succ, List.map_append, List.map_cons,
        List.map_nil, ring_at, commitment_at, blind_point_at, value_point_at,
        bitcolumn_value_eq hk, List.getD_eq_getElem _ _ hk'])
  unfold make_rangeproof_loop proof_size
  rw [hst, hinv]

theorem make_rangeproof_run_eq (C : Primitives) (R : RingPrimitives) (value : Nat)
    {secrets : List ec_secret} (h : hash_digest)
    (pd : Nat → Nat → ec_secret) (sd : Nat → ec_secret) (challenge : ec_secret)
    (hlen : secrets.length = 64) :
    make_rangeproof_run C R value secrets h pd sd challenge
      = some
        (⟨⟨(rangeproof_after C value secrets pd sd challenge 64).rangeproof.commitments,
            (R.sign (rangeproof_after C value secrets pd sd challenge 64).rangeproof.signature
              secrets (rangeproof_after C value secrets pd sd challenge 64).rings h
              (rangeproof_after C value secrets pd sd challenge 64).salts).2⟩,
          (rangeproof_after C value secrets pd sd challenge 64).rings,
          (rangeproof_after C value secrets pd sd challenge 64).salts⟩,
         (R.sign (rangeproof_after C value secrets pd sd challenge 64).rangeproof.signature
            secrets (rangeproof_after C value secrets pd sd challenge 64).rings h
            (rangeproof_after C value secrets pd sd challenge 64).salts).1) := by
  unfold make_rangeproof_run
  rw [if_neg (by simp [proof_size, hlen]), make_rangeproof_loop_eq C value pd sd challenge hlen]
  rfl

/-- The loop of `verify_rangeproof` in closed form. -/
theorem rebuild_rings_eq (C : Primitives) {commitments : List ec_compressed}
    (hlen : commitments.length = 64) :
    rebuild_rings C commitments
      = some ((List.range 64).map (fun i =>
          [commitments.getD i [],
           (ec_point.sub C (ec_point.of_compressed (commitments.getD i []))
              (value_point_at C i)).point])) := by
  obtain ⟨rings, hr, hinv⟩ := for_loop_inv
    (fun k rings => rings = (List.range k).map (fun i =>
          [commitments.getD i [],
           (ec_point.sub C (ec_point.of_compressed (commitments.getD i []))
              (value_point_at C i)).point]))
    (fun i rings =>
      (commitments.get? i).map (fun commitment =>
        let digit_2i := (1 <<< i) % 2 ^ 64
        rings ++ [[commitment,
          (ec_point.sub C (ec_point.of_compressed commitment)
            (ec_point.smul C (value_to_scalar digit_2i) ec_point_H)).point]]))
    [] 64 rfl
    (by
      intro k rings hk hst
      have hk' : k < commitments.length := by omega
      have hget : commitments.get? k = some commitments[k] := by
        simp [List.getElem?_eq_getElem hk']
      dsimp only
      rw [hget]
      refine ⟨_, rfl, ?_⟩
      subst hst
      have h2 : (1 <<< k) % 2 ^ 64 = 2 ^ k := bitcolumn_value_eq hk
      simp only [List.range_succ, List.map_append, List.map_cons, List.map_nil,
        value_point_at, h2, List.getD_eq_getElem _ _ hk'])
  unfold rebuild_rings proof_size
  rw [hr, hinv]

end libbitcoin

namespace libbitcoin

set_option maxRecDepth 100000

theorem getD_of_get? {α : Type} {l : List α} {i : Nat} {v : α} (d : α)
    (h : l.get? i = some v) : l.getD i d = v := by
  simp only [List.get?_eq_getElem?] at h
  simp [List.getD_eq_getElem?_getD, h]

theorem mem_of_get? {α : Type} {l : List α} {i : Nat} {v : α} (h : l.get? i = some v) :
    v ∈ l := by
  simp only [List.get?_eq_getElem?] at h
  exact List.getElem?_mem h

/-- C21: bit commitments.  For every 64-bit value and every list of 64 secrets
whose public keys `b_i G` are valid points, `make_rangeproof` returns a proof
with exactly 64 commitments, and `commitments[i]` holds the bytes of `b_i G`
when bit `i` of the value is 0 and of `b_i G + 2^i H` when it is 1. -/
theorem C21_bit_commitments (C : Primitives) (R : RingPrimitives) (value : Nat)
    (secrets : List ec_secret) (h : hash_digest)
    (pd : Nat → Nat → ec_secret) (sd : Nat → ec_secret) (challenge : ec_secret)
    (_hv : value < 2 ^ 64) (hlen : secrets.length = 64)
    (hvalid : ∀ b ∈ secrets,
      (ec_point.smul C (ec_scalar.of_secret b) ec_point.G).is_valid = true) :
    ∃ rp, make_rangeproof C R value secrets h pd sd challenge = some rp ∧
      rp.commitments.length = 64 ∧
      ∀ i b, i < 64 → secrets.get? i = some b →
        rp.commitments.get? i = some
          (if value.testBit i then
            (ec_point.add C (ec_point.smul C (ec_scalar.of_secret b) ec_point.G)
              (ec_point.smul C (value_to_scalar (2 ^ i)) ec_point_H)).point
           else (ec_point.smul C (ec_scalar.of_secret b) ec_point.G).point) := by
  unfold make_rangeproof
  rw [make_rangeproof_run_eq C R value h pd sd challenge hlen]
  refine ⟨_, rfl, by simp [rangeproof_after], ?_⟩
  intro i b hi hb
  have hb' := getD_of_get? [] hb
  have hv := hvalid b (mem_of_get? hb)
  simp only [rangeproof_after, List.get?_eq_getElem?, List.getElem?_map,
    List.getElem?_range hi, Option.map_some', commitment_at, blind_point_at, value_point_at,
    hb']
  by_cases hbit : value.testBit i = true
  · simp only [hbit, if_true, ec_point.add_assign, hv, Bool.not_true, Bool.false_eq_true,
      if_false]
  · simp only [hbit, if_false, Bool.false_eq_true]

/-- Witness of C21: the value 5 and the blinds `1, ..., 64` on the reference
instance. -/
theorem C21_bit_commitments_witness :
    ∃ rp, make_rangeproof toy.primitives toy.accept_all 5 toy.blinds null_hash
        toy.proof_draws toy.ring_salts null_hash = some rp ∧
      rp.commitments.length = 64 ∧
      ∀ i b, i < 64 → toy.blinds.get? i = some b →
        rp.commitments.get? i = some
          (if Nat.testBit 5 i then
            (ec_point.add toy.primitives
              (ec_point.smul toy.primitives (ec_scalar.of_secret b) ec_point.G)
              (ec_point.smul toy.primitives (value_to_scalar (2 ^ i)) ec_point_H)).point
           else (ec_point.smul toy.primitives (ec_scalar.of_secret b) ec_point.G).point) :=
  C21_bit_commitments toy.primitives toy.accept_all 5 toy.blinds null_hash
    toy.proof_draws toy.ring_salts null_hash (by decide) (by decide) (by decide)

/-- C23: ring reconstruction.  For every list of 64 commitments,
`verify_rangeproof` rebuilds 64 rings, the ring of bit `i` being
`{ B_i, B_i - 2^i H }`; and for the commitments of a proof that
`make_rangeproof` made from 64 secrets, the rebuilt rings are the list of rings
that `make_rangeproof` passed to `sign`. -/
theorem C23_ring_reconstruction (C : Primitives) (R : RingPrimitives) (value : Nat)
    (secrets : List ec_secret) (h : hash_digest)
    (pd : Nat → Nat → ec_secret) (sd : Nat → ec_secret) (challenge : ec_secret)
    (commitments : List ec_compressed)
    (hB : commitments.length = 64) (hlen : secrets.length = 64) :
    (∃ rings, rebuild_rings C commitments = some rings ∧ rings.length = 64 ∧
      ∀ i B, i < 64 → commitments.get? i = some B →
        rings.get? i = some [B,
          (ec_point.sub C (ec_point.of_compressed B)
            (ec_point.smul C (value_to_scalar (2 ^ i)) ec_point_H)).point]) ∧
    (∃ st run, make_rangeproof_loop C value secrets pd sd challenge = some st ∧
      make_rangeproof_run C R value secrets h pd sd challenge = some run ∧
      run.2 = (R.sign st.rangeproof.signature secrets st.rings h st.salts).1 ∧
      run.1.rangeproof.signature
        = (R.sign st.rangeproof.signature secrets st.rings h st.salts).2 ∧
      rebuild_rings C run.1.rangeproof.commitments = some st.rings) := by
  constructor
  · refine ⟨_, rebuild_rings_eq C hB, by simp, ?_⟩
    intro i B hi hBi
    simp only [List.get?_eq_getElem?, List.getElem?_map, List.getElem?_range hi,
      Option.map_some', getD_of_get? [] hBi, value_point_at]
  · refine ⟨_, _, make_rangeproof_loop_eq C value pd sd challenge hlen,
      make_rangeproof_run_eq C R value h pd sd challenge hlen, rfl, rfl, ?_⟩
    rw [rebuild_rings_eq C (by simp [rangeproof_after])]
    simp only [rangeproof_after, Option.some.injEq]
    apply List.map_congr_left
    intro i hi
    have hi' : i < 64 := List.mem_range.mp hi
    simp only [ring_at, List.getD_eq_getElem?_getD, List.getElem?_map,
      List.getElem?_range hi', Option.map_some', Option.getD_some, ec_point.of_compressed,
      ec_point.point]

/-- Witness of C23: the commitments `1 G, ..., 64 G`, and the proof of the value
5 with the blinds `1, ..., 64`, on the reference instance. -/
theorem C23_ring_reconstruction_witness :
    (∃ rings, rebuild_rings toy.primitives (toy.blinds.map (fun b =>
          (ec_point.smul toy.primitives (ec_scalar.of_secret b) ec_point.G).point))
        = some rings ∧ rings.length = 64 ∧
      ∀ i B, i < 64 → (toy.blinds.map (fun b =>
          (ec_point.smul toy.primitives (ec_scalar.of_secret b) ec_point.G).point)).get? i
          = some B →
        rings.get? i = some [B,
          (ec_point.sub toy.primitives (ec_point.of_compressed B)
            (ec_point.smul toy.primitives (value_to_scalar (2 ^ i)) ec_point_H)).point]) ∧
    (∃ st run, make_rangeproof_loop toy.primitives 5 toy.blinds toy.proof_draws
          toy.ring_salts null_hash = some st ∧
      make_rangeproof_run toy.primitives toy.accept_all 5 toy.blinds null_hash
          toy.proof_draws toy.ring_salts null_hash = some run ∧
      run.2 = (toy.accept_all.sign st.rangeproof.signature toy.blinds st.rings null_hash
          st.salts).1 ∧
      run.1.rangeproof.signature
        = (toy.accept_all.sign st.rangeproof.signature toy.blinds st.rings null_hash
            st.salts).2 ∧
      rebuild_rings toy.primitives run.1.rangeproof.commitments = some st.rings) :=
  C23_ring_reconstruction toy.primitives toy.accept_all 5 toy.blinds null_hash
    toy.proof_draws toy.ring_salts null_hash _ (by simp [toy.blinds]) (by decide)

end libbitcoin

namespace libbitcoin

/-! ## Pedersen commitments: the group law behind the byte strings -/

set_option maxRecDepth 100000

theorem mod_eq_of_cast {q a b : Nat} (h : (a : ZMod q) = (b : ZMod q)) : a % q = b % q :=
  (ZMod.natCast_eq_natCast_iff' a b q).1 h

theorem cast_neg_mod (q x : Nat) (hq : 0 < q) :
    (((q - x % q) % q : Nat) : ZMod q) = - (x : ZMod q) := by
  rw [ZMod.natCast_mod, Nat.cast_sub (Nat.mod_lt x hq).le, ZMod.natCast_self, ZMod.natCast_mod]
  ring

theorem point_ext {a b : ec_point} (h : a.point_ = b.point_) : a = b := by
  cases a
  cases b
  simpa using h

theorem point_neg_sem {C : Primitives} {q : Nat} {dec : ec_compressed → Option Nat}
    (hpt : PointLawful C q dec) {p : ec_point} (h : (ec_point.neg C p).is_valid = true) :
    ∃ x, dec p.point_ = some x ∧ dec (ec_point.neg C p).point_ = some ((q - x % q) % q) := by
  obtain ⟨_, hrc, heq⟩ := point_neg_valid h
  obtain ⟨x, hx, hr⟩ := hpt.pneg_ok _ hrc
  exact ⟨x, hx, by rw [heq]; exact hr⟩

theorem point_sub_sem {C : Primitives} {q : Nat} {dec : ec_compressed → Option Nat}
    (hlaw : Lawful C q dec) (hpt : PointLawful C q dec) {p p' : ec_point}
    (h : (ec_point.sub C p p').is_valid = true) :
    ∃ x y, dec p.point_ = some x ∧ dec p'.point_ = some y ∧
      dec (ec_point.sub C p p').point_ = some ((x + (q - y % q) % q) % q) := by
  obtain ⟨_, _, hneg, heq⟩ := point_sub_valid h
  rw [heq] at h ⊢
  obtain ⟨x, z, hx, hz, hr⟩ := point_add_sem hlaw h
  obtain ⟨y, hy, hn⟩ := point_neg_sem hpt hneg
  rw [hn] at hz
  cases hz
  exact ⟨x, y, hx, hy, hr⟩

/-- Subtracting what was added gives the first point back, byte for byte, when
no operation on the way has failed. -/
theorem point_add_sub_cancel {C : Primitives} {q : Nat} {dec : ec_compressed → Option Nat}
    (hlaw : Lawful C q dec) (hpt : PointLawful C q dec) (P V : ec_point) {u : Nat}
    (hu : dec P.point_ = some u) (huq : u < q)
    (h : (ec_point.sub C (ec_point.add C P V) V).is_valid = true) :
    ec_point.sub C (ec_point.add C P V) V = P := by
  have hq := hlaw.order_pos
  obtain ⟨x, y, hx, hy, hr⟩ := point_sub_sem hlaw hpt h
  obtain ⟨hB, _, _, _⟩ := point_sub_valid h
  obtain ⟨u', y', hu', hy', hB'⟩ := point_add_sem hlaw hB
  rw [hu] at hu'
  rw [hy] at hy'
  cases hu'
  cases hy'
  rw [hB'] at hx
  cases hx
  have e : ((u + y) % q + (q - y % q) % q) % q = u := by
    have : ((u + y) % q + (q - y % q) % q) % q = u % q := by
      apply mod_eq_of_cast
      push_cast
      rw [cast_neg_mod q y hq, ZMod.natCast_mod]
      push_cast
      ring
    rw [this, Nat.mod_eq_of_lt huq]
  rw [e] at hr
  exact point_ext (hlaw.dec_inj _ _ _ hr hu)

end libbitcoin

namespace libbitcoin

set_option maxRecDepth 100000

theorem toy_residue_sum (ps : List ec_compressed) :
    residue_sum toy.decode ps = toy.decode_sum ps := by
  induction ps with
  | nil => rfl
  | cons p rest ih =>
    rw [residue_sum, toy.decode_sum, ih]
    cases toy.decode p <;> cases toy.decode_sum rest <;> rfl

theorem toy_point_lawful : PointLawful toy.primitives curve_order toy.decode where
  pneg_ok := toy_identity_fails.pneg_ok
  sum_list_ok := by
    intro r ps h
    simp only [toy.primitives, toy.ec_sum] at h ⊢
    rw [toy_residue_sum]
    cases hs : toy.decode_sum ps with
    | none => simp [hs] at h
    | some s =>
      simp only [hs] at h ⊢
      by_cases hz : s % curve_order = 0
      · simp [hz] at h
      · simp only [hz, if_false]
        exact ⟨s, rfl, toy_decode_encode (Nat.pos_of_ne_zero hz)
          (Nat.mod_lt _ curve_order_pos)⟩
  dec_valid := by
    intro p x h
    obtain ⟨hp, _, _⟩ := toy_encode_decode h
    subst hp
    have h2 : x % 2 = 0 ∨ x % 2 = 1 := by omega
    rcases h2 with h2 | h2 <;>
      simp [ec_point.of_compressed, ec_point.is_valid, toy.encode, h2]

/-- The public key of a secret, when it is a valid point, encodes a residue. -/
theorem blind_point_residue {C : Primitives} {q : Nat} {dec : ec_compressed → Option Nat}
    (hlaw : Lawful C q dec) {b : ec_scalar} {P : ec_point}
    (h : (ec_point.smul C b P).is_valid = true) :
    ∃ x, dec P.point_ = some x ∧
      dec (ec_point.smul C b P).point_ = some ((x * be_value b.scalar_) % q) ∧
      (x * be_value b.scalar_) % q < q := by
  obtain ⟨x, hx, hr⟩ := point_mul_sem hlaw h
  exact ⟨x, hx, hr, Nat.mod_lt _ hlaw.order_pos⟩

/-- When bit `i` is set and the second key of ring `i` is a valid point, it is
the public key of the secret. -/
theorem second_key_known {C : Primitives} {q : Nat} {dec : ec_compressed → Option Nat}
    (hlaw : Lawful C q dec) (hpt : PointLawful C q dec) (value : Nat)
    (secrets : List ec_secret) {i : Nat} {b : ec_secret} (hb : secrets.getD i [] = b)
    (hv : (ec_point.smul C (ec_scalar.of_secret b) ec_point.G).is_valid = true)
    (hbit : value.testBit i = true)
    (hkey : (ec_point.sub C (commitment_at C value secrets i)
      (value_point_at C i)).is_valid = true) :
    ec_point.sub C (commitment_at C value secrets i) (value_point_at C i)
      = ec_point.smul C (ec_scalar.of_secret b) ec_point.G := by
  obtain ⟨hB, _, _, _⟩ := point_sub_valid hkey
  have hc : commitment_at C value secrets i
      = ec_point.add C (ec_point.smul C (ec_scalar.of_secret b) ec_point.G)
          (value_point_at C i) := by
    have : commitment_at C value secrets i
        = (ec_point.smul C (ec_scalar.of_secret b) ec_point.G).add_assign C
            (value_point_at C i) := by
      simp only [commitment_at, hbit, blind_point_at, hb, if_true]
    rw [this] at hB ⊢
    exact (point_add_assign_valid hB).2
  rw [hc] at hkey ⊢
  obtain ⟨x, _, hr, hlt⟩ := blind_point_residue hlaw hv
  exact point_add_sub_cancel hlaw hpt _ _ hr hlt hkey

/-- The known ring member of the range proof where no operation fails.  For
every 64-bit value, every list of 64 secrets whose public keys `b_i G` are valid points and
every `i < 64`, the ring of bit `i` that `make_rangeproof` builds is
`{ B_i, B_i - 2^i H }` with `B_i` the commitment; when bit `i` is 0 its first
key is `b_i G`, and when bit `i` is 1 its second key is `b_i G` provided that
this second key is a valid point, that is, no operation on the way to it has
failed. -/
theorem known_ring_member_of_valid (C : Primitives) (q : Nat) (dec : ec_compressed → Option Nat)
    (hlaw : Lawful C q dec) (hpt : PointLawful C q dec) (R : RingPrimitives) (value : Nat)
    (secrets : List ec_secret) (h : hash_digest)
    (pd : Nat → Nat → ec_secret) (sd : Nat → ec_secret) (challenge : ec_secret)
    (_hv : value < 2 ^ 64) (hlen : secrets.length = 64)
    (hvalid : ∀ b ∈ secrets,
      (ec_point.smul C (ec_scalar.of_secret b) ec_point.G).is_valid = true) :
    ∃ run, make_rangeproof_run C R value secrets h pd sd challenge = some run ∧
      ∀ i b, i < 64 → secrets.get? i = some b →
        ∃ B key, run.1.rangeproof.commitments.get? i = some B ∧
          run.1.rings.get? i = some [B, key] ∧
          key = (ec_point.sub C (ec_point.of_compressed B)
            (ec_point.smul C (value_to_scalar (2 ^ i)) ec_point_H)).point ∧
          (value.testBit i = false →
            B = (ec_point.smul C (ec_scalar.of_secret b) ec_point.G).point) ∧
          (value.testBit i = true → (ec_point.of_compressed key).is_valid = true →
            key = (ec_point.smul C (ec_scalar.of_secret b) ec_point.G).point) := by
  refine ⟨_, make_rangeproof_run_eq C R value h pd sd challenge hlen, ?_⟩
  intro i b hi hb
  have hb' := getD_of_get? [] hb
  have hv := hvalid b (mem_of_get? hb)
  refine ⟨(commitment_at C value secrets i).point,
    (ec_point.sub C (commitment_at C value secrets i) (value_point_at C i)).point,
    by simp [rangeproof_after, List.getElem?_range hi],
    by simp [rangeproof_after, List.getElem?_range hi, ring_at], rfl, ?_, ?_⟩
  · intro hbit
    simp only [commitment_at, hbit, blind_point_at, hb', Bool.false_eq_true, if_false]
  · intro hbit hkey
    show (ec_point.sub C _ _).point_ = _
    rw [second_key_known hlaw hpt value secrets hb' hv hbit hkey]
    rfl

/-- The known ring member for the value 5 and the blinds `1, ..., 64` on the
reference instance. -/
theorem known_ring_member_sample :
    ∃ run, make_rangeproof_run toy.primitives toy.accept_all 5 toy.blinds null_hash
        toy.proof_draws toy.ring_salts null_hash = some run ∧
      ∀ i b, i < 64 → toy.blinds.get? i = some b →
        ∃ B key, run.1.rangeproof.commitments.get? i = some B ∧
          run.1.rings.get? i = some [B, key] ∧
          key = (ec_point.sub toy.primitives (ec_point.of_compressed B)
            (ec_point.smul toy.primitives (value_to_scalar (2 ^ i)) ec_point_H)).point ∧
          (Nat.testBit 5 i = false →
            B = (ec_point.smul toy.primitives (ec_scalar.of_secret b) ec_point.G).point) ∧
          (Nat.testBit 5 i = true → (ec_point.of_compressed key).is_valid = true →
            key = (ec_point.smul toy.primitives (ec_scalar.of_secret b) ec_point.G).point) :=
  known_ring_member_of_valid toy.primitives curve_order toy.decode toy_lawful toy_point_lawful
    toy.accept_all 5 toy.blinds null_hash toy.proof_draws toy.ring_salts null_hash
    (by decide) (by decide) (by decide)

/-- C29 at a failing input: on the reference instance, for the value 1 and the
blinds `cancel_secret, 2, ..., 64`, which all pass `verify` and have valid
public keys, bit 0 of the value is 1 and the commitment `b_0 G + H` is the
identity, which has no encoding: `+=` invalidates the commitment, both keys of
ring 0 are invalidated points, the second key is not `b_0 G`, and ring 0 holds
the public key of none of the secrets. -/
theorem C29_ring_without_known_key :
    (∀ b ∈ toy.cancel_blinds, toy.primitives.verify_secret b = true ∧
      (ec_point.smul toy.primitives (ec_scalar.of_secret b) ec_point.G).is_valid = true) ∧
    Nat.testBit 1 0 = true ∧
    ∃ run ring key, make_rangeproof_run toy.primitives toy.accept_all 1 toy.cancel_blinds
        null_hash toy.proof_draws toy.ring_salts null_hash = some run ∧
      run.1.rings.get? 0 = some ring ∧ ring.get? 1 = some key ∧
      (ec_point.of_compressed key).is_valid = false ∧
      key ≠ (ec_point.smul toy.primitives (ec_scalar.of_secret toy.cancel_secret)
        ec_point.G).point ∧
      (∀ other ∈ ring, (ec_point.of_compressed other).is_valid = false) ∧
      (∀ b ∈ toy.cancel_blinds,
        (ec_point.smul toy.primitives (ec_scalar.of_secret b) ec_point.G).point ∉ ring) := by
  refine ⟨by decide, by decide, _, ring_at toy.primitives 1 toy.cancel_blinds 0,
    (ec_point.sub toy.primitives (commitment_at toy.primitives 1 toy.cancel_blinds 0)
      (value_point_at toy.primitives 0)).point,
    make_rangeproof_run_eq toy.primitives toy.accept_all 1 null_hash toy.proof_draws
      toy.ring_salts null_hash (by decide), rfl, rfl, by decide, by decide, by decide,
    by decide⟩

end libbitcoin

namespace libbitcoin

/-! ## The sum of the commitments of a range proof -/

set_option maxRecDepth 100000

theorem be_value_value_to_scalar {v : Nat} (hv : v < 2 ^ 64) :
    be_value (value_to_scalar v).scalar_ = v := by
  have h8 : be_value (be_bytes 8 v) = v := by
    rw [be_value_be_bytes]
    apply Nat.mod_eq_of_lt
    have : (256 : Nat) ^ 8 = 2 ^ 64 := by norm_num
    omega
  have hs : (value_to_scalar v).scalar_ = List.replicate 24 0 ++ be_bytes 8 v := by
    simp [value_to_scalar, ec_scalar.of_secret, null_hash, List.take_replicate]
  have hz : be_value (List.replicate 24 0) = 0 := by decide
  rw [hs, be_value_append, hz, h8]
  simp

theorem foldl_pair {α β γ : Type} (f : α → γ → α) (g : γ → β) (xs : List γ) (a : α)
    (l : List β) :
    xs.foldl (fun acc i => (f acc.1 i, acc.2 ++ [g i])) (a, l)
      = (xs.foldl f a, l ++ xs.map g) := by
  induction xs generalizing a l with
  | nil => simp
  | cons x rest ih => simp [ih]

/-- The point `v H` that `generate_random_blind` starts from. -/
theorem generate_random_blind_eq (C : Primitives) (value : Nat) (draws : Nat → ec_secret) :
    generate_random_blind C value draws
      = (((List.range 64).map (fun i =>
            ec_point.smul C (ec_scalar.of_secret (draws i)) ec_point.G)).foldl
          (fun p p' => ec_point.add_assign C p p')
          (ec_point.smul C (value_to_scalar value) ec_point_H),
         (List.range 64).map draws) := by
  unfold generate_random_blind proof_size
  rw [foldl_pair (fun p i => ec_point.add_assign C p
    (ec_point.smul C (ec_scalar.of_secret (draws i)) ec_point.G)) draws, List.foldl_map]
  simp

theorem point_foldl_valid (C : Primitives) (ps : List ec_point) (acc : ec_point)
    (h : (ps.foldl (fun p p' => ec_point.add_assign C p p') acc).is_valid = true) :
    acc.is_valid = true := by
  induction ps generalizing acc with
  | nil => exact h
  | cons p rest ih =>
    have := ih _ h
    exact (point_add_assign_valid this).1

theorem point_foldl_sem {C : Primitives} {q : Nat} {dec : ec_compressed → Option Nat}
    (hlaw : Lawful C q dec) (ps : List ec_point) (acc : ec_point) (x : Nat)
    (hx : dec acc.point_ = some x) (hxq : x < q)
    (h : (ps.foldl (fun p p' => ec_point.add_assign C p p') acc).is_valid = true) :
    ∃ s, residue_sum dec (ps.map (fun p => p.point_)) = some s ∧
      dec (ps.foldl (fun p p' => ec_point.add_assign C p p') acc).point_
        = some ((x + s) % q) := by
  induction ps generalizing acc x with
  | nil => exact ⟨0, rfl, by simpa [Nat.mod_eq_of_lt hxq] using hx⟩
  | cons p rest ih =>
    rw [List.foldl_cons] at h ⊢
    have hacc := point_foldl_valid C rest _ h
    obtain ⟨_, heq⟩ := point_add_assign_valid hacc
    rw [heq] at hacc h ⊢
    obtain ⟨x', y, hx', hy, hr⟩ := point_add_sem hlaw hacc
    rw [hx] at hx'
    cases hx'
    obtain ⟨s, hs, hfin⟩ := ih _ ((x + y) % q) hr (Nat.mod_lt _ hlaw.order_pos) h
    refine ⟨y + s, by simp [residue_sum, hy, hs], ?_⟩
    rw [hfin, Nat.mod_add_mod, Nat.add_assoc]

theorem residue_sum_map (dec : ec_compressed → Option Nat) {ι : Type} (l : List ι)
    (f : ι → ec_compressed) (r : ι → Nat) (h : ∀ i ∈ l, dec (f i) = some (r i)) :
    residue_sum dec (l.map f) = some ((l.map r).sum) := by
  induction l with
  | nil => rfl
  | cons i rest ih =>
    rw [List.map_cons, residue_sum, h i (List.mem_cons_self _ _),
      ih (fun j hj => h j (List.mem_cons_of_mem _ hj))]
    simp

theorem residue_sum_mem (dec : ec_compressed → Option Nat) {ps : List ec_compressed} {s : Nat}
    (h : residue_sum dec ps = some s) : ∀ p ∈ ps, ∃ x, dec p = some x := by
  induction ps generalizing s with
  | nil => simp
  | cons p rest ih =>
    rw [residue_sum] at h
    cases hp : dec p with
    | none => simp [hp] at h
    | some x =>
      rw [hp, Option.some_bind] at h
      cases hr : residue_sum dec rest with
      | none => simp [hr] at h
      | some s' =>
        intro p' hp'
        rcases List.mem_cons.mp hp' with e | e
        · exact ⟨x, e ▸ hp⟩
        · exact ih hr p' e

theorem mod_pow_succ_testBit (v k : Nat) :
    v % 2 ^ (k + 1) = v % 2 ^ k + (if v.testBit k then 2 ^ k else 0) := by
  rw [Nat.mod_pow_succ, Nat.testBit_to_div_mod]
  have h2 : v / 2 ^ k % 2 = 0 ∨ v / 2 ^ k % 2 = 1 := by omega
  rcases h2 with h2 | h2 <;> simp [h2]

/-- The residues of the commitments add up to the residue of `b G + v H`. -/
theorem commit_residue_sum (q g h v : Nat) (b : Nat → Nat) (k : Nat) :
    ((((List.range k).map (fun i =>
        if v.testBit i then ((g * b i) % q + (h * 2 ^ i) % q) % q else (g * b i) % q)).sum
          : Nat) : ZMod q)
      = ((((List.range k).map (fun i => (g * b i) % q)).sum : Nat) : ZMod q)
        + (h : ZMod q) * ((v % 2 ^ k : Nat) : ZMod q) := by
  induction k with
  | zero => simp [Nat.mod_one]
  | succ k ih =>
    rw [List.range_succ, List.map_append, List.map_append, List.sum_append, List.sum_append,
      Nat.cast_add, ih, mod_pow_succ_testBit]
    simp only [List.map_cons, List.map_nil, List.sum_cons, List.sum_nil, Nat.add_zero]
    generalize ((List.map (fun i => g * b i % q) (List.range k)).sum) = A
    by_cases hb : v.testBit k = true
    · simp only [hb, if_true]
      rw [Nat.cast_add A, Nat.cast_add (v % 2 ^ k), ZMod.natCast_mod, Nat.cast_add,
        ZMod.natCast_mod, ZMod.natCast_mod]
      push_cast
      ring
    · simp only [hb, if_false, Bool.false_eq_true]
      rw [Nat.cast_add A, Nat.add_zero]
      ring

/-- The residue of a commitment of `make_rangeproof` that encodes a group
element. -/
theorem commitment_residue {C : Primitives} {q : Nat} {dec : ec_compressed → Option Nat}
    (hlaw : Lawful C q dec) (hpt : PointLawful C q dec) (value : Nat)
    (secrets : List ec_secret) {i c : Nat} (hi : i < 64)
    (hc : dec (commitment_at C value secrets i).point = some c) :
    ∃ g h, dec ec_point.G.point_ = some g ∧
      dec (blind_point_at C secrets i).point_
        = some ((g * be_value (secrets.getD i [])) % q) ∧
      (value.testBit i = true → dec ec_point_H.point_ = some h) ∧
      c = (if value.testBit i then
            ((g * be_value (secrets.getD i [])) % q + (h * 2 ^ i) % q) % q
          else (g * be_value (secrets.getD i [])) % q) := by
  have hval : (commitment_at C value secrets i).is_valid = true := hpt.dec_valid _ _ hc
  by_cases hbit : value.testBit i = true
  · have he : commitment_at C value secrets i
        = (blind_point_at C secrets i).add_assign C (value_point_at C i) := by
      simp only [commitment_at, hbit, if_true]
    rw [he] at hval hc
    obtain ⟨_, heq⟩ := point_add_assign_valid hval
    rw [heq] at hval hc
    obtain ⟨hB, hV, _, _⟩ := point_add_valid hval
    obtain ⟨x, y, hx, hy, hr⟩ := point_add_sem hlaw hval
    obtain ⟨g, hg, hbg⟩ := point_mul_sem hlaw hB
    obtain ⟨h, hh, hvh⟩ := point_mul_sem hlaw hV
    have h2 : be_value (value_to_scalar (2 ^ i)).scalar_ = 2 ^ i :=
      be_value_value_to_scalar (Nat.pow_lt_pow_right (by norm_num) hi)
    rw [h2] at hvh
    have hx' : dec (blind_point_at C secrets i).point_ = some x := hx
    have hbg' : dec (blind_point_at C secrets i).point_
        = some (g * be_value (ec_scalar.of_secret (secrets.getD i [])).scalar_ % q) := hbg
    have hy' : dec (value_point_at C i).point_ = some y := hy
    have hvh' : dec (value_point_at C i).point_ = some (h * 2 ^ i % q) := hvh
    rw [hbg'] at hx'
    rw [hvh'] at hy'
    cases hx'
    cases hy'
    have hc' : dec (ec_point.add C (blind_point_at C secrets i) (value_point_at C i)).point_
        = some c := hc
    rw [hr] at hc'
    cases hc'
    exact ⟨g, h, hg, hbg', fun _ => hh, by simp [hbit, ec_scalar.of_secret]⟩
  · have he : commitment_at C value secrets i = blind_point_at C secrets i := by
      simp only [commitment_at, hbit, if_false, Bool.false_eq_true]
    rw [he] at hval hc
    obtain ⟨g, hg, hbg⟩ := point_mul_sem hlaw hval
    have hbg' : dec (blind_point_at C secrets i).point_
        = some (g * be_value (ec_scalar.of_secret (secrets.getD i [])).scalar_ % q) := hbg
    have hc' : dec (blind_point_at C secrets i).point_ = some c := hc
    rw [hbg'] at hc'
    cases hc'
    exact ⟨g, 0, hg, hbg', fun hb => absurd hb hbit, by simp [hbit, ec_scalar.of_secret]⟩

end libbitcoin

namespace libbitcoin

set_option maxRecDepth 100000

theorem getD_map_range {α : Type} (f : Nat → α) (d : α) {n i : Nat} (hi : i < n) :
    ((List.range n).map f).getD i d = f i := by
  simp [List.getD_eq_getElem?_getD, List.getElem?_range hi]

/-- `make_rangeproof` in closed form. -/
theorem make_rangeproof_eq (C : Primitives) (R : RingPrimitives) (value : Nat)
    {secrets : List ec_secret} (h : hash_digest)
    (pd : Nat → Nat → ec_secret) (sd : Nat → ec_secret) (challenge : ec_secret)
    (hlen : secrets.length = 64) :
    make_rangeproof C R value secrets h pd sd challenge
      = some ⟨(List.range 64).map (fun i => (commitment_at C value secrets i).point),
          (R.sign (rangeproof_after C value secrets pd sd challenge 64).rangeproof.signature
              secrets (rangeproof_after C value secrets pd sd challenge 64).rings h
              (rangeproof_after C value secrets pd sd challenge 64).salts).2⟩ := by
  unfold make_rangeproof
  rw [make_rangeproof_run_eq C R value h pd sd challenge hlen]
  rfl

theorem sum_mod_eq {q A B h v : Nat}
    (hz : (A : ZMod q) = (B : ZMod q) + (h : ZMod q) * (v : ZMod q)) :
    A % q = ((h * v) % q + B) % q := by
  apply mod_eq_of_cast
  rw [Nat.cast_add, ZMod.natCast_mod, hz]
  push_cast
  ring

/-- The sum of the commitments is the blinded point, when the blinded point is
valid and the sum reports success. -/
theorem commitment_sum_core {C : Primitives} {q : Nat} {dec : ec_compressed → Option Nat}
    (hlaw : Lawful C q dec) (hpt : PointLawful C q dec) (value : Nat)
    (draws : Nat → ec_secret) (result : ec_compressed) (hv : value < 2 ^ 64)
    (hblind : (((List.range 64).map (fun i =>
            ec_point.smul C (ec_scalar.of_secret (draws i)) ec_point.G)).foldl
          (fun p p' => ec_point.add_assign C p p')
          (ec_point.smul C (value_to_scalar value) ec_point_H)).is_valid = true)
    (hsum : (C.ec_sum result ((List.range 64).map (fun i =>
      (commitment_at C value ((List.range 64).map draws) i).point))).1 = true) :
    (C.ec_sum result ((List.range 64).map (fun i =>
        (commitment_at C value ((List.range 64).map draws) i).point))).2
      = (((List.range 64).map (fun i =>
            ec_point.smul C (ec_scalar.of_secret (draws i)) ec_point.G)).foldl
          (fun p p' => ec_point.add_assign C p p')
          (ec_point.smul C (value_to_scalar value) ec_point_H)).point_ := by
  -- the blinded point
  have hP0 : (ec_point.mul C ec_point_H (value_to_scalar value)).is_valid = true :=
    point_foldl_valid C ((List.range 64).map (fun i =>
      ec_point.smul C (ec_scalar.of_secret (draws i)) ec_point.G))
      (ec_point.smul C (value_to_scalar value) ec_point_H) hblind
  obtain ⟨h0, hh0, hP0r⟩ := point_mul_sem hlaw hP0
  rw [be_value_value_to_scalar hv] at hP0r
  obtain ⟨sb, hsb, hblinded⟩ := point_foldl_sem hlaw
    ((List.range 64).map (fun i =>
      ec_point.smul C (ec_scalar.of_secret (draws i)) ec_point.G))
    (ec_point.smul C (value_to_scalar value) ec_point_H) _ hP0r
    (Nat.mod_lt _ hlaw.order_pos) hblind
  -- the sum of the commitments
  obtain ⟨s, hs, hres⟩ := hpt.sum_list_ok _ _ hsum
  have hmem := residue_sum_mem dec hs
  have hcell : ∀ i ∈ List.range 64,
      dec (commitment_at C value ((List.range 64).map draws) i).point
        = some (if value.testBit i then
            ((((dec ec_point.G.point_).getD 0) * be_value (draws i)) % q
              + (h0 * 2 ^ i) % q) % q
          else (((dec ec_point.G.point_).getD 0) * be_value (draws i)) % q) ∧
      dec (ec_point.smul C (ec_scalar.of_secret (draws i)) ec_point.G).point_
        = some ((((dec ec_point.G.point_).getD 0) * be_value (draws i)) % q) := by
    intro i hi
    have hi' : i < 64 := List.mem_range.mp hi
    obtain ⟨c, hc⟩ := hmem _ (List.mem_map.mpr ⟨i, hi, rfl⟩)
    obtain ⟨g, h1, hg, hb, hh1, hceq⟩ := commitment_residue hlaw hpt value _ hi' hc
    rw [getD_map_range draws [] hi'] at hb hceq
    have hb' : dec (ec_point.smul C (ec_scalar.of_secret (draws i)) ec_point.G).point_
        = some (g * be_value (draws i) % q) := by
      have : blind_point_at C ((List.range 64).map draws) i
          = ec_point.smul C (ec_scalar.of_secret (draws i)) ec_point.G := by
        simp only [blind_point_at, getD_map_range draws [] hi']
      rw [← this]
      exact hb
    rw [hg, Option.getD_some]
    refine ⟨?_, hb'⟩
    rw [hc, hceq]
    by_cases hbit : value.testBit i = true
    · have := hh1 hbit
      rw [hh0] at this
      cases this
      rfl
    · simp only [hbit, if_false, Bool.false_eq_true]
  have hs' := residue_sum_map dec (List.range 64)
    (fun i => (commitment_at C value ((List.range 64).map draws) i).point) _
    (fun i hi => (hcell i hi).1)
  rw [hs'] at hs
  have hs2 := Option.some.inj hs
  have hsb' := residue_sum_map dec (List.range 64)
    (fun i => (ec_point.smul C (ec_scalar.of_secret (draws i)) ec_point.G).point_) _
    (fun i hi => (hcell i hi).2)
  rw [List.map_map] at hsb
  have hsb'' : residue_sum dec ((List.range 64).map (fun i =>
      (ec_point.smul C (ec_scalar.of_secret (draws i)) ec_point.G).point_)) = some sb := hsb
  rw [hsb'] at hsb''
  have hsb2 := Option.some.inj hsb''
  refine hlaw.dec_inj _ _ _ hres ?_
  rw [hblinded, ← hs2, ← hsb2]
  apply congrArg some
  have e64 : value % 2 ^ 64 = value := Nat.mod_eq_of_lt hv
  have hz := commit_residue_sum q ((dec ec_point.G.point_).getD 0) h0 value
    (fun i => be_value (draws i)) 64
  rw [e64] at hz
  exact (sum_mod_eq hz).symm

/-- The commitment sum where no operation fails.  For every 64-bit value and
all draws of `generate_random_blind` for which the blinded point `v H + sum of b_i G` it
returns is a valid point, `make_rangeproof` on the 64 secrets it returns gives a
proof such that, whenever `ec_sum` of its 64 commitments reports success, the
sum is the blinded point byte for byte, and the assertion of `main` on the two
holds. -/
theorem commitment_sum_of_valid (C : Primitives) (q : Nat) (dec : ec_compressed → Option Nat)
    (hlaw : Lawful C q dec) (hpt : PointLawful C q dec) (R : RingPrimitives) (value : Nat)
    (draws : Nat → ec_secret) (h : hash_digest)
    (pd : Nat → Nat → ec_secret) (sd : Nat → ec_secret) (challenge : ec_secret)
    (result : ec_compressed) (hv : value < 2 ^ 64)
    (hblind : (generate_random_blind C value draws).1.is_valid = true) :
    (generate_random_blind C value draws).2.length = 64 ∧
    ∃ rp, make_rangeproof C R value (generate_random_blind C value draws).2 h pd sd challenge
        = some rp ∧
      ((C.ec_sum result rp.commitments).1 = true →
        (C.ec_sum result rp.commitments).2 = (generate_random_blind C value draws).1.point ∧
        commitments_sum_to C result rp (generate_random_blind C value draws).1 = true) := by
  rw [generate_random_blind_eq] at hblind ⊢
  dsimp only at hblind ⊢
  have hlen : ((List.range 64).map draws).length = 64 := by simp
  refine ⟨hlen, _, make_rangeproof_eq C R value h pd sd challenge hlen, ?_⟩
  dsimp only
  intro hsum
  have key := commitment_sum_core hlaw hpt value draws result hv hblind hsum
  refine ⟨key, ?_⟩
  simp only [commitments_sum_to]
  exact beq_iff_eq.mpr key.symm

/-- The commitment sum for the value 5 and the blinds `1, ..., 64` on the
reference instance. -/
theorem commitment_sum_sample :
    (generate_random_blind toy.primitives 5 toy.blind_draws).2.length = 64 ∧
    ∃ rp, make_rangeproof toy.primitives toy.accept_all 5
        (generate_random_blind toy.primitives 5 toy.blind_draws).2 null_hash
        toy.proof_draws toy.ring_salts null_hash = some rp ∧
      ((toy.primitives.ec_sum null_hash rp.commitments).1 = true →
        (toy.primitives.ec_sum null_hash rp.commitments).2
          = (generate_random_blind toy.primitives 5 toy.blind_draws).1.point ∧
        commitments_sum_to toy.primitives null_hash rp
          (generate_random_blind toy.primitives 5 toy.blind_draws).1 = true) :=
  commitment_sum_of_valid toy.primitives curve_order toy.decode toy_lawful toy_point_lawful
    toy.accept_all 5 toy.blind_draws null_hash toy.proof_draws toy.ring_salts null_hash
    null_hash (by decide) (by decide)

/-- C22 at the failing input `value = 0`: on the reference instance, with the
blinds `1, ..., 64`, the sum of the 64 commitments is a valid point, and the
blinded point of `generate_random_blind` is not: `0 H` has no encoding, the
multiplication `value_to_scalar(0) * H` fails, and every `+=` on the
invalidated point leaves it as it is.  The condition of
`BITCOIN_ASSERT(blinded_value.point() == result)` is false. -/
theorem C22_zero_value_sum_differs :
    (∀ b ∈ (generate_random_blind toy.primitives 0 toy.blind_draws).2,
      toy.primitives.verify_secret b = true) ∧
    (generate_random_blind toy.primitives 0 toy.blind_draws).1.is_valid = false ∧
    ∃ rp, make_rangeproof toy.primitives toy.accept_all 0
        (generate_random_blind toy.primitives 0 toy.blind_draws).2 null_hash
        toy.proof_draws toy.ring_salts null_hash = some rp ∧
      (toy.primitives.ec_sum null_hash rp.commitments).1 = true ∧
      (toy.primitives.ec_sum null_hash rp.commitments).2
        ≠ (generate_random_blind toy.primitives 0 toy.blind_draws).1.point ∧
      commitments_sum_to toy.primitives null_hash rp
        (generate_random_blind toy.primitives 0 toy.blind_draws).1 = false := by
  have hb : (generate_random_blind toy.primitives 0 toy.blind_draws).1.is_valid = false := by
    decide
  have hlen : (generate_random_blind toy.primitives 0 toy.blind_draws).2.length = 64 := by
    decide
  have hrun := make_rangeproof_eq toy.primitives toy.accept_all 0 null_hash
    toy.proof_draws toy.ring_salts null_hash hlen
  have hs : (toy.primitives.ec_sum null_hash
      (rangeproof_after toy.primitives 0
        (generate_random_blind toy.primitives 0 toy.blind_draws).2 toy.proof_draws
        toy.ring_salts null_hash 64).rangeproof.commitments).1 = true := by decide
  have hne : (toy.primitives.ec_sum null_hash
      (rangeproof_after toy.primitives 0
        (generate_random_blind toy.primitives 0 toy.blind_draws).2 toy.proof_draws
        toy.ring_salts null_hash 64).rangeproof.commitments).2
      ≠ (generate_random_blind toy.primitives 0 toy.blind_draws).1.point := by
    intro he
    have h1 := toy_point_lawful.sum_list_ok _ _ hs
    obtain ⟨s, _, hd⟩ := h1
    have h2 := toy_point_lawful.dec_valid _ _ hd
    rw [he] at h2
    have h3 : (generate_random_blind toy.primitives 0 toy.blind_draws).1.is_valid = true := h2
    rw [hb] at h3
    exact Bool.false_ne_true h3
  refine ⟨by decide, hb, _, hrun, hs, hne, ?_⟩
  simp only [commitments_sum_to, beq_eq_false_iff_ne, ne_eq]
  exact fun he => hne he.symm

end libbitcoin

namespace libbitcoin

/-! ## The round trip of the range proof -/

set_option maxRecDepth 100000

/-- The verifier rebuilds the rings of the prover. -/
theorem rebuild_rings_prover (C : Primitives) (value : Nat) (secrets : List ec_secret)
    (pd : Nat → Nat → ec_secret) (sd : Nat → ec_secret) (challenge : ec_secret) :
    rebuild_rings C (rangeproof_after C value secrets pd sd challenge 64).rangeproof.commitments
      = some (rangeproof_after C value secrets pd sd challenge 64).rings := by
  rw [rebuild_rings_eq C (by simp [rangeproof_after])]
  simp only [rangeproof_after, Option.some.injEq]
  apply List.map_congr_left
  intro i hi
  have hi' : i < 64 := List.mem_range.mp hi
  simp only [ring_at, List.getD_eq_getElem?_getD, List.getElem?_map,
    List.getElem?_range hi', Option.map_some', Option.getD_some, ec_point.of_compressed,
    ec_point.point]

theorem zip_all_of_get {α β : Type} (l : List α) (r : List β) (p : α × β → Bool)
    (h : ∀ i a b, l.get? i = some a → r.get? i = some b → p (a, b) = true) :
    (List.zip l r).all p = true := by
  rw [List.all_eq_true]
  rintro ⟨a, b⟩ hin
  obtain ⟨i, hi⟩ := List.mem_iff_getElem?.mp hin
  obtain ⟨ha, hb⟩ := List.getElem?_zip_eq_some.mp hi
  exact h i a b (by simpa using ha) (by simpa using hb)

theorem toy_known_key {secrets : List ec_secret} {rings : key_rings}
    (hkeys : ∀ ring ∈ rings, ∀ key ∈ ring, (ec_point.of_compressed key).is_valid = true)
    (hmem : ∀ i secret ring, secrets.get? i = some secret → rings.get? i = some ring →
      (ec_point.smul toy.primitives (ec_scalar.of_secret secret) ec_point.G).point ∈ ring) :
    (List.zip secrets rings).all (fun sr => toy.known_key sr.1 sr.2) = true := by
  apply zip_all_of_get
  intro i b ring hb hr
  simp only [toy.known_key, Bool.and_eq_true, List.all_eq_true]
  exact ⟨fun key hk => hkeys ring (mem_of_get? hr) key hk,
    List.elem_eq_true_of_mem (hmem i b ring hb hr)⟩

/-- The signer of the reference instance succeeds only on rings that hold the
public key of one of the secrets. -/
theorem toy_ring_sound : RingSound toy.primitives toy.ring_scheme where
  sound := by
    intro out secrets rings digest salts hrc ring hring
    simp only [toy.ring_scheme, toy.ring_sign, Bool.and_eq_true, beq_iff_eq,
      List.all_eq_true] at hrc
    obtain ⟨hlen, hall⟩ := hrc
    obtain ⟨i, hi⟩ := List.mem_iff_getElem?.mp hring
    have hlt : i < rings.length := by
      by_contra hge
      rw [List.getElem?_eq_none (by omega)] at hi
      cases hi
    have hlt' : i < secrets.length := by omega
    have hs : secrets[i]? = some secrets[i] := List.getElem?_eq_getElem hlt'
    have hz : (List.zip secrets rings)[i]? = some (secrets[i], ring) :=
      List.getElem?_zip_eq_some.mpr ⟨hs, hi⟩
    have hk := hall _ (List.getElem?_mem hz)
    simp only [toy.known_key, Bool.and_eq_true] at hk
    exact ⟨_, List.getElem?_mem hs, List.mem_of_elem_eq_true hk.2⟩

/-- The ring signature scheme of the reference instance meets the contract. -/
theorem toy_ring_complete : RingComplete toy.primitives toy.ring_scheme where
  complete := by
    intro out secrets rings digest salts hlen _ _ _ _ _ _ hkeys hmem
    have hall := toy_known_key hkeys hmem
    constructor
    · simp only [toy.ring_scheme, toy.ring_sign, hlen, beq_self_eq_true, Bool.true_and]
      exact hall
    · simp only [toy.ring_scheme, toy.ring_verify, toy.ring_sign, beq_self_eq_true,
        List.length_map, hlen, Bool.true_and]
      rw [List.zip_map_left, List.all_eq_true]
      intro pr hpr
      obtain ⟨sr, hsr, rfl⟩ := List.mem_map.mp hpr
      exact (List.all_eq_true.mp hall) sr hsr

end libbitcoin

namespace libbitcoin

set_option maxRecDepth 100000

/-- The round trip of the range proof where no operation fails.  For every
64-bit value (0, 1, 2, 2^63 and 2^64 - 1 among them), every list of 64 secrets that pass
`verify` and have valid public keys, all draws of `random_secret` and every
transaction hash, if every key of the 64 rings that `make_rangeproof` builds is
a valid point, that is, no operation on a point has failed, then `sign` reports
success to `make_rangeproof` and `verify_rangeproof` returns true on the proof
and the same hash, for ring signature functions that meet `RingComplete`. -/
theorem rangeproof_round_trip_of_valid (C : Primitives) (q : Nat)
    (dec : ec_compressed → Option Nat) (hlaw : Lawful C q dec) (hpt : PointLawful C q dec)
    (R : RingPrimitives) (hR : RingComplete C R) (value : Nat) (secrets : List ec_secret)
    (h : hash_digest) (pd : Nat → Nat → ec_secret) (sd : Nat → ec_secret)
    (challenge : ec_secret) (_hv : value < 2 ^ 64) (hlen : secrets.length = 64)
    (hsec : ∀ b ∈ secrets, C.verify_secret b = true)
    (hpub : ∀ b ∈ secrets,
      (ec_point.smul C (ec_scalar.of_secret b) ec_point.G).is_valid = true)
    (hpd : ∀ i < 64, ∀ j < 2, C.verify_secret (pd i j) = true)
    (hsd : ∀ i < 64, C.verify_secret (sd i) = true)
    (hkeys : ∀ st, make_rangeproof_loop C value secrets pd sd challenge = some st →
      ∀ ring ∈ st.rings, ∀ key ∈ ring, (ec_point.of_compressed key).is_valid = true) :
    ∃ run, make_rangeproof_run C R value secrets h pd sd challenge = some run ∧
      run.2 = true ∧
      make_rangeproof C R value secrets h pd sd challenge = some run.1.rangeproof ∧
      verify_rangeproof C R run.1.rangeproof h = some true := by
  have hk := hkeys _ (make_rangeproof_loop_eq C value pd sd challenge hlen)
  have hc := hR.complete
    (rangeproof_after C value secrets pd sd challenge 64).rangeproof.signature secrets
    (rangeproof_after C value secrets pd sd challenge 64).rings h
    (rangeproof_after C value secrets pd sd challenge 64).salts
    (by simp [rangeproof_after, hlen]) (by simp [rangeproof_after])
    (by simp [rangeproof_after])
    (by
      intro i ring proof hr hp
      simp only [rangeproof_after, List.get?_eq_getElem?, List.getElem?_map] at hr hp
      cases hi : (List.range 64)[i]? with
      | none => simp [hi] at hr
      | some k =>
        rw [hi, Option.map_some'] at hr hp
        cases hr
        cases hp
        rfl)
    hsec
    (by
      intro k hk'
      simp only [rangeproof_after, List.mem_map] at hk'
      obtain ⟨i, hi, rfl⟩ := hk'
      exact hsd i (List.mem_range.mp hi))
    (by
      intro proof hp s hs
      simp only [rangeproof_after, List.mem_map] at hp
      obtain ⟨i, hi, rfl⟩ := hp
      simp only [List.mem_cons, List.mem_singleton, List.not_mem_nil, or_false] at hs
      rcases hs with rfl | rfl
      · exact hpd i (List.mem_range.mp hi) 0 (by norm_num)
      · exact hpd i (List.mem_range.mp hi) 1 (by norm_num))
    hk
    (by
      intro i b ring hb hr
      have hi : i < 64 := by
        have := (List.get?_eq_some.mp hb).1
        omega
      have hb' := getD_of_get? [] hb
      have hv := hpub b (mem_of_get? hb)
      simp only [rangeproof_after, List.get?_eq_getElem?, List.getElem?_map,
        List.getElem?_range hi, Option.map_some', Option.some.injEq] at hr
      subst hr
      by_cases hbit : value.testBit i = true
      · have hkey : (ec_point.sub C (commitment_at C value secrets i)
            (value_point_at C i)).is_valid = true := by
          apply hk (ring_at C value secrets i)
          · simp only [rangeproof_after, List.mem_map, List.mem_range]
            exact ⟨i, hi, rfl⟩
          · unfold ring_at
            exact List.mem_cons_of_mem _ (List.mem_cons_self _ _)
        have := second_key_known hlaw hpt value secrets hb' hv hbit hkey
        simp only [ring_at, List.mem_cons, List.mem_singleton, List.not_mem_nil, or_false]
        right
        rw [this]
      · simp only [ring_at, commitment_at, hbit, blind_point_at, hb', Bool.false_eq_true,
          if_false, List.mem_cons, true_or])
  refine ⟨_, make_rangeproof_run_eq C R value h pd sd challenge hlen, hc.1, ?_, ?_⟩
  · unfold make_rangeproof
    rw [make_rangeproof_run_eq C R value h pd sd challenge hlen]
    rfl
  · unfold verify_rangeproof
    dsimp only
    rw [if_neg (by simp [rangeproof_after, proof_size]), rebuild_rings_prover]
    simp only [Option.map_some', Option.some.injEq]
    exact hc.2

/-- The round trip for the value `2^64 - 1` and the blinds `1, ..., 64` on the
reference instance with its ring signature scheme. -/
theorem rangeproof_round_trip_sample :
    ∃ run, make_rangeproof_run toy.primitives toy.ring_scheme (2 ^ 64 - 1) toy.blinds
        null_hash toy.proof_draws toy.ring_salts null_hash = some run ∧
      run.2 = true ∧
      make_rangeproof toy.primitives toy.ring_scheme (2 ^ 64 - 1) toy.blinds null_hash
        toy.proof_draws toy.ring_salts null_hash = some run.1.rangeproof ∧
      verify_rangeproof toy.primitives toy.ring_scheme run.1.rangeproof null_hash
        = some true :=
  rangeproof_round_trip_of_valid toy.primitives curve_order toy.decode toy_lawful toy_point_lawful
    toy.ring_scheme toy_ring_complete (2 ^ 64 - 1) toy.blinds null_hash toy.proof_draws
    toy.ring_salts null_hash (by decide) (by decide) (by decide) (by decide)
    (by decide) (by decide)
    (by
      intro st hst
      rw [make_rangeproof_loop_eq toy.primitives (2 ^ 64 - 1) toy.proof_draws toy.ring_salts
        null_hash (by decide)] at hst
      cases hst
      decide)

end libbitcoin

namespace libbitcoin

set_option maxRecDepth 100000

/-- No public key of the blinds `cancel_secret, 2, ..., 64` is in ring 0 of the
range proof of the value 1, whose two keys are invalidated points. -/
theorem cancel_ring_unknown :
    ∀ b ∈ toy.cancel_blinds,
      (ec_point.smul toy.primitives (ec_scalar.of_secret b) ec_point.G).point
        ∉ ring_at toy.primitives 1 toy.cancel_blinds 0 := by
  decide

/-- C24 at a failing input: on the reference instance, for the value 1 and the
blinds `cancel_secret, 2, ..., 64`, which all pass `verify` and have valid
public keys, the commitment `b_0 G + H` is the identity, which has no encoding,
so ring 0 holds two invalidated points and the public key of none of the
secrets.  For all draws and every transaction hash, a `sign` that succeeds only
on rings with a known key (`RingSound`) reports failure to `make_rangeproof`:
the condition of `BITCOIN_ASSERT(rc)` is false.  With the ring signature scheme
of the reference instance, `verify_rangeproof` returns false on the proof. -/
theorem C24_rangeproof_fails (R : RingPrimitives) (hR : RingSound toy.primitives R)
    (h : hash_digest) (pd : Nat → Nat → ec_secret) (sd : Nat → ec_secret)
    (challenge : ec_secret) :
    (∀ b ∈ toy.cancel_blinds, toy.primitives.verify_secret b = true ∧
      (ec_point.smul toy.primitives (ec_scalar.of_secret b) ec_point.G).is_valid = true) ∧
    (∃ run, make_rangeproof_run toy.primitives R 1 toy.cancel_blinds h pd sd challenge
        = some run ∧
      run.1.rings.get? 0 = some (ring_at toy.primitives 1 toy.cancel_blinds 0) ∧
      (∀ key ∈ ring_at toy.primitives 1 toy.cancel_blinds 0,
        (ec_point.of_compressed key).is_valid = false) ∧
      run.2 = false) ∧
    ∃ run, make_rangeproof_run toy.primitives toy.ring_scheme 1 toy.cancel_blinds
        null_hash toy.proof_draws toy.ring_salts null_hash = some run ∧
      run.2 = false ∧
      make_rangeproof toy.primitives toy.ring_scheme 1 toy.cancel_blinds null_hash
        toy.proof_draws toy.ring_salts null_hash = some run.1.rangeproof ∧
      verify_rangeproof toy.primitives toy.ring_scheme run.1.rangeproof null_hash
        = some false := by
  have hlen : toy.cancel_blinds.length = 64 := by decide
  have hrunR := make_rangeproof_run_eq toy.primitives R 1 h pd sd challenge hlen
  have hrun := make_rangeproof_run_eq toy.primitives toy.ring_scheme 1 null_hash
    toy.proof_draws toy.ring_salts null_hash hlen
  refine ⟨by decide, ⟨_, hrunR, ?_, by decide, ?_⟩, _, hrun, by decide, ?_, ?_⟩
  · simp [rangeproof_after]
  · cases hrc : (R.sign (rangeproof_after toy.primitives 1 toy.cancel_blinds pd sd challenge
        64).rangeproof.signature toy.cancel_blinds
        (rangeproof_after toy.primitives 1 toy.cancel_blinds pd sd challenge 64).rings h
        (rangeproof_after toy.primitives 1 toy.cancel_blinds pd sd challenge 64).salts).1 with
    | false => rfl
    | true =>
      exfalso
      obtain ⟨b, hb, hmem⟩ := hR.sound _ _ _ _ _ hrc
        (ring_at toy.primitives 1 toy.cancel_blinds 0)
        (by
          simp only [rangeproof_after, List.mem_map, List.mem_range]
          exact ⟨0, by norm_num, rfl⟩)
      exact cancel_ring_unknown b hb hmem
  · unfold make_rangeproof
    rw [hrun]
    rfl
  · unfold verify_rangeproof
    dsimp only
    rw [if_neg (by simp [rangeproof_after, proof_size]), rebuild_rings_prover]
    simp only [Option.map_some', Option.some.injEq]
    decide

/-- Witness of C24 at the failing input: the ring signature scheme of the
reference instance, whose signer meets `RingSound`, with the sample draws. -/
theorem C24_rangeproof_fails_witness :
    (∀ b ∈ toy.cancel_blinds, toy.primitives.verify_secret b = true ∧
      (ec_point.smul toy.primitives (ec_scalar.of_secret b) ec_point.G).is_valid = true) ∧
    (∃ run, make_rangeproof_run toy.primitives toy.ring_scheme 1 toy.cancel_blinds null_hash
        toy.proof_draws toy.ring_salts null_hash = some run ∧
      run.1.rings.get? 0 = some (ring_at toy.primitives 1 toy.cancel_blinds 0) ∧
      (∀ key ∈ ring_at toy.primitives 1 toy.cancel_blinds 0,
        (ec_point.of_compressed key).is_valid = false) ∧
      run.2 = false) ∧
    ∃ run, make_rangeproof_run toy.primitives toy.ring_scheme 1 toy.cancel_blinds
        null_hash toy.proof_draws toy.ring_salts null_hash = some run ∧
      run.2 = false ∧
      make_rangeproof toy.primitives toy.ring_scheme 1 toy.cancel_blinds null_hash
        toy.proof_draws toy.ring_salts null_hash = some run.1.rangeproof ∧
      verify_rangeproof toy.primitives toy.ring_scheme run.1.rangeproof null_hash
        = some false :=
  C24_rangeproof_fails toy.ring_scheme toy_ring_sound null_hash toy.proof_draws
    toy.ring_salts null_hash

end libbitcoin

namespace libbitcoin

/-! ## The balance row of `ring_ct_simple` -/

set_option maxRecDepth 100000

/-- The residue of a commitment `blind * G + value * H` that is a valid point. -/
theorem commit_sem {C : Primitives} {q : Nat} {dec : ec_compressed → Option Nat}
    (hlaw : Lawful C q dec) (H : ec_point) (blind : ec_secret) {value : Nat}
    (hv : value < 2 ^ 64) (h : (commit C H blind value).is_valid = true) :
    ∃ g hh, dec ec_point.G.point_ = some g ∧ dec H.point_ = some hh ∧
      dec (commit C H blind value).point_
        = some (((g * be_value blind) % q + (hh * value) % q) % q) := by
  unfold commit at h ⊢
  obtain ⟨hB, hV, _, _⟩ := point_add_valid h
  obtain ⟨x, y, hx, hy, hr⟩ := point_add_sem hlaw h
  obtain ⟨g, hg, hbg⟩ := point_mul_sem hlaw hB
  obtain ⟨hh, hhh, hvh⟩ := point_mul_sem hlaw hV
  rw [be_value_value_to_scalar hv] at hvh
  have hx' : dec (ec_point.mul C ec_point.G (ec_scalar.of_secret blind)).point_ = some x := hx
  have hy' : dec (ec_point.mul C H (value_to_scalar value)).point_ = some y := hy
  rw [hbg] at hx'
  rw [hvh] at hy'
  cases hx'
  cases hy'
  exact ⟨g, hh, hg, hhh, hr⟩

theorem balance_mod {q g hh a b c va vb vc : Nat} (hq : 0 < q) (hbal : va = vb + vc) :
    (((g * a) % q + (hh * va) % q) % q
        + (q - ((((g * b) % q + (hh * vb) % q) % q
            + ((g * c) % q + (hh * vc) % q) % q) % q) % q) % q) % q
      = (g * ((a + (q - ((b + c) % q) % q) % q) % q)) % q := by
  apply mod_eq_of_cast
  subst hbal
  simp only [Nat.cast_add, Nat.cast_mul, ZMod.natCast_mod, cast_neg_mod q _ hq]
  ring

/-- The public entry `commit_a - (commit_b + commit_c)` is the public key of the
secret `blind_a - (blind_b + blind_c)`, when both are valid points. -/
theorem balance_entry {C : Primitives} {q : Nat} {dec : ec_compressed → Option Nat}
    (hlaw : Lawful C q dec) (hpt : PointLawful C q dec) (H : ec_point)
    (ba bb bc : ec_secret) {va vb vc : Nat} (hva : va < 2 ^ 64) (hvb : vb < 2 ^ 64)
    (hvc : vc < 2 ^ 64) (hbal : va = vb + vc)
    (hL : (ec_point.sub C (commit C H ba va)
      (ec_point.add C (commit C H bb vb) (commit C H bc vc))).is_valid = true)
    (hR : (ec_point.smul C (ec_scalar.sub C (ec_scalar.of_secret ba)
      (ec_scalar.add C (ec_scalar.of_secret bb) (ec_scalar.of_secret bc)))
        ec_point.G).is_valid = true) :
    ec_point.sub C (commit C H ba va) (ec_point.add C (commit C H bb vb) (commit C H bc vc))
      = ec_point.smul C (ec_scalar.sub C (ec_scalar.of_secret ba)
          (ec_scalar.add C (ec_scalar.of_secret bb) (ec_scalar.of_secret bc))) ec_point.G := by
  have hq := hlaw.order_pos
  -- the left side
  obtain ⟨x, y, hx, hy, hl⟩ := point_sub_sem hlaw hpt hL
  obtain ⟨hA, hO, _, _⟩ := point_sub_valid hL
  obtain ⟨g, hh, hg, hhh, hca⟩ := commit_sem hlaw H ba hva hA
  obtain ⟨hB, hCc, _, _⟩ := point_add_valid hO
  obtain ⟨xb, xc, hxb, hxc, hsum⟩ := point_add_sem hlaw hO
  obtain ⟨g1, hh1, hg1, hhh1, hcb⟩ := commit_sem hlaw H bb hvb hB
  obtain ⟨g2, hh2, hg2, hhh2, hcc⟩ := commit_sem hlaw H bc hvc hCc
  rw [hg] at hg1 hg2
  rw [hhh] at hhh1 hhh2
  cases hg1
  cases hg2
  cases hhh1
  cases hhh2
  rw [hca] at hx
  rw [hcb] at hxb
  rw [hcc] at hxc
  cases hx
  cases hxb
  cases hxc
  rw [hsum] at hy
  cases hy
  -- the right side
  obtain ⟨g3, hg3, hr⟩ := point_mul_sem hlaw hR
  obtain ⟨_, hs, _, _⟩ := point_mul_valid hR
  have hs' : (ec_scalar.sub C (ec_scalar.of_secret ba)
      (ec_scalar.add C (ec_scalar.of_secret bb) (ec_scalar.of_secret bc))).valid_ = true := hs
  obtain ⟨_, ht, _, _⟩ := scalar_sub_valid hs'
  have e1 := scalar_sub_sem hlaw hs'
  have e2 := scalar_add_sem hlaw ht
  have hval : be_value (ec_scalar.sub C (ec_scalar.of_secret ba)
      (ec_scalar.add C (ec_scalar.of_secret bb) (ec_scalar.of_secret bc))).scalar_
      = (be_value ba + (q - ((be_value bb + be_value bc) % q) % q) % q) % q := by
    rw [e1, e2]
    simp only [be_value_mod hq hlaw.order_le, ec_scalar.of_secret]
  rw [hg] at hg3
  cases hg3
  have hr' : dec (ec_point.smul C (ec_scalar.sub C (ec_scalar.of_secret ba)
      (ec_scalar.add C (ec_scalar.of_secret bb) (ec_scalar.of_secret bc))) ec_point.G).point_
      = some (g * be_value (ec_scalar.sub C (ec_scalar.of_secret ba)
          (ec_scalar.add C (ec_scalar.of_secret bb) (ec_scalar.of_secret bc))).scalar_ % q) :=
    hr
  rw [hval] at hr'
  apply point_ext
  refine hlaw.dec_inj _ _ _ hl ?_
  rw [balance_mod hq hbal]
  exact hr'

end libbitcoin

namespace libbitcoin

set_option maxRecDepth 100000

theorem push_back2_rows {α : Type} (r0 r1 : List α) (x y : α) :
    push_back2 (push_back2 [r0, r1] 0 x) 1 y = [r0 ++ [x], r1 ++ [y]] := by
  simp [push_back2]

/-- The decoy loop of `ring_ct_simple` keeps the first column of the ring. -/
theorem decoy_loop_first_column (C : Primitives) (fuel : Nat) (output_commit p0 p1 : ec_point)
    (decoys : Nat)
    (hdecoy : ∀ i < decoys,
      (hash_to_point_scalar C fuel (value_to_scalar (i + 110))).isSome = true ∧
      (hash_to_point_scalar C fuel (value_to_scalar (i + 4))).isSome = true) :
    ∃ r0 r1, for_loop decoys (fun i publics =>
        (hash_to_point_scalar C fuel (value_to_scalar (i + 110))).bind (fun decoy_public_key =>
        (hash_to_point_scalar C fuel (value_to_scalar (i + 4))).map (fun decoy_commit =>
          push_back2 (push_back2 publics 0 decoy_public_key) 1
            (ec_point.sub C decoy_commit output_commit)))) [[p0], [p1]]
      = some [p0 :: r0, p1 :: r1] ∧ r0.length = decoys ∧ r1.length = decoys := by
  obtain ⟨publics, hp, r0, r1, hinv, h0, h1⟩ := for_loop_inv
    (fun k (publics : point_ring) =>
      ∃ r0 r1, publics = [p0 :: r0, p1 :: r1] ∧ r0.length = k ∧ r1.length = k)
    (fun i publics =>
        (hash_to_point_scalar C fuel (value_to_scalar (i + 110))).bind (fun decoy_public_key =>
        (hash_to_point_scalar C fuel (value_to_scalar (i + 4))).map (fun decoy_commit =>
          push_back2 (push_back2 publics 0 decoy_public_key) 1
            (ec_point.sub C decoy_commit output_commit)))) [[p0], [p1]] decoys
    ⟨[], [], rfl, rfl, rfl⟩
    (by
      intro k publics hk hinv
      obtain ⟨r0, r1, rfl, h0, h1⟩ := hinv
      obtain ⟨d1, hd1⟩ := Option.isSome_iff_exists.mp (hdecoy k hk).1
      obtain ⟨d2, hd2⟩ := Option.isSome_iff_exists.mp (hdecoy k hk).2
      dsimp only
      rw [hd1, hd2]
      refine ⟨_, rfl, r0 ++ [d1], r1 ++ [ec_point.sub C d2 output_commit], ?_, ?_, ?_⟩
      · show push_back2 (push_back2 [p0 :: r0, p1 :: r1] 0 d1) 1
            (ec_point.sub C d2 output_commit) = _
        rw [push_back2_rows]
        rfl
      · simp [h0]
      · simp [h1])
  exact ⟨r0, r1, by rw [hp, hinv], h0, h1⟩

/-- C25, amended: the balance row of the MLSAG.  For all blinds and all 64-bit
values with `v_a = v_b + v_c`, with `commit_x = b_x G + v_x H`, if the public
entry `commit_a - (commit_b + commit_c)` and the public key
`(b_a - (b_b + b_c)) G` of the commitment secret are valid points, that is, no
operation on the way to them has failed, then they are equal byte for byte; and
then the ring that `ring_ct_simple` builds from these blinds and values, with
any number of decoy columns, holds the entry at `P[1][0]` and satisfies the
precondition of the signer at column 0, `P[i][0] = x_i G` for both rows. -/
theorem C25_balance_row (C : Primitives) (q : Nat) (dec : ec_compressed → Option Nat)
    (hlaw : Lawful C q dec) (hpt : PointLawful C q dec) (fuel : Nat)
    (ba bb bc pk : ec_secret) (va vb vc decoys : Nat) (H : ec_point)
    (hva : va < 2 ^ 64) (hvb : vb < 2 ^ 64) (hvc : vc < 2 ^ 64) (hbal : va = vb + vc)
    (hH : hash_to_point_scalar C fuel (value_to_scalar 0xdeadbeef) = some H)
    (hdecoy : ∀ i < decoys,
      (hash_to_point_scalar C fuel (value_to_scalar (i + 110))).isSome = true ∧
      (hash_to_point_scalar C fuel (value_to_scalar (i + 4))).isSome = true)
    (hL : (ec_point.sub C (commit C H ba va)
      (ec_point.add C (commit C H bb vb) (commit C H bc vc))).is_valid = true)
    (hR : (ec_point.smul C (ec_scalar.sub C (ec_scalar.of_secret ba)
      (ec_scalar.add C (ec_scalar.of_secret bb) (ec_scalar.of_secret bc)))
        ec_point.G).is_valid = true) :
    ec_point.sub C (commit C H ba va) (ec_point.add C (commit C H bb vb) (commit C H bc vc))
      = ec_point.smul C (ec_scalar.sub C (ec_scalar.of_secret ba)
          (ec_scalar.add C (ec_scalar.of_secret bb) (ec_scalar.of_secret bc))) ec_point.G ∧
    ∃ secrets publics,
      ring_ct_inputs C fuel ba bb bc va vb vc pk decoys = some (secrets, publics) ∧
      secrets = [ec_scalar.of_secret pk, ec_scalar.sub C (ec_scalar.of_secret ba)
        (ec_scalar.add C (ec_scalar.of_secret bb) (ec_scalar.of_secret bc))] ∧
      at2 publics 1 0 = some (ec_point.sub C (commit C H ba va)
        (ec_point.add C (commit C H bb vb) (commit C H bc vc))) ∧
      signer_keys C secrets publics 0 := by
  have hbalance := balance_entry hlaw hpt H ba bb bc hva hvb hvc hbal hL hR
  refine ⟨hbalance, ?_⟩
  obtain ⟨r0, r1, hloop, _, _⟩ := decoy_loop_first_column C fuel
    (ec_point.add C (commit C H bb vb) (commit C H bc vc))
    (ec_point.smul C (ec_scalar.of_secret pk) ec_point.G)
    (ec_point.sub C (commit C H ba va) (ec_point.add C (commit C H bb vb) (commit C H bc vc)))
    decoys hdecoy
  refine ⟨[ec_scalar.of_secret pk, ec_scalar.sub C (ec_scalar.of_secret ba)
      (ec_scalar.add C (ec_scalar.of_secret bb) (ec_scalar.of_secret bc))],
    [ec_point.smul C (ec_scalar.of_secret pk) ec_point.G :: r0,
     ec_point.sub C (commit C H ba va)
      (ec_point.add C (commit C H bb vb) (commit C H bc vc)) :: r1], ?_, rfl, rfl, ?_⟩
  · unfold ring_ct_inputs
    rw [hH]
    simp only [Option.some_bind]
    unfold commit at hloop
    rw [hloop]
    rfl
  intro i x hx
  match i, hx with
  | 0, hx =>
    simp only [List.get?_cons_zero, Option.some.injEq] at hx
    subst hx
    rfl
  | 1, hx =>
    simp only [List.get?_cons_succ, List.get?_cons_zero, Option.some.injEq] at hx
    subst hx
    rw [← hbalance]
    rfl
  | k + 2, hx => simp at hx

/-- Witness of C25: the blinds and values of `ring_ct_simple`, with two decoy
columns, on the reference instance. -/
theorem C25_balance_row_witness :
    ec_point.sub toy.primitives (commit toy.primitives toy.H_point BLIND_A 10000)
        (ec_point.add toy.primitives (commit toy.primitives toy.H_point BLIND_B 7000)
          (commit toy.primitives toy.H_point BLIND_C 3000))
      = ec_point.smul toy.primitives (ec_scalar.sub toy.primitives (ec_scalar.of_secret BLIND_A)
          (ec_scalar.add toy.primitives (ec_scalar.of_secret BLIND_B)
            (ec_scalar.of_secret BLIND_C))) ec_point.G ∧
    ∃ secrets publics,
      ring_ct_inputs toy.primitives toy.fuel BLIND_A BLIND_B BLIND_C 10000 7000 3000
        PRIVATE_KEY 2 = some (secrets, publics) ∧
      secrets = [ec_scalar.of_secret PRIVATE_KEY,
        ec_scalar.sub toy.primitives (ec_scalar.of_secret BLIND_A)
          (ec_scalar.add toy.primitives (ec_scalar.of_secret BLIND_B)
            (ec_scalar.of_secret BLIND_C))] ∧
      at2 publics 1 0 = some (ec_point.sub toy.primitives
        (commit toy.primitives toy.H_point BLIND_A 10000)
        (ec_point.add toy.primitives (commit toy.primitives toy.H_point BLIND_B 7000)
          (commit toy.primitives toy.H_point BLIND_C 3000))) ∧
      signer_keys toy.primitives secrets publics 0 :=
  C25_balance_row toy.primitives curve_order toy.decode toy_lawful toy_point_lawful toy.fuel
    BLIND_A BLIND_B BLIND_C PRIVATE_KEY 10000 7000 3000 2 toy.H_point
    (by norm_num) (by norm_num) (by norm_num) (by norm_num) (by decide) (by decide)
    (by decide) (by decide)

/-- C25 fails as stated: on the reference instance, for the blinds `3`, `1`,
`2`, which pass `verify`, and the values `10000 = 7000 + 3000`, the public entry
`commit_a - (commit_b + commit_c)` at `P[1][0]` of the ring of `ring_ct_simple`
is not `x_1 G` for the commitment secret `x_1 = 3 - (1 + 2)`: the difference of
the commitments is the identity and the difference of the blinds is zero,
neither has an encoding, and the two invalidated values differ in their
bytes. -/
theorem C25_counterexample :
    (∀ b ∈ [be_bytes 32 3, be_bytes 32 1, be_bytes 32 2],
      toy.primitives.verify_secret b = true) ∧
    (ring_ct_inputs toy.primitives toy.fuel (be_bytes 32 3) (be_bytes 32 1) (be_bytes 32 2)
        10000 7000 3000 PRIVATE_KEY 2).isSome = true ∧
    (ring_ct_inputs toy.primitives toy.fuel (be_bytes 32 3) (be_bytes 32 1) (be_bytes 32 2)
        10000 7000 3000 PRIVATE_KEY 2).map (fun inputs => at2 inputs.2 1 0)
      = some (some (ec_point.sub toy.primitives
          (commit toy.primitives toy.H_point (be_bytes 32 3) 10000)
          (ec_point.add toy.primitives (commit toy.primitives toy.H_point (be_bytes 32 1) 7000)
            (commit toy.primitives toy.H_point (be_bytes 32 2) 3000)))) ∧
    (ring_ct_inputs toy.primitives toy.fuel (be_bytes 32 3) (be_bytes 32 1) (be_bytes 32 2)
        10000 7000 3000 PRIVATE_KEY 2).map (fun inputs => inputs.1.get? 1)
      = some (some (ec_scalar.sub toy.primitives (ec_scalar.of_secret (be_bytes 32 3))
          (ec_scalar.add toy.primitives (ec_scalar.of_secret (be_bytes 32 1))
            (ec_scalar.of_secret (be_bytes 32 2))))) ∧
    ec_point.sub toy.primitives (commit toy.primitives toy.H_point (be_bytes 32 3) 10000)
        (ec_point.add toy.primitives (commit toy.primitives toy.H_point (be_bytes 32 1) 7000)
          (commit toy.primitives toy.H_point (be_bytes 32 2) 3000))
      ≠ ec_point.smul toy.primitives (ec_scalar.sub toy.primitives
          (ec_scalar.of_secret (be_bytes 32 3))
          (ec_scalar.add toy.primitives (ec_scalar.of_secret (be_bytes 32 1))
            (ec_scalar.of_secret (be_bytes 32 2)))) ec_point.G := by
  refine ⟨by decide, by decide, by decide, by decide, by decide⟩

end libbitcoin

namespace libbitcoin

/-! ## `borromean_hash2` and `borromean_hash` -/

set_option maxRecDepth 100000

theorem overwrite_front_same {a b : List Nat} (h : a.length = b.length) :
    overwrite_front a b = b := by
  unfold overwrite_front
  rw [List.take_of_length_le (by omega), List.drop_of_length_le (by omega)]
  simp

/-- C30: `borromean_hash2` agrees with `borromean_hash`.  For the same `M`,
tables and index, and every result scalar, `borromean_hash2` returns exactly
when `borromean_hash` does, the scalar it leaves in `result` holds the 32 bytes
of the scalar that `borromean_hash` returns, which are the SHA-256 digest of the
buffer as it is, and the flag of `result` is as it was before the call. -/
theorem C30_borromean_hash2_agrees (C : Primitives) (M : hash_digest)
    (left right : point_ring) (index : Nat) (result : ec_scalar)
    (hres : result.secret.length = 32) (hsha : ∀ d, (C.sha256_hash d).length = 32) :
    borromean_hash2 C M left right index result
      = (borromean_hash C M left right index).map (fun e => ⟨result.valid_, e.secret⟩) ∧
    (∀ e, borromean_hash C M left right index = some e →
      ∃ data, borromean_data M left right index = some data ∧
        e.secret = C.sha256_hash data ∧
        borromean_hash2 C M left right index result
          = some ⟨result.valid_, C.sha256_hash data⟩) ∧
    (∀ r, borromean_hash2 C M left right index result = some r →
      r.is_valid = result.is_valid ∧ r.secret.length = 32) := by
  have hcopy : ∀ d, overwrite_front result.scalar_ (C.sha256_hash d) = C.sha256_hash d :=
    fun d => overwrite_front_same (by rw [hsha]; exact hres)
  have heq : borromean_hash2 C M left right index result
      = (borromean_hash C M left right index).map (fun e => ⟨result.valid_, e.secret⟩) := by
    unfold borromean_hash2 borromean_hash borromean_data borromean_input
    by_cases hl : left.length ≠ right.length
    · simp [hl]
    · simp only [hl, if_false, Option.map_map]
      congr 1
      funext input_data
      simp only [Function.comp, ec_scalar.of_secret, ec_scalar.secret, hcopy]
  refine ⟨heq, ?_, ?_⟩
  · intro e he
    unfold borromean_hash at he
    cases hd : borromean_data M left right index with
    | none => simp [hd] at he
    | some data =>
      rw [hd, Option.map_some'] at he
      cases he
      refine ⟨data, rfl, rfl, ?_⟩
      rw [heq]
      simp [borromean_hash, hd, ec_scalar.of_secret, ec_scalar.secret]
  · intro r hr
    rw [heq] at hr
    cases he : borromean_hash C M left right index with
    | none => simp [he] at hr
    | some e =>
      rw [he, Option.map_some'] at hr
      cases hr
      refine ⟨rfl, ?_⟩
      unfold borromean_hash at he
      cases hd : borromean_data M left right index with
      | none => simp [hd] at he
      | some data =>
        rw [hd, Option.map_some'] at he
        cases he
        exact hsha data

theorem toy_sha_length (d : data_chunk) : (toy.primitives.sha256_hash d).length = 32 :=
  length_be_bytes 32 _

/-- Witness of C30: the zero digest and column 1 of the sample ring, used as
both tables, with an invalidated scalar as the result. -/
theorem C30_borromean_hash2_agrees_witness :
    borromean_hash2 toy.primitives null_hash toy.ring toy.ring 1 (toy.scalar 7).invalidate
      = (borromean_hash toy.primitives null_hash toy.ring toy.ring 1).map
          (fun e => ⟨(toy.scalar 7).invalidate.valid_, e.secret⟩) ∧
    (∀ e, borromean_hash toy.primitives null_hash toy.ring toy.ring 1 = some e →
      ∃ data, borromean_data null_hash toy.ring toy.ring 1 = some data ∧
        e.secret = toy.primitives.sha256_hash data ∧
        borromean_hash2 toy.primitives null_hash toy.ring toy.ring 1
            (toy.scalar 7).invalidate
          = some ⟨(toy.scalar 7).invalidate.valid_, toy.primitives.sha256_hash data⟩) ∧
    (∀ r, borromean_hash2 toy.primitives null_hash toy.ring toy.ring 1
        (toy.scalar 7).invalidate = some r →
      r.is_valid = (toy.scalar 7).invalidate.is_valid ∧ r.secret.length = 32) :=
  C30_borromean_hash2_agrees toy.primitives null_hash toy.ring toy.ring 1
    (toy.scalar 7).invalidate (by decide) toy_sha_length

end libbitcoin

namespace libbitcoin

/-! ## Loops as runs over lists of cells -/

theorem foldl_bind_none {σ ι : Type} (f : ι → σ → Option σ) (l : List ι) :
    l.foldl (fun state x => state.bind (f x)) none = none := by
  induction l with
  | nil => rfl
  | cons x rest ih => simpa using ih

theorem for_loop_eq_foldl {σ : Type} (n : Nat) (body : Nat → σ → Option σ) (init : σ) :
    for_loop n body init
      = (List.range n).foldl (fun state k => state.bind (body k)) (some init) := by
  induction n with
  | zero => rfl
  | succ k ih => rw [for_loop_succ, ih, List.range_succ, List.foldl_append]; rfl

theorem for_range_eq_foldl {σ : Type} (start_j end_j : Nat) (body : Nat → σ → Option σ)
    (init : σ) :
    for_range start_j end_j body init
      = (List.range' start_j (end_j - start_j)).foldl
          (fun state j => state.bind (body j)) (some init) := by
  unfold for_range
  rw [for_loop_eq_foldl, List.range'_eq_map_range, List.foldl_map]

theorem run_cells_append {σ : Type} (step : Nat → Nat → σ → Option σ)
    (a b : List (Nat × Nat)) (init : Option σ) :
    run_cells step (a ++ b) init = run_cells step b (run_cells step a init) := by
  simp [run_cells, List.foldl_append]

theorem run_cells_none {σ : Type} (step : Nat → Nat → σ → Option σ)
    (cells : List (Nat × Nat)) : run_cells step cells none = none :=
  foldl_bind_none (fun cell : Nat × Nat => step cell.1 cell.2) cells

theorem run_cells_bind {σ : Type} (step : Nat → Nat → σ → Option σ)
    (cells : List (Nat × Nat)) (state : Option σ) :
    state.bind (fun s => run_cells step cells (some s)) = run_cells step cells state := by
  cases state with
  | none => rw [run_cells_none]; rfl
  | some s => rfl

/-- The loop over the rows of one column is the run of the cells of the
column. -/
theorem row_loop_eq_cells {σ : Type} (step : Nat → Nat → σ → Option σ) (m j : Nat) (s : σ) :
    for_loop m (fun i s => step i j s) s
      = run_cells step ((List.range m).map (fun i => (i, j))) (some s) := by
  rw [for_loop_eq_foldl, run_cells, List.foldl_map]

/-- A loop over columns, each with its loop over the rows, that skips the
columns marked by `skip`, is the run of the cells of the other columns. -/
theorem column_loop_eq_cells {σ : Type} (step : Nat → Nat → σ → Option σ) (m : Nat)
    (skip : Nat → Bool) (columns : List Nat) (state : Option σ) :
    columns.foldl (fun state j => state.bind (fun s =>
        if skip j then some s else for_loop m (fun i s => step i j s) s)) state
      = run_cells step (column_cells m (columns.filter (fun j => !skip j))) state := by
  induction columns generalizing state with
  | nil => rfl
  | cons j rest ih =>
    rw [List.foldl_cons, ih]
    cases hs : skip j with
    | true =>
      simp only [List.filter_cons, hs, Bool.not_true, Bool.false_eq_true, if_false, if_true]
      cases state <;> rfl
    | false =>
      simp only [List.filter_cons, hs, Bool.not_false, if_true, Bool.false_eq_true, if_false,
        column_cells, List.flatMap_cons]
      rw [run_cells_append]
      congr 1
      cases state with
      | none => rw [run_cells_none]; rfl
      | some s => exact row_loop_eq_cells step m j s

end libbitcoin

namespace libbitcoin

theorem set2_comm {α : Type} (t : List (List α)) {i1 j1 i2 j2 : Nat} (a b : α)
    (h : (i1, j1) ≠ (i2, j2)) :
    set2 (set2 t i1 j1 a) i2 j2 b = set2 (set2 t i2 j2 b) i1 j1 a := by
  unfold set2
  by_cases hi : i1 = i2
  · subst hi
    have hj : j1 ≠ j2 := fun e => h (by rw [e])
    by_cases hlt : i1 < t.length
    · simp only [List.getD_eq_getElem?_getD, List.getElem?_set_self hlt, Option.getD_some,
        List.set_set]
      rw [List.set_comm a b _ hj]
    · have hle : t.length ≤ i1 := by omega
      have e1 : ∀ r : List α, t.set i1 r = t := fun r => List.set_eq_of_length_le hle
      simp only [e1]
  · simp only [List.getD_eq_getElem?_getD, List.getElem?_set_ne hi,
      List.getElem?_set_ne (fun e => hi e.symm)]
    rw [List.set_comm _ _ _ hi]

/-- Two writes of cells commute. -/
theorem write_cell_comm (values : Nat → Nat → Option (ec_point × ec_point))
    (c1 c2 : Nat × Nat) (state : Option (point_ring × point_ring)) :
    (state.bind (write_cell values c1.1 c1.2)).bind (write_cell values c2.1 c2.2)
      = (state.bind (write_cell values c2.1 c2.2)).bind (write_cell values c1.1 c1.2) := by
  by_cases hc : c1 = c2
  · rw [hc]
  · cases state with
    | none => rfl
    | some lr =>
      simp only [Option.some_bind, write_cell]
      cases h1 : values c1.1 c1.2 <;> cases h2 : values c2.1 c2.2 <;>
        simp only [Option.map_none', Option.map_some', Option.none_bind, Option.some_bind,
          h1, h2]
      have hne : (c1.1, c1.2) ≠ (c2.1, c2.2) := fun e => hc (Prod.ext_iff.mpr
        ⟨congrArg Prod.fst e, congrArg Prod.snd e⟩)
      rw [set2_comm lr.1 _ _ hne, set2_comm lr.2 _ _ hne]

/-- The run of the cell writes over a list of cells depends on the cells only,
not on their order. -/
theorem run_cells_perm (values : Nat → Nat → Option (ec_point × ec_point))
    {cells cells' : List (Nat × Nat)} (h : List.Perm cells cells')
    (state : Option (point_ring × point_ring)) :
    run_cells (write_cell values) cells state = run_cells (write_cell values) cells' state :=
  h.foldl_eq' (fun c1 _ c2 _ st => write_cell_comm values c1 c2 st) state

theorem fill_cell_eq (C : Primitives) (publics hashed : point_ring) (salts : scalar_table)
    (challenges : scalar_list) (key_images : point_list) :
    fill_cell C publics hashed salts challenges key_images
      = write_cell (cell_values C publics hashed salts challenges key_images) := by
  funext i j lr
  unfold fill_cell write_cell cell_values
  cases at2 salts i j <;> cases challenges.get? j <;> cases at2 publics i j <;>
    cases at2 hashed i j <;> cases key_images.get? i <;> rfl

theorem fill_cell3_eq (C : Primitives) (fuel : Nat) (publics : point_ring)
    (salts : scalar_table) (challenges : scalar_list) (key_images : point_list) :
    fill_cell3 C fuel publics salts challenges key_images
      = write_cell (cell_values3 C fuel publics salts challenges key_images) := by
  funext i j lr
  unfold fill_cell3 write_cell cell_values3
  cases at2 salts i j with
  | none => rfl
  | some s =>
    cases challenges.get? j with
    | none => rfl
    | some c =>
      cases at2 publics i j with
      | none => rfl
      | some p =>
        simp only [Option.some_bind]
        cases hash_to_point C fuel p with
        | none => rfl
        | some hp => cases key_images.get? i <;> rfl

end libbitcoin

namespace libbitcoin

/-! ## The sections of the threads -/

theorem shard_columns_inner {columns T work t : Nat} (h : t ≠ T - 1) :
    shard_columns columns T work t = List.range' (t * work) work := by
  simp [shard_columns, shard_start, shard_end, h]

theorem shard_columns_last (columns T work : Nat) :
    shard_columns columns T work (T - 1)
      = List.range' ((T - 1) * work) (columns - (T - 1) * work) := by
  simp [shard_columns, shard_start, shard_end]

theorem flatMap_shards_prefix (columns T work k : Nat) (hk : k ≤ T - 1) :
    (List.range k).flatMap (shard_columns columns T work) = List.range (k * work) := by
  induction k with
  | zero => simp
  | succ k ih =>
    rw [List.range_succ, List.flatMap_append, ih (by omega), List.flatMap_singleton,
      shard_columns_inner (by omega), List.range_eq_range', List.range_eq_range']
    have := List.range'_append_1 0 (k * work) work
    rw [Nat.zero_add] at this
    rw [this]
    congr 1
    rw [Nat.succ_mul, Nat.add_comm]

/-- The sections of the threads `0, ..., T - 1`, one after the other, are the
columns `0, ..., columns - 1` in their order. -/
theorem flatMap_shards (columns T : Nat) (hT : 1 ≤ T) :
    (List.range T).flatMap (shard_columns columns T (columns / T)) = List.range columns := by
  obtain ⟨k, rfl⟩ : ∃ k, T = k + 1 := ⟨T - 1, by omega⟩
  have hle : k * (columns / (k + 1)) ≤ columns := by
    have h1 : (columns / (k + 1)) * (k + 1) ≤ columns := Nat.div_mul_le_self columns (k + 1)
    have h2 : k * (columns / (k + 1)) ≤ (columns / (k + 1)) * (k + 1) := by
      rw [Nat.mul_comm]
      exact Nat.mul_le_mul_left _ (Nat.le_succ k)
    omega
  rw [List.range_succ, List.flatMap_append, flatMap_shards_prefix _ _ _ k (by simp),
    List.flatMap_singleton]
  have hl := shard_columns_last columns (k + 1) (columns / (k + 1))
  simp only [Nat.add_sub_cancel] at hl
  rw [hl, List.range_eq_range', List.range_eq_range']
  have := List.range'_append_1 0 (k * (columns / (k + 1)))
    (columns - k * (columns / (k + 1)))
  rw [Nat.zero_add] at this
  rw [this]
  congr 1
  omega

theorem column_cells_flatMap {ι : Type} (m : Nat) (l : List ι) (g : ι → List Nat) :
    column_cells m (l.flatMap g) = l.flatMap (fun t => column_cells m (g t)) := by
  unfold column_cells
  rw [List.flatMap_assoc]

/-- A run of sections, each the run of its cells, is the run of all their
cells. -/
theorem run_sections_eq_cells {σ : Type} (step : Nat → Nat → σ → Option σ)
    (cells : Nat → List (Nat × Nat)) (schedule : List Nat) (state : Option σ) :
    schedule.foldl (fun state t =>
        state.bind (fun s => run_cells step (cells t) (some s))) state
      = run_cells step (schedule.flatMap cells) state := by
  induction schedule generalizing state with
  | nil => rfl
  | cons t rest ih =>
    rw [List.foldl_cons, ih, List.flatMap_cons, run_cells_append, run_cells_bind]

/-- A section of `mlsag_verify` is the run of the cell writes of its columns. -/
theorem verify_section_eq_cells (C : Primitives) (publics hashed : point_ring)
    (salts : scalar_table) (challenges : scalar_list) (key_images : point_list)
    (m start_j end_j : Nat) (lr : point_ring × point_ring) :
    verify_section C publics hashed salts challenges key_images m start_j end_j lr
      = run_cells (write_cell (cell_values C publics hashed salts challenges key_images))
          (column_cells m (List.range' start_j (end_j - start_j))) (some lr) := by
  unfold verify_section
  rw [for_range_eq_foldl, fill_cell_eq]
  have := column_loop_eq_cells
    (write_cell (cell_values C publics hashed salts challenges key_images)) m
    (fun _ => false) (List.range' start_j (end_j - start_j)) (some lr)
  simp only [Bool.false_eq_true, if_false, Bool.not_false, List.filter_true] at this
  rw [← this]

/-- A section of `mlsag_sign` is the run of the cell writes of its columns other
than the signer column. -/
theorem sign_section_eq_cells (C : Primitives) (fuel : Nat) (publics : point_ring)
    (salts : scalar_table) (challenges : scalar_list) (key_images : point_list)
    (m start_j end_j index : Nat) (lr : point_ring × point_ring) :
    sign_section C fuel publics salts challenges key_images m start_j end_j index lr
      = run_cells (write_cell (cell_values3 C fuel publics salts challenges key_images))
          (column_cells m ((List.range' start_j (end_j - start_j)).filter
            (fun j => decide (j ≠ index)))) (some lr) := by
  unfold sign_section
  rw [for_range_eq_foldl, fill_cell3_eq]
  have := column_loop_eq_cells
    (write_cell (cell_values3 C fuel publics salts challenges key_images)) m
    (fun j => decide (j = index)) (List.range' start_j (end_j - start_j)) (some lr)
  simp only [decide_eq_true_eq, decide_not] at this ⊢
  rw [← this]

end libbitcoin

namespace libbitcoin

/-! ## The sharded column loops and the single loops -/

theorem mem_column_cells {m : Nat} {columns : List Nat} {i j : Nat} :
    (i, j) ∈ column_cells m columns ↔ i < m ∧ j ∈ columns := by
  simp only [column_cells, List.mem_flatMap, List.mem_map, List.mem_range, Prod.mk.injEq]
  constructor
  · rintro ⟨j', hj', i', hi', rfl, rfl⟩
    exact ⟨hi', hj'⟩
  · rintro ⟨hi, hj⟩
    exact ⟨j, hj, i, hi, rfl, rfl⟩

theorem run_cells_congr {σ : Type} (step step' : Nat → Nat → σ → Option σ)
    (cells : List (Nat × Nat)) (h : ∀ c ∈ cells, step c.1 c.2 = step' c.1 c.2)
    (state : Option σ) : run_cells step cells state = run_cells step' cells state := by
  induction cells generalizing state with
  | nil => rfl
  | cons c rest ih =>
    simp only [run_cells, List.foldl_cons] at ih ⊢
    rw [h c (List.mem_cons_self _ _)]
    exact ih (fun c' hc' => h c' (List.mem_cons_of_mem _ hc')) _

/-- A run of cell bodies that meets a body that fails returns nothing. -/
theorem run_cells_fail {σ : Type} (step : Nat → Nat → σ → Option σ)
    (cells : List (Nat × Nat)) {c : Nat × Nat} (hc : c ∈ cells)
    (hfail : ∀ s, step c.1 c.2 s = none) (state : Option σ) :
    run_cells step cells state = none := by
  induction cells generalizing state with
  | nil => simp at hc
  | cons c' rest ih =>
    simp only [run_cells, List.foldl_cons] at ih ⊢
    rcases List.mem_cons.mp hc with e | e
    · subst e
      have : state.bind (step c.1 c.2) = none := by
        cases state with
        | none => rfl
        | some s => exact hfail s
      rw [this]
      exact run_cells_none step rest
    · exact ih e _

theorem for_loop_fail {σ : Type} (n : Nat) (body : Nat → σ → Option σ) (init : σ) {k : Nat}
    (hk : k < n) (hfail : ∀ s, body k s = none) : for_loop n body init = none := by
  induction n with
  | zero => omega
  | succ n ih =>
    rw [for_loop_succ]
    by_cases e : k = n
    · subst e
      cases for_loop k body init with
      | none => rfl
      | some s => exact hfail s
    · rw [ih (by omega)]
      rfl

theorem for_loop_congr {σ : Type} (n : Nat) (body body' : Nat → σ → Option σ) (init : σ)
    (h : ∀ k, k < n → ∀ s, body k s = body' k s) :
    for_loop n body init = for_loop n body' init := by
  induction n with
  | zero => rfl
  | succ n ih =>
    rw [for_loop_succ, for_loop_succ, ih (fun k hk s => h k (by omega) s)]
    cases for_loop n body' init with
    | none => rfl
    | some s => exact h n (by omega) s

/-- The threads of `mlsag_verify`, run in the order of a schedule that names
every thread once, fill the tables as the single loop over the columns does. -/
theorem verify_threads_eq (C : Primitives) (publics hashed : point_ring)
    (salts : scalar_table) (challenges : scalar_list) (key_images : point_list)
    (m n T : Nat) (schedule : List Nat) (lr : point_ring × point_ring) (hT : 1 ≤ T)
    (hs : List.Perm schedule (List.range T)) :
    run_threads (fun start_j end_j lr =>
        verify_section C publics hashed salts challenges key_images m start_j end_j lr)
      n T schedule lr
      = verify_columns C publics hashed salts challenges key_images m n lr := by
  unfold run_threads work_per_thread
  rw [if_neg (by omega), Option.some_bind]
  simp only [verify_section_eq_cells]
  have h1 := run_sections_eq_cells
    (write_cell (cell_values C publics hashed salts challenges key_images))
    (fun t => column_cells m (shard_columns n T (n / T) t)) schedule (some lr)
  unfold shard_columns at h1
  rw [h1, run_cells_perm _ (hs.flatMap_right _)]
  have h2 := column_cells_flatMap m (List.range T) (shard_columns n T (n / T))
  unfold shard_columns at h2
  rw [← h2]
  have h3 := flatMap_shards n T hT
  unfold shard_columns at h3
  rw [h3]
  unfold verify_columns
  rw [for_loop_eq_foldl, fill_cell_eq]
  have h4 := column_loop_eq_cells
    (write_cell (cell_values C publics hashed salts challenges key_images)) m
    (fun _ => false) (List.range n) (some lr)
  simp only [Bool.false_eq_true, if_false, Bool.not_false, List.filter_true] at h4
  rw [← h4]

/-- The single loop over the columns of `mlsag_sign`, with the hashed public
keys computed in place, as the run of its cells. -/
theorem sign_threads_eq_cells (C : Primitives) (fuel : Nat) (publics : point_ring)
    (salts : scalar_table) (challenges : scalar_list) (key_images : point_list)
    (m n index T : Nat) (schedule : List Nat) (lr : point_ring × point_ring) (hT : 1 ≤ T)
    (hs : List.Perm schedule (List.range T)) :
    run_threads (fun start_j end_j lr =>
        sign_section C fuel publics salts challenges key_images m start_j end_j index lr)
      n T schedule lr
      = run_cells (write_cell (cell_values3 C fuel publics salts challenges key_images))
          (column_cells m ((List.range n).filter (fun j => decide (j ≠ index))))
          (some lr) := by
  unfold run_threads work_per_thread
  rw [if_neg (by omega), Option.some_bind]
  simp only [sign_section_eq_cells]
  have h1 := run_sections_eq_cells
    (write_cell (cell_values3 C fuel publics salts challenges key_images))
    (fun t => column_cells m ((shard_columns n T (n / T) t).filter
      (fun j => decide (j ≠ index)))) schedule (some lr)
  unfold shard_columns at h1
  rw [h1, run_cells_perm _ (hs.flatMap_right _)]
  have h2 := column_cells_flatMap m (List.range T)
    (fun t => (shard_columns n T (n / T) t).filter (fun j => decide (j ≠ index)))
  have h3 := List.filter_flatMap (List.range T) (shard_columns n T (n / T))
    (fun j => decide (j ≠ index))
  rw [flatMap_shards n T hT] at h3
  rw [← h3] at h2
  unfold shard_columns at h2
  rw [← h2]

theorem sign_columns_eq_cells (C : Primitives) (publics hashed : point_ring)
    (salts : scalar_table) (challenges : scalar_list) (key_images : point_list)
    (m n index : Nat) (lr : point_ring × point_ring) :
    sign_columns C publics hashed salts challenges key_images m n index lr
      = run_cells (write_cell (cell_values C publics hashed salts challenges key_images))
          (column_cells m ((List.range n).filter (fun j => decide (j ≠ index))))
          (some lr) := by
  unfold sign_columns
  rw [for_loop_eq_foldl, fill_cell_eq]
  have h4 := column_loop_eq_cells
    (write_cell (cell_values C publics hashed salts challenges key_images)) m
    (fun j => decide (j = index)) (List.range n) (some lr)
  simp only [decide_eq_true_eq, decide_not] at h4 ⊢
  rw [← h4]

end libbitcoin

namespace libbitcoin

/-! ## `mlsag_sign` of `paralsg3.cpp` and of `paralsg.cpp` -/

/-- The read of `publics[i][j]` followed by `hash_to_point`. -/
theorem hashed_read (C : Primitives) (fuel : Nat) (publics : point_ring) (i j : Nat) :
    (∃ p hp, at2 publics i j = some p ∧ hash_to_point C fuel p = some hp) ∨
    (at2 publics i j).bind (hash_to_point C fuel) = none := by
  cases hp : at2 publics i j with
  | none => exact Or.inr rfl
  | some p =>
    cases hh : hash_to_point C fuel p with
    | none => exact Or.inr (by simp [hh])
    | some h => exact Or.inl ⟨p, h, rfl, hh⟩

/-- The table `hashed_publics` when every read of the ring succeeds and every
`hash_to_point` call returns. -/
theorem hash_publics_cells (C : Primitives) (fuel : Nat) (publics : point_ring) (m n : Nat)
    (hcell : ∀ i j, i < m → j < n →
      ∃ p hp, at2 publics i j = some p ∧ hash_to_point C fuel p = some hp) :
    hash_publics C fuel publics m n = some (tabulate m n (hashed_value C fuel publics)) := by
  have hinner : ∀ i, i < m → ∀ d t,
      table_done m n (hashed_value C fuel publics) (fun _ _ => ec_point.default) d t →
      ∃ t', for_loop n (fun j hashed => (at2 publics i j).bind (fun p =>
              (hash_to_point C fuel p).map (fun h => set2 hashed i j h))) t = some t' ∧
        table_done m n (hashed_value C fuel publics) (fun _ _ => ec_point.default)
          (fun a b => d a b || (List.range n).any (fun j => a == i && b == j)) t' := by
    intro i hi d t ht
    apply for_loop_cover
      (fun d t => table_done m n (hashed_value C fuel publics) (fun _ _ => ec_point.default) d t)
      (fun j a b => a == i && b == j) _ n _ d t ht
    intro j d s hj hs
    obtain ⟨p, h, hp, hh⟩ := hcell i j hi hj
    refine ⟨set2 s i j h, by simp [hp, hh], ?_⟩
    have : h = hashed_value C fuel publics i j := by simp [hashed_value, hp, hh]
    rw [this]
    exact table_done_set2 hs hi hj
  obtain ⟨t, ht, hdone⟩ := for_loop_cover
    (fun d t => table_done m n (hashed_value C fuel publics) (fun _ _ => ec_point.default) d t)
    (fun i a b => (List.range n).any (fun j => a == i && b == j))
    (fun i hashed => for_loop n (fun j hashed => (at2 publics i j).bind (fun p =>
              (hash_to_point C fuel p).map (fun h => set2 hashed i j h))) hashed) m
    (fun i d s hi hs => hinner i hi d s hs) (fun _ _ => false) (create_ring m n)
    (table_done_replicate m n _ _)
  have hv : ∀ a b, a < m → b < n →
      at2 t a b = some (hashed_value C fuel publics a b) := by
    intro a b ha hb
    rw [hdone.2 a b ha hb]
    have : (List.range m).any (fun i => (List.range n).any (fun j => a == i && b == j))
        = true := by
      simp only [List.any_eq_true, List.mem_range, Bool.and_eq_true, beq_iff_eq]
      exact ⟨a, ha, b, hb, rfl, rfl⟩
    simp [this]
  unfold hash_publics
  rw [ht, eq_tabulate _ hdone.1 hv]

/-- The table `hashed_publics` is not made when a read of the ring fails or a
`hash_to_point` call does not return. -/
theorem hash_publics_fail (C : Primitives) (fuel : Nat) (publics : point_ring) {m n i j : Nat}
    (hi : i < m) (hj : j < n) (h : (at2 publics i j).bind (hash_to_point C fuel) = none) :
    hash_publics C fuel publics m n = none := by
  unfold hash_publics
  apply for_loop_fail m _ _ hi
  intro s
  apply for_loop_fail n _ _ hj
  intro s'
  cases hp : at2 publics i j with
  | none => rfl
  | some p =>
    rw [hp, Option.some_bind] at h
    simp [h]

end libbitcoin

namespace libbitcoin

theorem cell_values3_none (C : Primitives) (fuel : Nat) (publics : point_ring)
    (salts : scalar_table) (challenges : scalar_list) (key_images : point_list) {i j : Nat}
    (h : (at2 publics i j).bind (hash_to_point C fuel) = none) :
    cell_values3 C fuel publics salts challenges key_images i j = none := by
  unfold cell_values3
  cases at2 salts i j with
  | none => rfl
  | some s =>
    cases challenges.get? j with
    | none => rfl
    | some c =>
      cases hp : at2 publics i j with
      | none => rfl
      | some p =>
        rw [hp, Option.some_bind] at h
        simp [h]

theorem cell_values3_eq (C : Primitives) (fuel : Nat) (publics : point_ring)
    (salts : scalar_table) (challenges : scalar_list) (key_images : point_list) {m n i j : Nat}
    (hi : i < m) (hj : j < n) {p hp : ec_point} (hp1 : at2 publics i j = some p)
    (hp2 : hash_to_point C fuel p = some hp) :
    cell_values3 C fuel publics salts challenges key_images i j
      = cell_values C publics (tabulate m n (hashed_value C fuel publics)) salts challenges
          key_images i j := by
  have hv : hashed_value C fuel publics i j = hp := by simp [hashed_value, hp1, hp2]
  unfold cell_values3 cell_values
  rw [at2_tabulate _ hi hj, hp1, hv]
  simp only [Option.some_bind, hp2]

theorem signer_column3_eq (C : Primitives) (fuel : Nat) (publics : point_ring)
    (salts : scalar_table) {m n index : Nat} (hl : index < n)
    (hcell : ∀ i j, i < m → j < n →
      ∃ p hp, at2 publics i j = some p ∧ hash_to_point C fuel p = some hp)
    (lr : point_ring × point_ring) :
    signer_column3 C fuel publics salts m index lr
      = signer_column C (tabulate m n (hashed_value C fuel publics)) salts m index lr := by
  unfold signer_column3 signer_column
  apply for_loop_congr
  intro i hi s
  obtain ⟨p, hp, hp1, hp2⟩ := hcell i index hi hl
  have hv : hashed_value C fuel publics i index = hp := by simp [hashed_value, hp1, hp2]
  rw [at2_tabulate _ hi hl, hp1, hv]
  simp only [Option.some_bind, hp2]

theorem signer_column3_fail (C : Primitives) (fuel : Nat) (publics : point_ring)
    (salts : scalar_table) {m index i : Nat} (hi : i < m)
    (h : (at2 publics i index).bind (hash_to_point C fuel) = none)
    (lr : point_ring × point_ring) :
    signer_column3 C fuel publics salts m index lr = none := by
  unfold signer_column3
  apply for_loop_fail m _ _ hi
  intro s
  cases at2 salts i index with
  | none => rfl
  | some x =>
    cases hp : at2 publics i index with
    | none => rfl
    | some p =>
      rw [hp, Option.some_bind] at h
      simp [h]

/-- The threads of `mlsag_sign`, run in the order of a schedule that names every
thread once, fill the tables as the single loop of `paralsg.cpp` does on the
table of the hashed public keys. -/
theorem sign_threads_eq (C : Primitives) (fuel : Nat) (publics : point_ring)
    (salts : scalar_table) (challenges : scalar_list) (key_images : point_list)
    (m n index T : Nat) (schedule : List Nat) (lr : point_ring × point_ring) (hT : 1 ≤ T)
    (hs : List.Perm schedule (List.range T))
    (hcell : ∀ i j, i < m → j < n →
      ∃ p hp, at2 publics i j = some p ∧ hash_to_point C fuel p = some hp) :
    run_threads (fun start_j end_j lr =>
        sign_section C fuel publics salts challenges key_images m start_j end_j index lr)
      n T schedule lr
      = sign_columns C publics (tabulate m n (hashed_value C fuel publics)) salts challenges
          key_images m n index lr := by
  rw [sign_threads_eq_cells C fuel publics salts challenges key_images m n index T schedule lr
    hT hs, sign_columns_eq_cells]
  apply run_cells_congr
  rintro ⟨i, j⟩ hc
  obtain ⟨hi, hj⟩ := mem_column_cells.mp hc
  have hj' : j < n := List.mem_range.mp (List.mem_filter.mp hj).1
  obtain ⟨p, hp, hp1, hp2⟩ := hcell i j hi hj'
  show write_cell _ i j = write_cell _ i j
  unfold write_cell
  rw [cell_values3_eq C fuel publics salts challenges key_images hi hj' hp1 hp2]

theorem sign_threads_fail (C : Primitives) (fuel : Nat) (publics : point_ring)
    (salts : scalar_table) (challenges : scalar_list) (key_images : point_list)
    (m n index T : Nat) (schedule : List Nat) (lr : point_ring × point_ring) (hT : 1 ≤ T)
    (hs : List.Perm schedule (List.range T)) {i j : Nat} (hi : i < m) (hj : j < n)
    (hne : j ≠ index) (h : (at2 publics i j).bind (hash_to_point C fuel) = none) :
    run_threads (fun start_j end_j lr =>
        sign_section C fuel publics salts challenges key_images m start_j end_j index lr)
      n T schedule lr = none := by
  rw [sign_threads_eq_cells C fuel publics salts challenges key_images m n index T schedule lr
    hT hs]
  apply run_cells_fail _ _ (mem_column_cells.mpr ⟨hi, List.mem_filter.mpr
    ⟨List.mem_range.mpr hj, by simpa using hne⟩⟩)
  intro s
  show write_cell _ i j s = none
  unfold write_cell
  rw [cell_values3_none C fuel publics salts challenges key_images h]
  rfl

/-- `mlsag_sign` of `paralsg3.cpp`, with any number of threads and any schedule
that names every thread once, reaches the state that `mlsag_sign` of
`paralsg.cpp` reaches, on every input and for all draws. -/
theorem mlsag_sign_run3_eq (C : Primitives) (fuel : Nat) (secrets : scalar_list)
    (publics : point_ring) (index : Nat) (sd : Nat → Nat → ec_secret)
    (cd : Nat → ec_secret) (T : Nat) (schedule : List Nat) (hT : 1 ≤ T)
    (hs : List.Perm schedule (List.range T)) :
    mlsag_sign_run3 C fuel secrets publics index sd cd T schedule
      = mlsag_sign_run C fuel secrets publics index sd cd := by
  unfold mlsag_sign_run3 mlsag_sign_run
  by_cases h1 : secrets.length ≠ publics.length
  · rw [if_pos h1, if_pos h1]
  rw [if_neg h1, if_neg h1]
  by_cases h2 : publics.length = 0
  · rw [if_pos h2, if_pos h2]
  rw [if_neg h2, if_neg h2]
  cases hrow : publics.get? 0 with
  | none => rfl
  | some row0 =>
    simp only [Option.some_bind]
    by_cases hl : index < row0.length
    · rw [if_neg (not_not.mpr hl), if_neg (not_not.mpr hl)]
      by_cases hcell : ∀ i j, i < publics.length → j < row0.length →
          ∃ p hp, at2 publics i j = some p ∧ hash_to_point C fuel p = some hp
      · rw [hash_publics_cells C fuel publics _ _ hcell, Option.some_bind]
        simp only [signer_column3_eq C fuel publics _ hl hcell,
          sign_threads_eq C fuel publics _ _ _ _ _ index T schedule _ hT hs hcell]
      · have hex : ∃ i j, i < publics.length ∧ j < row0.length ∧
            (at2 publics i j).bind (hash_to_point C fuel) = none := by
          by_contra hno
          apply hcell
          intro i j hi hj
          rcases hashed_read C fuel publics i j with h | h
          · exact h
          · exact absurd ⟨i, j, hi, hj, h⟩ hno
        obtain ⟨i, j, hi, hj, hfail⟩ := hex
        rw [hash_publics_fail C fuel publics hi hj hfail, Option.none_bind]
        by_cases hji : j = index
        · subst hji
          rw [signer_column3_fail C fuel publics _ hi hfail]
          rfl
        · cases signer_column3 C fuel publics
              (draw_salts publics.length row0.length sd) publics.length index
              (create_ring publics.length row0.length,
                create_ring publics.length row0.length) with
          | none => rfl
          | some lr0 =>
            rw [Option.some_bind]
            cases make_key_images C fuel secrets with
            | none => rfl
            | some ki =>
              rw [Option.some_bind,
                sign_threads_fail C fuel publics _ _ _ _ _ index T schedule _ hT hs hi hj
                  hji hfail]
              rfl
    · rw [if_pos hl, if_pos hl]

/-- `mlsag_verify` of `paralsg3.cpp`, with any number of threads and any
schedule that names every thread once, returns what `mlsag_verify` of
`paralsg.cpp` returns, on every input. -/
theorem mlsag_verify3_eq (C : Primitives) (fuel : Nat) (publics : point_ring)
    (signature : mlsag_signature) (T : Nat) (schedule : List Nat) (hT : 1 ≤ T)
    (hs : List.Perm schedule (List.range T)) :
    mlsag_verify3 C fuel publics signature T schedule
      = mlsag_verify C fuel publics signature := by
  unfold mlsag_verify3 mlsag_verify
  simp only [verify_threads_eq C publics _ _ _ _ _ _ T schedule _ hT hs]

end libbitcoin

namespace libbitcoin

/-! ## The claims on the threads of `paralsg3.cpp` -/

set_option maxRecDepth 100000

theorem mem_shard_columns {columns T work t j : Nat} :
    j ∈ shard_columns columns T work t
      ↔ shard_start work t ≤ j ∧ j < shard_end columns T work t := by
  unfold shard_columns
  rw [List.mem_range'_1]
  omega

/-- Every column belongs to the section of exactly one thread. -/
theorem shard_unique (columns T : Nat) (hT : 1 ≤ T) {j : Nat} (hj : j < columns) :
    ∃! t, t < T ∧ shard_start (columns / T) t ≤ j ∧
      j < shard_end columns T (columns / T) t := by
  have hend : ∀ t, t ≠ T - 1 →
      shard_end columns T (columns / T) t = t * (columns / T) + columns / T := by
    intro t ht
    simp [shard_end, shard_start, ht]
  have hlast : shard_end columns T (columns / T) (T - 1) = columns := by
    simp [shard_end]
  have hsucc : ∀ t, (t + 1) * (columns / T) = t * (columns / T) + columns / T :=
    fun t => Nat.succ_mul t _
  -- existence
  have hex : ∃ t, t < T ∧ shard_start (columns / T) t ≤ j ∧
      j < shard_end columns T (columns / T) t := by
    by_cases hlow : j < (T - 1) * (columns / T)
    · have hw : 0 < columns / T := by
        rcases Nat.eq_zero_or_pos (columns / T) with h0 | h0
        · rw [h0] at hlow
          simp at hlow
        · exact h0
      have ht : j / (columns / T) < T - 1 :=
        Nat.div_lt_of_lt_mul (by rw [Nat.mul_comm]; exact hlow)
      refine ⟨j / (columns / T), by omega, Nat.div_mul_le_self j _, ?_⟩
      rw [hend _ (by omega)]
      have := Nat.lt_mul_div_succ j hw
      rw [Nat.mul_succ, Nat.mul_comm] at this
      exact this
    · exact ⟨T - 1, by omega, by unfold shard_start; omega, by rw [hlast]; exact hj⟩
  obtain ⟨t, ht, hs, he⟩ := hex
  refine ⟨t, ⟨ht, hs, he⟩, ?_⟩
  -- uniqueness
  rintro t' ⟨ht', hs', he'⟩
  unfold shard_start at hs hs'
  by_contra hne
  rcases Nat.lt_or_gt_of_ne hne with hlt | hlt
  · -- t' < t
    have h1 : (t' + 1) * (columns / T) ≤ t * (columns / T) :=
      Nat.mul_le_mul_right _ hlt
    rw [hend t' (by omega)] at he'
    rw [hsucc] at h1
    omega
  · have h1 : (t + 1) * (columns / T) ≤ t' * (columns / T) :=
      Nat.mul_le_mul_right _ hlt
    rw [hend t (by omega)] at he
    rw [hsucc] at h1
    omega

theorem shard_within (columns T : Nat) {t j : Nat} (ht : t < T)
    (he : j < shard_end columns T (columns / T) t) : j < columns := by
  by_cases hl : t = T - 1
  · subst hl
    simpa [shard_end] using he
  · have h1 : (t + 1) * (columns / T) ≤ T * (columns / T) :=
      Nat.mul_le_mul_right _ (by omega)
    have h2 : T * (columns / T) ≤ columns := Nat.mul_div_le columns T
    have h3 : (t + 1) * (columns / T) = t * (columns / T) + columns / T := Nat.succ_mul t _
    simp only [shard_end, shard_start, hl, if_false] at he
    omega

/-- C27: each column has exactly one worker.  For every number of columns and
every number of threads `T >= 1`, with `work_per_thread = columns / T`: every
column `j < columns` lies in the range `[start_j, end_j)` of exactly one thread
`t < T`, no range leaves `[0, columns)`, and the ranges in the order of the
thread ids are the columns `0, ..., columns - 1` in their order; the section of
a thread in `mlsag_verify` and in `mlsag_sign` is the run of the cell writes
over the cells of its columns, so every cell `(i, j)` of the tables is written
by exactly one thread, and in signing by none when `j` is the signer column. -/
theorem C27_one_worker_per_column (columns T : Nat) (hT : 1 ≤ T) :
    work_per_thread columns T = some (columns / T) ∧
    (∀ j, j < columns → ∃! t, t < T ∧ shard_start (columns / T) t ≤ j ∧
      j < shard_end columns T (columns / T) t) ∧
    (∀ t j, t < T → j < shard_end columns T (columns / T) t → j < columns) ∧
    (List.range T).flatMap (shard_columns columns T (columns / T)) = List.range columns ∧
    (∀ (C : Primitives) (publics hashed : point_ring) (salts : scalar_table)
        (challenges : scalar_list) (key_images : point_list) m t lr,
      verify_section C publics hashed salts challenges key_images m
          (shard_start (columns / T) t) (shard_end columns T (columns / T) t) lr
        = run_cells (write_cell (cell_values C publics hashed salts challenges key_images))
            (verify_cells m columns T (columns / T) t) (some lr)) ∧
    (∀ (C : Primitives) (fuel : Nat) (publics : point_ring) (salts : scalar_table)
        (challenges : scalar_list) (key_images : point_list) m index t lr,
      sign_section C fuel publics salts challenges key_images m
          (shard_start (columns / T) t) (shard_end columns T (columns / T) t) index lr
        = run_cells (write_cell (cell_values3 C fuel publics salts challenges key_images))
            (sign_cells m columns T (columns / T) index t) (some lr)) ∧
    (∀ m i j, i < m → j < columns →
      ∃! t, t < T ∧ (i, j) ∈ verify_cells m columns T (columns / T) t) ∧
    (∀ m index i j, i < m → j < columns → j ≠ index →
      ∃! t, t < T ∧ (i, j) ∈ sign_cells m columns T (columns / T) index t) ∧
    (∀ m index i t, (i, index) ∉ sign_cells m columns T (columns / T) index t) := by
  refine ⟨by simp [work_per_thread, Nat.pos_iff_ne_zero.mp hT],
    fun j hj => shard_unique columns T hT hj,
    fun t j ht he => shard_within columns T ht he,
    flatMap_shards columns T hT, ?_, ?_, ?_, ?_, ?_⟩
  · intro C publics hashed salts challenges key_images m t lr
    exact verify_section_eq_cells C publics hashed salts challenges key_images m _ _ lr
  · intro C fuel publics salts challenges key_images m index t lr
    exact sign_section_eq_cells C fuel publics salts challenges key_images m _ _ index lr
  · intro m i j hi hj
    obtain ⟨t, ⟨ht, hs, he⟩, huniq⟩ := shard_unique columns T hT hj
    refine ⟨t, ⟨ht, mem_column_cells.mpr ⟨hi, mem_shard_columns.mpr ⟨hs, he⟩⟩⟩, ?_⟩
    rintro t' ⟨ht', hmem⟩
    obtain ⟨hs', he'⟩ := mem_shard_columns.mp (mem_column_cells.mp hmem).2
    exact huniq t' ⟨ht', hs', he'⟩
  · intro m index i j hi hj hne
    obtain ⟨t, ⟨ht, hs, he⟩, huniq⟩ := shard_unique columns T hT hj
    refine ⟨t, ⟨ht, mem_column_cells.mpr ⟨hi, List.mem_filter.mpr
      ⟨mem_shard_columns.mpr ⟨hs, he⟩, by simpa using hne⟩⟩⟩, ?_⟩
    rintro t' ⟨ht', hmem⟩
    obtain ⟨hs', he'⟩ := mem_shard_columns.mp
      (List.mem_filter.mp (mem_column_cells.mp hmem).2).1
    exact huniq t' ⟨ht', hs', he'⟩
  · intro m index i t hmem
    have := (List.mem_filter.mp (mem_column_cells.mp hmem).2).2
    simp at this

/-- Witness of C27: five columns and two threads, whose ranges are `[0, 2)` and
`[2, 5)`. -/
theorem C27_one_worker_per_column_witness :
    work_per_thread 5 2 = some 2 ∧
    (List.range 2).map (fun t => (shard_start 2 t, shard_end 5 2 2 t)) = [(0, 2), (2, 5)] ∧
    (List.range 2).flatMap (shard_columns 5 2 2) = List.range 5 ∧
    ∃! t, t < 2 ∧ shard_start (5 / 2) t ≤ 3 ∧ 3 < shard_end 5 2 (5 / 2) t :=
  ⟨(C27_one_worker_per_column 5 2 (by decide)).1, by decide,
    (C27_one_worker_per_column 5 2 (by decide)).2.2.2.1,
    (C27_one_worker_per_column 5 2 (by decide)).2.1 3 (by decide)⟩

end libbitcoin

namespace libbitcoin

set_option maxRecDepth 100000

/-- C26: thread-count independence.  For every number of threads `T >= 1` and
every order in which the sections of the threads `0, ..., T - 1` are run: on
every input the threads of `mlsag_verify` leave the tables that the single loop
over the columns of `paralsg.cpp` leaves, the threads of `mlsag_sign` leave the
tables that the single loop leaves on the table of the hashed public keys, and
so, for the same draws, `mlsag_sign` of `paralsg3.cpp` reaches the same state
and returns the same signature as `mlsag_sign` of `paralsg.cpp`, and
`mlsag_verify` of `paralsg3.cpp` returns the same verdict. -/
theorem C26_thread_count_independence (C : Primitives) (fuel T : Nat) (schedule : List Nat)
    (hT : 1 ≤ T) (hs : List.Perm schedule (List.range T)) :
    (∀ publics hashed salts challenges key_images m n lr,
      run_threads (fun start_j end_j lr =>
          verify_section C publics hashed salts challenges key_images m start_j end_j lr)
        n T schedule lr
        = verify_columns C publics hashed salts challenges key_images m n lr) ∧
    (∀ publics hashed salts challenges key_images m n index lr,
      hash_publics C fuel publics m n = some hashed →
      run_threads (fun start_j end_j lr =>
          sign_section C fuel publics salts challenges key_images m start_j end_j index lr)
        n T schedule lr
        = sign_columns C publics hashed salts challenges key_images m n index lr) ∧
    (∀ secrets publics index sd cd,
      mlsag_sign_run3 C fuel secrets publics index sd cd T schedule
        = mlsag_sign_run C fuel secrets publics index sd cd ∧
      mlsag_sign3 C fuel secrets publics index sd cd T schedule
        = mlsag_sign C fuel secrets publics index sd cd) ∧
    (∀ publics signature,
      mlsag_verify3 C fuel publics signature T schedule
        = mlsag_verify C fuel publics signature) := by
  refine ⟨?_, ?_, ?_, ?_⟩
  · intro publics hashed salts challenges key_images m n lr
    exact verify_threads_eq C publics hashed salts challenges key_images m n T schedule lr
      hT hs
  · intro publics hashed salts challenges key_images m n index lr hh
    by_cases hcell : ∀ i j, i < m → j < n →
        ∃ p hp, at2 publics i j = some p ∧ hash_to_point C fuel p = some hp
    · rw [hash_publics_cells C fuel publics m n hcell] at hh
      cases hh
      exact sign_threads_eq C fuel publics salts challenges key_images m n index T schedule
        lr hT hs hcell
    · exfalso
      apply hcell
      intro i j hi hj
      rcases hashed_read C fuel publics i j with h | h
      · exact h
      · rw [hash_publics_fail C fuel publics hi hj h] at hh
        cases hh
  · intro secrets publics index sd cd
    have h := mlsag_sign_run3_eq C fuel secrets publics index sd cd T schedule hT hs
    exact ⟨h, by unfold mlsag_sign3 mlsag_sign; rw [h]⟩
  · intro publics signature
    exact mlsag_verify3_eq C fuel publics signature T schedule hT hs

/-- Witness of C26: two threads whose sections are run in the order 1, 0, on the
sample ring and the signature of the sample run. -/
theorem C26_thread_count_independence_witness :
    mlsag_sign3 toy.primitives toy.fuel toy.secrets toy.ring 0 toy.salt_draws
        toy.challenge_draws 2 [1, 0]
      = mlsag_sign toy.primitives toy.fuel toy.secrets toy.ring 0 toy.salt_draws
          toy.challenge_draws ∧
    mlsag_verify3 toy.primitives toy.fuel toy.ring toy.state.signature 2 [1, 0]
      = mlsag_verify toy.primitives toy.fuel toy.ring toy.state.signature :=
  ⟨((C26_thread_count_independence toy.primitives toy.fuel 2 [1, 0] (by decide)
      (List.Perm.swap 0 1 [])).2.2.1 toy.secrets toy.ring 0 toy.salt_draws
      toy.challenge_draws).2,
   (C26_thread_count_independence toy.primitives toy.fuel 2 [1, 0] (by decide)
      (List.Perm.swap 0 1 [])).2.2.2 toy.ring toy.state.signature⟩

theorem at2_set2_ne {α : Type} (t : List (List α)) {i j a b : Nat} (v : α)
    (h : (a, b) ≠ (i, j)) : at2 (set2 t i j v) a b = at2 t a b := by
  simp only [at2_eq, set2]
  by_cases ha : a = i
  · subst ha
    have hb : b ≠ j := fun e => h (by rw [e])
    by_cases hlt : a < t.length
    · rw [List.getElem?_set_self hlt, List.getD_eq_getElem _ _ hlt,
        List.getElem?_eq_getElem hlt]
      simp only [Option.some_bind]
      rw [List.getElem?_set_ne (fun e => hb e.symm)]
    · rw [List.set_eq_of_length_le (by omega)]
  · rw [List.getElem?_set_ne (fun e => ha e.symm)]

/-- A run of cell writes leaves every cell that is not in its list as it was. -/
theorem run_cells_frame (values : Nat → Nat → Option (ec_point × ec_point))
    (cells : List (Nat × Nat)) {a b : Nat} (hnot : (a, b) ∉ cells)
    (lr0 lr : point_ring × point_ring)
    (h : run_cells (write_cell values) cells (some lr0) = some lr) :
    at2 lr.1 a b = at2 lr0.1 a b ∧ at2 lr.2 a b = at2 lr0.2 a b := by
  induction cells generalizing lr0 with
  | nil =>
    simp only [run_cells, List.foldl_nil, Option.some.injEq] at h
    subst h
    exact ⟨rfl, rfl⟩
  | cons c rest ih =>
    have hc : (a, b) ≠ (c.1, c.2) := fun e => hnot (by rw [e]; exact List.mem_cons_self _ _)
    have hrest : (a, b) ∉ rest := fun e => hnot (List.mem_cons_of_mem _ e)
    have hstep : run_cells (write_cell values) (c :: rest) (some lr0)
        = run_cells (write_cell values) rest (write_cell values c.1 c.2 lr0) := rfl
    rw [hstep] at h
    cases hv : values c.1 c.2 with
    | none =>
      have : write_cell values c.1 c.2 lr0 = none := by simp [write_cell, hv]
      rw [this, run_cells_none] at h
      cases h
    | some v =>
      have : write_cell values c.1 c.2 lr0
          = some (set2 lr0.1 c.1 c.2 v.1, set2 lr0.2 c.1 c.2 v.2) := by
        simp [write_cell, hv]
      rw [this] at h
      obtain ⟨h1, h2⟩ := ih hrest _ h
      rw [h1, h2]
      exact ⟨at2_set2_ne _ _ hc, at2_set2_ne _ _ hc⟩

end libbitcoin

namespace libbitcoin

set_option maxRecDepth 100000

theorem salt_at_draw (m n : Nat) (sd : Nat → Nat → ec_secret) {i j : Nat} (hi : i < m)
    (hj : j < n) : salt_at (draw_salts m n sd) i j = ec_scalar.of_secret (sd i j) := by
  unfold draw_salts
  exact salt_at_tabulate _ hi hj

theorem challenge_at_draw (n : Nat) (cd : Nat → ec_secret) {j : Nat} (hj : j < n) :
    challenge_at (draw_challenges n cd) j = ec_scalar.of_secret (cd j) := by
  simp [challenge_at, draw_challenges, List.getElem?_range hj]

theorem image_at_map (secrets : scalar_list) (f : ec_scalar → ec_point) {i : Nat}
    (hi : i < secrets.length) : image_at (secrets.map f) i = f (secret_at secrets i) := by
  simp [image_at, secret_at, List.getElem?_eq_getElem hi]

/-- C28: the signer column is skipped.  In `mlsag_sign` of `paralsg.cpp` and of
`paralsg3.cpp` (any number of threads `T >= 1`, sections run in any order), on
every input and for every row `i` the column loop leaves `left[i][l]` and
`right[i][l]` as they were; and on a well-formed input (sizes as asserted,
secrets that pass the assertion `verify`, fuel for `hash_to_point`), when the
tables are hashed, they hold `s[i][l] G` and `s[i][l] hash_to_point(P[i][l])` for the salts
`s` as drawn, and every other column `j` holds `s[i][j] G + c[j] P[i][j]` and
`s[i][j] hash_to_point(P[i][j]) + c[j] I[i]`. -/
theorem C28_signer_column_skipped (C : Primitives) (fuel : Nat) (secrets : scalar_list)
    (publics : point_ring) (index m n : Nat) (sd : Nat → Nat → ec_secret)
    (cd : Nat → ec_secret) (T : Nat) (schedule : List Nat)
    (hm : 0 < m) (hP : is_table publics m n) (hx : secrets.length = m) (hl : index < n)
    (hfuel : fuel_ok C fuel publics)
    (hsec : ∀ x ∈ secrets, C.verify_secret x.secret = true)
    (hkey : ∀ x ∈ secrets, (key_image C fuel x).isSome = true)
    (hT : 1 ≤ T) (hs : List.Perm schedule (List.range T)) :
    (∀ hashed salts challenges key_images rows columns lr0 lr,
      sign_columns C publics hashed salts challenges key_images rows columns index lr0
        = some lr →
      ∀ i, at2 lr.1 i index = at2 lr0.1 i index ∧ at2 lr.2 i index = at2 lr0.2 i index) ∧
    (∀ salts challenges key_images rows columns lr0 lr,
      run_threads (fun start_j end_j lr =>
          sign_section C fuel publics salts challenges key_images rows start_j end_j index lr)
        columns T schedule lr0 = some lr →
      ∀ i, at2 lr.1 i index = at2 lr0.1 i index ∧ at2 lr.2 i index = at2 lr0.2 i index) ∧
    ∃ st, mlsag_sign_run C fuel secrets publics index sd cd = some st ∧
      mlsag_sign_run3 C fuel secrets publics index sd cd T schedule = some st ∧
      ∀ i, i < m →
        at2 st.left_points i index
          = some (ec_point.smul C (ec_scalar.of_secret (sd i index)) ec_point.G) ∧
        at2 st.right_points i index
          = some (ec_point.smul C (ec_scalar.of_secret (sd i index))
              (hashed_value C fuel publics i index)) ∧
        ∀ j, j < n → j ≠ index →
          at2 st.left_points i j
            = some (ec_point.add C
                (ec_point.smul C (ec_scalar.of_secret (sd i j)) ec_point.G)
                (ec_point.smul C (ec_scalar.of_secret (cd j)) (point_at publics i j))) ∧
          at2 st.right_points i j
            = some (ec_point.add C
                (ec_point.smul C (ec_scalar.of_secret (sd i j))
                  (hashed_value C fuel publics i j))
                (ec_point.smul C (ec_scalar.of_secret (cd j))
                  ((key_image C fuel (secret_at secrets i)).getD ec_point.default))) := by
  refine ⟨?_, ?_, ?_⟩
  · intro hashed salts challenges key_images rows columns lr0 lr h i
    rw [sign_columns_eq_cells] at h
    apply run_cells_frame _ _ _ lr0 lr h
    intro hmem
    have := (List.mem_filter.mp (mem_column_cells.mp hmem).2).2
    simp at this
  · intro salts challenges key_images rows columns lr0 lr h i
    rw [sign_threads_eq_cells C fuel publics salts challenges key_images rows columns index T
      schedule lr0 hT hs] at h
    apply run_cells_frame _ _ _ lr0 lr h
    intro hmem
    have := (List.mem_filter.mp (mem_column_cells.mp hmem).2).2
    simp at this
  · obtain ⟨e, _, _, hrun⟩ := mlsag_sign_run_eq C fuel sd cd hm hP hx hl hfuel hsec hkey
    have hrun3 := mlsag_sign_run3_eq C fuel secrets publics index sd cd T schedule hT hs
    rw [hrun] at hrun3
    refine ⟨_, hrun, hrun3, ?_⟩
    intro i hi
    have hi' : i < secrets.length := by omega
    refine ⟨?_, ?_, ?_⟩
    · show at2 (tabulate m n _) i index = _
      rw [at2_tabulate _ hi hl]
      simp only [sign_left, if_true, salt_at_draw m n sd hi hl]
    · show at2 (tabulate m n _) i index = _
      rw [at2_tabulate _ hi hl]
      simp only [sign_right, if_true, salt_at_draw m n sd hi hl,
        point_at_tabulate _ hi hl]
    · intro j hj hne
      constructor
      · show at2 (tabulate m n _) i j = _
        rw [at2_tabulate _ hi hj]
        simp only [sign_left, hne, if_false, left_value, salt_at_draw m n sd hi hj,
          challenge_at_draw n cd hj]
      · show at2 (tabulate m n _) i j = _
        rw [at2_tabulate _ hi hj]
        simp only [sign_right, hne, if_false, right_value, salt_at_draw m n sd hi hj,
          challenge_at_draw n cd hj, point_at_tabulate _ hi hj, image_at_map _ _ hi']

/-- Witness of C28: the sample ring signed at column 0, with two threads whose
sections are run in the order 1, 0. -/
theorem C28_signer_column_skipped_witness :
    ∃ st, mlsag_sign_run toy.primitives toy.fuel toy.secrets toy.ring 0 toy.salt_draws
        toy.challenge_draws = some st ∧
      mlsag_sign_run3 toy.primitives toy.fuel toy.secrets toy.ring 0 toy.salt_draws
        toy.challenge_draws 2 [1, 0] = some st ∧
      ∀ i, i < 2 →
        at2 st.left_points i 0
          = some (ec_point.smul toy.primitives (ec_scalar.of_secret (toy.salt_draws i 0))
              ec_point.G) ∧
        at2 st.right_points i 0
          = some (ec_point.smul toy.primitives (ec_scalar.of_secret (toy.salt_draws i 0))
              (hashed_value toy.primitives toy.fuel toy.ring i 0)) ∧
        ∀ j, j < 2 → j ≠ 0 →
          at2 st.left_points i j
            = some (ec_point.add toy.primitives
                (ec_point.smul toy.primitives (ec_scalar.of_secret (toy.salt_draws i j))
                  ec_point.G)
                (ec_point.smul toy.primitives (ec_scalar.of_secret (toy.challenge_draws j))
                  (point_at toy.ring i j))) ∧
          at2 st.right_points i j
            = some (ec_point.add toy.primitives
                (ec_point.smul toy.primitives (ec_scalar.of_secret (toy.salt_draws i j))
                  (hashed_value toy.primitives toy.fuel toy.ring i j))
                (ec_point.smul toy.primitives (ec_scalar.of_secret (toy.challenge_draws j))
                  ((key_image toy.primitives toy.fuel (secret_at toy.secrets i)).getD
                    ec_point.default))) :=
  (C28_signer_column_skipped toy.primitives toy.fuel toy.secrets toy.ring 0 2 2
    toy.salt_draws toy.challenge_draws 2 [1, 0] (by decide)
    ⟨rfl, by decide⟩ rfl (by decide) (by unfold fuel_ok; decide) (by decide) (by decide)
    (by decide) (List.Perm.swap 0 1 [])).2.2

end libbitcoin

namespace libbitcoin

/-! ## The bytes that `hash_rings` hashes -/

set_option maxRecDepth 100000

/-- From position 41 on, the buffer holds zero bytes only. -/
theorem drop_write {data w : data_chunk} (hw : w.length = 41)
    (hz : data.drop 41 = List.replicate (data.length - 41) 0) :
    (overwrite_front data w ++ List.replicate 41 0).drop 41
      = List.replicate (data.length + 41 - 41) 0 := by
  unfold overwrite_front
  rw [hw, hz]
  rcases Nat.lt_or_ge data.length 41 with h | h
  · have e : data.length - 41 = 0 := by omega
    rw [e, List.replicate_zero, List.append_nil, List.drop_append_eq_append_drop,
      List.drop_eq_nil_of_le (by rw [List.length_take]; omega), List.nil_append,
      List.length_take, List.drop_replicate]
    congr 1
    omega
  · rw [List.take_of_length_le (by omega), List.append_assoc, List.drop_append_eq_append_drop,
      List.drop_eq_nil_of_le (by omega), List.nil_append, hw, Nat.sub_self, List.drop_zero,
      ← List.replicate_add]
    congr 1
    omega

theorem take_write {data w : data_chunk} (hw : w.length = 41) (hd : 41 ≤ data.length) :
    (overwrite_front data w ++ List.replicate 41 0).take 41 = w := by
  unfold overwrite_front
  have e : w.take data.length = w := List.take_of_length_le (by omega)
  rw [e, List.append_assoc, List.take_append_of_le_length (by omega),
    List.take_of_length_le (by omega)]

theorem point_length_of_compressed {ring : point_ring} {i j : Nat} {p : ec_point}
    (hc : compressed_ring ring = true) (hp : at2 ring i j = some p) : p.point.length = 33 := by
  obtain ⟨row, hrow, hmem⟩ := mem_of_at2 hp
  unfold compressed_ring at hc
  rw [List.all_eq_true] at hc
  have h1 := hc row hrow
  rw [List.all_eq_true] at h1
  have h2 := h1 p hmem
  simpa [ec_compressed_size] using h2

/-- One call of `write_item` on a buffer that is zero from position 41 on. -/
theorem write_item_tail {ring : point_ring} {m n i j : Nat} (data : data_chunk)
    (ht : is_table ring m n) (hc : compressed_ring ring = true) (hi : i < m) (hj : j < n)
    (hz : data.drop 41 = List.replicate (data.length - 41) 0) :
    ∃ d1, write_item data ring i j = some d1 ∧ d1.length = data.length + 41 ∧
      d1.drop 41 = List.replicate (d1.length - 41) 0 ∧
      (41 ≤ data.length → d1.take 41 = cell_record ring i j) := by
  obtain ⟨p, hp⟩ := at2_some_of_table ht hi hj
  have hlen := point_length_of_compressed hc hp
  have hw : (p.point ++ be_bytes 4 i ++ be_bytes 4 j).length = 41 := by
    simp [hlen, length_be_bytes]
  have hrec : cell_record ring i j = p.point ++ be_bytes 4 i ++ be_bytes 4 j := by
    simp [cell_record, point_at, hp]
  have hl : (overwrite_front data (p.point ++ be_bytes 4 i ++ be_bytes 4 j)
      ++ List.replicate 41 0).length = data.length + 41 := by
    simp [length_overwrite_front]
  refine ⟨overwrite_front data (p.point ++ be_bytes 4 i ++ be_bytes 4 j)
    ++ List.replicate 41 0, ?_, hl, ?_, ?_⟩
  · simp only [write_item, hp, Option.map_some']
    rfl
  · rw [hl]
    exact drop_write hw hz
  · intro hd
    rw [hrec]
    exact take_write hw hd

/-- The body of the loops of `hash_rings` on the cell `(i, j)`: after the two
writes the buffer starts with the record of `right[i][j]` and is zero from
there on. -/
theorem write_pair_tail {left right : point_ring} {m n i j : Nat} (data : data_chunk)
    (hl : is_table left m n) (hr : is_table right m n)
    (hcl : compressed_ring left = true) (hcr : compressed_ring right = true)
    (hi : i < m) (hj : j < n)
    (hz : data.drop 41 = List.replicate (data.length - 41) 0) :
    ∃ d2, (write_item data left i j).bind (fun data1 => write_item data1 right i j) = some d2 ∧
      d2.length = data.length + 82 ∧
      d2.drop 41 = List.replicate (d2.length - 41) 0 ∧
      d2.take 41 = cell_record right i j := by
  obtain ⟨d1, h1, hl1, hz1, _⟩ := write_item_tail data hl hcl hi hj hz
  obtain ⟨d2, h2, hl2, hz2, ht2⟩ := write_item_tail d1 hr hcr hi hj hz1
  refine ⟨d2, by rw [h1, Option.some_bind, h2], by omega, hz2, ht2 (by omega)⟩

/-- On `m` by `n` tables of 33-byte points, `m, n >= 1`, and a message of at
most 41 bytes, the buffer of `hash_rings` is the record of `right[m-1][n-1]`
followed by zero bytes. -/
theorem hashed_bytes_eq (message : data_chunk) {left right : point_ring} {m n : Nat}
    (hk : message.length ≤ 41) (hm : 0 < m) (hn : 0 < n)
    (hl : is_table left m n) (hr : is_table right m n)
    (hcl : compressed_ring left = true) (hcr : compressed_ring right = true) :
    hash_rings_data message left right
      = some (spec_hashed_bytes message.length right m n) := by
  obtain ⟨row0, h0, hrow0⟩ : ∃ row0, left.get? 0 = some row0 ∧ row0.length = n := by
    have h0 : 0 < left.length := by rw [hl.1]; exact hm
    refine ⟨left[0], by simp [List.getElem?_eq_getElem h0], hl.2 _ (List.getElem_mem _)⟩
  have hinner : ∀ i, i < m → ∀ data : data_chunk,
      data.drop 41 = List.replicate (data.length - 41) 0 → ∃ data1,
      for_loop n (fun j data =>
          (write_item data left i j).bind (fun data1 => write_item data1 right i j)) data
        = some data1 ∧ data1.length = data.length + 82 * n ∧
        data1.drop 41 = List.replicate (data1.length - 41) 0 ∧
        data1.take 41 = cell_record right i (n - 1) := by
    intro i hi data hz
    obtain ⟨d, hd, hlen, hzd, htd⟩ := for_loop_inv
      (fun k (d : data_chunk) => d.length = data.length + 82 * k ∧
        d.drop 41 = List.replicate (d.length - 41) 0 ∧
        (0 < k → d.take 41 = cell_record right i (k - 1)))
      (fun j data => (write_item data left i j).bind (fun data1 => write_item data1 right i j))
      data n ⟨by simp, hz, fun h => absurd h (Nat.lt_irrefl 0)⟩
      (by
        intro k s hk hs
        obtain ⟨d2, hd2, hl2, hz2, ht2⟩ := write_pair_tail s hl hr hcl hcr hi hk hs.2.1
        refine ⟨d2, hd2, by rw [hl2, hs.1]; ring, hz2, fun _ => ?_⟩
        rw [ht2, Nat.add_sub_cancel])
    exact ⟨d, hd, hlen, hzd, htd hn⟩
  obtain ⟨data, hdata, hlen, hz, ht⟩ := for_loop_inv
    (fun k (d : data_chunk) => d.length = message.length + 82 * n * k ∧
      d.drop 41 = List.replicate (d.length - 41) 0 ∧
      (0 < k → d.take 41 = cell_record right (k - 1) (n - 1)))
    (fun i data => for_loop n (fun j data =>
      (write_item data left i j).bind (fun data1 => write_item data1 right i j)) data)
    message m
    ⟨by simp, by
      rw [List.drop_eq_nil_of_le hk, Nat.sub_eq_zero_of_le hk, List.replicate_zero],
      fun h => absurd h (Nat.lt_irrefl 0)⟩
    (by
      intro k s hk hs
      obtain ⟨d1, hd1, hl1, hz1, ht1⟩ := hinner k hk s hs.2.1
      refine ⟨d1, hd1, ?_, hz1, fun _ => ?_⟩
      · show d1.length = message.length + 82 * n * (k + 1)
        rw [hl1, hs.1]
        ring
      · rw [ht1, Nat.add_sub_cancel])
  have hrun : hash_rings_data message left right = some data := by
    unfold hash_rings_data
    simp only [hl.1, hr.1, ne_eq, not_true_eq_false, if_false, h0, Option.some_bind, hrow0]
    rw [if_neg (by omega)]
    exact hdata
  rw [hrun]
  apply congrArg some
  have hsplit : data = data.take 41 ++ data.drop 41 := (List.take_append_drop 41 data).symm
  rw [hsplit, ht hm, hz, hlen]
  have e : 82 * n * m = 82 * m * n := by ring
  rw [e]
  rfl

/-- C31: for every message of `k <= 41` bytes and all `m` by `n` tables of
points, `m, n >= 1`, the buffer that `hash_rings` passes to SHA-256 has
`k + 82 m n` bytes: the 33 bytes of `right[m-1][n-1]`, then `m - 1` and `n - 1`
on 4 bytes each in big-endian order, then zero bytes only.  A second call with
a message of the same length, tables of the same size and the same
`right[m-1][n-1]` returns the same scalar, whatever the bytes of the messages
and the other cells are. -/
theorem C31_hashed_bytes (C : Primitives) (message message2 : data_chunk)
    (left right left2 right2 : point_ring) (m n : Nat)
    (hk : message.length ≤ 41) (hm : 1 ≤ m) (hn : 1 ≤ n)
    (hl : is_table left m n) (hr : is_table right m n)
    (hcl : compressed_ring left = true) (hcr : compressed_ring right = true)
    (hk2 : message2.length = message.length)
    (hl2 : is_table left2 m n) (hr2 : is_table right2 m n)
    (hcl2 : compressed_ring left2 = true) (hcr2 : compressed_ring right2 = true)
    (hlast : at2 right2 (m - 1) (n - 1) = at2 right (m - 1) (n - 1)) :
    hash_rings_data message left right
      = some ((point_at right (m - 1) (n - 1)).point ++ be_bytes 4 (m - 1)
          ++ be_bytes 4 (n - 1) ++ List.replicate (message.length + 82 * m * n - 41) 0) ∧
    ((point_at right (m - 1) (n - 1)).point ++ be_bytes 4 (m - 1)
      ++ be_bytes 4 (n - 1)).length = 41 ∧
    (spec_hashed_bytes message.length right m n).length = message.length + 82 * m * n ∧
    hash_rings C message left right
      = some (ec_scalar.of_secret
          (C.sha256_hash (spec_hashed_bytes message.length right m n))) ∧
    hash_rings C message2 left2 right2 = hash_rings C message left right := by
  have h1 := hashed_bytes_eq message hk hm hn hl hr hcl hcr
  have h2 := hashed_bytes_eq message2 (by omega) hm hn hl2 hr2 hcl2 hcr2
  obtain ⟨data, hdata, hlen⟩ := hash_rings_data_some message hm hl hr
  have hsame : spec_hashed_bytes message2.length right2 m n
      = spec_hashed_bytes message.length right m n := by
    simp only [spec_hashed_bytes, point_at, hlast, hk2]
  obtain ⟨p, hp⟩ := at2_some_of_table hr (show m - 1 < m by omega) (show n - 1 < n by omega)
  have hp33 := point_length_of_compressed hcr hp
  refine ⟨h1, ?_, ?_, ?_, ?_⟩
  · simp [point_at, hp, hp33, length_be_bytes]
  · rw [h1] at hdata
    rw [Option.some.inj hdata]
    exact hlen
  · simp only [hash_rings, h1, Option.map_some']
  · simp only [hash_rings, h1, h2, hsame]

/-- Witness of C31: the message `deadbeef` with the sample tables, and another
message of four bytes with other tables that have the same `right[1][1]`. -/
theorem C31_hashed_bytes_witness :
    hash_rings_data deadbeef toy.ring2 toy.ring
      = some ((point_at toy.ring (2 - 1) (2 - 1)).point ++ be_bytes 4 (2 - 1)
          ++ be_bytes 4 (2 - 1) ++ List.replicate (deadbeef.length + 82 * 2 * 2 - 41) 0) ∧
    ((point_at toy.ring (2 - 1) (2 - 1)).point ++ be_bytes 4 (2 - 1)
      ++ be_bytes 4 (2 - 1)).length = 41 ∧
    (spec_hashed_bytes deadbeef.length toy.ring 2 2).length = deadbeef.length + 82 * 2 * 2 ∧
    hash_rings toy.primitives deadbeef toy.ring2 toy.ring
      = some (ec_scalar.of_secret
          (toy.primitives.sha256_hash (spec_hashed_bytes deadbeef.length toy.ring 2 2))) ∧
    hash_rings toy.primitives toy.other_message toy.ring toy.other_ring
      = hash_rings toy.primitives deadbeef toy.ring2 toy.ring :=
  C31_hashed_bytes toy.primitives deadbeef toy.other_message toy.ring2 toy.ring toy.ring
    toy.other_ring 2 2 (by decide) (by decide) (by decide)
    (by unfold is_table; decide) (by unfold is_table; decide) (by decide) (by decide)
    (by decide) (by unfold is_table; decide) (by unfold is_table; decide) (by decide)
    (by decide) (by decide)

end libbitcoin

namespace libbitcoin

/-! ## The loop that starts the threads: the assertion and the division -/

set_option maxRecDepth 100000

theorem run_threads_zero {σ : Type} (compute_section : Nat → Nat → σ → Option σ)
    (columns_size : Nat) (schedule : List Nat) (init : σ) :
    run_threads compute_section columns_size 0 schedule init = none := by
  simp [run_threads, work_per_thread]

theorem bind_none_right {α β : Type} (o : Option α) : o.bind (fun _ => (none : Option β)) = none := by
  cases o <;> rfl

/-- C32 at failing inputs: with one column and one thread, and with the 100001
columns of `ring_ct_simple` and one thread, `work_per_thread` is the column
count and the condition `end_j < columns_size` of the assertion is false for
thread 0.  For every column count and every thread count `T + 1 >= 1`, the
condition holds for all thread ids exactly when the thread count does not
divide the column count; otherwise it fails for the last thread. -/
theorem C32_assert_end_fails :
    (work_per_thread 1 1 = some 1 ∧ assert_end 1 1 0 = false) ∧
    (work_per_thread 100001 1 = some 100001 ∧ assert_end 100001 100001 0 = false) ∧
    (work_per_thread 4 2 = some 2 ∧ assert_end 4 2 0 = true ∧ assert_end 4 2 1 = false) ∧
    (∀ columns_size T : Nat,
      work_per_thread columns_size (T + 1) = some (columns_size / (T + 1)) ∧
      ((∀ thread_id, thread_id < T + 1 →
          assert_end columns_size (columns_size / (T + 1)) thread_id = true)
        ↔ ¬ (T + 1) ∣ columns_size) ∧
      ((T + 1) ∣ columns_size →
        assert_end columns_size (columns_size / (T + 1)) T = false)) := by
  refine ⟨by decide, by decide, by decide, ?_⟩
  intro columns_size T
  have hdiv : (T + 1) * (columns_size / (T + 1)) ≤ columns_size := Nat.mul_div_le _ _
  have hlast : shard_start (columns_size / (T + 1)) T + columns_size / (T + 1)
      = (T + 1) * (columns_size / (T + 1)) := by
    unfold shard_start
    ring
  refine ⟨by simp [work_per_thread], ⟨?_, ?_⟩, ?_⟩
  · intro h hd
    have h1 := h T (Nat.lt_succ_self T)
    simp only [assert_end, decide_eq_true_eq] at h1
    rw [hlast, Nat.mul_div_cancel' hd] at h1
    exact Nat.lt_irrefl _ h1
  · intro hd thread_id ht
    simp only [assert_end, decide_eq_true_eq, shard_start]
    have hne : (T + 1) * (columns_size / (T + 1)) ≠ columns_size := by
      intro e
      exact hd ⟨_, e.symm⟩
    have hle : thread_id * (columns_size / (T + 1)) + columns_size / (T + 1)
        ≤ (T + 1) * (columns_size / (T + 1)) := by
      have : thread_id + 1 ≤ T + 1 := ht
      calc thread_id * (columns_size / (T + 1)) + columns_size / (T + 1)
          = (thread_id + 1) * (columns_size / (T + 1)) := by ring
        _ ≤ (T + 1) * (columns_size / (T + 1)) := Nat.mul_le_mul_right _ this
    omega
  · intro hd
    simp only [assert_end, decide_eq_false_iff_not]
    rw [hlast, Nat.mul_div_cancel' hd]
    exact Nat.lt_irrefl _

/-- C33 at the failing input `hardware_concurrency() = 0`: the divisor of
`work_per_thread = columns_size / number_threads` is zero for every column
count, and `mlsag_sign` and `mlsag_verify` of `paralsg3.cpp` return no result
on any input, where with one thread they sign and verify the sample ring. -/
theorem C33_division_by_zero :
    (∀ columns_size, work_per_thread columns_size 0 = none) ∧
    (∀ (C : Primitives) (fuel : Nat) (secrets : scalar_list) (publics : point_ring)
        (index : Nat) (salt_draws : Nat → Nat → ec_secret) (challenge_draws : Nat → ec_secret)
        (schedule : List Nat),
      mlsag_sign3 C fuel secrets publics index salt_draws challenge_draws 0 schedule = none) ∧
    (∀ (C : Primitives) (fuel : Nat) (publics : point_ring) (signature : mlsag_signature)
        (schedule : List Nat),
      mlsag_verify3 C fuel publics signature 0 schedule = none) ∧
    mlsag_sign3 toy.primitives toy.fuel toy.secrets toy.ring 0 toy.salt_draws
      toy.challenge_draws 1 [0] = some toy.state.signature ∧
    mlsag_verify3 toy.primitives toy.fuel toy.ring toy.state.signature 1 [0] = some true ∧
    mlsag_sign3 toy.primitives toy.fuel toy.secrets toy.ring 0 toy.salt_draws
      toy.challenge_draws 0 [] = none ∧
    mlsag_verify3 toy.primitives toy.fuel toy.ring toy.state.signature 0 [] = none := by
  have hsign : ∀ (C : Primitives) (fuel : Nat) (secrets : scalar_list) (publics : point_ring)
      (index : Nat) (salt_draws : Nat → Nat → ec_secret) (challenge_draws : Nat → ec_secret)
      (schedule : List Nat),
      mlsag_sign3 C fuel secrets publics index salt_draws challenge_draws 0 schedule
        = none := by
    intro C fuel secrets publics index salt_draws challenge_draws schedule
    unfold mlsag_sign3 mlsag_sign_run3
    simp only [run_threads_zero, Option.none_bind, bind_none_right]
    split_ifs <;> simp [bind_none_right]
  have hverify : ∀ (C : Primitives) (fuel : Nat) (publics : point_ring)
      (signature : mlsag_signature) (schedule : List Nat),
      mlsag_verify3 C fuel publics signature 0 schedule = none := by
    intro C fuel publics signature schedule
    unfold mlsag_verify3
    simp only [run_threads_zero, Option.none_bind, bind_none_right]
    split_ifs <;> simp [bind_none_right]
  refine ⟨fun _ => rfl, hsign, hverify, by decide, by decide, hsign _ _ _ _ _ _ _ _,
    hverify _ _ _ _ _⟩

end libbitcoin

namespace libbitcoin

/-! ## Compound assignment, and `value_to_scalar` against the constructor -/

set_option maxRecDepth 100000

theorem scalar_invalidate_of_invalid {a : ec_scalar} (h : a.valid_ = false) :
    a.invalidate = a := by
  cases a
  simp only [ec_scalar.invalidate] at *
  rw [h]

theorem scalar_add_assign_eq (C : Primitives) (a b : ec_scalar) :
    ec_scalar.add_assign C a b = ec_scalar.add C a b := by
  unfold ec_scalar.add_assign
  cases h : a.valid_ with
  | true => simp
  | false => simp [ec_scalar.add, h, scalar_invalidate_of_invalid h]

theorem scalar_sub_assign_eq (C : Primitives) (a b : ec_scalar) :
    ec_scalar.sub_assign C a b = ec_scalar.sub C a b := by
  unfold ec_scalar.sub_assign
  cases h : a.valid_ with
  | true => simp
  | false => simp [ec_scalar.sub, h, scalar_invalidate_of_invalid h]

theorem point_invalidate_of_sentinel {p : ec_point} (h : p.point.getD 0 0 = 0) :
    p.invalidate = p := by
  cases p with
  | mk bytes =>
    cases bytes with
    | nil => rfl
    | cons x rest =>
      simp only [ec_point.point, List.getD_cons_zero] at h
      simp [ec_point.invalidate, h]

theorem point_invalidate_invalid (p : ec_point) : p.invalidate.is_valid = false := by
  cases p with
  | mk bytes =>
    cases bytes with
    | nil => rfl
    | cons x rest => rfl

theorem point_invalidate_tail (p : ec_point) : p.invalidate.point.drop 1 = p.point.drop 1 := by
  cases p with
  | mk bytes =>
    cases bytes with
    | nil => rfl
    | cons x rest => rfl

theorem point_add_of_invalid (C : Primitives) {p : ec_point} (q : ec_point)
    (h : p.is_valid = false) : ec_point.add C p q = p.invalidate := by
  simp [ec_point.add, h]

theorem point_sub_of_invalid (C : Primitives) {p : ec_point} (q : ec_point)
    (h : p.is_valid = false) : ec_point.sub C p q = p.invalidate := by
  simp [ec_point.sub, h]

/-- C34, as amended: for all scalars `a`, `b`, valid or not, `a += b` leaves
`a + b` in `a` and `a -= b` leaves `a - b`, in bytes and validity.  For all
points `p`, `q` where `p` is valid or has the prefix byte `0` of an invalidated
point, `p += q` leaves `p + q` in `p` and `p -= q` leaves `p - q`, byte for
byte.  For every point `r`, whatever its prefix byte is, the two results agree
in validity and in the bytes after the prefix byte. -/
theorem C34_compound_assignment (C : Primitives) (a b : ec_scalar) (p q : ec_point)
    (hp : p.is_valid = true ∨ p.point.getD 0 0 = 0) :
    ec_scalar.add_assign C a b = ec_scalar.add C a b ∧
    ec_scalar.sub_assign C a b = ec_scalar.sub C a b ∧
    ec_point.add_assign C p q = ec_point.add C p q ∧
    ec_point.sub_assign C p q = ec_point.sub C p q ∧
    (∀ r : ec_point,
      (ec_point.add_assign C r q).is_valid = (ec_point.add C r q).is_valid ∧
      (ec_point.add_assign C r q).point.drop 1 = (ec_point.add C r q).point.drop 1 ∧
      (ec_point.sub_assign C r q).is_valid = (ec_point.sub C r q).is_valid ∧
      (ec_point.sub_assign C r q).point.drop 1 = (ec_point.sub C r q).point.drop 1) := by
  refine ⟨scalar_add_assign_eq C a b, scalar_sub_assign_eq C a b, ?_, ?_, ?_⟩
  · unfold ec_point.add_assign
    cases h : p.is_valid with
    | true => simp
    | false =>
      have h0 : p.point.getD 0 0 = 0 := by
        rcases hp with hv | h0
        · rw [h] at hv; cases hv
        · exact h0
      simp [point_add_of_invalid C q h, point_invalidate_of_sentinel h0]
  · unfold ec_point.sub_assign
    cases h : p.is_valid with
    | true => simp
    | false =>
      have h0 : p.point.getD 0 0 = 0 := by
        rcases hp with hv | h0
        · rw [h] at hv; cases hv
        · exact h0
      simp [point_sub_of_invalid C q h, point_invalidate_of_sentinel h0]
  · intro r
    unfold ec_point.add_assign ec_point.sub_assign
    cases h : r.is_valid with
    | true => simp
    | false =>
      simp only [Bool.not_false, if_true, point_add_of_invalid C q h,
        point_sub_of_invalid C q h, point_invalidate_invalid, point_invalidate_tail, h]
      exact ⟨trivial, trivial, trivial, trivial⟩

/-- Witness of C34 as amended: an invalid scalar, and the default point, whose
prefix byte is `0`. -/
theorem C34_compound_assignment_witness :
    ec_scalar.add_assign toy.primitives (toy.scalar 7).invalidate (toy.scalar 5)
      = ec_scalar.add toy.primitives (toy.scalar 7).invalidate (toy.scalar 5) ∧
    ec_scalar.sub_assign toy.primitives (toy.scalar 7).invalidate (toy.scalar 5)
      = ec_scalar.sub toy.primitives (toy.scalar 7).invalidate (toy.scalar 5) ∧
    ec_point.add_assign toy.primitives ec_point.default ec_point.G
      = ec_point.add toy.primitives ec_point.default ec_point.G ∧
    ec_point.sub_assign toy.primitives ec_point.default ec_point.G
      = ec_point.sub toy.primitives ec_point.default ec_point.G ∧
    (∀ r : ec_point,
      (ec_point.add_assign toy.primitives r ec_point.G).is_valid
        = (ec_point.add toy.primitives r ec_point.G).is_valid ∧
      (ec_point.add_assign toy.primitives r ec_point.G).point.drop 1
        = (ec_point.add toy.primitives r ec_point.G).point.drop 1 ∧
      (ec_point.sub_assign toy.primitives r ec_point.G).is_valid
        = (ec_point.sub toy.primitives r ec_point.G).is_valid ∧
      (ec_point.sub_assign toy.primitives r ec_point.G).point.drop 1
        = (ec_point.sub toy.primitives r ec_point.G).point.drop 1) :=
  C34_compound_assignment toy.primitives (toy.scalar 7).invalidate (toy.scalar 5)
    ec_point.default ec_point.G (Or.inr (by decide))

/-- Counterexample to C34 as stated: for the invalid point `p` of the 33 bytes
`04 00 ... 00` and `q = G`, `p += q` and `p -= q` leave `p` as it is, with the
prefix byte `4`, while `p + q` and `p - q` have the prefix byte `0`. -/
theorem C34_counterexample :
    toy.tagged_point.point.length = 33 ∧
    toy.tagged_point.is_valid = false ∧
    ec_point.add_assign toy.primitives toy.tagged_point ec_point.G
      = toy.tagged_point ∧
    ec_point.add toy.primitives toy.tagged_point ec_point.G
      = ec_point.of_compressed (0 :: null_hash) ∧
    ec_point.add_assign toy.primitives toy.tagged_point ec_point.G
      ≠ ec_point.add toy.primitives toy.tagged_point ec_point.G ∧
    ec_point.sub_assign toy.primitives toy.tagged_point ec_point.G
      ≠ ec_point.sub toy.primitives toy.tagged_point ec_point.G := by
  refine ⟨by decide, by decide, by decide, by decide, by decide, by decide⟩

theorem value_to_scalar_bytes (v : Nat) :
    (value_to_scalar v).secret = List.replicate 24 0 ++ be_bytes 8 v := by
  simp [value_to_scalar, ec_scalar.of_secret, ec_scalar.secret, null_hash,
    List.take_replicate]

theorem be_value_zeros (n : Nat) : be_value (List.replicate n 0) = 0 := by
  induction n with
  | zero => rfl
  | succ k ih =>
    rw [List.replicate_succ, be_value_cons, ih]
    simp

/-- C35: for every `uint64` value `v`, `value_to_scalar(v)` and `ec_scalar(v)`
are valid and are the same scalar, of the 32 bytes "24 zero bytes, then `v` on
8 bytes in big-endian order", whose value is `v`; `value_to_scalar` is
injective on such values, and `value_to_scalar(v)` is zero exactly when
`v = 0`. -/
theorem C35_value_to_scalar (v w : Nat) (hv : v < 2 ^ 64) (hw : w < 2 ^ 64) :
    (value_to_scalar v).is_valid = true ∧
    (ec_scalar.of_uint64 v).is_valid = true ∧
    (value_to_scalar v).secret = (ec_scalar.of_uint64 v).secret ∧
    value_to_scalar v = ec_scalar.of_uint64 v ∧
    (value_to_scalar v).secret = List.replicate 24 0 ++ be_bytes 8 v ∧
    (value_to_scalar v).secret.length = 32 ∧
    be_value (be_bytes 8 v) = v ∧
    be_value (value_to_scalar v).secret = v ∧
    (value_to_scalar v = value_to_scalar w → v = w) ∧
    ((value_to_scalar v).is_zero = true ↔ v = 0) ∧
    (ec_scalar.eq (value_to_scalar v) ec_scalar.zero = true ↔ v = 0) := by
  have hval : ∀ u, u < 2 ^ 64 → be_value (value_to_scalar u).secret = u :=
    fun u hu => be_value_value_to_scalar hu
  have heq : value_to_scalar v = ec_scalar.of_uint64 v := by
    simp [value_to_scalar, ec_scalar.of_uint64, ec_scalar.of_secret, ec_scalar.reset, null_hash]
  have h8 : be_value (be_bytes 8 v) = v := by
    rw [be_value_be_bytes]
    apply Nat.mod_eq_of_lt
    have : (256 : Nat) ^ 8 = 2 ^ 64 := by norm_num
    omega
  have hlen : (value_to_scalar v).secret.length = 32 := by
    rw [value_to_scalar_bytes]
    simp [length_be_bytes]
  have hzero : (value_to_scalar v).secret = List.replicate 32 0 ↔ v = 0 := by
    constructor
    · intro h
      have h1 := hval v hv
      rw [h, be_value_zeros] at h1
      exact h1.symm
    · intro h
      subst h
      decide
  refine ⟨rfl, rfl, by rw [heq], heq, value_to_scalar_bytes v, hlen, h8, hval v hv, ?_, ?_, ?_⟩
  · intro h
    have h1 := hval v hv
    rw [h, hval w hw] at h1
    exact h1.symm
  · rw [← hzero]
    unfold ec_scalar.is_zero
    rw [List.all_eq_true]
    constructor
    · intro h
      have h2 : (value_to_scalar v).secret
          = List.replicate (value_to_scalar v).secret.length 0 :=
        List.eq_replicate_iff.mpr ⟨rfl, fun b hb => by simpa using h b hb⟩
      rw [hlen] at h2
      exact h2
    · intro h b hb
      have hb2 : b ∈ (value_to_scalar v).secret := hb
      rw [h] at hb2
      simp [(List.mem_replicate.mp hb2).2]
  · rw [← hzero]
    unfold ec_scalar.eq
    rw [beq_iff_eq]
    exact Iff.rfl

/-- Witness of C35: the values `0xdeadbeef` and `2^64 - 1`. -/
theorem C35_value_to_scalar_witness :
    (value_to_scalar 0xdeadbeef).is_valid = true ∧
    (ec_scalar.of_uint64 0xdeadbeef).is_valid = true ∧
    (value_to_scalar 0xdeadbeef).secret = (ec_scalar.of_uint64 0xdeadbeef).secret ∧
    value_to_scalar 0xdeadbeef = ec_scalar.of_uint64 0xdeadbeef ∧
    (value_to_scalar 0xdeadbeef).secret = List.replicate 24 0 ++ be_bytes 8 0xdeadbeef ∧
    (value_to_scalar 0xdeadbeef).secret.length = 32 ∧
    be_value (be_bytes 8 0xdeadbeef) = 0xdeadbeef ∧
    be_value (value_to_scalar 0xdeadbeef).secret = 0xdeadbeef ∧
    (value_to_scalar 0xdeadbeef = value_to_scalar (2 ^ 64 - 1) → 0xdeadbeef = 2 ^ 64 - 1) ∧
    ((value_to_scalar 0xdeadbeef).is_zero = true ↔ 0xdeadbeef = 0) ∧
    (ec_scalar.eq (value_to_scalar 0xdeadbeef) ec_scalar.zero = true ↔ 0xdeadbeef = 0) :=
  C35_value_to_scalar 0xdeadbeef (2 ^ 64 - 1) (by norm_num) (by norm_num)

end libbitcoin
